import Mathlib

/-!
# Verification development for the `cc` server runtime

Shallow embedding of the I/O manager (`iomanager.cc`), the scheduler task queue and the
scheduling loop (`scheduler.h`, `scheduler.cc`), the timer manager (`timer.cc`), the fd
metadata and the hooked system calls (`fd_manager.cc`, `hook.cc`), the coroutine trampoline
(`fiber.cc`) and the byte array (`bytearray.cc`).

Conventions of the embedding:

* heap objects (coroutines, callables, schedulers, timers) are identified by natural
  numbers; an empty handle or null pointer is `none`;
* a method that mutates its object returns the new object; a method that can hit a failed
  `CC_ASSERT`, a null dereference or an invalid iterator returns `none` there;
* system calls whose outcome the program cannot predict take that outcome as an argument
  (`ok` for `epoll_ctl`, `now` for the clock, a fresh address for `new`, an oracle for the
  original functions behind the hooks and for what a callable or a coroutine does);
* counters and values of a fixed width are natural numbers or integers, with the reduction
  modulo 2^32 or 2^64 written out where the program can wrap.
-/

namespace cc

/-! ## Scheduler task queue (`scheduler.h`) -/

/-- Task record `Scheduler::FiberAndThread`: a coroutine handle or a callable, and a thread
affinity (`-1` for any thread). -/
structure FiberAndThread where
  fiber : Option Nat
  cb : Option Nat
  thread : Int
deriving DecidableEq, Repr

/-- The fields of `Scheduler` that the task queue uses, and a counter of the calls of the
virtual method `tickle()`. -/
structure Scheduler where
  m_fibers : List FiberAndThread := []
  m_activeThreadCount : Nat := 0
  m_idleThreadCount : Nat := 0
  m_stopping : Bool := true
  m_autostop : Bool := false
  tickles : Nat := 0
deriving DecidableEq, Repr

/-- Virtual `tickle()`: only the fact that it was called is recorded. -/
def Scheduler.tickle (s : Scheduler) : Scheduler :=
  { s with tickles := s.tickles + 1 }

/-- `Scheduler::scheduleNoLock`: `ft` is the `FiberAndThread` built from the argument. -/
def Scheduler.scheduleNoLock (s : Scheduler) (ft : FiberAndThread) : Scheduler × Bool :=
  let need_tickle := s.m_fibers.isEmpty
  if ft.fiber.isSome || ft.cb.isSome then
    ({ s with m_fibers := s.m_fibers ++ [ft] }, need_tickle)
  else
    (s, need_tickle)

/-- `Scheduler::schedule(fc, thread)`. -/
def Scheduler.schedule (s : Scheduler) (ft : FiberAndThread) : Scheduler :=
  let r := s.scheduleNoLock ft
  if r.2 then r.1.tickle else r.1

/-! ## I/O manager (`iomanager.h`, `iomanager.cc`) -/

/-- `IOManager::NONE`. -/
def NONE : Nat := 0x000
/-- `IOManager::READ`, equal to `EPOLLIN`. -/
def READ : Nat := 0x001
/-- `IOManager::WRITE`, equal to `EPOLLOUT`. -/
def WRITE : Nat := 0x004

/-- `EPOLLIN` of `<sys/epoll.h>`. -/
def EPOLLIN : Nat := 0x001
/-- `EPOLLOUT` of `<sys/epoll.h>`. -/
def EPOLLOUT : Nat := 0x004
/-- `EPOLLERR` of `<sys/epoll.h>`. -/
def EPOLLERR : Nat := 0x008
/-- `EPOLLHUP` of `<sys/epoll.h>`. -/
def EPOLLHUP : Nat := 0x010
/-- `EPOLLET` of `<sys/epoll.h>`. -/
def EPOLLET : Nat := 0x80000000

/-- Bitwise complement of a 32-bit `int`, as the bit pattern. -/
def bitNot32 (x : Nat) : Nat := 0xFFFFFFFF ^^^ x

/-- Coroutine states `Fiber::State`. -/
inductive FiberState where
  | INIT | HOLD | EXEC | TERM | READY | EXCEPT
deriving DecidableEq, Repr

/-- `IOManager::FdContext::EventContext`. -/
structure EventContext where
  scheduler : Option Nat := none
  fiber : Option Nat := none
  cb : Option Nat := none
deriving DecidableEq, Repr

/-- `IOManager::FdContext` (without its mutex). -/
structure FdContext where
  read : EventContext := {}
  write : EventContext := {}
  fd : Nat := 0
  events : Nat := NONE
deriving DecidableEq, Repr

/-- `FdContext::getcontext`: `none` is the failed `CC_ASSERT2(false, "getcontext")`. -/
def FdContext.getcontext (c : FdContext) (event : Nat) : Option EventContext :=
  if event = READ then some c.read
  else if event = WRITE then some c.write
  else none

/-- Assignment through the reference that `getcontext(event)` returns. -/
def FdContext.setcontext (c : FdContext) (event : Nat) (e : EventContext) : FdContext :=
  if event = READ then { c with read := e }
  else if event = WRITE then { c with write := e }
  else c

/-- `FdContext::resetContext`. -/
def FdContext.resetContext (_ctx : EventContext) : EventContext :=
  { scheduler := none, fiber := none, cb := none }

/-- The task that `triggerEvent` hands to `schedule` for an event context:
`schedule(&ctx.cb)` when the callable is set, `schedule(&ctx.fiber)` otherwise. -/
def EventContext.task (ctx : EventContext) : FiberAndThread :=
  if ctx.cb.isSome then { fiber := none, cb := ctx.cb, thread := -1 }
  else { fiber := ctx.fiber, cb := none, thread := -1 }

/-- The event context after `schedule(&ctx.cb)` or `schedule(&ctx.fiber)` swapped the handle
out and `ctx.scheduler = nullptr` was executed. -/
def EventContext.afterTrigger (ctx : EventContext) : EventContext :=
  if ctx.cb.isSome then { ctx with cb := none, scheduler := none }
  else { ctx with fiber := none, scheduler := none }

/-- `FdContext::triggerEvent`, on the fd context and the scheduler objects. `none` when
`CC_ASSERT(events & event)` fails, when `getcontext` fails or when `ctx.scheduler` is null. -/
def FdContext.triggerEvent (c : FdContext) (event : Nat) (schedulers : Nat → Scheduler) :
    Option (FdContext × (Nat → Scheduler)) :=
  if c.events &&& event = 0 then none
  else
    let c1 := { c with events := c.events &&& bitNot32 event }
    match c1.getcontext event with
    | none => none
    | some ctx =>
      match ctx.scheduler with
      | none => none
      | some sid =>
        some (c1.setcontext event ctx.afterTrigger,
              Function.update schedulers sid ((schedulers sid).schedule ctx.task))

/-- Operations of `epoll_ctl`. -/
inductive EpollOp where
  | EPOLL_CTL_ADD | EPOLL_CTL_DEL | EPOLL_CTL_MOD
deriving DecidableEq, Repr

/-- Kernel side of `epoll_ctl` on the interest list of `m_epfd` (fd to registered event
bits): `ok` is the kernel's verdict; on success the list is updated and `0` returned, on
failure the list is unchanged and `-1` returned. -/
def epoll_ctl (k : Nat → Option Nat) (op : EpollOp) (fd events : Nat) (ok : Bool) :
    (Nat → Option Nat) × Int :=
  if ok then
    match op with
    | .EPOLL_CTL_ADD => (Function.update k fd (some events), 0)
    | .EPOLL_CTL_MOD => (Function.update k fd (some events), 0)
    | .EPOLL_CTL_DEL => (Function.update k fd none, 0)
  else (k, -1)

/-- State of an `IOManager`: the fd-context vector, the pending-event counter, the kernel
interest list of its epoll instance, the scheduler objects that event contexts point to, and
the two ends of the tickle pipe (`m_tickleFds[0]` is the read end). -/
structure IOManager where
  m_fdContexts : List FdContext
  m_pendingEventCount : Nat
  epoll : Nat → Option Nat
  schedulers : Nat → Scheduler
  m_tickleFds : Nat × Nat

/-- `IOManager::contextResize` on the vector: `resize(size)` then a fresh `FdContext` with
`fd = i` in every empty cell. -/
def contextResize (v : List FdContext) (size : Nat) : List FdContext :=
  (List.range size).map (fun i => (v[i]?).getD { fd := i })

/-- `++m_pendingEventCount` on a 64-bit `size_t`. -/
def incr64 (n : Nat) : Nat := (n + 1) % 2 ^ 64
/-- `--m_pendingEventCount` on a 64-bit `size_t`. -/
def decr64 (n : Nat) : Nat := (n + 2 ^ 64 - 1) % 2 ^ 64

/-- `IOManager::addEvent(fd, event, cb)`. `curSched` is `Scheduler::GetThis()`, `curFiber`
and `curState` are `Fiber::GetThis()` and its state, `ok` the verdict of `epoll_ctl`.
`none` is a failed assertion or an access outside the vector. -/
def IOManager.addEvent (m : IOManager) (fd event : Nat) (cb : Option Nat) (ok : Bool)
    (curSched : Option Nat) (curFiber : Nat) (curState : FiberState) :
    Option (IOManager × Int) :=
  let v := if fd < m.m_fdContexts.length then m.m_fdContexts
           else contextResize m.m_fdContexts (fd * 3 / 2)
  match v[fd]? with
  | none => none
  | some fd_ctx =>
    if fd_ctx.events &&& event ≠ 0 then none
    else
      let op := if fd_ctx.events ≠ 0 then EpollOp.EPOLL_CTL_MOD else EpollOp.EPOLL_CTL_ADD
      let r := epoll_ctl m.epoll op fd (EPOLLET ||| fd_ctx.events ||| event) ok
      if r.2 ≠ 0 then
        some ({ m with m_fdContexts := v, epoll := r.1 }, -1)
      else
        let c1 := { fd_ctx with events := fd_ctx.events ||| event }
        match c1.getcontext event with
        | none => none
        | some event_ctx =>
          if event_ctx.scheduler.isSome || event_ctx.fiber.isSome || event_ctx.cb.isSome then
            none
          else
            let e1 := { event_ctx with scheduler := curSched }
            if cb.isSome then
              some ({ m with m_fdContexts := v.set fd (c1.setcontext event { e1 with cb := cb }),
                             m_pendingEventCount := incr64 m.m_pendingEventCount,
                             epoll := r.1 }, 0)
            else if curState ≠ FiberState.EXEC then none
            else
              some ({ m with m_fdContexts :=
                               v.set fd (c1.setcontext event { e1 with fiber := some curFiber }),
                             m_pendingEventCount := incr64 m.m_pendingEventCount,
                             epoll := r.1 }, 0)

/-- `IOManager::delEvent(fd, event)`. -/
def IOManager.delEvent (m : IOManager) (fd event : Nat) (ok : Bool) :
    Option (IOManager × Bool) :=
  match m.m_fdContexts[fd]? with
  | none => some (m, false)
  | some fd_ctx =>
    if fd_ctx.events &&& event = 0 then some (m, false)
    else
      let new_events := fd_ctx.events &&& bitNot32 event
      let op := if new_events ≠ 0 then EpollOp.EPOLL_CTL_MOD else EpollOp.EPOLL_CTL_DEL
      let r := epoll_ctl m.epoll op fd (EPOLLET ||| new_events) ok
      if r.2 ≠ 0 then some ({ m with epoll := r.1 }, false)
      else
        let c1 := { fd_ctx with events := new_events }
        match c1.getcontext event with
        | none => none
        | some event_ctx =>
          some ({ m with m_fdContexts :=
                           m.m_fdContexts.set fd
                             (c1.setcontext event (FdContext.resetContext event_ctx)),
                         m_pendingEventCount := decr64 m.m_pendingEventCount,
                         epoll := r.1 }, true)

/-- `IOManager::cancelEvent(fd, event)`. -/
def IOManager.cancelEvent (m : IOManager) (fd event : Nat) (ok : Bool) :
    Option (IOManager × Bool) :=
  match m.m_fdContexts[fd]? with
  | none => some (m, false)
  | some fd_ctx =>
    if fd_ctx.events &&& event = 0 then some (m, false)
    else
      let new_events := fd_ctx.events &&& bitNot32 event
      let op := if new_events ≠ 0 then EpollOp.EPOLL_CTL_MOD else EpollOp.EPOLL_CTL_DEL
      let r := epoll_ctl m.epoll op fd (EPOLLET ||| new_events) ok
      if r.2 ≠ 0 then some ({ m with epoll := r.1 }, false)
      else
        match fd_ctx.triggerEvent event m.schedulers with
        | none => none
        | some (c1, sch) =>
          some ({ m with m_fdContexts := m.m_fdContexts.set fd c1,
                         m_pendingEventCount := decr64 m.m_pendingEventCount,
                         epoll := r.1,
                         schedulers := sch }, true)

/-- The guarded call `if (sel) { fd_ctx->triggerEvent(event); --m_pendingEventCount; }` of
`cancelAll` and `idle`, on the cell, the counter and the scheduler objects. -/
def triggerIf (sel : Bool) (event : Nat) (c : FdContext) (count : Nat)
    (sch : Nat → Scheduler) : Option (FdContext × Nat × (Nat → Scheduler)) :=
  if sel then
    match c.triggerEvent event sch with
    | none => none
    | some (c1, sch1) => some (c1, decr64 count, sch1)
  else some (c, count, sch)

/-- `IOManager::cancelAll(fd)`. -/
def IOManager.cancelAll (m : IOManager) (fd : Nat) (ok : Bool) : Option (IOManager × Bool) :=
  match m.m_fdContexts[fd]? with
  | none => some (m, false)
  | some fd_ctx =>
    if fd_ctx.events = 0 then some (m, false)
    else
      let r := epoll_ctl m.epoll EpollOp.EPOLL_CTL_DEL fd 0 ok
      if r.2 ≠ 0 then some ({ m with epoll := r.1 }, false)
      else
        match triggerIf (fd_ctx.events &&& READ ≠ 0) READ fd_ctx m.m_pendingEventCount
                m.schedulers with
        | none => none
        | some (c1, count1, sch1) =>
          match triggerIf (c1.events &&& WRITE ≠ 0) WRITE c1 count1 sch1 with
          | none => none
          | some (c2, count2, sch2) =>
            if c2.events ≠ 0 then none
            else
              some ({ m with m_fdContexts := m.m_fdContexts.set fd c2,
                             m_pendingEventCount := count2,
                             epoll := r.1,
                             schedulers := sch2 }, true)

/-- The direction bits that `idle` derives from `event.events` as returned by `epoll_wait`:
`EPOLLERR` or `EPOLLHUP` first add `EPOLLIN | EPOLLOUT`. -/
def realEvents (revents : Nat) : Nat :=
  let ev := if revents &&& (EPOLLERR ||| EPOLLHUP) ≠ 0 then revents ||| (EPOLLIN ||| EPOLLOUT)
            else revents
  (if ev &&& EPOLLIN ≠ 0 then READ else NONE) ||| (if ev &&& EPOLLOUT ≠ 0 then WRITE else NONE)

/-- The body of the `for` loop of `IOManager::idle` for one `epoll_event` that is not the
tickle pipe: `fd` is the index of the fd context that `event.data.ptr` points to, `revents`
is `event.events` as returned by `epoll_wait`. -/
def IOManager.idleEvent (m : IOManager) (fd revents : Nat) (ok : Bool) : Option IOManager :=
  match m.m_fdContexts[fd]? with
  | none => none
  | some fd_ctx =>
    let real_events := realEvents revents
    if fd_ctx.events &&& real_events = NONE then some m
    else
      let left_events := fd_ctx.events &&& bitNot32 real_events
      let op := if left_events ≠ 0 then EpollOp.EPOLL_CTL_MOD else EpollOp.EPOLL_CTL_DEL
      let r := epoll_ctl m.epoll op fd_ctx.fd (EPOLLET ||| left_events) ok
      if r.2 ≠ 0 then some { m with epoll := r.1 }
      else
        match triggerIf (real_events &&& READ ≠ 0) READ fd_ctx m.m_pendingEventCount
                m.schedulers with
        | none => none
        | some (c1, count1, sch1) =>
          match triggerIf (real_events &&& WRITE ≠ 0) WRITE c1 count1 sch1 with
          | none => none
          | some (c2, count2, sch2) =>
            some { m with m_fdContexts := m.m_fdContexts.set fd c2,
                          m_pendingEventCount := count2,
                          epoll := r.1,
                          schedulers := sch2 }

/-- The state in which the constructor leaves the manager: `tickleFds` are the two ends that
`pipe(m_tickleFds)` returns; the read end is registered in the interest list by
`epoll_ctl(m_epfd, EPOLL_CTL_ADD, m_tickleFds[0], &event)` with `EPOLLIN | EPOLLET` (the
constructor asserts that the call succeeds); then `contextResize(32)`; no event is pending. -/
def IOManager.init (schedulers : Nat → Scheduler) (tickleFds : Nat × Nat) : IOManager :=
  { m_fdContexts := contextResize [] 32,
    m_pendingEventCount := 0,
    epoll := Function.update (fun _ => none) tickleFds.1 (some (EPOLLIN ||| EPOLLET)),
    schedulers := schedulers,
    m_tickleFds := tickleFds }

/-- One call that changes the event registrations of an `IOManager`. -/
inductive IOOp where
  | addEvent (fd event : Nat) (cb : Option Nat) (ok : Bool) (curSched : Option Nat)
      (curFiber : Nat) (curState : FiberState)
  | delEvent (fd event : Nat) (ok : Bool)
  | cancelEvent (fd event : Nat) (ok : Bool)
  | cancelAll (fd : Nat) (ok : Bool)
  | idleEvent (fd revents : Nat) (ok : Bool)

/-- The argument `fd` of `addEvent` is a non-negative `int`. -/
def IOOp.wellTyped : IOOp → Prop
  | .addEvent fd _ _ _ _ _ _ => fd < 2 ^ 31
  | _ => True

/-- The manager after one call (`none` when the call aborts). -/
def IOManager.step (m : IOManager) : IOOp → Option IOManager
  | .addEvent fd event cb ok curSched curFiber curState =>
    (m.addEvent fd event cb ok curSched curFiber curState).map Prod.fst
  | .delEvent fd event ok => (m.delEvent fd event ok).map Prod.fst
  | .cancelEvent fd event ok => (m.cancelEvent fd event ok).map Prod.fst
  | .cancelAll fd ok => (m.cancelAll fd ok).map Prod.fst
  | .idleEvent fd revents ok => m.idleEvent fd revents ok

/-- The manager after a sequence of calls, none of which aborts. -/
def IOManager.run (m : IOManager) : List IOOp → Option IOManager
  | [] => some m
  | op :: ops =>
    match m.step op with
    | none => none
    | some m1 => m1.run ops

/-- States that the constructor and the registration calls can produce. -/
inductive IOManager.Reachable : IOManager → Prop where
  | init (schedulers : Nat → Scheduler) (tickleFds : Nat × Nat) :
      IOManager.Reachable (IOManager.init schedulers tickleFds)
  | step {m m1 : IOManager} (op : IOOp) :
      IOManager.Reachable m → op.wellTyped → m.step op = some m1 → IOManager.Reachable m1

/-- Number of direction bits set in an event mask. -/
def eventCount (events : Nat) : Nat :=
  (if events &&& READ ≠ 0 then 1 else 0) + (if events &&& WRITE ≠ 0 then 1 else 0)

/-- Total number of registered (fd, direction) pairs. -/
def IOManager.registered (m : IOManager) : Nat :=
  (m.m_fdContexts.map (fun c => eventCount c.events)).sum

/-- The event mask of the fd context of `fd`; `NONE` when the vector has no such cell. -/
def IOManager.mask (m : IOManager) (fd : Nat) : Nat :=
  ((m.m_fdContexts[fd]?).map (fun c => c.events)).getD NONE

/-- An event context that holds exactly one continuation: a callable or a coroutine. -/
def EventContext.armed (e : EventContext) : Prop :=
  (e.cb.isSome ∧ e.fiber = none) ∨ (e.cb = none ∧ e.fiber.isSome)

/-- Consistency of one fd context: the mask holds only direction bits, an unregistered
direction has an empty event context, a registered one holds a callable or a coroutine. -/
structure FdContext.Consistent (c : FdContext) : Prop where
  mask : c.events = 0 ∨ c.events = 1 ∨ c.events = 4 ∨ c.events = 5
  read_clear : c.events &&& READ = 0 → c.read = {}
  write_clear : c.events &&& WRITE = 0 → c.write = {}
  read_set : c.events &&& READ ≠ 0 → c.read.armed
  write_set : c.events &&& WRITE ≠ 0 → c.write.armed

/-- Consistency of the manager: every cell is consistent and carries its own index, the
counter equals the number of registered pairs, the vector has between 32 and 2^32 cells, and
the kernel interest list mirrors the masks at every fd other than the read end of the tickle
pipe. -/
structure IOManager.Consistent (m : IOManager) : Prop where
  ctx : ∀ (i : Nat) (c : FdContext), m.m_fdContexts[i]? = some c → c.Consistent ∧ c.fd = i
  count : m.m_pendingEventCount = m.registered
  size_lo : 32 ≤ m.m_fdContexts.length
  size_hi : m.m_fdContexts.length ≤ 2 ^ 32
  kernel : ∀ fd, fd ≠ m.m_tickleFds.1 →
    m.epoll fd = if m.mask fd = 0 then none else some (EPOLLET ||| m.mask fd)

/-- The other direction. -/
def otherDir (d : Nat) : Nat := if d = READ then WRITE else READ

/-- The event context that `addEvent` stores. -/
def addedContext (cb : Option Nat) (curSched : Option Nat) (curFiber : Nat) : EventContext :=
  { scheduler := curSched, fiber := if cb.isSome then none else some curFiber, cb := cb }

/-- The tasks that firing the registered directions of a cell appends to the queue of
scheduler `sid`: the one of READ first, then the one of WRITE. -/
def FdContext.firedTasks (c : FdContext) (sid : Nat) : List FiberAndThread :=
  (if c.events &&& READ ≠ 0 ∧ c.read.scheduler = some sid then [c.read.task] else [])
    ++ (if c.events &&& WRITE ≠ 0 ∧ c.write.scheduler = some sid then [c.write.task] else [])

/-- Whether an event context would hand task `t` to scheduler `sid` when triggered (1 or 0). -/
def EventContext.holds (e : EventContext) (sid : Nat) (t : FiberAndThread) : Nat :=
  if e.scheduler = some sid ∧ e.task = t then 1 else 0

/-- Number of event contexts of a cell that hold task `t` for scheduler `sid`. -/
def FdContext.holds (c : FdContext) (sid : Nat) (t : FiberAndThread) : Nat :=
  c.read.holds sid t + c.write.holds sid t

/-- Number of event contexts of the manager that hold task `t` for scheduler `sid`. -/
def IOManager.holders (m : IOManager) (sid : Nat) (t : FiberAndThread) : Nat :=
  (m.m_fdContexts.map (fun c => c.holds sid t)).sum

/-- Occurrences of task `t` in the queue of scheduler `sid`. -/
def IOManager.queued (m : IOManager) (sid : Nat) (t : FiberAndThread) : Nat :=
  (m.schedulers sid).m_fibers.count t

/-- The call is an `addEvent` that stores continuation `t`. -/
def IOOp.stores (t : FiberAndThread) : IOOp → Prop
  | .addEvent _ _ cb _ curSched curFiber _ => (addedContext cb curSched curFiber).task = t
  | _ => False

/-- The interest list that the constructor leaves when the read end of the tickle pipe is
fd 5. -/
def exampleEpoll : Nat → Option Nat :=
  Function.update (fun _ => none) 5 (some (EPOLLIN ||| EPOLLET))

/-- Example state: the fresh manager (tickle pipe 5, 6) after `addEvent(3, READ, cb 7)` on
scheduler 0. -/
def exampleRegistered : IOManager :=
  { m_fdContexts := (contextResize [] 32).set 3
      { read := { scheduler := some 0, fiber := none, cb := some 7 }, write := {}, fd := 3,
        events := 1 },
    m_pendingEventCount := 1,
    epoll := Function.update exampleEpoll 3 (some (EPOLLET ||| 0 ||| 1)),
    schedulers := fun _ => {},
    m_tickleFds := (5, 6) }

/-- Example state: `exampleRegistered` after `addEvent(3, WRITE)` from coroutine 9 on
scheduler 1. -/
def exampleBoth : IOManager :=
  { m_fdContexts := ((contextResize [] 32).set 3
      { read := { scheduler := some 0, fiber := none, cb := some 7 }, write := {}, fd := 3,
        events := 1 }).set 3
      { read := { scheduler := some 0, fiber := none, cb := some 7 },
        write := { scheduler := some 1, fiber := some 9, cb := none }, fd := 3, events := 5 },
    m_pendingEventCount := 2,
    epoll := Function.update (Function.update exampleEpoll 3 (some (EPOLLET ||| 0 ||| 1))) 3
      (some (EPOLLET ||| 1 ||| 4)),
    schedulers := fun _ => {},
    m_tickleFds := (5, 6) }

/-- Example state: `exampleRegistered` after the registration of (3, READ) was fired. -/
def exampleFired : IOManager :=
  { m_fdContexts := ((contextResize [] 32).set 3
      { read := { scheduler := some 0, fiber := none, cb := some 7 }, write := {}, fd := 3,
        events := 1 }).set 3 { read := {}, write := {}, fd := 3, events := 0 },
    m_pendingEventCount := 0,
    epoll := Function.update (Function.update exampleEpoll 3 (some (EPOLLET ||| 0 ||| 1))) 3
      none,
    schedulers := Function.update (fun _ => {}) 0
      { m_fibers := [{ fiber := none, cb := some 7, thread := -1 }], tickles := 1 },
    m_tickleFds := (5, 6) }

/-! ## Timer manager (`timer.h`, `timer.cc`) -/

/-- The fields of `Timer` (without the manager back pointer). -/
structure Timer where
  m_recurring : Bool := false
  m_ms : Nat := 0
  m_next : Nat := 0
  m_cb : Option Nat := none
deriving DecidableEq, Repr

/-- `*p` for a `Timer::ptr`: the object at address `p` (a default object when nothing is
allocated there). -/
def deref (heap : Nat → Option Timer) (p : Nat) : Timer := (heap p).getD {}

/-- `Timer::Comparator::operator()` on two `Timer::ptr` (`none` is the null pointer); the
heap gives the objects. -/
def Comparator (heap : Nat → Option Timer) (lhs rhs : Option Nat) : Bool :=
  match lhs, rhs with
  | none, none => false
  | none, some _ => true
  | some _, none => false
  | some l, some r =>
    if (deref heap l).m_next < (deref heap r).m_next then true
    else if (deref heap l).m_next > (deref heap r).m_next then false
    else decide (l < r)

/-- `std::set::insert(val)` on the in-order sequence of the set: `val` goes before the first
element that is not less than it, unless that element is not greater either (then it is
equivalent and nothing is inserted). Returns the sequence and the position of the element. -/
def setInsert (lt : Nat → Nat → Bool) (val : Nat) : List Nat → List Nat × Nat
  | [] => ([val], 0)
  | x :: xs =>
    if lt x val then ((x :: (setInsert lt val xs).1), (setInsert lt val xs).2 + 1)
    else if lt val x then (val :: x :: xs, 0)
    else (x :: xs, 0)

/-- `std::set::find(val)`: the position of the element equivalent to `val`; `none` is
`end()`. -/
def setFind (lt : Nat → Nat → Bool) (val : Nat) : List Nat → Option Nat
  | [] => none
  | x :: xs =>
    if lt x val then (setFind lt val xs).map (fun i => i + 1)
    else if lt val x then none
    else some 0

/-- `std::set::lower_bound(val)`: the position of the first element not less than `val`. -/
def lowerBound (lt : Nat → Nat → Bool) (val : Nat) : List Nat → Nat
  | [] => 0
  | x :: xs => if lt x val then lowerBound lt val xs + 1 else 0

/-- State of a `TimerManager`: the timer objects by address, the in-order sequence of
`m_timers`, `m_tickled`, `m_previousTime`, and the number of calls of the virtual
`onTimerInsertedAtFront()`. -/
structure TimerManager where
  heap : Nat → Option Timer
  m_timers : List Nat
  m_tickled : Bool
  m_previousTime : Nat
  frontInserts : Nat

/-- The order of `m_timers`: `Comparator` on two non-null pointers. -/
def TimerManager.lt (heap : Nat → Option Timer) (a b : Nat) : Bool :=
  Comparator heap (some a) (some b)

/-- `TimerManager::TimerManager()` at clock reading `now`. -/
def TimerManager.init (now : Nat) : TimerManager :=
  { heap := fun _ => none, m_timers := [], m_tickled := false, m_previousTime := now,
    frontInserts := 0 }

/-- `TimerManager::addTimer(Timer::ptr val, lock)`. -/
def TimerManager.addTimerPtr (m : TimerManager) (val : Nat) : TimerManager :=
  let r := setInsert (TimerManager.lt m.heap) val m.m_timers
  let at_front := (r.2 == 0) && !m.m_tickled
  { m with m_timers := r.1,
           m_tickled := if at_front then true else m.m_tickled,
           frontInserts := if at_front then m.frontInserts + 1 else m.frontInserts }

/-- `TimerManager::addTimer(ms, cb, recurring)` at clock reading `now`; `addr` is the address
that `new Timer` returns, which holds no other object (`none` otherwise). -/
def TimerManager.addTimer (m : TimerManager) (ms : Nat) (cb : Option Nat) (recurring : Bool)
    (now addr : Nat) : Option (TimerManager × Nat) :=
  if (m.heap addr).isSome then none
  else
    let timer : Timer :=
      { m_recurring := recurring, m_ms := ms, m_next := (now + ms) % 2 ^ 64, m_cb := cb }
    some (TimerManager.addTimerPtr { m with heap := Function.update m.heap addr (some timer) }
            addr, addr)

/-- `Timer::cancel()` on the timer at address `self`. `none` when `self` is not a timer or
when `erase` gets `end()`. -/
def Timer.cancel (m : TimerManager) (self : Nat) : Option (TimerManager × Bool) :=
  match m.heap self with
  | none => none
  | some t =>
    if t.m_cb.isSome then
      let heap1 := Function.update m.heap self (some { t with m_cb := none })
      match setFind (TimerManager.lt heap1) self m.m_timers with
      | none => none
      | some it => some ({ m with heap := heap1, m_timers := m.m_timers.eraseIdx it }, true)
    else some (m, false)

/-- `Timer::refresh()` on the timer at address `self`, at clock reading `now`. -/
def Timer.refresh (m : TimerManager) (self now : Nat) : Option (TimerManager × Bool) :=
  match m.heap self with
  | none => none
  | some t =>
    if !t.m_cb.isSome then some (m, false)
    else
      match setFind (TimerManager.lt m.heap) self m.m_timers with
      | none => some (m, false)
      | some it =>
        let heap1 := Function.update m.heap self
          (some { t with m_next := (now + t.m_ms) % 2 ^ 64 })
        some ({ m with heap := heap1,
                       m_timers := (setInsert (TimerManager.lt heap1) self
                                      (m.m_timers.eraseIdx it)).1 }, true)

/-- `Timer::reset(ms, from_now)` on the timer at address `self`, at clock reading `now`. -/
def Timer.reset (m : TimerManager) (self ms : Nat) (from_now : Bool) (now : Nat) :
    Option (TimerManager × Bool) :=
  match m.heap self with
  | none => none
  | some t =>
    if ms = t.m_ms && !from_now then some (m, true)
    else if !t.m_cb.isSome then some (m, false)
    else
      match setFind (TimerManager.lt m.heap) self m.m_timers with
      | none => some (m, false)
      | some _ =>
        let start := if from_now then now else (t.m_next + 2 ^ 64 - t.m_ms) % 2 ^ 64
        let heap1 := Function.update m.heap self
          (some { t with m_ms := ms, m_next := (start + ms) % 2 ^ 64 })
        some (TimerManager.addTimerPtr { m with heap := heap1 } self, true)

/-- The test of `TimerManager::detectClockRollover(now_ms)` against `m_previousTime`. -/
def detectClockRollover (m_previousTime now_ms : Nat) : Bool :=
  decide (now_ms < m_previousTime)
    && decide (now_ms < (m_previousTime + 2 ^ 64 - 60 * 60 * 1000) % 2 ^ 64)

/-- The loop `while (it != end() && (*it)->m_next == now_ms) ++it` on the rest of the
sequence: the number of steps. -/
def skipNow (heap : Nat → Option Timer) (now_ms : Nat) : List Nat → Nat
  | [] => 0
  | x :: xs => if (deref heap x).m_next = now_ms then skipNow heap now_ms xs + 1 else 0

/-- The position `it` up to which `listExpireCb` takes timers out of the set; `nowAddr` is
the address of `now_timer`. -/
def expiredEnd (m : TimerManager) (rollover : Bool) (now_ms nowAddr : Nat) : Nat :=
  let heapNow := Function.update m.heap nowAddr (some { m_next := now_ms })
  let it := if rollover then m.m_timers.length
            else lowerBound (TimerManager.lt heapNow) nowAddr m.m_timers
  it + skipNow m.heap now_ms (m.m_timers.drop it)

/-- The loop `for (auto& timer : expired)` of `listExpireCb`, on the heap, the sequence of
the set and the output vector. -/
def expireLoop (now_ms : Nat) :
    List Nat → (Nat → Option Timer) → List Nat → List (Option Nat)
      → (Nat → Option Timer) × List Nat × List (Option Nat)
  | [], heap, timers, cbs => (heap, timers, cbs)
  | p :: rest, heap, timers, cbs =>
    let timer := deref heap p
    if timer.m_recurring then
      let heap1 := Function.update heap p
        (some { timer with m_next := (now_ms + timer.m_ms) % 2 ^ 64 })
      expireLoop now_ms rest heap1 (setInsert (TimerManager.lt heap1) p timers).1
        (cbs ++ [timer.m_cb])
    else
      expireLoop now_ms rest (Function.update heap p (some { timer with m_cb := none }))
        timers (cbs ++ [timer.m_cb])

/-- The timers that `listExpireCb` collects at clock reading `now_ms`, in the order of the
set (empty when it returns early). -/
def TimerManager.expired (m : TimerManager) (now_ms nowAddr : Nat) : List Nat :=
  match m.m_timers with
  | [] => []
  | first :: _ =>
    let rollover := detectClockRollover m.m_previousTime now_ms
    if !rollover && decide ((deref m.heap first).m_next > now_ms) then []
    else m.m_timers.take (expiredEnd m rollover now_ms nowAddr)

/-- `TimerManager::listExpireCb(cbs)` at clock reading `now_ms`; `nowAddr` is the address that
`new Timer(now_ms)` returns, which holds no other object (`none` otherwise). -/
def TimerManager.listExpireCb (m : TimerManager) (cbs : List (Option Nat))
    (now_ms nowAddr : Nat) : Option (TimerManager × List (Option Nat)) :=
  match m.m_timers with
  | [] => some (m, cbs)
  | first :: _ =>
    let rollover := detectClockRollover m.m_previousTime now_ms
    if !rollover && decide ((deref m.heap first).m_next > now_ms) then
      some ({ m with m_previousTime := now_ms }, cbs)
    else if (m.heap nowAddr).isSome then none
    else
      let it := expiredEnd m rollover now_ms nowAddr
      let r := expireLoop now_ms (m.m_timers.take it) m.heap (m.m_timers.drop it) cbs
      some ({ m with heap := r.1, m_timers := r.2.1, m_previousTime := now_ms }, r.2.2)

/-- One call on the timer manager. -/
inductive TimerOp where
  | addTimer (ms : Nat) (cb : Option Nat) (recurring : Bool) (now addr : Nat)
  | cancel (self : Nat)
  | refresh (self now : Nat)
  | reset (self ms : Nat) (from_now : Bool) (now : Nat)
  | listExpireCb (now nowAddr : Nat)

/-- The manager after one call (`none` when the call is not possible or aborts). -/
def TimerManager.step (m : TimerManager) : TimerOp → Option TimerManager
  | .addTimer ms cb recurring now addr => (m.addTimer ms cb recurring now addr).map Prod.fst
  | .cancel self => (Timer.cancel m self).map Prod.fst
  | .refresh self now => (Timer.refresh m self now).map Prod.fst
  | .reset self ms from_now now => (Timer.reset m self ms from_now now).map Prod.fst
  | .listExpireCb now nowAddr => (m.listExpireCb [] now nowAddr).map Prod.fst

/-- The manager after a sequence of calls, none of which aborts. -/
def TimerManager.run (m : TimerManager) : List TimerOp → Option TimerManager
  | [] => some m
  | op :: ops =>
    match m.step op with
    | none => none
    | some m1 => m1.run ops

/-- The call is a `Timer::reset`. -/
def TimerOp.isReset : TimerOp → Bool
  | .reset _ _ _ _ => true
  | _ => false

/-- The timer set is strictly ordered by `Comparator`, holds only allocated timers, and
holds every timer whose callable is set. -/
structure TimerManager.Ordered (m : TimerManager) : Prop where
  sorted : m.m_timers.Pairwise (fun a b => TimerManager.lt m.heap a b = true)
  alloc : ∀ a ∈ m.m_timers, (m.heap a).isSome
  live : ∀ a t, m.heap a = some t → t.m_cb.isSome → a ∈ m.m_timers

/-- What the loop of `listExpireCb` makes of a collected timer: a recurring timer gets the
deadline `now_ms + m_ms`, a one-shot timer loses its callable. -/
def Timer.afterExpire (t : Timer) (now_ms : Nat) : Timer :=
  if t.m_recurring then { t with m_next := (now_ms + t.m_ms) % 2 ^ 64 }
  else { t with m_cb := none }

/-- The timer at address `p` is due at clock reading `now_ms`: its deadline is not later. -/
def isDue (heap : Nat → Option Timer) (now_ms : Nat) (p : Nat) : Bool :=
  decide ((deref heap p).m_next ≤ now_ms)

/-- The timers that a call of `listExpireCb` at clock reading `now_ms` has to collect: all of
the set when a clock rollover is detected, else those whose deadline is not later than
`now_ms`, in the order of the set. -/
def TimerManager.due (m : TimerManager) (now_ms : Nat) : List Nat :=
  if detectClockRollover m.m_previousTime now_ms then m.m_timers
  else m.m_timers.filter (isDue m.heap now_ms)

/-- The call is a `listExpireCb` that collects the timer at address `p`, that is, appends its
callable to the output vector. -/
def TimerManager.collects (m : TimerManager) (p : Nat) : TimerOp → Bool
  | .listExpireCb now nowAddr => decide (p ∈ m.expired now nowAddr)
  | _ => false

/-- Number of calls in a sequence that collect the timer at address `p`. -/
def TimerManager.fires (p : Nat) : TimerManager → List TimerOp → Nat
  | _, [] => 0
  | m, op :: ops =>
    match m.step op with
    | none => 0
    | some m1 => (if m.collects p op then 1 else 0) + TimerManager.fires p m1 ops

/-- The timer at address `p` is out of the set and has no callable. -/
def TimerManager.Dead (m : TimerManager) (p : Nat) : Prop :=
  p ∉ m.m_timers ∧ ∃ t, m.heap p = some t ∧ t.m_cb = none

/-- Example timer manager: created at clock reading 0, then a one-shot timer of 10 ms at
address 100, a recurring timer of 20 ms at address 200 and a one-shot timer of 50 ms at
address 300 were added. -/
def exampleTimers : TimerManager :=
  { heap := Function.update (Function.update (Function.update (fun _ => none) 100
        (some { m_recurring := false, m_ms := 10, m_next := 10, m_cb := some 1 })) 200
        (some { m_recurring := true, m_ms := 20, m_next := 20, m_cb := some 2 })) 300
        (some { m_recurring := false, m_ms := 50, m_next := 50, m_cb := some 3 }),
    m_timers := [100, 200, 300],
    m_tickled := true,
    m_previousTime := 0,
    frontInserts := 1 }

/-- Example sequence of calls that ends with a `Timer::reset` to a later deadline. -/
def exampleResetOps : List TimerOp :=
  [.addTimer 10 (some 1) false 0 100, .addTimer 20 (some 2) false 0 200, .reset 100 30 false 0]

/-- Example sequence of calls that ends with a `Timer::reset` to an earlier deadline: the
timers of `exampleTimers` are added, then the timer at address 300 (deadline 50) is reset to
5 ms. -/
def exampleResetEarlierOps : List TimerOp :=
  [.addTimer 10 (some 1) false 0 100, .addTimer 20 (some 2) true 0 200,
   .addTimer 50 (some 3) false 0 300, .reset 300 5 false 0]

/-- Example sequence of calls on `exampleTimers` around the one-shot timer at address 100. -/
def exampleFireOps : List TimerOp :=
  [.listExpireCb 25 999, .refresh 100 30, .listExpireCb 200 999, .cancel 100]

/-! ## Next deadline, condition timers, batch scheduling, stop test -/

/-- `TimerManager::getNextTimer()` at clock reading `now_ms`: the manager (with `m_tickled`
cleared) and the returned 64-bit value; `none` when the first element of the set is not an
allocated timer. -/
def TimerManager.getNextTimer (m : TimerManager) (now_ms : Nat) : Option (TimerManager × Nat) :=
  let m1 := { m with m_tickled := false }
  match m.m_timers with
  | [] => some (m1, 2 ^ 64 - 1)
  | next :: _ =>
    match m.heap next with
    | none => none
    | some t =>
      if now_ms ≥ t.m_next then some (m1, 0)
      else some (m1, (t.m_next + 2 ^ 64 - now_ms) % 2 ^ 64)

/-- `weak_cond.lock()` as a truth value: `weak_cond` is the address of the witness object
(`none` for an empty weak pointer) and `alive` tells which objects still exist. -/
def weakLock (alive : Nat → Bool) (weak_cond : Option Nat) : Bool :=
  match weak_cond with
  | none => false
  | some w => alive w

/-- `OnTimer(weak_cond, cb)` of `timer.cc`: the result is the sequence of callables that the
call invokes (`none` when it invokes an empty `std::function`, which throws). -/
def OnTimer (alive : Nat → Bool) (weak_cond : Option Nat) (cb : Option Nat) :
    Option (List Nat) :=
  if weakLock alive weak_cond then
    match cb with
    | none => none
    | some f => some [f]
  else some []

/-- The closure object `std::bind(&OnTimer, weak_cond, cb)`: its two bound arguments. -/
structure OnTimerBind where
  weak_cond : Option Nat
  cb : Option Nat
deriving DecidableEq, Repr

/-- Running the callable with identity `f`: a closure over `OnTimer` (found in `binds`) runs
`OnTimer` on its bound arguments, any other callable is recorded as invoked. -/
def invoke (binds : Nat → Option OnTimerBind) (alive : Nat → Bool) (f : Nat) :
    Option (List Nat) :=
  match binds f with
  | some b => OnTimer alive b.weak_cond b.cb
  | none => some [f]

/-- `TimerManager::addConditionTimer(ms, cb, weak_cond, recurring)` at clock reading `now`:
`fn` is the identity of the closure object that `std::bind` makes, `addr` the address that
`new Timer` returns. -/
def TimerManager.addConditionTimer (m : TimerManager) (binds : Nat → Option OnTimerBind)
    (ms : Nat) (cb : Option Nat) (weak_cond : Option Nat) (recurring : Bool)
    (now addr fn : Nat) : Option ((TimerManager × (Nat → Option OnTimerBind)) × Nat) :=
  match m.addTimer ms (some fn) recurring now addr with
  | none => none
  | some (m1, p) =>
    some ((m1, Function.update binds fn (some { weak_cond := weak_cond, cb := cb })), p)

/-- An argument of `schedule`: a coroutine handle (`Fiber::ptr`) or a callable
(`std::function<void()>`); `none` is the empty handle. -/
inductive FiberOrCb where
  | fiber (f : Option Nat)
  | cb (f : Option Nat)
deriving DecidableEq, Repr

/-- The constructors `FiberAndThread(f, thr)` for a coroutine handle and for a callable (by
value or through a pointer, which differ only in what is left in the argument). -/
def FiberAndThread.ofFiberOrCb (fc : FiberOrCb) (thr : Int) : FiberAndThread :=
  match fc with
  | .fiber f => { fiber := f, cb := none, thread := thr }
  | .cb f => { fiber := none, cb := f, thread := thr }

/-- The loop `while (begin != end)` of `Scheduler::schedule(begin, end)` on the elements of
the range, with the running value of `need_tickle`. -/
def Scheduler.scheduleLoop (s : Scheduler) (need_tickle : Bool) :
    List FiberOrCb → Scheduler × Bool
  | [] => (s, need_tickle)
  | fc :: rest =>
    let r := s.scheduleNoLock (FiberAndThread.ofFiberOrCb fc (-1))
    Scheduler.scheduleLoop r.1 (r.2 || need_tickle) rest

/-- `Scheduler::schedule(begin, end)` on the range given as a list. -/
def Scheduler.scheduleRange (s : Scheduler) (range : List FiberOrCb) : Scheduler :=
  let r := s.scheduleLoop false range
  if r.2 then r.1.tickle else r.1

/-- The task holds a coroutine or a callable. -/
def FiberAndThread.nonEmpty (ft : FiberAndThread) : Bool :=
  ft.fiber.isSome || ft.cb.isSome

/-- `Scheduler::stopping()`. -/
def Scheduler.stopping (s : Scheduler) : Bool :=
  s.m_autostop && s.m_stopping && s.m_fibers.isEmpty && (s.m_activeThreadCount == 0)

/-- `IOManager::stopping(uint64_t& timeout)` at clock reading `now_ms`; `sched` and `tm` are
the `Scheduler` and `TimerManager` base-class parts of the manager. The result is the timer
manager after `getNextTimer`, the value stored in `timeout`, and the returned truth value. -/
def IOManager.stoppingTimeout (io : IOManager) (sched : Scheduler) (tm : TimerManager)
    (now_ms : Nat) : Option (TimerManager × Nat × Bool) :=
  match tm.getNextTimer now_ms with
  | none => none
  | some (tm1, timeout) =>
    some (tm1, timeout,
      decide (timeout = 2 ^ 64 - 1) && decide (io.m_pendingEventCount = 0) && sched.stopping)

/-- `IOManager::stopping()` at clock reading `now_ms`. -/
def IOManager.stopping (io : IOManager) (sched : Scheduler) (tm : TimerManager)
    (now_ms : Nat) : Option (TimerManager × Bool) :=
  (io.stoppingTimeout sched tm now_ms).map (fun r => (r.1, r.2.2))

/-! ## Fd metadata and hooked system calls (`fd_manager.cc`, `hook.cc`) -/

/-- Constant `O_NONBLOCK` of `<fcntl.h>` (Linux value, octal 04000). -/
def O_NONBLOCK : Int := 2048

/-- Command `F_GETFL` of `<fcntl.h>` (Linux value). -/
def F_GETFL : Int := 3

/-- Command `F_SETFL` of `<fcntl.h>` (Linux value). -/
def F_SETFL : Int := 4

/-- Level `SOL_SOCKET` of `<sys/socket.h>` (Linux value). -/
def SOL_SOCKET : Int := 1

/-- Option `SO_ERROR` of `<sys/socket.h>` (Linux value). -/
def SO_ERROR : Int := 4

/-- Option `SO_RCVTIMEO` of `<sys/socket.h>` (Linux value). -/
def SO_RCVTIMEO : Int := 20

/-- Option `SO_SNDTIMEO` of `<sys/socket.h>` (Linux value). -/
def SO_SNDTIMEO : Int := 21

/-- Error number `EINTR` of `<errno.h>` (Linux value). -/
def EINTR : Int := 4

/-- Error number `EBADF` of `<errno.h>` (Linux value). -/
def EBADF : Int := 9

/-- Error number `EAGAIN` of `<errno.h>` (Linux value). -/
def EAGAIN : Int := 11

/-- Error number `ETIMEDOUT` of `<errno.h>` (Linux value). -/
def ETIMEDOUT : Int := 110

/-- Error number `EINPROGRESS` of `<errno.h>` (Linux value). -/
def EINPROGRESS : Int := 115

/-- Conversion of a signed value to `uint64_t`. -/
def toU64 (x : Int) : Nat := (x % 2 ^ 64).toNat

/-- The fields of `FdCtx`; the timeouts are `uint64_t`, `(uint64_t)-1` meaning none. -/
structure FdCtx where
  m_isInit : Bool := false
  m_isSocket : Bool := false
  m_sysNonblock : Bool := false
  m_userNonblock : Bool := false
  m_isClosed : Bool := false
  m_fd : Int := 0
  m_recvTimeout : Nat := 2 ^ 64 - 1
  m_sendTimeout : Nat := 2 ^ 64 - 1
deriving DecidableEq, Repr

/-- `FdCtx::setTimeout(type, v)`. -/
def FdCtx.setTimeout (c : FdCtx) (type : Int) (v : Nat) : FdCtx :=
  if type = SO_RCVTIMEO then { c with m_recvTimeout := v } else { c with m_sendTimeout := v }

/-- `FdCtx::getTimeout(type)`. -/
def FdCtx.getTimeout (c : FdCtx) (type : Int) : Nat :=
  if type = SO_RCVTIMEO then c.m_recvTimeout else c.m_sendTimeout

/-- `FdManager::get(fd)` with `auto_create = false` on the vector `m_datas` (shorter than
`2^31`): the handle found, the inner `none` being the null handle. The outer `none` is the
out-of-range access `m_datas[fd]` for a negative `fd` other than -1. -/
def FdManager.get (m_datas : List (Option FdCtx)) (fd : Int) : Option (Option FdCtx) :=
  if fd = -1 then some none
  else if (m_datas.length : Int) ≤ fd then some none
  else if fd < 0 then none
  else some ((m_datas[fd.toNat]?).join)

/-- A call of an original (unhooked) function, as the hook layer makes it. -/
inductive RawCall where
  | io (fd : Int)
  | connect (fd : Int)
  | fcntl (fd cmd : Int) (arg : Option Int)
  | getsockopt (fd level optname : Int)
  | setsockopt (fd level optname : Int)
deriving DecidableEq, Repr

/-- What the hook layer cannot predict: the outcome of the `k`-th original call (return
value and the `errno` it sets, if any), the value that call writes through an output
pointer, whether `IOManager::GetThis()` is non-null, the result of the `k`-th `addEvent`, and
what the coroutine finds when it is resumed after its `k`-th `YieldToHold()`
(`tinfo->cancelled` and `errno`). -/
structure HookOracle where
  sys : Nat → Int × Option Int
  sysOut : Nat → Int
  iom : Bool
  addEvent : Nat → Int
  resume : Nat → Int × Int

/-- The state that the hooked calls read and write: the thread's hook flag, the vector of
`FdMgr`, `errno`, and the record of what was done: original calls, `addEvent(fd, event)`
calls, timeouts of the condition timers added, `timer->cancel()` calls, yields. -/
structure HookEnv where
  t_hook_enable : Bool
  m_datas : List (Option FdCtx)
  errno : Int := 0
  trace : List RawCall := []
  events : List (Int × Nat) := []
  timers : List Nat := []
  cancels : Nat := 0
  yields : Nat := 0
deriving DecidableEq, Repr

/-- One original call: it is recorded, its outcome comes from the oracle. -/
def HookEnv.raw (e : HookEnv) (o : HookOracle) (c : RawCall) : HookEnv × Int :=
  ({ e with trace := e.trace ++ [c], errno := ((o.sys e.trace.length).2).getD e.errno },
    (o.sys e.trace.length).1)

/-- A write through the `FdCtx::ptr` that `FdMgr` holds for `fd`. -/
def HookEnv.setCtx (e : HookEnv) (fd : Int) (c : FdCtx) : HookEnv :=
  { e with m_datas := e.m_datas.set fd.toNat (some c) }

/-- `iom->addConditionTimer(to, ...)` for the timeout `to_ms` when `hasTimer`, else nothing. -/
def HookEnv.addTimeout (e : HookEnv) (hasTimer : Bool) (to_ms : Nat) : HookEnv :=
  if hasTimer then { e with timers := e.timers ++ [to_ms] } else e

/-- `if (timer) timer->cancel()`. -/
def HookEnv.cancelTimeout (e : HookEnv) (hasTimer : Bool) : HookEnv :=
  if hasTimer then { e with cancels := e.cancels + 1 } else e

/-- The part of `do_io` from the label `retry` on, for the timeout `to_ms` (the variable `to`)
fetched before. After every call of `fun` the tests of the source follow in their order: `EINTR` calls `fun`
again (the `while` loop), `EAGAIN` registers, yields and goes back to `retry`, anything else
is returned. `fuel` bounds the number of calls of `fun`; `none` is also a null `iom`. -/
def do_io_retry (o : HookOracle) (fd : Int) (event : Nat) (to_ms : Nat) :
    Nat → HookEnv → Option (HookEnv × Int)
  | 0, _ => none
  | fuel + 1, e =>
    let r := e.raw o (.io fd)
    if r.2 = -1 ∧ r.1.errno = EINTR then do_io_retry o fd event to_ms fuel r.1
    else if r.2 = -1 ∧ r.1.errno = EAGAIN then
      if !o.iom then none
      else
        let hasTimer := decide (to_ms ≠ 2 ^ 64 - 1)
        let e2 := r.1.addTimeout hasTimer to_ms
        let rt := o.addEvent e2.events.length
        let e3 := { e2 with events := e2.events ++ [(fd, event)] }
        if rt ≠ 0 then some (e3.cancelTimeout hasTimer, -1)
        else
          let w := o.resume e3.yields
          let e4 := { e3 with yields := e3.yields + 1, errno := w.2 }
          let e5 := e4.cancelTimeout hasTimer
          if w.1 ≠ 0 then some ({ e5 with errno := w.1 }, -1)
          else do_io_retry o fd event to_ms fuel e5
    else some r

/-- `do_io(fd, fun, hook_fun_name, event, timeout_so, args...)`. -/
def do_io (o : HookOracle) (fuel : Nat) (e : HookEnv) (fd : Int) (event : Nat)
    (timeout_so : Int) : Option (HookEnv × Int) :=
  if !e.t_hook_enable then some (e.raw o (.io fd))
  else
    match FdManager.get e.m_datas fd with
    | none => none
    | some none => some (e.raw o (.io fd))
    | some (some ctx) =>
      if ctx.m_isClosed then some ({ e with errno := EBADF }, -1)
      else if !ctx.m_isSocket || ctx.m_userNonblock then some (e.raw o (.io fd))
      else do_io_retry o fd event (ctx.getTimeout timeout_so) fuel e

/-- The end of `connect_with_timeout`: the socket error is fetched with `getsockopt`. -/
def connectResult (o : HookOracle) (e : HookEnv) (fd : Int) : HookEnv × Int :=
  let error := o.sysOut e.trace.length
  let g := e.raw o (.getsockopt fd SOL_SOCKET SO_ERROR)
  if g.2 = -1 then (g.1, -1)
  else if error = 0 then (g.1, 0)
  else ({ g.1 with errno := error }, -1)

/-- `connect_with_timeout(fd, addr, addrlen, timeout_ms)`. -/
def connect_with_timeout (o : HookOracle) (e : HookEnv) (fd : Int) (timeout_ms : Nat) :
    Option (HookEnv × Int) :=
  if !e.t_hook_enable then some (e.raw o (.connect fd))
  else
    match FdManager.get e.m_datas fd with
    | none => none
    | some none => some ({ e with errno := EBADF }, -1)
    | some (some ctx) =>
      if ctx.m_isClosed then some ({ e with errno := EBADF }, -1)
      else if ctx.m_userNonblock then some (e.raw o (.connect fd))
      else if !ctx.m_isSocket then some (e.raw o (.connect fd))
      else
        let r := e.raw o (.connect fd)
        if r.2 = 0 then some (r.1, 0)
        else if r.2 ≠ -1 ∨ r.1.errno ≠ EINPROGRESS then some r
        else if !o.iom then none
        else
          let hasTimer := decide (timeout_ms ≠ 2 ^ 64 - 1)
          let e2 := r.1.addTimeout hasTimer timeout_ms
          let rt := o.addEvent e2.events.length
          let e3 := { e2 with events := e2.events ++ [(fd, WRITE)] }
          if rt = 0 then
            let w := o.resume e3.yields
            let e4 := { e3 with yields := e3.yields + 1, errno := w.2 }
            let e5 := e4.cancelTimeout hasTimer
            if w.1 ≠ 0 then some ({ e5 with errno := w.1 }, -1)
            else some (connectResult o e5 fd)
          else some (connectResult o (e3.cancelTimeout hasTimer) fd)

/-- The commands for which the hooked `fcntl` reads an argument and passes it on
(`F_DUPFD`, `F_DUPFD_CLOEXEC`, `F_SETFD`, `F_SETOWN`, `F_SETSIG`, `F_SETLEASE`, `F_NOTIFY`,
`F_SETPIPE_SZ`, `F_SETLK`, `F_SETLKW`, `F_GETLK`, `F_GETOWN_EX`, `F_SETOWN_EX`; Linux
values). -/
def fcntlTakesArg (cmd : Int) : Bool :=
  decide (cmd ∈ ([0, 1030, 2, 8, 10, 1024, 1026, 1031, 6, 7, 5, 16, 15] : List Int))

/-- The hooked `fcntl(fd, cmd, arg)`; flag words are `int` values, on which the bit
operations are those of two's complement. -/
def fcntl (o : HookOracle) (e : HookEnv) (fd cmd : Int) (arg : Int) : Option (HookEnv × Int) :=
  if cmd = F_SETFL then
    match FdManager.get e.m_datas fd with
    | none => none
    | some none => some (e.raw o (.fcntl fd cmd (some arg)))
    | some (some ctx) =>
      if ctx.m_isClosed || !ctx.m_isSocket then some (e.raw o (.fcntl fd cmd (some arg)))
      else
        let ctx1 := { ctx with m_userNonblock := decide (Int.land arg O_NONBLOCK ≠ 0) }
        let arg1 := if ctx1.m_sysNonblock then Int.lor arg O_NONBLOCK
                    else Int.land arg (Int.lnot O_NONBLOCK)
        some ((e.setCtx fd ctx1).raw o (.fcntl fd cmd (some arg1)))
  else if cmd = F_GETFL then
    let r := e.raw o (.fcntl fd cmd none)
    match FdManager.get r.1.m_datas fd with
    | none => none
    | some none => some r
    | some (some ctx) =>
      if ctx.m_isClosed || !ctx.m_isSocket then some r
      else if ctx.m_userNonblock then some (r.1, Int.lor r.2 O_NONBLOCK)
      else some (r.1, Int.land r.2 (Int.lnot O_NONBLOCK))
  else if fcntlTakesArg cmd then some (e.raw o (.fcntl fd cmd (some arg)))
  else some (e.raw o (.fcntl fd cmd none))

/-- The `timeval` that `optval` points to. -/
structure timeval where
  tv_sec : Int
  tv_usec : Int
deriving DecidableEq, Repr

/-- The hooked `setsockopt(sockfd, level, optname, optval, optlen)`; the millisecond value is
computed in `long` and stored as `uint64_t`. -/
def setsockopt (o : HookOracle) (e : HookEnv) (sockfd level optname : Int) (optval : timeval) :
    Option (HookEnv × Int) :=
  if !e.t_hook_enable then some (e.raw o (.setsockopt sockfd level optname))
  else if level = SOL_SOCKET ∧ (optname = SO_RCVTIMEO ∨ optname = SO_SNDTIMEO) then
    match FdManager.get e.m_datas sockfd with
    | none => none
    | some none => some (e.raw o (.setsockopt sockfd level optname))
    | some (some ctx) =>
      some ((e.setCtx sockfd (ctx.setTimeout optname
              (toU64 (optval.tv_sec * 1000 + Int.tdiv optval.tv_usec 1000)))).raw o
            (.setsockopt sockfd level optname))
  else some (e.raw o (.setsockopt sockfd level optname))

/-- Example state of the hook layer: hooking enabled; fd 3 is an open socket that `FdCtx::init`
set non-blocking, fd 4 a closed one, fd 5 a regular file, fd 6 has no metadata. -/
def exampleHookEnv : HookEnv :=
  { t_hook_enable := true,
    m_datas := [none, none, none,
      some { m_isInit := true, m_isSocket := true, m_sysNonblock := true, m_fd := 3 },
      some { m_isInit := true, m_isSocket := true, m_sysNonblock := true, m_isClosed := true,
             m_fd := 4 },
      some { m_isInit := true, m_fd := 5 },
      none, none] }

/-- Example oracle: every original call returns 7 and leaves `errno`, an `IOManager` is
present, `addEvent` succeeds and no timeout fires. -/
def exampleOracle : HookOracle :=
  { sys := fun _ => (7, none), sysOut := fun _ => 0, iom := true, addEvent := fun _ => 0,
    resume := fun _ => (0, 0) }

/-! ## Coroutine trampoline (`fiber.cc`) -/

/-- The fields of `Fiber` that the trampoline reads and writes. -/
structure Fiber where
  m_id : Nat := 0
  m_state : FiberState := .INIT
  m_cb : Option Nat := none
deriving DecidableEq, Repr

/-- What a thread's coroutine code reads and writes: the coroutine objects by address, the
thread-local `t_fiber` and `t_threadFiber`, the thread-local `t_scheduler_fiber` that
`Scheduler::GetMainFiber()` returns, and the coroutine whose context the thread executes. -/
structure FiberEnv where
  fibers : Nat → Option Fiber
  t_fiber : Option Nat
  t_threadFiber : Option Nat
  t_scheduler_fiber : Option Nat
  running : Option Nat

/-- An exception in flight: a `std::exception` (with its message) or an object of another
type. -/
inductive Thrown where
  | std_exception (what : Nat)
  | other (v : Nat)
deriving DecidableEq, Repr

/-- `Fiber::GetThis()`: the running coroutine; when the thread has none yet, the main
coroutine is made by `Fiber::Fiber()` at the fresh address `addr`. `none` when `t_fiber`
dangles or `addr` is taken. -/
def Fiber.GetThis (env : FiberEnv) (addr : Nat) : Option (FiberEnv × Nat) :=
  match env.t_fiber with
  | some p => if (env.fibers p).isSome then some (env, p) else none
  | none =>
    if (env.fibers addr).isSome then none
    else
      some ({ env with fibers := Function.update env.fibers addr (some { m_state := .EXEC }),
                       t_fiber := some addr,
                       t_threadFiber := some addr }, addr)

/-- The call `cur->m_cb()`: `run f` is what the callable `f` does to the state and the
exception it throws, if any; calling an empty `std::function` throws
`std::bad_function_call`, a `std::exception`. -/
def callCb (run : Nat → FiberEnv → FiberEnv × Option Thrown) (env : FiberEnv)
    (cb : Option Nat) : FiberEnv × Option Thrown :=
  match cb with
  | none => (env, some (.std_exception 0))
  | some f => run f env

/-- The `try` block of `MainFunc` and `CallerMainFunc` with its two handlers, for the
coroutine at `cur`: the state after it and the exception that leaves it. `none` when `cur`
is not an allocated coroutine. -/
def Fiber.tryBody (run : Nat → FiberEnv → FiberEnv × Option Thrown) (env : FiberEnv)
    (cur : Nat) : Option (FiberEnv × Option Thrown) :=
  match env.fibers cur with
  | none => none
  | some f =>
    let r := callCb run env f.m_cb
    match r.1.fibers cur with
    | none => none
    | some f1 =>
      let ended (fin : Fiber) : FiberEnv :=
        { r.1 with fibers := Function.update r.1.fibers cur (some fin) }
      match r.2 with
      | none => some (ended { f1 with m_cb := none, m_state := .TERM }, none)
      | some (.std_exception _) => some (ended { f1 with m_state := .EXCEPT }, none)
      | some (.other _) => some (ended { f1 with m_state := .EXCEPT }, none)

/-- `Fiber::swapOut()`: `SetThis(Scheduler::GetMainFiber())`, then the switch to the context
of that coroutine; `none` when it is null. -/
def Fiber.swapOut (env : FiberEnv) : Option FiberEnv :=
  match env.t_scheduler_fiber with
  | none => none
  | some main => some { env with t_fiber := some main, running := some main }

/-- `Fiber::back()`: `SetThis(t_threadFiber.get())`, then the switch to the context of the
thread's main coroutine; `none` when it is null. -/
def Fiber.back (env : FiberEnv) : Option FiberEnv :=
  match env.t_threadFiber with
  | none => none
  | some main => some { env with t_fiber := some main, running := some main }

/-- `Fiber::MainFunc()` up to the switch that ends it: the state in which the parent context
goes on, and the exception that leaves the function. -/
def Fiber.MainFunc (run : Nat → FiberEnv → FiberEnv × Option Thrown) (env : FiberEnv)
    (addr : Nat) : Option (FiberEnv × Option Thrown) :=
  match Fiber.GetThis env addr with
  | none => none
  | some (env1, cur) =>
    match Fiber.tryBody run env1 cur with
    | none => none
    | some (env2, some x) => some (env2, some x)
    | some (env2, none) => (Fiber.swapOut env2).map (fun e => (e, none))

/-- `Fiber::CallerMainFunc()` up to the switch that ends it. -/
def Fiber.CallerMainFunc (run : Nat → FiberEnv → FiberEnv × Option Thrown) (env : FiberEnv)
    (addr : Nat) : Option (FiberEnv × Option Thrown) :=
  match Fiber.GetThis env addr with
  | none => none
  | some (env1, cur) =>
    match Fiber.tryBody run env1 cur with
    | none => none
    | some (env2, some x) => some (env2, some x)
    | some (env2, none) => (Fiber.back env2).map (fun e => (e, none))

/-- Example thread state: the coroutine at address 2 (callable 5) was switched in by the
scheduling coroutine at address 1, which is also the thread's main coroutine. -/
def exampleFiberEnv : FiberEnv :=
  { fibers := Function.update (Function.update (fun _ => none) 1
        (some { m_id := 0, m_state := .EXEC, m_cb := none })) 2
        (some { m_id := 1, m_state := .EXEC, m_cb := some 5 }),
    t_fiber := some 2,
    t_threadFiber := some 1,
    t_scheduler_fiber := some 1,
    running := some 2 }

/-! ## The timeout of the idle loop (`iomanager.cc`) -/

/-- The conversion `(int)x` of a 64-bit unsigned value: its low 32 bits as a signed number. -/
def toInt32 (x : Nat) : Int :=
  if x % 2 ^ 32 < 2 ^ 31 then ((x % 2 ^ 32 : Nat) : Int) else ((x % 2 ^ 32 : Nat) : Int) - 2 ^ 32

/-- Constant `MAX_TIMEOUT` of `IOManager::idle`, in milliseconds. -/
def MAX_TIMEOUT : Nat := 3000

/-- The variable `next_timeout` of `IOManager::idle` after the adjustment in front of
`epoll_wait`, for the value that `stopping(next_timeout)` stored. -/
def adjustTimeout (next_timeout : Nat) : Nat :=
  if next_timeout ≠ 2 ^ 64 - 1 then
    if toInt32 next_timeout > (MAX_TIMEOUT : Int) then MAX_TIMEOUT else next_timeout
  else MAX_TIMEOUT

/-- The argument `(int)next_timeout` that `IOManager::idle` passes to `epoll_wait`. -/
def idleTimeout (next_timeout : Nat) : Int :=
  toInt32 (adjustTimeout next_timeout)

/-! ## The scheduling loop (`scheduler.cc`) -/

/-- The scheduler, the coroutine objects and the global counter `s_fiber_id`, as the workers
of `Scheduler::run` read and write them; `swaps` records the coroutines switched into. -/
structure RunEnv where
  sched : Scheduler
  fibers : Nat → Option Fiber
  s_fiber_id : Nat
  swaps : List Nat

/-- The locals of one worker in `Scheduler::run`, and the id of its thread. -/
structure Worker where
  tid : Int
  idle_fiber : Nat
  cb_fiber : Option Nat := none
  ft : FiberAndThread := { fiber := none, cb := none, thread := -1 }
  is_active : Bool := false
deriving DecidableEq, Repr

/-- What a coroutine does between the switch into it and its switch back: the state it is
left in and the tasks it hands to `schedule`. -/
structure SwapEffect where
  state : FiberState
  scheduled : List FiberAndThread

/-- What the scheduling loop cannot predict: the address that the `k`-th `new Fiber` returns
and what the coroutine of the `k`-th `swapIn()` does. -/
structure RunOracle where
  newFiber : Nat → Nat
  swap : Nat → SwapEffect

/-- The value of `FiberAndThread()` and of `ft` after `ft.reset()`. -/
def FiberAndThread.empty : FiberAndThread := { fiber := none, cb := none, thread := -1 }

/-- The loop `while (it != m_fibers.end())` of `Scheduler::run` on the queue from `it` on,
for the thread `tid`: the entry taken (if any), the queue without it, and `tickle_me`.
`none` when `CC_ASSERT(it->fiber || it->cb)` fails or a coroutine handle dangles. -/
def Scheduler.scan (fibers : Nat → Option Fiber) (tid : Int) :
    List FiberAndThread → Bool → Option (Option FiberAndThread × List FiberAndThread × Bool)
  | [], tickle_me => some (none, [], tickle_me)
  | ft :: rest, tickle_me =>
    if ft.thread ≠ -1 ∧ ft.thread ≠ tid then
      (Scheduler.scan fibers tid rest true).map (fun r => (r.1, ft :: r.2.1, r.2.2))
    else if !(ft.fiber.isSome || ft.cb.isSome) then none
    else
      match ft.fiber with
      | none => some (some ft, rest, tickle_me)
      | some p =>
        match fibers p with
        | none => none
        | some f =>
          if f.m_state = FiberState.EXEC then
            (Scheduler.scan fibers tid rest tickle_me).map (fun r => (r.1, ft :: r.2.1, r.2.2))
          else some (some ft, rest, tickle_me)

/-- Lines 180 to 217 of `Scheduler::run`: `ft.reset()`, the scan under the mutex with
`++m_activeThreadCount` when an entry is taken, and `tickle()` when `tickle_me`. The
comparison `it != m_fibers.end()` after the loop is made with the erased iterator when an
entry was taken; it is true then (the erased node is not the end node). -/
def Scheduler.runPick (e : RunEnv) (w : Worker) : Option (RunEnv × Worker) :=
  match Scheduler.scan e.fibers w.tid e.sched.m_fibers false with
  | none => none
  | some (none, _, tickle_me) =>
    some ({ e with sched := if tickle_me then e.sched.tickle else e.sched },
          { w with ft := FiberAndThread.empty, is_active := false })
  | some (some ft, rest, _) =>
    let s1 := { e.sched with m_fibers := rest,
                             m_activeThreadCount := incr64 e.sched.m_activeThreadCount }
    some ({ e with sched := s1.tickle }, { w with ft := ft, is_active := true })

/-- `p->swapIn()` as the scheduling loop sees it, from the switch into the coroutine `p` to
its switch back: `CC_ASSERT(m_state != EXEC)`, then the coroutine runs; it is left in the
state the oracle gives, without callable when that state is `TERM` (`Fiber::MainFunc`), and
its calls of `schedule` are made. -/
def RunEnv.swapIn (o : RunOracle) (e : RunEnv) (p : Nat) : Option RunEnv :=
  match e.fibers p with
  | none => none
  | some f =>
    if f.m_state = FiberState.EXEC then none
    else
      let eff := o.swap e.swaps.length
      let f1 : Fiber :=
        { f with m_state := eff.state,
                 m_cb := if eff.state = FiberState.TERM then none else f.m_cb }
      some { e with fibers := Function.update e.fibers p (some f1),
                    sched := eff.scheduled.foldl Scheduler.schedule e.sched,
                    swaps := e.swaps ++ [p] }

/-- `Fiber::reset(cb)` on a coroutine with a stack: `none` when the assertion on the state
fails. -/
def Fiber.reset (f : Fiber) (cb : Option Nat) : Option Fiber :=
  if f.m_state = FiberState.TERM ∨ f.m_state = FiberState.EXCEPT ∨ f.m_state = FiberState.INIT
  then some { f with m_cb := cb, m_state := FiberState.INIT }
  else none

/-- `new Fiber(cb)`: the coroutine gets the id `++s_fiber_id` and the state `INIT`; `none`
when the address that the oracle gives is taken. -/
def RunEnv.newFiber (o : RunOracle) (e : RunEnv) (cb : Option Nat) : Option (RunEnv × Nat) :=
  let addr := o.newFiber e.s_fiber_id
  if (e.fibers addr).isSome then none
  else
    let f : Fiber :=
      { m_id := (e.s_fiber_id + 1) % 2 ^ 64, m_state := FiberState.INIT, m_cb := cb }
    some ({ e with fibers := Function.update e.fibers addr (some f),
                   s_fiber_id := (e.s_fiber_id + 1) % 2 ^ 64 }, addr)

/-- The assignment `p->m_state = state`. -/
def RunEnv.setState (e : RunEnv) (p : Nat) (state : FiberState) : RunEnv :=
  match e.fibers p with
  | none => e
  | some f => { e with fibers := Function.update e.fibers p (some { f with m_state := state }) }

/-- `--m_activeThreadCount`. -/
def RunEnv.decrActive (e : RunEnv) : RunEnv :=
  { e with sched := { e.sched with
      m_activeThreadCount := decr64 e.sched.m_activeThreadCount } }

/-- `schedule(fiber)` with the coroutine handle `p` (on any thread). -/
def RunEnv.scheduleFiber (e : RunEnv) (p : Nat) : RunEnv :=
  { e with sched := e.sched.schedule (FiberAndThread.ofFiberOrCb (.fiber (some p)) (-1)) }

/-- Lines 223 to 234 of `Scheduler::run`, the branch of a coroutine task `p` that is neither
`TERM` nor `EXCEPT`. -/
def Scheduler.runFiber (o : RunOracle) (e : RunEnv) (p : Nat) : Option RunEnv :=
  match e.swapIn o p with
  | none => none
  | some e1 =>
    let e2 := e1.decrActive
    match e2.fibers p with
    | none => none
    | some f =>
      if f.m_state = FiberState.READY then some (e2.scheduleFiber p)
      else if f.m_state ≠ FiberState.TERM ∧ f.m_state ≠ FiberState.EXCEPT then
        some (e2.setState p FiberState.HOLD)
      else some e2

/-- Lines 236 to 240 of `Scheduler::run`: the coroutine that runs the callable `cb` is the
worker's `cb_fiber`, reset with the callable, when the worker has one, else a new
coroutine. -/
def Scheduler.cbFiber (o : RunOracle) (e : RunEnv) (cb_fiber : Option Nat) (cb : Option Nat) :
    Option (RunEnv × Nat) :=
  match cb_fiber with
  | some c =>
    match (e.fibers c).bind (fun f => f.reset cb) with
    | none => none
    | some f1 => some ({ e with fibers := Function.update e.fibers c (some f1) }, c)
  | none => e.newFiber o cb

/-- Lines 236 to 254 of `Scheduler::run`, the branch of a callable task: the state and the
local `cb_fiber` in front of the last statement of the branch. -/
def Scheduler.runCb (o : RunOracle) (e : RunEnv) (cb_fiber : Option Nat) (cb : Option Nat) :
    Option (RunEnv × Option Nat) :=
  match Scheduler.cbFiber o e cb_fiber cb with
  | none => none
  | some (e1, c) =>
    match e1.swapIn o c with
    | none => none
    | some e2 =>
      let e3 := e2.decrActive
      match e3.fibers c with
      | none => none
      | some f =>
        if f.m_state = FiberState.READY then some (e3.scheduleFiber c, none)
        else if f.m_state = FiberState.TERM ∨ f.m_state = FiberState.EXCEPT then
          match f.reset none with
          | none => none
          | some f1 => some ({ e3 with fibers := Function.update e3.fibers c (some f1) }, some c)
        else some (e3.setState c FiberState.HOLD, none)

/-- `++m_idleThreadCount`. -/
def RunEnv.incrIdle (e : RunEnv) : RunEnv :=
  { e with sched := { e.sched with m_idleThreadCount := incr64 e.sched.m_idleThreadCount } }

/-- `--m_idleThreadCount`. -/
def RunEnv.decrIdle (e : RunEnv) : RunEnv :=
  { e with sched := { e.sched with m_idleThreadCount := decr64 e.sched.m_idleThreadCount } }

/-- Lines 258 to 277 of `Scheduler::run`, the branch without a task to run: the state and
whether the loop is left. -/
def Scheduler.runIdle (o : RunOracle) (e : RunEnv) (w : Worker) : Option (RunEnv × Bool) :=
  if w.is_active then some (e.decrActive, false)
  else
    match e.fibers w.idle_fiber with
    | none => none
    | some f =>
      if f.m_state = FiberState.TERM then some (e, true)
      else
        match e.incrIdle.swapIn o w.idle_fiber with
        | none => none
        | some e2 =>
          let e3 := e2.decrIdle
          match e3.fibers w.idle_fiber with
          | none => none
          | some f1 =>
            if f1.m_state ≠ FiberState.TERM ∧ f1.m_state ≠ FiberState.EXCEPT then
              some (e3.setState w.idle_fiber FiberState.HOLD, false)
            else some (e3, false)

/-- The test `ft.fiber && (ft.fiber->getState() != TERM && ft.fiber->getState() != EXCEPT)`;
`none` when the handle dangles. -/
def Scheduler.runnable (fibers : Nat → Option Fiber) (ft : FiberAndThread) : Option Bool :=
  match ft.fiber with
  | none => some false
  | some p =>
    (fibers p).map
      (fun f => decide (f.m_state ≠ FiberState.TERM ∧ f.m_state ≠ FiberState.EXCEPT))

/-- Lines 219 to 278 of `Scheduler::run`: what the worker does with `ft` after the scan. The
result holds the state, the locals and whether the loop is left. In the branch of a callable
task the last statement, `cb_fiber.reset()` of line 255, empties the local `cb_fiber`
whatever the branch left in it. -/
def Scheduler.runTask (o : RunOracle) (e : RunEnv) (w : Worker) :
    Option (RunEnv × Worker × Bool) :=
  match Scheduler.runnable e.fibers w.ft, w.ft.fiber with
  | none, _ => none
  | some true, none => none
  | some true, some p =>
    (Scheduler.runFiber o e p).map (fun e1 => (e1, { w with ft := FiberAndThread.empty }, false))
  | some false, _ =>
    if w.ft.cb.isSome then
      match Scheduler.runCb o e w.cb_fiber w.ft.cb with
      | none => none
      | some (e1, _) => some (e1, { w with ft := FiberAndThread.empty, cb_fiber := none }, false)
    else
      (Scheduler.runIdle o e w).map (fun r => (r.1, w, r.2))

/-- One pass through the body of `while (true)` in `Scheduler::run`. -/
def Scheduler.runIteration (o : RunOracle) (e : RunEnv) (w : Worker) :
    Option (RunEnv × Worker × Bool) :=
  match Scheduler.runPick e w with
  | none => none
  | some (e1, w1) => Scheduler.runTask o e1 w1

/-- The loop `while (true)` of `Scheduler::run`, for at most `fuel` passes; `none` also when
the fuel runs out before the loop is left. -/
def Scheduler.runLoop (o : RunOracle) : Nat → RunEnv → Worker → Option (RunEnv × Worker)
  | 0, _, _ => none
  | fuel + 1, e, w =>
    match Scheduler.runIteration o e w with
    | none => none
    | some (e1, w1, true) => some (e1, w1)
    | some (e1, w1, false) => Scheduler.runLoop o fuel e1 w1

/-- The passes of the loop one after the other, as long as the loop is not left. -/
def Scheduler.runSteps (o : RunOracle) : Nat → RunEnv → Worker → Option (RunEnv × Worker)
  | 0, e, w => some (e, w)
  | n + 1, e, w =>
    match Scheduler.runIteration o e w with
    | none => none
    | some (e1, w1, _) => Scheduler.runSteps o n e1 w1

/-- `Scheduler::run()` on thread `tid`: the idle coroutine is made (`idleCb` is the bound
`Scheduler::idle`), then the loop runs. The thread-local settings in front of the loop
(`set_hook_enable(true)`, `setThis()`, `t_scheduler_fiber`) are outside this state. -/
def Scheduler.run (o : RunOracle) (fuel : Nat) (e : RunEnv) (tid : Int) (idleCb : Nat) :
    Option (RunEnv × Worker) :=
  match e.newFiber o (some idleCb) with
  | none => none
  | some (e1, idle) => Scheduler.runLoop o fuel e1 { tid := tid, idle_fiber := idle }

/-- The entry may be taken by thread `tid`: its affinity is -1 or `tid`, and its coroutine,
if it has one, is not in state `EXEC`. -/
def FiberAndThread.eligible (fibers : Nat → Option Fiber) (tid : Int) (ft : FiberAndThread) :
    Bool :=
  (decide (ft.thread = -1) || decide (ft.thread = tid))
    && (match ft.fiber with
        | none => true
        | some p => decide ((fibers p).map (fun f => f.m_state) ≠ some FiberState.EXEC))

/-- The entry holds a coroutine or a callable, and its coroutine handle points to an
allocated coroutine. -/
def FiberAndThread.sound (fibers : Nat → Option Fiber) (ft : FiberAndThread) : Prop :=
  (ft.fiber.isSome || ft.cb.isSome) = true ∧ ∀ p, ft.fiber = some p → (fibers p).isSome = true

/-- Example state of a worker thread: the queue holds the callables 7 and 8; the idle
coroutine of the worker is at address 50, the coroutine at address 60 is held. -/
def exampleRunEnv : RunEnv :=
  { sched := { m_fibers := [{ fiber := none, cb := some 7, thread := -1 },
                            { fiber := none, cb := some 8, thread := -1 }],
               m_stopping := false },
    fibers := Function.update (Function.update (fun _ => none) 50
        (some { m_id := 1, m_state := FiberState.INIT, m_cb := some 1 })) 60
        (some { m_id := 2, m_state := FiberState.HOLD, m_cb := some 2 }),
    s_fiber_id := 2,
    swaps := [] }

/-- Example worker on thread 1 with the idle coroutine at address 50. -/
def exampleWorker : Worker := { tid := 1, idle_fiber := 50 }

/-- Example oracle: the `k`-th new coroutine is at address `100 + k`; every coroutine runs to
its end (`TERM`) and schedules nothing. -/
def exampleRunOracle : RunOracle :=
  { newFiber := fun k => 100 + k,
    swap := fun _ => { state := FiberState.TERM, scheduled := [] } }

/-- Example state in which the coroutine at address 60 has run to its end. -/
def exampleFinished : RunEnv :=
  { exampleRunEnv with
    fibers := Function.update exampleRunEnv.fibers 60
      (some { m_id := 2, m_state := FiberState.TERM, m_cb := none }) }

/-- Where a worker thread is in its pass through the loop of `Scheduler::run`: in front of
the scan, behind the scan and in front of the end of the pass, or out of the loop. -/
inductive Phase where
  | scanning
  | holding
  | left
deriving DecidableEq, Repr

/-- The worker threads of one scheduler (`Scheduler::start` runs `Scheduler::run` on each)
on the state they share. -/
structure Pool where
  env : RunEnv
  workers : List (Worker × Phase)

/-- One step of the worker `i`: its scan (under the mutex), or the part of its pass behind
the scan, taken as one step. `none` when there is no such worker, when it has left the loop,
or when the step fails. -/
def Pool.step (o : RunOracle) (pl : Pool) (i : Nat) : Option Pool :=
  match pl.workers[i]? with
  | none => none
  | some (w, Phase.scanning) =>
    match Scheduler.runPick pl.env w with
    | none => none
    | some (e1, w1) => some { env := e1, workers := pl.workers.set i (w1, Phase.holding) }
  | some (w, Phase.holding) =>
    match Scheduler.runTask o pl.env w with
    | none => none
    | some (e1, w1, b) =>
      some { env := e1,
             workers := pl.workers.set i (w1, if b then Phase.left else Phase.scanning) }
  | some (_, Phase.left) => none

/-- The worker is between taking an entry from the queue and the end of its pass: 1 if so,
0 if not. -/
def Pool.busy (x : Worker × Phase) : Nat :=
  if x.2 = Phase.holding ∧ x.1.is_active = true then 1 else 0

/-- The number of workers between taking an entry and the end of their pass. -/
def Pool.busyCount (pl : Pool) : Nat := (pl.workers.map Pool.busy).sum

/-- The pools that the workers reach from the start, where every worker is in front of its
first scan and the active count is 0 (its initial value in `scheduler.h`). -/
inductive Pool.Reachable (o : RunOracle) : Pool → Prop
  | init (e : RunEnv) (ws : List Worker) :
      e.sched.m_activeThreadCount = 0 → ws.length < 2 ^ 64 →
      Pool.Reachable o { env := e, workers := ws.map (fun w => (w, Phase.scanning)) }
  | step (pl : Pool) (i : Nat) (pl1 : Pool) :
      Pool.Reachable o pl → pl.step o i = some pl1 → Pool.Reachable o pl1

/-- What holds in every reachable pool. -/
def Pool.Inv (pl : Pool) : Prop :=
  pl.env.sched.m_activeThreadCount = pl.busyCount
    ∧ pl.workers.length < 2 ^ 64
    ∧ ∀ x ∈ pl.workers, x.2 = Phase.holding → x.1.is_active = false →
        x.1.ft = FiberAndThread.empty

/-! ## Byte array (`bytearray.h`, `bytearray.cc`) -/

/-- Addition on `size_t`. -/
def add64 (a b : Nat) : Nat := (a + b) % 2 ^ 64

/-- Subtraction on `size_t`, for operands below 2^64. -/
def sub64 (a b : Nat) : Nat := (a + 2 ^ 64 - b) % 2 ^ 64

/-- The conversion of a signed value to `uint32_t`. -/
def toU32 (x : Int) : Nat := (x % 2 ^ 32).toNat

/-- `EncodeZigzag32` on an `int32_t`, given as an integer; the negation and the doubling are
taken modulo 2^32. -/
def EncodeZigzag32 (v : Int) : Nat :=
  if v < 0 then (toU32 (-v) * 2 + 2 ^ 32 - 1) % 2 ^ 32 else toU32 (v * 2)

/-- `DecodeZigzag32`: `(v >> 1) ^ -(v & 1)` on `uint32_t`. -/
def DecodeZigzag32 (v : Nat) : Nat :=
  (v >>> 1) ^^^ ((2 ^ 32 - (v &&& 1)) % 2 ^ 32)

/-- `ByteArray`: `nodes` are the blocks of the list from `m_root` on, each with its bytes
(`Node::size` is the length of the block, `m_root` is the block 0); `m_cur` is the index of a
block, `none` for the null pointer. The byte order `m_endian` plays no part in the functions
modelled here. -/
structure ByteArray where
  m_baseSize : Nat
  m_position : Nat
  m_capacity : Nat
  m_size : Nat
  nodes : List (List Nat)
  m_cur : Option Nat
deriving DecidableEq, Repr

/-- `new Node(s)`: a block of `s` bytes. What a new block holds is not specified; the bytes
of the block with index `k` are taken from `fresh k`. -/
def ByteArray.newNode (fresh : Nat → Nat → Nat) (k s : Nat) : List Nat :=
  (List.range s).map (fun j => fresh k j % 256)

/-- `ByteArray::ByteArray(base_size)`. -/
def ByteArray.new (fresh : Nat → Nat → Nat) (base_size : Nat) : ByteArray :=
  { m_baseSize := base_size, m_position := 0, m_capacity := base_size, m_size := 0,
    nodes := [ByteArray.newNode fresh 0 base_size], m_cur := some 0 }

/-- `getReadSize()`. -/
def ByteArray.getReadSize (b : ByteArray) : Nat := sub64 b.m_size b.m_position

/-- `getCapacity()`. -/
def ByteArray.getCapacity (b : ByteArray) : Nat := sub64 b.m_capacity b.m_position

/-- The block that `m_cur` points to; `none` for the null pointer. -/
def ByteArray.cur (b : ByteArray) : Option (List Nat) :=
  b.m_cur.bind (fun i => b.nodes[i]?)

/-- The pointer `next` of the block with index `i`. -/
def ByteArray.next (b : ByteArray) (i : Nat) : Option Nat :=
  if i + 1 < b.nodes.length then some (i + 1) else none

/-- The value of `ceil(1.0 * size / m_baseSize)`: the quotient rounded up. -/
def ceilDiv (size base : Nat) : Nat := (size + base - 1) / base

/-- `ByteArray::addCapacity(size)`. `none` when `m_baseSize` is 0 (the quotient is infinite
and its conversion to `size_t` is undefined) and when the size to add is 2^52 or more, where
the computation in `double` is not followed. -/
def ByteArray.addCapacity (fresh : Nat → Nat → Nat) (b : ByteArray) (size : Nat) :
    Option ByteArray :=
  if size = 0 then some b
  else
    let old_cap := b.getCapacity
    if old_cap ≥ size then some b
    else
      let size1 := sub64 size old_cap
      if b.m_baseSize = 0 ∨ 2 ^ 52 ≤ size1 then none
      else
        let count := ceilDiv size1 b.m_baseSize
        let first := b.nodes.length
        some { b with
          nodes := b.nodes
            ++ (List.range count).map (fun i => ByteArray.newNode fresh (first + i) b.m_baseSize),
          m_capacity := (b.m_capacity + count * b.m_baseSize) % 2 ^ 64,
          m_cur := if old_cap = 0 then (if 0 < count then some first else none) else b.m_cur }

/-- `memcpy(blk + npos, bytes, bytes.length)` on a block. -/
def memcpy (blk : List Nat) (npos : Nat) (bytes : List Nat) : List Nat :=
  blk.take npos ++ bytes ++ blk.drop (npos + bytes.length)

/-- The loop `while(size > 0)` of `ByteArray::write`; `buf` is what is left of the buffer
(from `bpos` on, `size` is its length). `none` when a null `m_cur` is used, when the copy
leaves the block, and when the fuel runs out. -/
def ByteArray.writeLoop : Nat → ByteArray → List Nat → Nat → Nat → Option ByteArray
  | 0, _, _, _, _ => none
  | fuel + 1, b, buf, npos, ncap =>
    if buf.length = 0 then some b
    else
      match b.m_cur with
      | none => none
      | some i =>
        match b.nodes[i]? with
        | none => none
        | some blk =>
          if ncap ≥ buf.length then
            if blk.length < npos + buf.length then none
            else
              some { b with
                nodes := b.nodes.set i (memcpy blk npos buf),
                m_cur := if blk.length = add64 npos buf.length then b.next i else some i,
                m_position := add64 b.m_position buf.length }
          else
            if blk.length < npos + ncap then none
            else
              let b1 : ByteArray :=
                { b with
                  nodes := b.nodes.set i (memcpy blk npos (buf.take ncap)),
                  m_position := add64 b.m_position ncap,
                  m_cur := b.next i }
              match b1.cur with
              | none => none
              | some blk1 => ByteArray.writeLoop fuel b1 (buf.drop ncap) 0 blk1.length

/-- `ByteArray::write(buf, size)` with the `size` bytes of `buf`. Every pass of the loop that
does not end it moves `m_cur` to the next block, so the fuel given is enough. -/
def ByteArray.write (fresh : Nat → Nat → Nat) (b : ByteArray) (buf : List Nat) :
    Option ByteArray :=
  if buf.length = 0 then some b
  else
    match b.addCapacity fresh buf.length with
    | none => none
    | some b1 =>
      match b1.cur with
      | none => none
      | some blk =>
        if b1.m_baseSize = 0 then none
        else
          let npos := b1.m_position % b1.m_baseSize
          let ncap := sub64 blk.length npos
          (ByteArray.writeLoop (b1.nodes.length + 1) b1 buf npos ncap).map
            (fun b2 => if b2.m_position > b2.m_size then { b2 with m_size := b2.m_position }
                       else b2)

/-- The loop `while(size > 0)` of `ByteArray::read(buf, size)`: the bytes read and the new
state. -/
def ByteArray.readLoop : Nat → ByteArray → Nat → Nat → Nat → Option (List Nat × ByteArray)
  | 0, _, _, _, _ => none
  | fuel + 1, b, size, npos, ncap =>
    if size = 0 then some ([], b)
    else
      match b.m_cur with
      | none => none
      | some i =>
        match b.nodes[i]? with
        | none => none
        | some blk =>
          if ncap ≥ size then
            if blk.length < npos + size then none
            else
              some ((blk.drop npos).take size,
                { b with
                  m_cur := if blk.length = add64 npos size then b.next i else some i,
                  m_position := add64 b.m_position size })
          else
            if blk.length < npos + ncap then none
            else
              let b1 : ByteArray :=
                { b with m_position := add64 b.m_position ncap, m_cur := b.next i }
              match b1.cur with
              | none => none
              | some blk1 =>
                (ByteArray.readLoop fuel b1 (sub64 size ncap) 0 blk1.length).map
                  (fun r => ((blk.drop npos).take ncap ++ r.1, r.2))

/-- `ByteArray::read(buf, size)`: the bytes read and the new state; `none` when
`std::out_of_range` is thrown and when a null `m_cur` is used. -/
def ByteArray.read (b : ByteArray) (size : Nat) : Option (List Nat × ByteArray) :=
  if size > b.getReadSize then none
  else
    match b.cur with
    | none => none
    | some blk =>
      if b.m_baseSize = 0 then none
      else
        let npos := b.m_position % b.m_baseSize
        let ncap := sub64 blk.length npos
        ByteArray.readLoop (b.nodes.length + 1) b size npos ncap

/-- `ByteArray::readFuint8()`. -/
def ByteArray.readFuint8 (b : ByteArray) : Option (Nat × ByteArray) :=
  match b.read 1 with
  | some ([v], b1) => some (v, b1)
  | _ => none

/-- The loop `while(v > m_cur->size)` of `ByteArray::setPosition`. -/
def ByteArray.seek (nodes : List (List Nat)) :
    Nat → Nat → Option Nat → Option (Nat × Option Nat)
  | 0, _, _ => none
  | fuel + 1, v, cur =>
    match cur with
    | none => none
    | some i =>
      match nodes[i]? with
      | none => none
      | some blk =>
        if v > blk.length then
          ByteArray.seek nodes fuel (sub64 v blk.length)
            (if i + 1 < nodes.length then some (i + 1) else none)
        else some (v, cur)

/-- `ByteArray::setPosition(v)`; `none` for `std::out_of_range` and for the use of a null
pointer. -/
def ByteArray.setPosition (b : ByteArray) (v : Nat) : Option ByteArray :=
  if v > b.m_capacity then none
  else
    match ByteArray.seek b.nodes (b.nodes.length + 1) v (some 0) with
    | none => none
    | some (_, none) => none
    | some (v1, some i) =>
      match b.nodes[i]? with
      | none => none
      | some blk =>
        some { b with
          m_position := v,
          m_size := if v > b.m_size then v else b.m_size,
          m_cur := if v1 = blk.length then b.next i else some i }

/-- The array `tmp` that `ByteArray::writeUint32(value)` fills, with `room` bytes of the
array left; `none` when the array is left behind. -/
def varintBytes : Nat → Nat → Option (List Nat)
  | 0, _ => none
  | room + 1, value =>
    if value ≥ 0x80 then
      (varintBytes room (value >>> 7)).map (fun t => (((value &&& 0x7F) ||| 0x80) % 256) :: t)
    else some [value % 256]

/-- `ByteArray::writeUint32(value)`; `tmp` has 5 bytes. -/
def ByteArray.writeUint32 (fresh : Nat → Nat → Nat) (b : ByteArray) (value : Nat) :
    Option ByteArray :=
  match varintBytes 5 (value % 2 ^ 32) with
  | none => none
  | some tmp => b.write fresh tmp

/-- The loop `for(int i = 0; i < 32; i += 7)` of `ByteArray::readUint32` from `i` on. -/
def ByteArray.readUint32Loop : Nat → Nat → Nat → ByteArray → Option (Nat × ByteArray)
  | 0, _, _, _ => none
  | fuel + 1, i, result, b =>
    if i < 32 then
      match b.readFuint8 with
      | none => none
      | some (x, b1) =>
        if x < 0x80 then some (result ||| ((x <<< i) % 2 ^ 32), b1)
        else
          ByteArray.readUint32Loop fuel (i + 7) (result ||| (((x &&& 0x7f) <<< i) % 2 ^ 32)) b1
    else some (result, b)

/-- `ByteArray::readUint32()`. -/
def ByteArray.readUint32 (b : ByteArray) : Option (Nat × ByteArray) :=
  ByteArray.readUint32Loop 32 0 0 b

/-- `ByteArray::writeInt32(value)`. -/
def ByteArray.writeInt32 (fresh : Nat → Nat → Nat) (b : ByteArray) (value : Int) :
    Option ByteArray :=
  b.writeUint32 fresh (EncodeZigzag32 value)

/-- `ByteArray::readInt32()`: the value read, as `int32_t`, and the new state. -/
def ByteArray.readInt32 (b : ByteArray) : Option (Int × ByteArray) :=
  b.readUint32.map (fun r => (toInt32 (DecodeZigzag32 r.1), r.2))

/-- The byte at the position `k` of the byte array. -/
def ByteArray.byteAt (b : ByteArray) (k : Nat) : Option Nat :=
  (b.nodes[k / b.m_baseSize]?).bind (fun blk => blk[k % b.m_baseSize]?)

/-- The state of a byte array between two calls: the blocks have `m_baseSize` bytes each,
`m_capacity` is their total, the position is at most the size and the size at most the
capacity, and `m_cur` is the block of the position (null at the end of the last block). -/
def ByteArray.WF (b : ByteArray) : Prop :=
  0 < b.m_baseSize
    ∧ 0 < b.nodes.length
    ∧ (∀ blk ∈ b.nodes, blk.length = b.m_baseSize)
    ∧ b.m_capacity = b.nodes.length * b.m_baseSize
    ∧ b.m_position ≤ b.m_size
    ∧ b.m_size ≤ b.m_capacity
    ∧ b.m_capacity < 2 ^ 64
    ∧ b.m_cur = if b.m_position / b.m_baseSize < b.nodes.length
                then some (b.m_position / b.m_baseSize) else none

/-- Example byte array: blocks of 2 bytes, 3 bytes written, the position at 3. -/
def exampleBytes : ByteArray :=
  { m_baseSize := 2, m_position := 3, m_capacity := 4, m_size := 3,
    nodes := [[1, 2], [3, 0]], m_cur := some 1 }

/-! ## Lemmas on the fd-context vector -/

theorem sum_map_set {α : Type} (f : α → Nat) (l : List α) (i : Nat) (x a : α)
    (h : l[i]? = some a) : ((l.set i x).map f).sum + f a = (l.map f).sum + f x := by
  induction l generalizing i with
  | nil => simp at h
  | cons b t ih =>
    cases i with
    | zero =>
      simp only [List.getElem?_cons_zero, Option.some.injEq] at h
      subst h
      simp only [List.set_cons_zero, List.map_cons, List.sum_cons]
      omega
    | succ j =>
      simp only [List.getElem?_cons_succ] at h
      have := ih j h
      simp only [List.set_cons_succ, List.map_cons, List.sum_cons]
      omega

theorem length_contextResize (v : List FdContext) (n : Nat) :
    (contextResize v n).length = n := by
  simp [contextResize]

theorem getElem?_contextResize (v : List FdContext) (n i : Nat) :
    (contextResize v n)[i]? = if i < n then some ((v[i]?).getD { fd := i }) else none := by
  unfold contextResize
  by_cases h : i < n
  · simp [h, List.getElem?_map, List.getElem?_range h]
  · have h2 : (List.range n).length ≤ i := by simpa using h
    simp [h, List.getElem?_map, List.getElem?_eq_none h2]

theorem contextResize_eq_append (v : List FdContext) (n : Nat) (h : v.length ≤ n) :
    contextResize v n
      = v ++ (List.range (n - v.length)).map (fun j => ({ fd := v.length + j } : FdContext)) := by
  apply List.ext_getElem?
  intro i
  rw [getElem?_contextResize]
  by_cases hi : i < v.length
  · have hin : i < n := by omega
    rw [List.getElem?_append_left hi, if_pos hin, List.getElem?_eq_getElem hi]
    rfl
  · have hi2 : v.length ≤ i := by omega
    rw [List.getElem?_append_right hi2, List.getElem?_eq_none hi2, List.getElem?_map]
    by_cases hin : i < n
    · have h3 : i - v.length < n - v.length := by omega
      rw [if_pos hin, List.getElem?_range h3]
      have h4 : v.length + (i - v.length) = i := by omega
      simp [h4]
    · have h3 : (List.range (n - v.length)).length ≤ i - v.length := by
        simp only [List.length_range]; omega
      rw [if_neg hin, List.getElem?_eq_none h3]
      rfl

theorem eventCount_zero : eventCount 0 = 0 := by decide

theorem sum_eventCount_contextResize (v : List FdContext) (n : Nat) (h : v.length ≤ n) :
    ((contextResize v n).map (fun c => eventCount c.events)).sum
      = (v.map (fun c => eventCount c.events)).sum := by
  rw [contextResize_eq_append v n h, List.map_append, List.sum_append, List.map_map]
  have hz : ∀ l : List Nat,
      (l.map ((fun c : FdContext => eventCount c.events)
        ∘ (fun j => ({ fd := v.length + j } : FdContext)))).sum = 0 := by
    intro l
    induction l with
    | nil => rfl
    | cons a t ih =>
      simp only [List.map_cons, List.sum_cons, ih, Function.comp]
      exact eventCount_zero
  rw [hz]
  rfl

theorem fresh_consistent (i : Nat) : ({ fd := i } : FdContext).Consistent := by
  refine ⟨Or.inl rfl, fun _ => rfl, fun _ => rfl, fun h => ?_, fun h => ?_⟩
  · exact absurd (show (NONE &&& READ = 0) by decide) h
  · exact absurd (show (NONE &&& WRITE = 0) by decide) h

theorem mask_contextResize (m : IOManager) (n : Nat) (h : m.m_fdContexts.length ≤ n) (fd : Nat) :
    IOManager.mask { m with m_fdContexts := contextResize m.m_fdContexts n } fd = m.mask fd := by
  unfold IOManager.mask
  simp only [getElem?_contextResize]
  by_cases hfd : fd < m.m_fdContexts.length
  · have : fd < n := by omega
    simp [this, List.getElem?_eq_getElem hfd]
  · have h2 : m.m_fdContexts.length ≤ fd := by omega
    by_cases hn : fd < n
    · simp [hn, List.getElem?_eq_none h2, NONE]
    · simp [hn, List.getElem?_eq_none h2]

theorem Consistent_resize (m : IOManager) (hm : m.Consistent) (n : Nat)
    (h : m.m_fdContexts.length ≤ n) (hn : n ≤ 2 ^ 32) :
    IOManager.Consistent { m with m_fdContexts := contextResize m.m_fdContexts n } := by
  refine ⟨?_, ?_, ?_, ?_, ?_⟩
  · intro i c hc
    simp only [getElem?_contextResize] at hc
    by_cases hin : i < n
    · rw [if_pos hin] at hc
      cases hv : m.m_fdContexts[i]? with
      | none =>
        rw [hv] at hc
        simp only [Option.getD_none, Option.some.injEq] at hc
        subst hc
        exact ⟨fresh_consistent i, rfl⟩
      | some c0 =>
        rw [hv] at hc
        simp only [Option.getD_some, Option.some.injEq] at hc
        subst hc
        exact hm.ctx i c0 hv
    · rw [if_neg hin] at hc
      exact absurd hc (by simp)
  · show m.m_pendingEventCount = _
    rw [hm.count]
    unfold IOManager.registered
    exact (sum_eventCount_contextResize _ _ h).symm
  · show 32 ≤ (contextResize m.m_fdContexts n).length
    rw [length_contextResize]
    exact le_trans hm.size_lo h
  · show (contextResize m.m_fdContexts n).length ≤ 2 ^ 32
    rw [length_contextResize]
    exact hn
  · intro fd hfd
    rw [mask_contextResize m n h fd]
    exact hm.kernel fd hfd

theorem mask_set (m : IOManager) (fd : Nat) (c1 : FdContext) (cnt : Nat)
    (k : Nat → Option Nat) (sch : Nat → Scheduler) (hfd : fd < m.m_fdContexts.length) (i : Nat) :
    IOManager.mask { m with m_fdContexts := m.m_fdContexts.set fd c1,
                            m_pendingEventCount := cnt, epoll := k, schedulers := sch } i
      = if i = fd then c1.events else m.mask i := by
  unfold IOManager.mask
  simp only [List.getElem?_set]
  by_cases h : fd = i
  · subst h
    simp [hfd]
  · have h2 : ¬ i = fd := fun e => h e.symm
    simp [h, h2]

/-- Replacing one cell by a consistent cell, with the counter and the interest list updated
to match, keeps the manager consistent. -/
theorem Consistent_set (m : IOManager) (hm : m.Consistent) (fd : Nat) (c c1 : FdContext)
    (hc : m.m_fdContexts[fd]? = some c) (hc1 : c1.Consistent) (hfd1 : c1.fd = fd)
    (cnt : Nat) (hcnt : cnt + eventCount c.events = m.m_pendingEventCount + eventCount c1.events)
    (k : Nat → Option Nat)
    (hk : k = Function.update m.epoll fd
                (if c1.events = 0 then none else some (EPOLLET ||| c1.events)))
    (sch : Nat → Scheduler) :
    IOManager.Consistent { m with m_fdContexts := m.m_fdContexts.set fd c1,
                                  m_pendingEventCount := cnt, epoll := k, schedulers := sch } := by
  have hfd : fd < m.m_fdContexts.length := by
    by_contra hlt
    rw [List.getElem?_eq_none (by omega)] at hc
    exact absurd hc (by simp)
  refine ⟨?_, ?_, ?_, ?_, ?_⟩
  · intro i ci hci
    simp only [List.getElem?_set] at hci
    by_cases h : fd = i
    · subst h
      simp only [hfd, if_true, Option.some.injEq] at hci
      subst hci
      exact ⟨hc1, hfd1⟩
    · simp only [h, if_false] at hci
      exact hm.ctx i ci hci
  · show cnt = ((m.m_fdContexts.set fd c1).map (fun c => eventCount c.events)).sum
    have h1 := sum_map_set (fun c : FdContext => eventCount c.events) m.m_fdContexts fd c1 c hc
    have h2 := hm.count
    unfold IOManager.registered at h2
    simp only at h1
    omega
  · show 32 ≤ (m.m_fdContexts.set fd c1).length
    rw [List.length_set]
    exact hm.size_lo
  · show (m.m_fdContexts.set fd c1).length ≤ 2 ^ 32
    rw [List.length_set]
    exact hm.size_hi
  · intro i hi
    rw [mask_set m fd c1 cnt k sch hfd i]
    show k i = _
    rw [hk]
    by_cases h : i = fd
    · subst h
      simp
    · simp only [Function.update_noteq h, h, if_false]
      exact hm.kernel i hi

/-! ## Lemmas on one fd context -/

theorem getcontext_events (c : FdContext) (e event : Nat) :
    FdContext.getcontext { c with events := e } event = c.getcontext event := rfl

theorem armed_afterTrigger (e : EventContext) (h : e.armed) : e.afterTrigger = {} := by
  obtain ⟨s, f, cb⟩ := e
  rcases h with ⟨h1, h2⟩ | ⟨h1, h2⟩
  · simp only at h1 h2
    subst h2
    simp [EventContext.afterTrigger, h1]
  · simp only at h1 h2
    subst h1
    simp [EventContext.afterTrigger]

/-- The cell that `triggerEvent(event)` leaves behind. -/
theorem triggerEvent_eq (c : FdContext) (event : Nat) (sch : Nat → Scheduler)
    (ctx : EventContext) (sid : Nat) (hne : c.events &&& event ≠ 0)
    (hctx : c.getcontext event = some ctx) (hs : ctx.scheduler = some sid) :
    c.triggerEvent event sch
      = some (FdContext.setcontext { c with events := c.events &&& bitNot32 event } event
                ctx.afterTrigger,
              Function.update sch sid ((sch sid).schedule ctx.task)) := by
  unfold FdContext.triggerEvent
  rw [if_neg hne]
  simp only [getcontext_events, hctx, hs]

theorem triggerEvent_none_of_null (c : FdContext) (event : Nat) (sch : Nat → Scheduler)
    (ctx : EventContext) (hctx : c.getcontext event = some ctx) (hs : ctx.scheduler = none) :
    c.triggerEvent event sch = none := by
  unfold FdContext.triggerEvent
  split
  · rfl
  · simp only [getcontext_events, hctx, hs]

/-- Facts about the cell after a registered direction was cleared and its event context
replaced by the empty one (the effect of `triggerEvent` and of `delEvent`). -/
theorem cleared_facts (c : FdContext) (hc : c.Consistent) (event : Nat)
    (hev : event = READ ∨ event = WRITE) (hne : c.events &&& event ≠ 0) :
    let c1 := FdContext.setcontext { c with events := c.events &&& bitNot32 event } event {}
    c1.Consistent ∧ c1.fd = c.fd ∧ eventCount c1.events + 1 = eventCount c.events
      ∧ c1.events &&& event = 0
      ∧ c1.events &&& otherDir event = c.events &&& otherDir event
      ∧ c1.getcontext (otherDir event) = c.getcontext (otherDir event)
      ∧ c1.getcontext event = some {} := by
  obtain ⟨r, w, f, e⟩ := c
  obtain ⟨hmask, hrc, hwc, hrs, hws⟩ := hc
  simp only at hmask hrc hwc hrs hws hne
  rcases hev with rfl | rfl <;> rcases hmask with rfl | rfl | rfl | rfl
  all_goals first
    | exact absurd (by decide) hne
    | (simp only [FdContext.setcontext, FdContext.getcontext, READ, WRITE, otherDir, bitNot32,
         eventCount, if_true, if_false, show ((4 : Nat) = 1) = False from by decide,
         show ((1 : Nat) = 4) = False from by decide] at hrc hwc hrs hws ⊢
       refine ⟨⟨?_, ?_, ?_, ?_, ?_⟩, ?_⟩
       all_goals (try dsimp only [READ, WRITE])
       all_goals first
         | decide
         | (intro h; exact absurd (by decide) h)
         | (intro _; exact hrc (by decide))
         | (intro _; exact hwc (by decide))
         | (intro _; exact hrs (by decide))
         | (intro _; exact hws (by decide))
         | (intro h; exact absurd h (by decide)))

/-- Facts about the cell after an unregistered direction was set and its event context
replaced by an armed one (the effect of `addEvent`). -/
theorem added_facts (c : FdContext) (hc : c.Consistent) (event : Nat)
    (hev : event = READ ∨ event = WRITE) (hz : c.events &&& event = 0)
    (e1 : EventContext) (he1 : e1.armed) :
    let c1 := FdContext.setcontext { c with events := c.events ||| event } event e1
    c1.Consistent ∧ c1.fd = c.fd ∧ eventCount c1.events = eventCount c.events + 1
      ∧ c1.events &&& event ≠ 0
      ∧ c1.events &&& otherDir event = c.events &&& otherDir event
      ∧ c1.getcontext (otherDir event) = c.getcontext (otherDir event)
      ∧ c1.getcontext event = some e1
      ∧ c.getcontext event = some {}
      ∧ c1.events ≠ 0
      ∧ EPOLLET ||| c.events ||| event = EPOLLET ||| c1.events := by
  obtain ⟨r, w, f, e⟩ := c
  obtain ⟨hmask, hrc, hwc, hrs, hws⟩ := hc
  simp only at hmask hrc hwc hrs hws hz
  rcases hev with rfl | rfl <;> rcases hmask with rfl | rfl | rfl | rfl
  all_goals first
    | exact absurd hz (by decide)
    | (simp only [FdContext.setcontext, FdContext.getcontext, READ, WRITE, otherDir, EPOLLET,
         eventCount, if_true, if_false, show ((4 : Nat) = 1) = False from by decide,
         show ((1 : Nat) = 4) = False from by decide] at hrc hwc hrs hws ⊢
       refine ⟨⟨?_, ?_, ?_, ?_, ?_⟩, ?_⟩
       all_goals (try dsimp only [READ, WRITE])
       all_goals first
         | decide
         | (intro _; exact he1)
         | (intro h; exact absurd (by decide) h)
         | (intro h; exact absurd h (by decide))
         | (intro _; exact hrc (by decide))
         | (intro _; exact hwc (by decide))
         | (intro _; exact hrs (by decide))
         | (intro _; exact hws (by decide))
         | exact ⟨trivial, by decide, by decide, by decide, trivial, trivial,
                    by rw [hrc (by decide)], by decide, by decide⟩
         | exact ⟨trivial, by decide, by decide, by decide, trivial, trivial,
                    by rw [hwc (by decide)], by decide, by decide⟩)

theorem epoll_ctl_ok (k : Nat → Option Nat) (op : EpollOp) (fd ev : Nat) :
    epoll_ctl k op fd ev true
      = (Function.update k fd (if op = EpollOp.EPOLL_CTL_DEL then none else some ev), 0) := by
  cases op <;> rfl

theorem epoll_ctl_fail (k : Nat → Option Nat) (op : EpollOp) (fd ev : Nat) :
    epoll_ctl k op fd ev false = (k, -1) := rfl

/-- The vector that `addEvent` works on, after the optional `contextResize`. -/
theorem addEvent_vector (m : IOManager) (hm : m.Consistent) (fd : Nat) (hfd : fd < 2 ^ 31) :
    let v := if fd < m.m_fdContexts.length then m.m_fdContexts
             else contextResize m.m_fdContexts (fd * 3 / 2)
    v[fd]? = some ((m.m_fdContexts[fd]?).getD { fd := fd })
      ∧ IOManager.Consistent { m with m_fdContexts := v }
      ∧ IOManager.mask { m with m_fdContexts := v } fd = m.mask fd := by
  intro v
  have hlo := hm.size_lo
  by_cases h : fd < m.m_fdContexts.length
  · have hv : v = m.m_fdContexts := if_pos h
    rw [hv]
    refine ⟨?_, hm, rfl⟩
    rw [List.getElem?_eq_getElem h]
    rfl
  · have hv : v = contextResize m.m_fdContexts (fd * 3 / 2) := if_neg h
    have h1 : fd < fd * 3 / 2 := by omega
    have h2 : m.m_fdContexts.length ≤ fd * 3 / 2 := by omega
    have h3 : fd * 3 / 2 ≤ 2 ^ 32 := by omega
    rw [hv]
    refine ⟨?_, Consistent_resize m hm _ h2 h3, mask_contextResize m _ h2 fd⟩
    rw [getElem?_contextResize, if_pos h1]

theorem epoll_ctl_ok_add (k : Nat → Option Nat) (p : Prop) [Decidable p] (fd ev : Nat) :
    epoll_ctl k (if p then EpollOp.EPOLL_CTL_MOD else EpollOp.EPOLL_CTL_ADD) fd ev true
      = (Function.update k fd (some ev), 0) := by
  split <;> rfl

theorem epoll_ctl_ok_del (k : Nat → Option Nat) (p : Prop) [Decidable p] (fd ev : Nat) :
    epoll_ctl k (if p then EpollOp.EPOLL_CTL_MOD else EpollOp.EPOLL_CTL_DEL) fd ev true
      = (Function.update k fd (if p then some ev else none), 0) := by
  split <;> rfl


theorem addedContext_armed (cb : Option Nat) (curSched : Option Nat) (curFiber : Nat) :
    (addedContext cb curSched curFiber).armed := by
  cases cb with
  | none => exact Or.inr ⟨rfl, rfl⟩
  | some x => exact Or.inl ⟨rfl, rfl⟩

theorem eventCount_le_two (e : Nat) : eventCount e ≤ 2 := by
  unfold eventCount
  split <;> split <;> omega

theorem sum_eventCount_le (l : List FdContext) :
    (l.map (fun c => eventCount c.events)).sum ≤ 2 * l.length := by
  induction l with
  | nil => simp
  | cons a t ih =>
    have := eventCount_le_two a.events
    simp only [List.map_cons, List.sum_cons, List.length_cons]
    omega

theorem sum_eventCount_ge (l : List FdContext) (i : Nat) (c : FdContext) (h : l[i]? = some c) :
    eventCount c.events ≤ (l.map (fun c => eventCount c.events)).sum := by
  induction l generalizing i with
  | nil => simp at h
  | cons a t ih =>
    cases i with
    | zero =>
      simp only [List.getElem?_cons_zero, Option.some.injEq] at h
      subst h
      simp only [List.map_cons, List.sum_cons]
      omega
    | succ j =>
      simp only [List.getElem?_cons_succ] at h
      have := ih j h
      simp only [List.map_cons, List.sum_cons]
      omega

theorem count_lt (m : IOManager) (hm : m.Consistent) : m.m_pendingEventCount + 1 < 2 ^ 64 := by
  have h1 := hm.count
  have h2 := sum_eventCount_le m.m_fdContexts
  have h3 := hm.size_hi
  unfold IOManager.registered at h1
  omega

theorem incr64_eq (m : IOManager) (hm : m.Consistent) :
    incr64 m.m_pendingEventCount = m.m_pendingEventCount + 1 := by
  have := count_lt m hm
  unfold incr64
  exact Nat.mod_eq_of_lt this

theorem decr64_eq (n : Nat) (h1 : 0 < n) (h2 : n < 2 ^ 64) : decr64 n = n - 1 := by
  unfold decr64
  have : n + 2 ^ 64 - 1 = (n - 1) + 2 ^ 64 := by omega
  rw [this, Nat.add_mod_right]
  exact Nat.mod_eq_of_lt (by omega)

theorem count_ge (m : IOManager) (hm : m.Consistent) (fd : Nat) (c : FdContext)
    (hc : m.m_fdContexts[fd]? = some c) : eventCount c.events ≤ m.m_pendingEventCount := by
  rw [hm.count]
  exact sum_eventCount_ge _ fd c hc

theorem addEvent_consistent (m : IOManager) (hm : m.Consistent) (fd event : Nat)
    (cb : Option Nat) (ok : Bool) (curSched : Option Nat) (curFiber : Nat)
    (curState : FiberState) (hfd : fd < 2 ^ 31) (m1 : IOManager) (r : Int)
    (h : m.addEvent fd event cb ok curSched curFiber curState = some (m1, r)) :
    m1.Consistent := by
  obtain ⟨hv, hmv, -⟩ := addEvent_vector m hm fd hfd
  unfold IOManager.addEvent at h
  simp only [hv] at h
  generalize (if fd < m.m_fdContexts.length then m.m_fdContexts
              else contextResize m.m_fdContexts (fd * 3 / 2)) = v at *
  generalize (m.m_fdContexts[fd]?).getD { fd := fd } = c at *
  have hcc : c.Consistent ∧ c.fd = fd := hmv.ctx fd c hv
  have hinc := incr64_eq _ hmv
  simp only at hinc
  split at h
  · exact absurd h (by simp)
  · rename_i hz
    have hz0 : c.events &&& event = 0 := by
      by_contra hne
      exact hz hne
    cases ok
    · simp only [epoll_ctl_fail] at h
      simp at h
      obtain ⟨rfl, -⟩ := h
      exact hmv
    · simp only [epoll_ctl_ok_add, getcontext_events] at h
      by_cases hev : event = READ ∨ event = WRITE
      · have hf := added_facts c hcc.1 event hev hz0 (addedContext cb curSched curFiber)
          (addedContext_armed cb curSched curFiber)
        simp only at hf
        obtain ⟨h1, h2, h3, -, -, -, -, hget, h9, h10⟩ := hf
        have key : IOManager.Consistent
            { m_fdContexts := v.set fd (FdContext.setcontext
                  { c with events := c.events ||| event } event
                  (addedContext cb curSched curFiber)),
              m_pendingEventCount := incr64 m.m_pendingEventCount,
              epoll := Function.update m.epoll fd (some (EPOLLET ||| c.events ||| event)),
              schedulers := m.schedulers,
              m_tickleFds := m.m_tickleFds } := by
          refine Consistent_set { m with m_fdContexts := v } hmv fd c _ hv h1 (h2.trans hcc.2)
            _ ?_ _ ?_ _
          · rw [hinc, h3]
            show m.m_pendingEventCount + 1 + eventCount c.events
              = m.m_pendingEventCount + (eventCount c.events + 1)
            omega
          · rw [if_neg h9, h10]
        simp only [hget] at h
        cases cb with
        | none =>
          by_cases hst : curState = FiberState.EXEC
          · simp [hst] at h
            obtain ⟨rfl, -⟩ := h
            exact key
          · simp [hst] at h
        | some x =>
          simp at h
          obtain ⟨rfl, -⟩ := h
          exact key
      · have hg : c.getcontext event = none := by
          unfold FdContext.getcontext
          rw [if_neg (fun e => hev (Or.inl e)), if_neg (fun e => hev (Or.inr e))]
        simp only [hg] at h
        simp at h

theorem getcontext_some (c : FdContext) (event : Nat) (ctx : EventContext)
    (h : c.getcontext event = some ctx) : event = READ ∨ event = WRITE := by
  unfold FdContext.getcontext at h
  by_cases h1 : event = READ
  · exact Or.inl h1
  · by_cases h2 : event = WRITE
    · exact Or.inr h2
    · rw [if_neg h1, if_neg h2] at h
      exact absurd h (by simp)

/-- What a successful `triggerEvent` did. -/
theorem triggerEvent_inv (c : FdContext) (event : Nat) (sch : Nat → Scheduler)
    (c1 : FdContext) (sch1 : Nat → Scheduler)
    (h : c.triggerEvent event sch = some (c1, sch1)) :
    c.events &&& event ≠ 0 ∧ (event = READ ∨ event = WRITE) ∧
    ∃ ctx sid, c.getcontext event = some ctx ∧ ctx.scheduler = some sid
      ∧ c1 = FdContext.setcontext { c with events := c.events &&& bitNot32 event } event
               ctx.afterTrigger
      ∧ sch1 = Function.update sch sid ((sch sid).schedule ctx.task) := by
  unfold FdContext.triggerEvent at h
  split at h
  · exact absurd h (by simp)
  · rename_i hne
    simp only [getcontext_events] at h
    cases hg : c.getcontext event with
    | none => rw [hg] at h; exact absurd h (by simp)
    | some ctx =>
      rw [hg] at h
      simp only at h
      cases hs : ctx.scheduler with
      | none => rw [hs] at h; exact absurd h (by simp)
      | some sid =>
        rw [hs] at h
        simp only [Option.some.injEq, Prod.mk.injEq] at h
        exact ⟨hne, getcontext_some c event ctx hg, ctx, sid, rfl, hs, h.1.symm, h.2.symm⟩

theorem getcontext_armed (c : FdContext) (hc : c.Consistent) (event : Nat)
    (hne : c.events &&& event ≠ 0) (ctx : EventContext) (hg : c.getcontext event = some ctx) :
    ctx.armed := by
  rcases getcontext_some c event ctx hg with rfl | rfl
  · have : c.read = ctx := by simpa [FdContext.getcontext] using hg
    rw [← this]
    exact hc.read_set hne
  · have : c.write = ctx := by
      simpa [FdContext.getcontext, show ¬ (WRITE = READ) by decide] using hg
    rw [← this]
    exact hc.write_set hne

/-- A successful `triggerEvent` on a consistent cell clears the direction and empties its
event context. -/
theorem triggerEvent_cleared (c : FdContext) (hc : c.Consistent) (event : Nat)
    (sch : Nat → Scheduler) (c1 : FdContext) (sch1 : Nat → Scheduler)
    (h : c.triggerEvent event sch = some (c1, sch1)) :
    c1 = FdContext.setcontext { c with events := c.events &&& bitNot32 event } event {}
      ∧ c1.Consistent ∧ c1.fd = c.fd ∧ eventCount c1.events + 1 = eventCount c.events := by
  obtain ⟨hne, hev, ctx, sid, hg, -, hc1, -⟩ := triggerEvent_inv c event sch c1 sch1 h
  rw [armed_afterTrigger ctx (getcontext_armed c hc event hne ctx hg)] at hc1
  have hf := cleared_facts c hc event hev hne
  simp only at hf
  rw [← hc1] at hf
  exact ⟨hc1, hf.1, hf.2.1, hf.2.2.1⟩

/-- Counter arithmetic of one `triggerEvent(...); --m_pendingEventCount;` pair. -/
theorem trigger_count (c c1 : FdContext) (count : Nat)
    (h1 : eventCount c1.events + 1 = eventCount c.events)
    (h2 : eventCount c.events ≤ count) (h3 : count < 2 ^ 64) :
    decr64 count + eventCount c.events = count + eventCount c1.events
      ∧ eventCount c1.events ≤ decr64 count ∧ decr64 count < 2 ^ 64 := by
  rw [decr64_eq count (by omega) h3]
  omega

theorem mask_of_some (m : IOManager) (fd : Nat) (c : FdContext)
    (hc : m.m_fdContexts[fd]? = some c) : m.mask fd = c.events := by
  unfold IOManager.mask
  rw [hc]
  rfl

theorem cancelEvent_unregistered (m : IOManager) (fd event : Nat) (ok : Bool)
    (h : m.mask fd &&& event = 0) : m.cancelEvent fd event ok = some (m, false) := by
  unfold IOManager.cancelEvent
  cases hc : m.m_fdContexts[fd]? with
  | none => rfl
  | some c =>
    rw [mask_of_some m fd c hc] at h
    simp only [h, if_true]

theorem cancelAll_unregistered (m : IOManager) (fd : Nat) (ok : Bool)
    (h : m.mask fd = 0) : m.cancelAll fd ok = some (m, false) := by
  unfold IOManager.cancelAll
  cases hc : m.m_fdContexts[fd]? with
  | none => rfl
  | some c =>
    rw [mask_of_some m fd c hc] at h
    simp only [h, if_true]

/-- The result of `cancelEvent` on a registered direction whose event context has a
scheduler, when `epoll_ctl` succeeds. -/
theorem cancelEvent_ok (m : IOManager) (fd event : Nat) (c : FdContext)
    (hc : m.m_fdContexts[fd]? = some c) (hne : c.events &&& event ≠ 0)
    (ctx : EventContext) (sid : Nat) (hg : c.getcontext event = some ctx)
    (hs : ctx.scheduler = some sid) :
    m.cancelEvent fd event true
      = some ({ m_fdContexts := m.m_fdContexts.set fd
                  (FdContext.setcontext { c with events := c.events &&& bitNot32 event } event
                    ctx.afterTrigger),
                m_pendingEventCount := decr64 m.m_pendingEventCount,
                epoll := Function.update m.epoll fd
                  (if c.events &&& bitNot32 event ≠ 0
                   then some (EPOLLET ||| (c.events &&& bitNot32 event)) else none),
                schedulers := Function.update m.schedulers sid
                  ((m.schedulers sid).schedule ctx.task),
                m_tickleFds := m.m_tickleFds }, true) := by
  unfold IOManager.cancelEvent
  simp only [hc, epoll_ctl_ok_del, triggerEvent_eq c event m.schedulers ctx sid hne hg hs]
  rw [if_neg hne]
  simp

theorem setcontext_events (c : FdContext) (event : Nat) (e : EventContext) :
    (c.setcontext event e).events = c.events := by
  unfold FdContext.setcontext
  split
  · rfl
  · split <;> rfl

theorem epoll_after_clear (k : Nat → Option Nat) (fd n : Nat) :
    Function.update k fd (if n ≠ 0 then some (EPOLLET ||| n) else none)
      = Function.update k fd (if n = 0 then none else some (EPOLLET ||| n)) := by
  by_cases h : n = 0 <;> simp [h]

/-- What a guarded trigger did, when it does not abort. -/
theorem triggerIf_inv (sel : Bool) (event : Nat) (c : FdContext) (count : Nat)
    (sch : Nat → Scheduler) (c1 : FdContext) (count1 : Nat) (sch1 : Nat → Scheduler)
    (h : triggerIf sel event c count sch = some (c1, count1, sch1)) :
    (sel = true ∧ c.triggerEvent event sch = some (c1, sch1) ∧ count1 = decr64 count)
      ∨ (sel = false ∧ c1 = c ∧ count1 = count ∧ sch1 = sch) := by
  unfold triggerIf at h
  cases sel with
  | false =>
    simp at h
    exact Or.inr ⟨rfl, h.1.symm, h.2.1.symm, h.2.2.symm⟩
  | true =>
    simp only [if_true] at h
    cases ht : c.triggerEvent event sch with
    | none => rw [ht] at h; simp at h
    | some p =>
      obtain ⟨c3, sch3⟩ := p
      rw [ht] at h
      simp at h
      obtain ⟨rfl, rfl, rfl⟩ := h
      exact Or.inl ⟨rfl, rfl, rfl⟩

/-- The cell and the counter after a guarded trigger on a consistent cell. -/
theorem triggerIf_consistent (sel : Bool) (event : Nat) (c : FdContext) (count : Nat)
    (sch : Nat → Scheduler) (c1 : FdContext) (count1 : Nat) (sch1 : Nat → Scheduler)
    (hc : c.Consistent) (hcount : eventCount c.events ≤ count) (hlt : count < 2 ^ 64)
    (h : triggerIf sel event c count sch = some (c1, count1, sch1)) :
    c1.Consistent ∧ c1.fd = c.fd
      ∧ count1 + eventCount c.events = count + eventCount c1.events
      ∧ eventCount c1.events ≤ count1 ∧ count1 < 2 ^ 64
      ∧ c1.events = (if sel then c.events &&& bitNot32 event else c.events) := by
  rcases triggerIf_inv sel event c count sch c1 count1 sch1 h with
    ⟨hs, ht, hcnt⟩ | ⟨hs, rfl, rfl, -⟩
  · obtain ⟨a0, a1, a2, a3⟩ := triggerEvent_cleared c hc event sch c1 sch1 ht
    have := trigger_count c c1 count a3 hcount hlt
    rw [hcnt, hs]
    refine ⟨a1, a2, this.1, this.2.1, this.2.2, ?_⟩
    rw [a0, setcontext_events]
    rfl
  · rw [hs]
    exact ⟨hc, rfl, rfl, hcount, hlt, rfl⟩

theorem init_consistent (schedulers : Nat → Scheduler) (tickleFds : Nat × Nat) :
    (IOManager.init schedulers tickleFds).Consistent := by
  have hlen : (contextResize [] 32).length = 32 := length_contextResize [] 32
  have hmask : ∀ fd, (IOManager.init schedulers tickleFds).mask fd = 0 := by
    intro fd
    unfold IOManager.mask IOManager.init
    simp only [getElem?_contextResize]
    by_cases h : fd < 32 <;> simp [h, NONE]
  refine ⟨?_, ?_, ?_, ?_, ?_⟩
  · intro i c hc
    unfold IOManager.init at hc
    simp only [getElem?_contextResize] at hc
    by_cases h : i < 32
    · simp [h] at hc
      rw [← hc]
      exact ⟨fresh_consistent i, rfl⟩
    · simp [h] at hc
  · show 0 = ((contextResize [] 32).map (fun c => eventCount c.events)).sum
    rw [sum_eventCount_contextResize [] 32 (by simp)]
    rfl
  · show 32 ≤ (contextResize [] 32).length
    omega
  · show (contextResize [] 32).length ≤ 2 ^ 32
    omega
  · intro fd hfd
    rw [hmask fd]
    have hfd1 : fd ≠ tickleFds.1 := hfd
    show Function.update (fun _ => none) tickleFds.1 (some (EPOLLIN ||| EPOLLET)) fd = _
    rw [Function.update_noteq hfd1]
    rfl

theorem getElem?_set_self_of_some {α : Type} (l : List α) (i : Nat) (a b : α)
    (h : l[i]? = some a) : (l.set i b)[i]? = some b := by
  have hi : i < l.length := by
    by_contra hlt
    rw [List.getElem?_eq_none (by omega)] at h
    exact absurd h (by simp)
  simp [List.getElem?_set, hi]

theorem schedule_fibers (s : Scheduler) (ft : FiberAndThread)
    (h : ft.fiber.isSome || ft.cb.isSome) :
    (s.schedule ft).m_fibers = s.m_fibers ++ [ft] := by
  unfold Scheduler.schedule Scheduler.scheduleNoLock
  simp only [h, if_true]
  split <;> rfl

theorem schedule_fibers_empty (s : Scheduler) (ft : FiberAndThread)
    (h : (ft.fiber.isSome || ft.cb.isSome) = false) :
    (s.schedule ft).m_fibers = s.m_fibers := by
  unfold Scheduler.schedule Scheduler.scheduleNoLock
  simp only [h, Bool.false_eq_true, if_false]
  split <;> rfl

theorem armed_task (e : EventContext) (h : e.armed) :
    (e.task.fiber.isSome || e.task.cb.isSome) = true
      ∧ ((e.cb.isSome ∧ e.task = { fiber := none, cb := e.cb, thread := -1 })
          ∨ (e.cb = none ∧ e.fiber.isSome
              ∧ e.task = { fiber := e.fiber, cb := none, thread := -1 })) := by
  obtain ⟨s, f, cb⟩ := e
  rcases h with ⟨h1, h2⟩ | ⟨h1, h2⟩
  · simp only at h1 h2
    subst h2
    simp [EventContext.task, h1]
  · simp only at h1 h2
    subst h1
    simp [EventContext.task, h2]

/-- C2: `cancelEvent` on a registered (fd, dir) whose event context names a scheduler, with a
successful `epoll_ctl`, appends the stored callable or coroutine exactly once to that
scheduler's queue and to no other, clears the direction's bit and keeps the other one,
decrements the pending-event count by 1 and returns true; on an unregistered (fd, dir) it
returns false and leaves the whole state as it was. -/
theorem C2_cancelEvent_fires_once (m : IOManager) (hm : m.Consistent) (fd dir : Nat)
    (hdir : dir = READ ∨ dir = WRITE) :
    (∀ (c : FdContext) (ctx : EventContext) (sid : Nat),
        m.m_fdContexts[fd]? = some c → c.events &&& dir ≠ 0 →
        c.getcontext dir = some ctx → ctx.scheduler = some sid →
        ∃ m1 c1, m.cancelEvent fd dir true = some (m1, true)
          ∧ (m1.schedulers sid).m_fibers = (m.schedulers sid).m_fibers ++ [ctx.task]
          ∧ (∀ s, s ≠ sid → m1.schedulers s = m.schedulers s)
          ∧ ((ctx.cb.isSome ∧ ctx.task = { fiber := none, cb := ctx.cb, thread := -1 })
              ∨ (ctx.cb = none ∧ ctx.fiber.isSome
                  ∧ ctx.task = { fiber := ctx.fiber, cb := none, thread := -1 }))
          ∧ m1.m_fdContexts[fd]? = some c1
          ∧ c1.events &&& dir = 0
          ∧ c1.events &&& otherDir dir = c.events &&& otherDir dir
          ∧ m1.m_pendingEventCount + 1 = m.m_pendingEventCount)
    ∧ (∀ ok, m.mask fd &&& dir = 0 → m.cancelEvent fd dir ok = some (m, false)) := by
  refine ⟨?_, fun ok h => cancelEvent_unregistered m fd dir ok h⟩
  intro c ctx sid hc hne hg hs
  have hcc := hm.ctx fd c hc
  have harm := getcontext_armed c hcc.1 dir hne ctx hg
  have hok := cancelEvent_ok m fd dir c hc hne ctx sid hg hs
  rw [armed_afterTrigger ctx harm] at hok
  have hf := cleared_facts c hcc.1 dir hdir hne
  simp only at hf
  obtain ⟨-, -, h3, h4, h5, -, -⟩ := hf
  obtain ⟨t1, t2⟩ := armed_task ctx harm
  refine ⟨_, _, hok, ?_, ?_, t2, getElem?_set_self_of_some _ fd _ _ hc, h4, h5, ?_⟩
  · show (Function.update m.schedulers sid ((m.schedulers sid).schedule ctx.task) sid).m_fibers
      = _
    rw [Function.update_same]
    exact schedule_fibers _ _ t1
  · intro s hs2
    show Function.update m.schedulers sid ((m.schedulers sid).schedule ctx.task) s = _
    exact Function.update_noteq hs2 _ _
  · have := trigger_count c _ m.m_pendingEventCount h3 (count_ge m hm fd c hc)
      (by have := count_lt m hm; omega)
    show decr64 m.m_pendingEventCount + 1 = m.m_pendingEventCount
    omega

/-- A guarded trigger on a consistent cell whose selected direction is registered and names
a scheduler does not abort; it appends the stored task to that scheduler's queue only. -/
theorem triggerIf_spec (sel : Bool) (event : Nat) (c : FdContext) (count : Nat)
    (sch : Nat → Scheduler) (ctx : EventContext) (hc : c.Consistent)
    (hev : event = READ ∨ event = WRITE) (hg : c.getcontext event = some ctx)
    (hsel : sel = true → c.events &&& event ≠ 0)
    (hs : sel = true → ctx.scheduler.isSome) :
    ∃ c1 count1 sch1, triggerIf sel event c count sch = some (c1, count1, sch1)
      ∧ (∀ sid, (sch1 sid).m_fibers
            = (sch sid).m_fibers
                ++ (if sel = true ∧ ctx.scheduler = some sid then [ctx.task] else []))
      ∧ c1.getcontext (otherDir event) = c.getcontext (otherDir event)
      ∧ c1.events &&& otherDir event = c.events &&& otherDir event := by
  cases sel with
  | false =>
    refine ⟨c, count, sch, rfl, ?_, rfl, rfl⟩
    intro sid
    simp
  | true =>
    have hne := hsel rfl
    have hsome := hs rfl
    obtain ⟨sid0, hsid0⟩ := Option.isSome_iff_exists.mp hsome
    have harm := getcontext_armed c hc event hne ctx hg
    have hf := cleared_facts c hc event hev hne
    simp only at hf
    obtain ⟨-, -, -, -, h5, h6, -⟩ := hf
    refine ⟨FdContext.setcontext { c with events := c.events &&& bitNot32 event } event
                ctx.afterTrigger, decr64 count,
            Function.update sch sid0 ((sch sid0).schedule ctx.task), ?_, ?_, ?_, ?_⟩
    · unfold triggerIf
      rw [if_pos rfl, triggerEvent_eq c event sch ctx sid0 hne hg hsid0]
    · intro sid
      by_cases hsid : sid = sid0
      · subst hsid
        rw [Function.update_same, schedule_fibers _ _ (armed_task ctx harm).1]
        simp [hsid0]
      · rw [Function.update_noteq hsid]
        have : ¬ (ctx.scheduler = some sid) := by
          rw [hsid0]
          intro h
          exact hsid (Option.some.inj h).symm
        simp [this]
    · rw [armed_afterTrigger ctx harm]
      exact h6
    · rw [armed_afterTrigger ctx harm]
      exact h5

theorem mask_cleared_all (e : Nat) (he : e = 0 ∨ e = 1 ∨ e = 4 ∨ e = 5) :
    (if decide (e &&& WRITE ≠ 0) = true
      then (if decide (e &&& READ ≠ 0) = true then e &&& bitNot32 READ else e) &&& bitNot32 WRITE
      else (if decide (e &&& READ ≠ 0) = true then e &&& bitNot32 READ else e)) = 0 := by
  rcases he with rfl | rfl | rfl | rfl <;> decide

/-- Whenever `cancelAll` reaches its closing assertion on a consistent cell, the mask is
empty. -/
theorem cancelAll_assertion (c c1 c2 : FdContext) (hc : c.Consistent) (n n1 n2 : Nat)
    (s s1 s2 : Nat → Scheduler) (hn : eventCount c.events ≤ n) (hlt : n < 2 ^ 64)
    (h1 : triggerIf (decide (c.events &&& READ ≠ 0)) READ c n s = some (c1, n1, s1))
    (h2 : triggerIf (decide (c1.events &&& WRITE ≠ 0)) WRITE c1 n1 s1 = some (c2, n2, s2)) :
    c2.events = 0 := by
  obtain ⟨a1, -, -, a4, a5, a6⟩ := triggerIf_consistent _ _ c n s c1 n1 s1 hc hn hlt h1
  obtain ⟨-, -, -, -, -, b6⟩ := triggerIf_consistent _ _ c1 n1 s1 c2 n2 s2 a1 a4 a5 h2
  rw [a6] at b6
  rcases hc.mask with h | h | h | h <;> rw [h] at b6 <;> exact b6.trans (by decide)

/-- C6: `cancelAll` on an fd whose mask is non-empty and whose registered directions name a
scheduler, with a successful `epoll_ctl`, appends the continuation of every registered
direction exactly once to its scheduler's queue (READ before WRITE) and nothing else,
decrements the pending-event count by the number of registered directions, leaves the mask
empty and returns true; on an fd with an empty mask it returns false and leaves the whole
state as it was; and whenever the two guarded `triggerEvent` calls return, the mask is empty,
so the closing assertion `events == 0` holds. -/
theorem C6_cancelAll_fires_all (m : IOManager) (hm : m.Consistent) (fd : Nat) :
    (∀ (c : FdContext), m.m_fdContexts[fd]? = some c → c.events ≠ 0 →
        (c.events &&& READ ≠ 0 → c.read.scheduler.isSome) →
        (c.events &&& WRITE ≠ 0 → c.write.scheduler.isSome) →
        ∃ m1 c1, m.cancelAll fd true = some (m1, true)
          ∧ (∀ sid, (m1.schedulers sid).m_fibers
                = (m.schedulers sid).m_fibers ++ c.firedTasks sid)
          ∧ m1.m_fdContexts[fd]? = some c1
          ∧ c1.events = 0
          ∧ m1.m_pendingEventCount + eventCount c.events = m.m_pendingEventCount)
    ∧ (∀ ok, m.mask fd = 0 → m.cancelAll fd ok = some (m, false))
    ∧ (∀ (c c1 c2 : FdContext) (n1 n2 : Nat) (s1 s2 : Nat → Scheduler),
        m.m_fdContexts[fd]? = some c →
        triggerIf (decide (c.events &&& READ ≠ 0)) READ c m.m_pendingEventCount m.schedulers
          = some (c1, n1, s1) →
        triggerIf (decide (c1.events &&& WRITE ≠ 0)) WRITE c1 n1 s1 = some (c2, n2, s2) →
        c2.events = 0) := by
  refine ⟨?_, fun ok h => cancelAll_unregistered m fd ok h, ?_⟩
  swap
  · intro c c1 c2 n1 n2 s1 s2 hc h1 h2
    exact cancelAll_assertion c c1 c2 (hm.ctx fd c hc).1 _ n1 n2 _ s1 s2 (count_ge m hm fd c hc)
      (by have := count_lt m hm; omega) h1 h2
  intro c hc hne hrs hws
  have hcc := hm.ctx fd c hc
  have hlt : m.m_pendingEventCount < 2 ^ 64 := by have := count_lt m hm; omega
  obtain ⟨c1, count1, sch1, ht1, hq1, hg1, he1⟩ :=
    triggerIf_spec (decide (c.events &&& READ ≠ 0)) READ c m.m_pendingEventCount m.schedulers
      c.read hcc.1 (Or.inl rfl) rfl (fun h => of_decide_eq_true h)
      (fun h => hrs (of_decide_eq_true h))
  obtain ⟨a1, a2, a3, a4, a5, a6⟩ := triggerIf_consistent _ _ c m.m_pendingEventCount
    m.schedulers c1 count1 sch1 hcc.1 (count_ge m hm fd c hc) hlt ht1
  have hw1 : c1.write = c.write := by
    have : c1.getcontext WRITE = c.getcontext WRITE := hg1
    simpa [FdContext.getcontext, show ¬ (WRITE = READ) by decide] using this
  have hew : c1.events &&& WRITE = c.events &&& WRITE := he1
  obtain ⟨c2, count2, sch2, ht2, hq2, -, -⟩ :=
    triggerIf_spec (decide (c1.events &&& WRITE ≠ 0)) WRITE c1 count1 sch1
      c1.write a1 (Or.inr rfl) (by simp [FdContext.getcontext, show ¬ (WRITE = READ) by decide])
      (fun h => of_decide_eq_true h)
      (fun h => by rw [hw1]; exact hws (by rw [← hew]; exact of_decide_eq_true h))
  obtain ⟨b1, b2, b3, -, -, b6⟩ := triggerIf_consistent _ _ c1 count1 sch1 c2 count2 sch2
    a1 a4 a5 ht2
  have hz : c2.events = 0 := by
    rw [b6, hew, a6]
    exact mask_cleared_all c.events hcc.1.mask
  refine ⟨{ m with m_fdContexts := m.m_fdContexts.set fd c2, m_pendingEventCount := count2,
                   epoll := Function.update m.epoll fd none, schedulers := sch2 }, c2,
          ?_, ?_, getElem?_set_self_of_some _ fd _ _ hc, hz, ?_⟩
  · unfold IOManager.cancelAll
    simp only [hc, if_neg hne, epoll_ctl_ok, ne_eq, not_true_eq_false, if_false]
    simp only [ne_eq] at ht1 ht2
    simp only [ht1, ht2, hz]
    simp
  · intro sid
    rw [hq2 sid, hq1 sid, List.append_assoc]
    unfold FdContext.firedTasks
    simp only [decide_eq_true_eq, hew, hw1]
  · show count2 + eventCount c.events = m.m_pendingEventCount
    have : eventCount c2.events = 0 := by rw [hz]; rfl
    omega

theorem holds_empty (sid : Nat) (t : FiberAndThread) :
    ({} : EventContext).holds sid t = 0 := by
  unfold EventContext.holds
  simp

theorem holds_afterTrigger (e : EventContext) (sid : Nat) (t : FiberAndThread) :
    e.afterTrigger.holds sid t = 0 := by
  unfold EventContext.holds EventContext.afterTrigger
  split <;> simp

theorem holds_fresh (i sid : Nat) (t : FiberAndThread) :
    ({ fd := i } : FdContext).holds sid t = 0 := by
  unfold FdContext.holds
  rw [holds_empty]

/-- Replacing the event context of a direction changes the count of a cell accordingly. -/
theorem holds_setcontext (c : FdContext) (event e0 : Nat) (ctx e : EventContext)
    (hg : c.getcontext event = some ctx) (sid : Nat) (t : FiberAndThread) :
    (FdContext.setcontext { c with events := e0 } event e).holds sid t + ctx.holds sid t
      = c.holds sid t + e.holds sid t := by
  rcases getcontext_some c event ctx hg with rfl | rfl
  · have : c.read = ctx := by simpa [FdContext.getcontext] using hg
    subst this
    simp only [FdContext.setcontext, FdContext.holds, if_true]
    omega
  · have : c.write = ctx := by
      simpa [FdContext.getcontext, show ¬ (WRITE = READ) by decide] using hg
    subst this
    simp only [FdContext.setcontext, FdContext.holds, show ¬ (WRITE = READ) by decide,
      if_true, if_false]
    omega

theorem sum_map_contextResize (f : FdContext → Nat) (hf : ∀ i, f { fd := i } = 0)
    (v : List FdContext) (n : Nat) (h : v.length ≤ n) :
    ((contextResize v n).map f).sum = (v.map f).sum := by
  rw [contextResize_eq_append v n h, List.map_append, List.sum_append, List.map_map]
  have hz : ∀ l : List Nat,
      (l.map (f ∘ (fun j => ({ fd := v.length + j } : FdContext)))).sum = 0 := by
    intro l
    induction l with
    | nil => rfl
    | cons a t ih =>
      simp only [List.map_cons, List.sum_cons, ih, Function.comp]
      exact hf _
  rw [hz]
  rfl

/-- `triggerEvent` moves a held task from the cell to the queue of its scheduler. -/
theorem triggerEvent_potential (c : FdContext) (event : Nat) (sch : Nat → Scheduler)
    (c1 : FdContext) (sch1 : Nat → Scheduler)
    (h : c.triggerEvent event sch = some (c1, sch1)) (sid : Nat) (t : FiberAndThread) :
    c1.holds sid t + (sch1 sid).m_fibers.count t
      ≤ c.holds sid t + (sch sid).m_fibers.count t := by
  obtain ⟨-, -, ctx, sid0, hg, hs, rfl, rfl⟩ := triggerEvent_inv c event sch c1 sch1 h
  have h1 := holds_setcontext c event (c.events &&& bitNot32 event) ctx ctx.afterTrigger hg sid t
  rw [holds_afterTrigger] at h1
  by_cases hsid : sid = sid0
  · subst hsid
    rw [Function.update_same]
    have hq : ((sch sid).schedule ctx.task).m_fibers.count t
        ≤ (sch sid).m_fibers.count t + ctx.holds sid t := by
      cases hne : (ctx.task.fiber.isSome || ctx.task.cb.isSome) with
      | false =>
        rw [schedule_fibers_empty _ _ hne]
        omega
      | true =>
        rw [schedule_fibers _ _ hne, List.count_append]
        unfold EventContext.holds
        by_cases ht : ctx.task = t
        · simp [hs, ht]
        · rw [List.count_singleton]
          simp [ht]
    omega
  · rw [Function.update_noteq hsid]
    omega

theorem triggerIf_potential (sel : Bool) (event : Nat) (c : FdContext) (count : Nat)
    (sch : Nat → Scheduler) (c1 : FdContext) (count1 : Nat) (sch1 : Nat → Scheduler)
    (h : triggerIf sel event c count sch = some (c1, count1, sch1))
    (sid : Nat) (t : FiberAndThread) :
    c1.holds sid t + (sch1 sid).m_fibers.count t
      ≤ c.holds sid t + (sch sid).m_fibers.count t := by
  rcases triggerIf_inv sel event c count sch c1 count1 sch1 h with
    ⟨-, ht, -⟩ | ⟨-, rfl, -, rfl⟩
  · exact triggerEvent_potential c event sch c1 sch1 ht sid t
  · exact le_refl _

theorem holders_set_le (v : List FdContext) (fd : Nat) (c c1 : FdContext) (k : Nat)
    (sid : Nat) (t : FiberAndThread) (hc : v[fd]? = some c)
    (h : c1.holds sid t ≤ c.holds sid t + k) :
    ((v.set fd c1).map (fun c => c.holds sid t)).sum
      ≤ (v.map (fun c => c.holds sid t)).sum + k := by
  have := sum_map_set (fun c : FdContext => c.holds sid t) v fd c1 c hc
  simp only at this
  omega

theorem addEvent_potential (m : IOManager) (fd event : Nat) (cb : Option Nat) (ok : Bool)
    (curSched : Option Nat) (curFiber : Nat) (curState : FiberState) (m1 : IOManager) (r : Int)
    (h : m.addEvent fd event cb ok curSched curFiber curState = some (m1, r))
    (sid : Nat) (t : FiberAndThread) :
    m1.holders sid t + m1.queued sid t
      ≤ m.holders sid t + m.queued sid t + (addedContext cb curSched curFiber).holds sid t := by
  unfold IOManager.addEvent at h
  have hvsum : ((if fd < m.m_fdContexts.length then m.m_fdContexts
                 else contextResize m.m_fdContexts (fd * 3 / 2)).map
                  (fun c => c.holds sid t)).sum = m.holders sid t := by
    by_cases hlt : fd < m.m_fdContexts.length
    · rw [if_pos hlt]; rfl
    · rw [if_neg hlt]
      exact sum_map_contextResize _ (fun i => holds_fresh i sid t) _ _ (by omega)
  generalize (if fd < m.m_fdContexts.length then m.m_fdContexts
              else contextResize m.m_fdContexts (fd * 3 / 2)) = v at h hvsum
  cases hc : v[fd]? with
  | none => simp only [hc] at h; simp at h
  | some c =>
    simp only [hc] at h
    split at h
    · exact absurd h (by simp)
    · cases ok
      · simp only [epoll_ctl_fail] at h
        simp at h
        obtain ⟨rfl, -⟩ := h
        show (v.map (fun c => c.holds sid t)).sum + m.queued sid t ≤ _
        rw [hvsum]
        omega
      · simp only [epoll_ctl_ok_add, getcontext_events, ne_eq, not_true_eq_false,
          if_false] at h
        cases hg : c.getcontext event with
        | none => rw [hg] at h; simp at h
        | some ectx =>
          rw [hg] at h
          simp only at h
          by_cases hassert : (ectx.scheduler.isSome || ectx.fiber.isSome || ectx.cb.isSome) = true
          · rw [if_pos hassert] at h
            exact absurd h (by simp)
          · rw [if_neg hassert] at h
            have hempty : ectx.scheduler = none ∧ ectx.fiber = none ∧ ectx.cb = none := by
              obtain ⟨s, f, b⟩ := ectx
              cases s <;> cases f <;> cases b <;> simp at hassert ⊢
            have key : ∀ newctx : EventContext,
                newctx.holds sid t = (addedContext cb curSched curFiber).holds sid t →
                ((v.set fd (FdContext.setcontext { c with events := c.events ||| event } event
                    newctx)).map (fun c => c.holds sid t)).sum + m.queued sid t
                  ≤ m.holders sid t + m.queued sid t
                      + (addedContext cb curSched curFiber).holds sid t := by
              intro newctx hnew
              have h1 := holds_setcontext c event (c.events ||| event) ectx newctx hg sid t
              have h2 := holders_set_le v fd c
                (FdContext.setcontext { c with events := c.events ||| event } event newctx)
                (newctx.holds sid t) sid t hc (by omega)
              rw [hvsum, hnew] at h2
              omega
            cases cb with
            | none =>
              by_cases hst : curState = FiberState.EXEC
              · simp [hst] at h
                obtain ⟨rfl, -⟩ := h
                refine key _ ?_
                simp [EventContext.holds, EventContext.task, addedContext, hempty.2.2]
              · simp [hst] at h
            | some x =>
              simp at h
              obtain ⟨rfl, -⟩ := h
              refine key _ ?_
              simp [EventContext.holds, EventContext.task, addedContext]

theorem delEvent_potential (m : IOManager) (fd event : Nat) (ok : Bool) (m1 : IOManager)
    (r : Bool) (h : m.delEvent fd event ok = some (m1, r)) (sid : Nat) (t : FiberAndThread) :
    m1.holders sid t + m1.queued sid t ≤ m.holders sid t + m.queued sid t := by
  unfold IOManager.delEvent at h
  cases hc : m.m_fdContexts[fd]? with
  | none =>
    rw [hc] at h
    simp at h
    rw [← h.1]
  | some c =>
    rw [hc] at h
    simp only at h
    split at h
    · simp at h
      rw [← h.1]
    · cases ok
      · simp only [epoll_ctl_fail] at h
        simp at h
        rw [← h.1]
      · simp only [epoll_ctl_ok_del, getcontext_events] at h
        cases hg : c.getcontext event with
        | none => rw [hg] at h; simp at h
        | some ectx =>
          rw [hg] at h
          simp at h
          rw [← h.1]
          have h1 := holds_setcontext c event (c.events &&& bitNot32 event) ectx
            (FdContext.resetContext ectx) hg sid t
          have h0 : (FdContext.resetContext ectx).holds sid t = 0 := holds_empty sid t
          have h2 := holders_set_le m.m_fdContexts fd c
            (FdContext.setcontext { c with events := c.events &&& bitNot32 event } event
              (FdContext.resetContext ectx)) 0 sid t hc (by omega)
          show ((m.m_fdContexts.set fd _).map (fun c => c.holds sid t)).sum + m.queued sid t ≤ _
          unfold IOManager.holders
          omega

theorem cancelEvent_potential (m : IOManager) (fd event : Nat) (ok : Bool) (m1 : IOManager)
    (r : Bool) (h : m.cancelEvent fd event ok = some (m1, r)) (sid : Nat)
    (t : FiberAndThread) :
    m1.holders sid t + m1.queued sid t ≤ m.holders sid t + m.queued sid t := by
  unfold IOManager.cancelEvent at h
  cases hc : m.m_fdContexts[fd]? with
  | none =>
    rw [hc] at h
    simp at h
    rw [← h.1]
  | some c =>
    rw [hc] at h
    simp only at h
    split at h
    · simp at h
      rw [← h.1]
    · cases ok
      · simp only [epoll_ctl_fail] at h
        simp at h
        rw [← h.1]
      · simp only [epoll_ctl_ok_del] at h
        cases ht : c.triggerEvent event m.schedulers with
        | none => rw [ht] at h; simp at h
        | some p =>
          obtain ⟨c1, sch1⟩ := p
          rw [ht] at h
          simp at h
          rw [← h.1]
          have h1 := triggerEvent_potential c event m.schedulers c1 sch1 ht sid t
          have hs := sum_map_set (fun c : FdContext => c.holds sid t) m.m_fdContexts fd c1 c hc
          simp only at hs
          show ((m.m_fdContexts.set fd c1).map (fun c => c.holds sid t)).sum
                + (sch1 sid).m_fibers.count t ≤ _
          unfold IOManager.holders IOManager.queued
          omega

/-- Two guarded triggers in a row, then the cell written back. -/
theorem two_triggers_potential (m : IOManager) (fd : Nat) (c : FdContext)
    (hc : m.m_fdContexts[fd]? = some c) (s1 s2 : Bool) (c1 c2 : FdContext)
    (n1 n2 : Nat) (sch1 sch2 : Nat → Scheduler)
    (h1 : triggerIf s1 READ c m.m_pendingEventCount m.schedulers = some (c1, n1, sch1))
    (h2 : triggerIf s2 WRITE c1 n1 sch1 = some (c2, n2, sch2))
    (k : Nat → Option Nat) (sid : Nat) (t : FiberAndThread) :
    IOManager.holders { m with m_fdContexts := m.m_fdContexts.set fd c2,
                               m_pendingEventCount := n2, epoll := k, schedulers := sch2 } sid t
      + IOManager.queued { m with m_fdContexts := m.m_fdContexts.set fd c2,
                                  m_pendingEventCount := n2, epoll := k, schedulers := sch2 } sid t
      ≤ m.holders sid t + m.queued sid t := by
  have p1 := triggerIf_potential s1 READ c _ _ c1 n1 sch1 h1 sid t
  have p2 := triggerIf_potential s2 WRITE c1 _ _ c2 n2 sch2 h2 sid t
  have hs := sum_map_set (fun c : FdContext => c.holds sid t) m.m_fdContexts fd c2 c hc
  simp only at hs
  show ((m.m_fdContexts.set fd c2).map (fun c => c.holds sid t)).sum
        + (sch2 sid).m_fibers.count t ≤ _
  unfold IOManager.holders IOManager.queued
  omega

theorem cancelAll_potential (m : IOManager) (fd : Nat) (ok : Bool) (m1 : IOManager)
    (r : Bool) (h : m.cancelAll fd ok = some (m1, r)) (sid : Nat) (t : FiberAndThread) :
    m1.holders sid t + m1.queued sid t ≤ m.holders sid t + m.queued sid t := by
  unfold IOManager.cancelAll at h
  cases hc : m.m_fdContexts[fd]? with
  | none =>
    rw [hc] at h
    simp at h
    rw [← h.1]
  | some c =>
    rw [hc] at h
    simp only at h
    by_cases hz : c.events = 0
    · rw [if_pos hz] at h
      simp at h
      rw [← h.1]
    · rw [if_neg hz] at h
      cases ok
      · simp only [epoll_ctl_fail] at h
        simp at h
        rw [← h.1]
      · simp only [epoll_ctl_ok, ne_eq, not_true_eq_false, if_false, if_true] at h
        cases ht : triggerIf (decide ¬(c.events &&& READ = 0)) READ c m.m_pendingEventCount
            m.schedulers with
        | none => rw [ht] at h; simp at h
        | some p =>
          obtain ⟨c1, n1, sch1⟩ := p
          rw [ht] at h
          simp only at h
          cases ht2 : triggerIf (decide ¬(c1.events &&& WRITE = 0)) WRITE c1 n1 sch1 with
          | none => rw [ht2] at h; simp at h
          | some p2 =>
            obtain ⟨c2, n2, sch2⟩ := p2
            rw [ht2] at h
            simp only at h
            by_cases he : c2.events = 0
            · simp [he] at h
              rw [← h.1]
              exact two_triggers_potential m fd c hc _ _ c1 c2 n1 n2 sch1 sch2 ht ht2 _ sid t
            · simp [he] at h

theorem idleEvent_potential (m : IOManager) (fd revents : Nat) (ok : Bool) (m1 : IOManager)
    (h : m.idleEvent fd revents ok = some m1) (sid : Nat) (t : FiberAndThread) :
    m1.holders sid t + m1.queued sid t ≤ m.holders sid t + m.queued sid t := by
  unfold IOManager.idleEvent at h
  cases hc : m.m_fdContexts[fd]? with
  | none => rw [hc] at h; simp at h
  | some c =>
    rw [hc] at h
    simp only at h
    split at h
    · simp only [Option.some.injEq] at h
      rw [← h]
    · cases ok
      · simp only [epoll_ctl_fail] at h
        simp at h
        rw [← h]
      · simp only [epoll_ctl_ok_del, ne_eq, not_true_eq_false, if_false] at h
        cases ht : triggerIf (decide ¬(realEvents revents &&& READ = 0)) READ c
            m.m_pendingEventCount m.schedulers with
        | none => rw [ht] at h; simp at h
        | some p =>
          obtain ⟨c1, n1, sch1⟩ := p
          rw [ht] at h
          simp only at h
          cases ht2 : triggerIf (decide ¬(realEvents revents &&& WRITE = 0)) WRITE c1 n1
              sch1 with
          | none => rw [ht2] at h; simp at h
          | some p2 =>
            obtain ⟨c2, n2, sch2⟩ := p2
            rw [ht2] at h
            simp only [Option.some.injEq] at h
            rw [← h]
            exact two_triggers_potential m fd c hc _ _ c1 c2 n1 n2 sch1 sch2 ht ht2 _ sid t

/-- One call that does not store `t` never raises the number of event contexts holding `t`
plus the occurrences of `t` in the queue. -/
theorem step_potential (m : IOManager) (op : IOOp) (m1 : IOManager)
    (h : m.step op = some m1) (sid : Nat) (t : FiberAndThread) (hst : ¬ op.stores t) :
    m1.holders sid t + m1.queued sid t ≤ m.holders sid t + m.queued sid t := by
  cases op with
  | addEvent fd event cb ok curSched curFiber curState =>
    simp only [IOManager.step, Option.map_eq_some'] at h
    obtain ⟨⟨m2, r⟩, h1, rfl⟩ := h
    have := addEvent_potential m fd event cb ok curSched curFiber curState m2 r h1 sid t
    have h0 : (addedContext cb curSched curFiber).holds sid t = 0 := by
      unfold EventContext.holds
      rw [if_neg]
      intro hh
      exact hst hh.2
    simp only
    omega
  | delEvent fd event ok =>
    simp only [IOManager.step, Option.map_eq_some'] at h
    obtain ⟨⟨m2, r⟩, h1, rfl⟩ := h
    exact delEvent_potential m fd event ok m2 r h1 sid t
  | cancelEvent fd event ok =>
    simp only [IOManager.step, Option.map_eq_some'] at h
    obtain ⟨⟨m2, r⟩, h1, rfl⟩ := h
    exact cancelEvent_potential m fd event ok m2 r h1 sid t
  | cancelAll fd ok =>
    simp only [IOManager.step, Option.map_eq_some'] at h
    obtain ⟨⟨m2, r⟩, h1, rfl⟩ := h
    exact cancelAll_potential m fd ok m2 r h1 sid t
  | idleEvent fd revents ok =>
    exact idleEvent_potential m fd revents ok m1 h sid t

theorem run_potential (ops : List IOOp) (m m2 : IOManager) (h : m.run ops = some m2)
    (sid : Nat) (t : FiberAndThread) (hst : ∀ op ∈ ops, ¬ op.stores t) :
    m2.holders sid t + m2.queued sid t ≤ m.holders sid t + m.queued sid t := by
  induction ops generalizing m with
  | nil =>
    simp only [IOManager.run, Option.some.injEq] at h
    rw [← h]
  | cons op rest ih =>
    simp only [IOManager.run] at h
    cases hs : m.step op with
    | none => rw [hs] at h; simp at h
    | some m1 =>
      rw [hs] at h
      have h1 := step_potential m op m1 hs sid t (hst op (List.mem_cons_self _ _))
      have h2 := ih m1 h (fun o ho => hst o (List.mem_cons_of_mem _ ho))
      omega

/-- C3: no double fire. After a successful `addEvent` that stores continuation `t`, and any
later sequence of `delEvent`, `cancelEvent`, `cancelAll`, idle-loop dispatch steps and
`addEvent` calls that store other continuations (so until `t` is registered again), every
scheduler queue gained at most as many occurrences of `t` as event contexts held `t` for that
scheduler and do not hold it any more; when no event context held `t` and no queue contained
it before the `addEvent`, `t` occurs at most once in the queue of the scheduler named at
registration and in no other queue. -/
theorem C3_no_double_fire (m m1 m2 : IOManager) (fd dir : Nat) (cb : Option Nat) (ok : Bool)
    (curSched : Option Nat) (curFiber : Nat) (curState : FiberState)
    (hadd : m.addEvent fd dir cb ok curSched curFiber curState = some (m1, 0))
    (ops : List IOOp)
    (hops : ∀ op ∈ ops, ¬ op.stores (addedContext cb curSched curFiber).task)
    (hrun : m1.run ops = some m2) (sid : Nat) :
    m2.queued sid (addedContext cb curSched curFiber).task
        + m2.holders sid (addedContext cb curSched curFiber).task
      ≤ m1.queued sid (addedContext cb curSched curFiber).task
        + m1.holders sid (addedContext cb curSched curFiber).task
    ∧ ((∀ s, m.queued s (addedContext cb curSched curFiber).task = 0) →
        (∀ s, m.holders s (addedContext cb curSched curFiber).task = 0) →
        (m2.schedulers sid).m_fibers.count (addedContext cb curSched curFiber).task
          ≤ if curSched = some sid then 1 else 0) := by
  have h1 := addEvent_potential m fd dir cb ok curSched curFiber curState m1 0 hadd sid
    (addedContext cb curSched curFiber).task
  have h2 := run_potential ops m1 m2 hrun sid (addedContext cb curSched curFiber).task hops
  refine ⟨by omega, ?_⟩
  intro hq hh
  rw [hq sid, hh sid] at h1
  have h3 : (addedContext cb curSched curFiber).holds sid (addedContext cb curSched curFiber).task
      ≤ if curSched = some sid then 1 else 0 := by
    unfold EventContext.holds
    by_cases hs : curSched = some sid
    · rw [if_pos hs]
      split <;> omega
    · rw [if_neg hs, if_neg]
      · intro hcon
        exact hs hcon.1
  have h4 : (m2.schedulers sid).m_fibers.count (addedContext cb curSched curFiber).task
      = m2.queued sid (addedContext cb curSched curFiber).task := rfl
  omega

theorem exampleRegistered_eq :
    (IOManager.init (fun _ => {}) (5, 6)).addEvent 3 READ (some 7) true (some 0) 1 FiberState.EXEC
      = some (exampleRegistered, 0) := rfl

theorem exampleBoth_eq :
    exampleRegistered.addEvent 3 WRITE none true (some 1) 9 FiberState.EXEC
      = some (exampleBoth, 0) := rfl

theorem exampleRegistered_consistent : exampleRegistered.Consistent :=
  addEvent_consistent _ (init_consistent _ _) 3 READ (some 7) true (some 0) 1 FiberState.EXEC
    (by decide) _ _ exampleRegistered_eq

theorem exampleBoth_consistent : exampleBoth.Consistent :=
  addEvent_consistent _ exampleRegistered_consistent 3 WRITE none true (some 1) 9
    FiberState.EXEC (by decide) _ _ exampleBoth_eq

theorem exampleRegistered_reachable : exampleRegistered.Reachable :=
  IOManager.Reachable.step (.addEvent 3 READ (some 7) true (some 0) 1 FiberState.EXEC)
    (IOManager.Reachable.init (fun _ => {}) (5, 6)) (by show 3 < 2 ^ 31; decide) rfl

theorem exampleFired_eq :
    exampleRegistered.cancelEvent 3 READ true = some (exampleFired, true) := rfl

theorem exampleFired_cancel :
    exampleFired.cancelEvent 3 READ true = some (exampleFired, false) := rfl

theorem exampleFired_idle : exampleFired.idleEvent 3 1 true = some exampleFired := rfl

theorem exampleFired_cancelAll :
    exampleFired.cancelAll 3 true = some (exampleFired, false) := rfl

theorem exampleFired_del :
    exampleFired.delEvent 3 READ true = some (exampleFired, false) := rfl

theorem exampleFired_run :
    exampleRegistered.run
        [.cancelEvent 3 READ true, .cancelEvent 3 READ true, .idleEvent 3 1 true,
         .cancelAll 3 true, .delEvent 3 READ true] = some exampleFired := by
  simp only [IOManager.run, IOManager.step, exampleFired_eq, exampleFired_cancel,
    exampleFired_idle, exampleFired_cancelAll, exampleFired_del, Option.map]

theorem init_holders (schedulers : Nat → Scheduler) (tickleFds : Nat × Nat) (sid : Nat)
    (t : FiberAndThread) : (IOManager.init schedulers tickleFds).holders sid t = 0 := by
  unfold IOManager.holders IOManager.init
  exact sum_map_contextResize _ (fun i => holds_fresh i sid t) [] 32 (by simp)

/-- Witness of C2: `cancelEvent` on the registered (3, READ) and on the unregistered (3, WRITE) of
`exampleRegistered`. -/
theorem C2_cancelEvent_fires_once_witness :
    (∃ m1, exampleRegistered.cancelEvent 3 READ true = some (m1, true)
      ∧ (m1.schedulers 0).m_fibers = [{ fiber := none, cb := some 7, thread := -1 }]
      ∧ m1.m_pendingEventCount + 1 = 1)
    ∧ exampleRegistered.cancelEvent 3 WRITE true = some (exampleRegistered, false) := by
  constructor
  · obtain ⟨m1, c1, h1, h2, -, -, -, -, -, h8⟩ :=
      (C2_cancelEvent_fires_once exampleRegistered exampleRegistered_consistent 3 READ
        (Or.inl rfl)).1
        { read := { scheduler := some 0, fiber := none, cb := some 7 }, write := {}, fd := 3,
          events := 1 }
        { scheduler := some 0, fiber := none, cb := some 7 } 0 rfl (by decide) rfl rfl
    exact ⟨m1, h1, h2, h8⟩
  · exact (C2_cancelEvent_fires_once exampleRegistered exampleRegistered_consistent 3 WRITE
      (Or.inr rfl)).2 true (by decide)

/-- Witness of C3: the registration of `exampleRegistered` is cancelled, then cancelled again,
dispatched, cancelled with `cancelAll` and deleted; its callable is in the queue once. -/
theorem C3_no_double_fire_witness :
    exampleRegistered.run
        [.cancelEvent 3 READ true, .cancelEvent 3 READ true, .idleEvent 3 1 true,
         .cancelAll 3 true, .delEvent 3 READ true] = some exampleFired
      ∧ (exampleFired.schedulers 0).m_fibers.count { fiber := none, cb := some 7, thread := -1 }
          ≤ 1
      ∧ (exampleFired.schedulers 0).m_fibers = [{ fiber := none, cb := some 7, thread := -1 }] := by
  refine ⟨exampleFired_run, ?_, rfl⟩
  exact (C3_no_double_fire (IOManager.init (fun _ => {}) (5, 6)) exampleRegistered exampleFired 3 READ
    (some 7) true (some 0) 1 FiberState.EXEC exampleRegistered_eq
    [.cancelEvent 3 READ true, .cancelEvent 3 READ true, .idleEvent 3 1 true,
     .cancelAll 3 true, .delEvent 3 READ true]
    (by
      intro op hop
      simp only [List.mem_cons, List.mem_singleton, List.not_mem_nil, or_false] at hop
      rcases hop with rfl | rfl | rfl | rfl | rfl <;> exact id)
    exampleFired_run 0).2 (fun _ => rfl) (fun sid => init_holders _ _ sid _)

/-- Witness of C6: `cancelAll(3)` on `exampleBoth`, where READ holds a callable for scheduler 0 and
WRITE a coroutine for scheduler 1. -/
theorem C6_cancelAll_fires_all_witness :
    ∃ m1 c1, exampleBoth.cancelAll 3 true = some (m1, true)
      ∧ (m1.schedulers 0).m_fibers = [{ fiber := none, cb := some 7, thread := -1 }]
      ∧ (m1.schedulers 1).m_fibers = [{ fiber := some 9, cb := none, thread := -1 }]
      ∧ m1.m_fdContexts[3]? = some c1
      ∧ c1.events = 0
      ∧ m1.m_pendingEventCount + 2 = 2 := by
  obtain ⟨m1, c1, h1, h2, h3, h4, h5⟩ :=
    (C6_cancelAll_fires_all exampleBoth exampleBoth_consistent 3).1
      { read := { scheduler := some 0, fiber := none, cb := some 7 },
        write := { scheduler := some 1, fiber := some 9, cb := none }, fd := 3, events := 5 }
      rfl (by decide) (fun _ => rfl) (fun _ => rfl)
  exact ⟨m1, c1, h1, h2 0, h2 1, h3, h4, h5⟩

/-! ## Lemmas on the timer set -/

theorem lt_iff (h : Nat → Option Timer) (a b : Nat) :
    TimerManager.lt h a b = true
      ↔ (deref h a).m_next < (deref h b).m_next
          ∨ ((deref h a).m_next = (deref h b).m_next ∧ a < b) := by
  unfold TimerManager.lt Comparator
  simp only
  split
  · rename_i h1
    simp [h1]
  · rename_i h1
    split
    · rename_i h2
      simp only [Bool.false_eq_true, false_iff]
      omega
    · rename_i h2
      simp only [decide_eq_true_eq]
      omega

theorem lt_trans (h : Nat → Option Timer) (a b c : Nat)
    (h1 : TimerManager.lt h a b = true) (h2 : TimerManager.lt h b c = true) :
    TimerManager.lt h a c = true := by
  rw [lt_iff] at h1 h2 ⊢
  omega

theorem lt_irrefl (h : Nat → Option Timer) (a : Nat) : TimerManager.lt h a a ≠ true := by
  rw [Ne, lt_iff]
  omega

theorem lt_equiv (h : Nat → Option Timer) (a b : Nat)
    (h1 : TimerManager.lt h a b ≠ true) (h2 : TimerManager.lt h b a ≠ true) : a = b := by
  rw [Ne, lt_iff] at h1 h2
  omega

theorem lt_congr (h h1 : Nat → Option Timer) (a b : Nat)
    (ha : (deref h1 a).m_next = (deref h a).m_next)
    (hb : (deref h1 b).m_next = (deref h b).m_next) :
    TimerManager.lt h1 a b = TimerManager.lt h a b := by
  rw [Bool.eq_iff_iff, lt_iff, lt_iff, ha, hb]

/-- The order of a sequence only depends on the deadlines of its own elements. -/
theorem sorted_congr (h h1 : Nat → Option Timer) (l : List Nat)
    (hsame : ∀ x ∈ l, (deref h1 x).m_next = (deref h x).m_next)
    (hs : l.Pairwise (fun a b => TimerManager.lt h a b = true)) :
    l.Pairwise (fun a b => TimerManager.lt h1 a b = true) := by
  refine List.Pairwise.imp_of_mem ?_ hs
  intro a b ha hb hab
  rw [lt_congr h h1 a b (hsame a ha) (hsame b hb)]
  exact hab

theorem sorted_nodup (h : Nat → Option Timer) (l : List Nat)
    (hs : l.Pairwise (fun a b => TimerManager.lt h a b = true)) : l.Nodup := by
  refine List.Pairwise.imp ?_ hs
  intro a b hab heq
  subst heq
  exact lt_irrefl h a hab

theorem setInsert_cons_lt (lt : Nat → Nat → Bool) (v x : Nat) (xs : List Nat)
    (h1 : lt x v = true) :
    setInsert lt v (x :: xs) = (x :: (setInsert lt v xs).1, (setInsert lt v xs).2 + 1) := by
  rw [setInsert, if_pos h1]

theorem setInsert_cons_gt (lt : Nat → Nat → Bool) (v x : Nat) (xs : List Nat)
    (h1 : lt x v ≠ true) (h2 : lt v x = true) :
    setInsert lt v (x :: xs) = (v :: x :: xs, 0) := by
  rw [setInsert, if_neg h1, if_pos h2]

theorem setInsert_cons_eq (lt : Nat → Nat → Bool) (v x : Nat) (xs : List Nat)
    (h1 : lt x v ≠ true) (h2 : lt v x ≠ true) :
    setInsert lt v (x :: xs) = (x :: xs, 0) := by
  rw [setInsert, if_neg h1, if_neg h2]

theorem setFind_cons_lt (lt : Nat → Nat → Bool) (v x : Nat) (xs : List Nat)
    (h1 : lt x v = true) :
    setFind lt v (x :: xs) = (setFind lt v xs).map (fun i => i + 1) := by
  rw [setFind, if_pos h1]

theorem setFind_cons_gt (lt : Nat → Nat → Bool) (v x : Nat) (xs : List Nat)
    (h1 : lt x v ≠ true) (h2 : lt v x = true) : setFind lt v (x :: xs) = none := by
  rw [setFind, if_neg h1, if_pos h2]

theorem setFind_cons_eq (lt : Nat → Nat → Bool) (v x : Nat) (xs : List Nat)
    (h1 : lt x v ≠ true) (h2 : lt v x ≠ true) : setFind lt v (x :: xs) = some 0 := by
  rw [setFind, if_neg h1, if_neg h2]

theorem mem_setInsert (h : Nat → Option Timer) (v : Nat) (l : List Nat) (y : Nat) :
    y ∈ (setInsert (TimerManager.lt h) v l).1 ↔ y = v ∨ y ∈ l := by
  induction l with
  | nil => simp [setInsert]
  | cons x xs ih =>
    by_cases h1 : TimerManager.lt h x v = true
    · rw [setInsert_cons_lt _ v x xs h1]
      simp only [List.mem_cons, ih]
      tauto
    · by_cases h2 : TimerManager.lt h v x = true
      · rw [setInsert_cons_gt _ v x xs h1 h2]
        simp only [List.mem_cons]
      · rw [setInsert_cons_eq _ v x xs h1 h2]
        have := lt_equiv h x v h1 h2
        subst this
        simp only [List.mem_cons]
        tauto

theorem sorted_setInsert (h : Nat → Option Timer) (v : Nat) (l : List Nat)
    (hs : l.Pairwise (fun a b => TimerManager.lt h a b = true)) :
    (setInsert (TimerManager.lt h) v l).1.Pairwise (fun a b => TimerManager.lt h a b = true) := by
  induction l with
  | nil => simp [setInsert]
  | cons x xs ih =>
    rw [List.pairwise_cons] at hs
    by_cases h1 : TimerManager.lt h x v = true
    · rw [setInsert_cons_lt _ v x xs h1]
      rw [List.pairwise_cons]
      refine ⟨?_, ih hs.2⟩
      intro y hy
      rcases (mem_setInsert h v xs y).mp hy with rfl | hy
      · exact h1
      · exact hs.1 y hy
    · by_cases h2 : TimerManager.lt h v x = true
      · rw [setInsert_cons_gt _ v x xs h1 h2]
        rw [List.pairwise_cons, List.pairwise_cons]
        refine ⟨?_, hs⟩
        intro y hy
        rcases List.mem_cons.mp hy with rfl | hy
        · exact h2
        · exact lt_trans h v x y h2 (hs.1 y hy)
      · rw [setInsert_cons_eq _ v x xs h1 h2]
        rw [List.pairwise_cons]
        exact hs

theorem setFind_of_mem (h : Nat → Option Timer) (v : Nat) (l : List Nat)
    (hs : l.Pairwise (fun a b => TimerManager.lt h a b = true)) (hv : v ∈ l) :
    ∃ i, setFind (TimerManager.lt h) v l = some i ∧ l.eraseIdx i = l.erase v := by
  induction l with
  | nil => simp at hv
  | cons x xs ih =>
    rw [List.pairwise_cons] at hs
    by_cases hx : x = v
    · subst hx
      refine ⟨0, setFind_cons_eq _ x x xs (lt_irrefl h x) (lt_irrefl h x), ?_⟩
      simp
    · have hv2 : v ∈ xs := by
        rcases List.mem_cons.mp hv with e | e
        · exact absurd e.symm hx
        · exact e
      obtain ⟨i, hi, he⟩ := ih hs.2 hv2
      refine ⟨i + 1, ?_, ?_⟩
      · rw [setFind_cons_lt _ v x xs (hs.1 v hv2), hi]
        rfl
      · rw [List.eraseIdx_cons_succ, he, List.erase_cons_tail]
        simpa using hx

theorem setFind_none_of_not_mem (h : Nat → Option Timer) (v : Nat) (l : List Nat)
    (hv : v ∉ l) : setFind (TimerManager.lt h) v l = none := by
  induction l with
  | nil => rfl
  | cons x xs ih =>
    have hx : x ≠ v := fun e => hv (by simp [e])
    have hv2 : v ∉ xs := fun e => hv (List.mem_cons_of_mem _ e)
    by_cases h1 : TimerManager.lt h x v = true
    · rw [setFind_cons_lt _ v x xs h1, ih hv2]
      rfl
    · by_cases h2 : TimerManager.lt h v x = true
      · exact setFind_cons_gt _ v x xs h1 h2
      · exact absurd (lt_equiv h x v h1 h2) hx

theorem deref_update_same (h : Nat → Option Timer) (a : Nat) (t : Timer) :
    deref (Function.update h a (some t)) a = t := by
  unfold deref
  rw [Function.update_same]
  rfl

theorem deref_update_ne (h : Nat → Option Timer) (a b : Nat) (x : Option Timer) (hne : b ≠ a) :
    deref (Function.update h a x) b = deref h b := by
  unfold deref
  rw [Function.update_noteq hne]

theorem deref_of_some (h : Nat → Option Timer) (a : Nat) (t : Timer) (ha : h a = some t) :
    deref h a = t := by
  unfold deref
  rw [ha]
  rfl

/-- Inserting an allocated timer into an ordered set keeps it ordered. -/
theorem addTimerPtr_ordered (m : TimerManager) (val : Nat)
    (hs : m.m_timers.Pairwise (fun a b => TimerManager.lt m.heap a b = true))
    (ha : ∀ a ∈ m.m_timers, (m.heap a).isSome) (hval : (m.heap val).isSome)
    (hl : ∀ a t, m.heap a = some t → t.m_cb.isSome → a ∈ m.m_timers ∨ a = val) :
    (m.addTimerPtr val).Ordered := by
  refine ⟨sorted_setInsert m.heap val m.m_timers hs, ?_, ?_⟩
  · intro a hmem
    rcases (mem_setInsert m.heap val m.m_timers a).mp hmem with rfl | h1
    · exact hval
    · exact ha a h1
  · intro a t hat hcb
    refine (mem_setInsert m.heap val m.m_timers a).mpr ?_
    rcases hl a t hat hcb with h1 | h1
    · exact Or.inr h1
    · exact Or.inl h1

theorem not_mem_of_unallocated (m : TimerManager) (hm : m.Ordered) (addr : Nat)
    (h : (m.heap addr).isSome = false) : addr ∉ m.m_timers := by
  intro hmem
  have := hm.alloc addr hmem
  rw [h] at this
  exact absurd this (by simp)

theorem addTimer_ordered (m : TimerManager) (hm : m.Ordered) (ms : Nat) (cb : Option Nat)
    (recurring : Bool) (now addr : Nat) (m1 : TimerManager) (p : Nat)
    (h : m.addTimer ms cb recurring now addr = some (m1, p)) : m1.Ordered := by
  unfold TimerManager.addTimer at h
  by_cases hf : (m.heap addr).isSome = true
  · rw [if_pos hf] at h
    exact absurd h (by simp)
  · rw [if_neg hf] at h
    simp only [Option.some.injEq, Prod.mk.injEq] at h
    rw [← h.1]
    have hnot : addr ∉ m.m_timers := not_mem_of_unallocated m hm addr (by simpa using hf)
    apply addTimerPtr_ordered
    · refine sorted_congr m.heap _ m.m_timers ?_ hm.sorted
      intro x hx
      have : x ≠ addr := fun e => hnot (e ▸ hx)
      show (deref (Function.update m.heap addr _) x).m_next = _
      rw [deref_update_ne _ _ _ _ this]
    · intro a ha
      have : a ≠ addr := fun e => hnot (e ▸ ha)
      show (Function.update m.heap addr _ a).isSome = true
      rw [Function.update_noteq this]
      exact hm.alloc a ha
    · show (Function.update m.heap addr _ addr).isSome = true
      rw [Function.update_same]
      rfl
    · intro a t hat hcb
      by_cases ha : a = addr
      · exact Or.inr ha
      · left
        have hat2 : Function.update m.heap addr _ a = some t := hat
        rw [Function.update_noteq ha] at hat2
        exact hm.live a t hat2 hcb

/-- The result of `Timer::cancel` on an ordered set. -/
theorem cancel_spec (m : TimerManager) (hm : m.Ordered) (self : Nat) (t : Timer)
    (ht : m.heap self = some t) :
    Timer.cancel m self
      = if t.m_cb.isSome then
          some ({ m with heap := Function.update m.heap self (some { t with m_cb := none }),
                         m_timers := m.m_timers.erase self }, true)
        else some (m, false) := by
  unfold Timer.cancel
  rw [ht]
  simp only
  by_cases hcb : t.m_cb.isSome = true
  · rw [if_pos hcb, if_pos hcb]
    have hmem := hm.live self t ht hcb
    have hs : m.m_timers.Pairwise (fun a b => TimerManager.lt
        (Function.update m.heap self (some { t with m_cb := none })) a b = true) := by
      refine sorted_congr m.heap _ m.m_timers ?_ hm.sorted
      intro x _
      by_cases hx : x = self
      · subst hx
        rw [deref_update_same, deref_of_some _ _ _ ht]
      · rw [deref_update_ne _ _ _ _ hx]
    obtain ⟨i, hi, he⟩ := setFind_of_mem _ self m.m_timers hs hmem
    rw [hi]
    simp only [he]
  · rw [if_neg hcb, if_neg hcb]

theorem cancel_ordered (m : TimerManager) (hm : m.Ordered) (self : Nat) (m1 : TimerManager)
    (r : Bool) (h : Timer.cancel m self = some (m1, r)) : m1.Ordered := by
  cases ht : m.heap self with
  | none =>
    unfold Timer.cancel at h
    rw [ht] at h
    exact absurd h (by simp)
  | some t =>
    rw [cancel_spec m hm self t ht] at h
    by_cases hcb : t.m_cb.isSome = true
    · rw [if_pos hcb] at h
      simp only [Option.some.injEq, Prod.mk.injEq] at h
      rw [← h.1]
      have hnd := sorted_nodup m.heap m.m_timers hm.sorted
      refine ⟨?_, ?_, ?_⟩
      · refine sorted_congr m.heap _ _ ?_ (hm.sorted.sublist (List.erase_sublist _ _))
        intro x _
        by_cases hx : x = self
        · subst hx
          show (deref (Function.update m.heap x _) x).m_next = _
          rw [deref_update_same, deref_of_some _ _ _ ht]
        · show (deref (Function.update m.heap self _) x).m_next = _
          rw [deref_update_ne _ _ _ _ hx]
      · intro a ha
        have hne : a ≠ self := ((List.Nodup.mem_erase_iff hnd).mp ha).1
        show (Function.update m.heap self _ a).isSome = true
        rw [Function.update_noteq hne]
        exact hm.alloc a (List.mem_of_mem_erase ha)
      · intro a t1 hat hcb1
        have hat2 : Function.update m.heap self (some { t with m_cb := none }) a = some t1 := hat
        by_cases ha : a = self
        · subst ha
          rw [Function.update_same] at hat2
          simp only [Option.some.injEq] at hat2
          rw [← hat2] at hcb1
          exact absurd hcb1 (by simp)
        · rw [Function.update_noteq ha] at hat2
          exact (List.Nodup.mem_erase_iff hnd).mpr ⟨ha, hm.live a t1 hat2 hcb1⟩
    · rw [if_neg hcb] at h
      simp only [Option.some.injEq, Prod.mk.injEq] at h
      rw [← h.1]
      exact hm

/-- The result of `Timer::refresh` on an ordered set. -/
theorem refresh_spec (m : TimerManager) (hm : m.Ordered) (self now : Nat) (t : Timer)
    (ht : m.heap self = some t) :
    Timer.refresh m self now
      = if t.m_cb.isSome then
          some ({ m with
                  heap := Function.update m.heap self
                    (some { t with m_next := (now + t.m_ms) % 2 ^ 64 }),
                  m_timers := (setInsert (TimerManager.lt (Function.update m.heap self
                      (some { t with m_next := (now + t.m_ms) % 2 ^ 64 }))) self
                    (m.m_timers.erase self)).1 }, true)
        else some (m, false) := by
  unfold Timer.refresh
  rw [ht]
  simp only
  by_cases hcb : t.m_cb.isSome = true
  · rw [if_pos hcb]
    simp only [hcb, Bool.not_true, Bool.false_eq_true, if_false]
    have hmem := hm.live self t ht hcb
    obtain ⟨i, hi, he⟩ := setFind_of_mem _ self m.m_timers hm.sorted hmem
    rw [hi]
    simp only [he]
  · rw [if_neg hcb]
    simp only [hcb, Bool.not_false, if_true]

theorem refresh_ordered (m : TimerManager) (hm : m.Ordered) (self now : Nat)
    (m1 : TimerManager) (r : Bool) (h : Timer.refresh m self now = some (m1, r)) :
    m1.Ordered := by
  cases ht : m.heap self with
  | none =>
    unfold Timer.refresh at h
    rw [ht] at h
    exact absurd h (by simp)
  | some t =>
    rw [refresh_spec m hm self now t ht] at h
    by_cases hcb : t.m_cb.isSome = true
    · rw [if_pos hcb] at h
      simp only [Option.some.injEq, Prod.mk.injEq] at h
      rw [← h.1]
      have hnd := sorted_nodup m.heap m.m_timers hm.sorted
      have hs1 : (m.m_timers.erase self).Pairwise (fun a b => TimerManager.lt
          (Function.update m.heap self (some { t with m_next := (now + t.m_ms) % 2 ^ 64 }))
          a b = true) := by
        refine sorted_congr m.heap _ _ ?_ (hm.sorted.sublist (List.erase_sublist _ _))
        intro x hx
        have hne : x ≠ self := ((List.Nodup.mem_erase_iff hnd).mp hx).1
        rw [deref_update_ne _ _ _ _ hne]
      refine ⟨sorted_setInsert _ self _ hs1, ?_, ?_⟩
      · intro a ha
        show (Function.update m.heap self _ a).isSome = true
        rcases (mem_setInsert _ self _ a).mp ha with rfl | h1
        · rw [Function.update_same]
          rfl
        · have hne : a ≠ self := ((List.Nodup.mem_erase_iff hnd).mp h1).1
          rw [Function.update_noteq hne]
          exact hm.alloc a (List.mem_of_mem_erase h1)
      · intro a t1 hat hcb1
        refine (mem_setInsert _ self _ a).mpr ?_
        by_cases ha : a = self
        · exact Or.inl ha
        · right
          have hat2 : Function.update m.heap self _ a = some t1 := hat
          rw [Function.update_noteq ha] at hat2
          exact (List.Nodup.mem_erase_iff hnd).mpr ⟨ha, hm.live a t1 hat2 hcb1⟩
    · rw [if_neg hcb] at h
      simp only [Option.some.injEq, Prod.mk.injEq] at h
      rw [← h.1]
      exact hm

theorem expireLoop_cons (now_ms p : Nat) (rest : List Nat) (heap : Nat → Option Timer)
    (timers : List Nat) (cbs : List (Option Nat)) :
    expireLoop now_ms (p :: rest) heap timers cbs
      = expireLoop now_ms rest
          (Function.update heap p (some ((deref heap p).afterExpire now_ms)))
          (if (deref heap p).m_recurring
            then (setInsert (TimerManager.lt
                    (Function.update heap p (some ((deref heap p).afterExpire now_ms))))
                    p timers).1
            else timers)
          (cbs ++ [(deref heap p).m_cb]) := by
  rw [expireLoop]
  unfold Timer.afterExpire
  cases (deref heap p).m_recurring <;> simp

theorem afterExpire_recurring (t : Timer) (now_ms : Nat) :
    (t.afterExpire now_ms).m_recurring = t.m_recurring := by
  unfold Timer.afterExpire
  split <;> rfl

/-- The effect of the loop of `listExpireCb` over collected timers that are distinct and not
in the set any more. -/
theorem expireLoop_spec (now_ms : Nat) (exp : List Nat) :
    ∀ (heap : Nat → Option Timer) (timers : List Nat) (cbs : List (Option Nat)),
      exp.Nodup → (∀ p ∈ exp, p ∉ timers) →
      timers.Pairwise (fun a b => TimerManager.lt heap a b = true) →
      (expireLoop now_ms exp heap timers cbs).2.2
          = cbs ++ exp.map (fun p => (deref heap p).m_cb)
        ∧ (∀ q, q ∉ exp → (expireLoop now_ms exp heap timers cbs).1 q = heap q)
        ∧ (∀ p ∈ exp, (expireLoop now_ms exp heap timers cbs).1 p
              = some ((deref heap p).afterExpire now_ms))
        ∧ (expireLoop now_ms exp heap timers cbs).2.1.Pairwise
            (fun a b => TimerManager.lt (expireLoop now_ms exp heap timers cbs).1 a b = true)
        ∧ (∀ y, y ∈ (expireLoop now_ms exp heap timers cbs).2.1
              ↔ y ∈ timers ∨ (y ∈ exp ∧ (deref heap y).m_recurring = true)) := by
  induction exp with
  | nil =>
    intro heap timers cbs _ _ hs
    refine ⟨?_, fun _ _ => rfl, ?_, hs, ?_⟩
    · simp [expireLoop]
    · intro p hp
      exact absurd hp (List.not_mem_nil p)
    · intro y
      simp [expireLoop]
  | cons p rest ih =>
    intro heap timers cbs hnd hdisj hs
    rw [List.nodup_cons] at hnd
    have hp : p ∉ timers := hdisj p (List.mem_cons_self _ _)
    rw [expireLoop_cons]
    generalize hh1 : Function.update heap p (some ((deref heap p).afterExpire now_ms)) = heap1
    have hd1 : ∀ q, q ≠ p → deref heap1 q = deref heap q := by
      intro q hq
      rw [← hh1]
      exact deref_update_ne _ _ _ _ hq
    have hs1 : timers.Pairwise (fun a b => TimerManager.lt heap1 a b = true) := by
      refine sorted_congr heap heap1 timers ?_ hs
      intro x hx
      rw [hd1 x (fun e => hp (e ▸ hx))]
    generalize ht1 : (if (deref heap p).m_recurring
        then (setInsert (TimerManager.lt heap1) p timers).1 else timers) = timers1
    have hmem1 : ∀ y, y ∈ timers1 ↔ y ∈ timers ∨ (y = p ∧ (deref heap p).m_recurring = true) := by
      intro y
      rw [← ht1]
      by_cases hr : (deref heap p).m_recurring = true
      · rw [if_pos hr, mem_setInsert]
        simp only [hr, and_true]
        tauto
      · rw [if_neg hr]
        constructor
        · exact fun h => Or.inl h
        · rintro (h | ⟨-, h⟩)
          · exact h
          · exact absurd h hr
    have hs2 : timers1.Pairwise (fun a b => TimerManager.lt heap1 a b = true) := by
      rw [← ht1]
      split
      · exact sorted_setInsert heap1 p timers hs1
      · exact hs1
    have hdisj1 : ∀ q ∈ rest, q ∉ timers1 := by
      intro q hq hmem
      rcases (hmem1 q).mp hmem with h1 | ⟨h1, -⟩
      · exact hdisj q (List.mem_cons_of_mem _ hq) h1
      · exact hnd.1 (h1 ▸ hq)
    obtain ⟨i1, i2, i3, i4, i5⟩ := ih heap1 timers1 (cbs ++ [(deref heap p).m_cb]) hnd.2
      hdisj1 hs2
    refine ⟨?_, ?_, ?_, i4, ?_⟩
    · rw [i1, List.map_cons, List.append_assoc, List.singleton_append]
      congr 2
      apply List.map_congr_left
      intro q hq
      rw [hd1 q (fun e => hnd.1 (e ▸ hq))]
    · intro q hq
      rw [List.mem_cons, not_or] at hq
      rw [i2 q hq.2, ← hh1, Function.update_noteq hq.1]
    · intro q hq
      by_cases hqp : q = p
      · subst hqp
        rw [i2 q hnd.1, ← hh1, Function.update_same]
      · have hq2 : q ∈ rest := by
          rcases List.mem_cons.mp hq with e | e
          · exact absurd e hqp
          · exact e
        rw [i3 q hq2, hd1 q hqp]
    · intro y
      rw [i5 y, hmem1 y, List.mem_cons]
      constructor
      · rintro (h1 | ⟨h1, h2⟩)
        · rcases h1 with h1 | ⟨h1, h2⟩
          · exact Or.inl h1
          · exact Or.inr ⟨Or.inl h1, h1 ▸ h2⟩
        · have hne : y ≠ p := fun e => hnd.1 (e ▸ h1)
          rw [hd1 y hne] at h2
          exact Or.inr ⟨Or.inr h1, h2⟩
      · rintro (h1 | ⟨h1 | h1, h2⟩)
        · exact Or.inl (Or.inl h1)
        · exact Or.inl (Or.inr ⟨h1, h1 ▸ h2⟩)
        · have hne : y ≠ p := fun e => hnd.1 (e ▸ h1)
          right
          rw [hd1 y hne]
          exact ⟨h1, h2⟩

theorem sorted_deadlines (h : Nat → Option Timer) (l : List Nat)
    (hs : l.Pairwise (fun a b => TimerManager.lt h a b = true)) :
    l.Pairwise (fun a b => (deref h a).m_next ≤ (deref h b).m_next) := by
  refine List.Pairwise.imp ?_ hs
  intro a b hab
  rw [lt_iff] at hab
  omega

theorem skipNow_eq (h : Nat → Option Timer) (now_ms : Nat) (l : List Nat)
    (hge : ∀ y ∈ l, now_ms ≤ (deref h y).m_next) :
    skipNow h now_ms l = (l.takeWhile (isDue h now_ms)).length := by
  induction l with
  | nil => rfl
  | cons x xs ih =>
    have hx := hge x (List.mem_cons_self _ _)
    have ih1 := ih (fun y hy => hge y (List.mem_cons_of_mem _ hy))
    by_cases he : (deref h x).m_next = now_ms
    · have hd : isDue h now_ms x = true := by
        unfold isDue
        simp only [decide_eq_true_eq]
        omega
      rw [skipNow, if_pos he, List.takeWhile_cons_of_pos hd, List.length_cons, ih1]
    · have hd : ¬ isDue h now_ms x = true := by
        unfold isDue
        simp only [decide_eq_true_eq]
        omega
      rw [skipNow, if_neg he, List.takeWhile_cons_of_neg hd]
      rfl

/-- On a set ordered by deadline, `lower_bound(now_timer)` followed by the loop over the
timers due exactly now stops behind the last due timer. -/
theorem expiredEnd_eq (h : Nat → Option Timer) (now_ms nowAddr : Nat) (l : List Nat)
    (hs : l.Pairwise (fun a b => (deref h a).m_next ≤ (deref h b).m_next))
    (hnot : nowAddr ∉ l) :
    lowerBound (TimerManager.lt (Function.update h nowAddr (some { m_next := now_ms })))
        nowAddr l
      + skipNow h now_ms
          (l.drop (lowerBound
            (TimerManager.lt (Function.update h nowAddr (some { m_next := now_ms }))) nowAddr l))
      = (l.takeWhile (isDue h now_ms)).length := by
  induction l with
  | nil => rfl
  | cons x xs ih =>
    rw [List.pairwise_cons] at hs
    have hx : x ≠ nowAddr := fun e => hnot (by simp [e])
    have hnot2 : nowAddr ∉ xs := fun e => hnot (List.mem_cons_of_mem _ e)
    have hlt := lt_iff (Function.update h nowAddr (some { m_next := now_ms })) x nowAddr
    rw [deref_update_same, deref_update_ne _ _ _ _ hx] at hlt
    simp only at hlt
    by_cases h1 : TimerManager.lt (Function.update h nowAddr (some { m_next := now_ms }))
        x nowAddr = true
    · have hd : isDue h now_ms x = true := by
        unfold isDue
        simp only [decide_eq_true_eq]
        have := hlt.mp h1
        omega
      rw [lowerBound, if_pos h1, List.drop_succ_cons, List.takeWhile_cons_of_pos hd,
        List.length_cons, ← ih hs.2 hnot2]
      omega
    · rw [lowerBound, if_neg h1, List.drop_zero, Nat.zero_add]
      apply skipNow_eq
      have hx2 : now_ms ≤ (deref h x).m_next := by
        by_contra hc
        exact h1 (hlt.mpr (Or.inl (by omega)))
      intro y hy
      rcases List.mem_cons.mp hy with rfl | hy
      · exact hx2
      · exact le_trans hx2 (hs.1 y hy)

theorem takeWhile_eq_filter_of_sorted (h : Nat → Option Timer) (now_ms : Nat) (l : List Nat)
    (hs : l.Pairwise (fun a b => (deref h a).m_next ≤ (deref h b).m_next)) :
    l.takeWhile (isDue h now_ms) = l.filter (isDue h now_ms) := by
  induction l with
  | nil => rfl
  | cons x xs ih =>
    rw [List.pairwise_cons] at hs
    by_cases hd : isDue h now_ms x = true
    · rw [List.takeWhile_cons_of_pos hd, List.filter_cons_of_pos hd, ih hs.2]
    · rw [List.takeWhile_cons_of_neg hd, List.filter_cons_of_neg hd]
      symm
      rw [List.filter_eq_nil_iff]
      intro y hy
      have := hs.1 y hy
      unfold isDue at hd ⊢
      simp only [decide_eq_true_eq] at hd ⊢
      omega

theorem take_length_takeWhile (p : Nat → Bool) (l : List Nat) :
    l.take (l.takeWhile p).length = l.takeWhile p := by
  induction l with
  | nil => rfl
  | cons x xs ih =>
    by_cases hp : p x = true
    · rw [List.takeWhile_cons_of_pos hp, List.length_cons, List.take_succ_cons, ih]
    · rw [List.takeWhile_cons_of_neg hp]
      rfl

theorem drop_length_takeWhile (p : Nat → Bool) (l : List Nat) :
    l.drop (l.takeWhile p).length = l.dropWhile p := by
  induction l with
  | nil => rfl
  | cons x xs ih =>
    by_cases hp : p x = true
    · rw [List.takeWhile_cons_of_pos hp, List.length_cons, List.drop_succ_cons, ih,
        List.dropWhile_cons_of_pos hp]
    · rw [List.takeWhile_cons_of_neg hp, List.dropWhile_cons_of_neg hp]
      rfl

theorem skipNow_nil (h : Nat → Option Timer) (now_ms : Nat) : skipNow h now_ms [] = 0 := rfl

theorem expiredEnd_rollover (m : TimerManager) (now_ms nowAddr : Nat) :
    expiredEnd m true now_ms nowAddr = m.m_timers.length := by
  unfold expiredEnd
  simp only [if_true, List.drop_length, skipNow_nil, Nat.add_zero]

theorem expiredEnd_normal (m : TimerManager) (hm : m.Ordered) (now_ms nowAddr : Nat)
    (hfresh : m.heap nowAddr = none) :
    expiredEnd m false now_ms nowAddr = (m.m_timers.takeWhile (isDue m.heap now_ms)).length := by
  unfold expiredEnd
  simp only [Bool.false_eq_true, if_false]
  exact expiredEnd_eq m.heap now_ms nowAddr m.m_timers (sorted_deadlines _ _ hm.sorted)
    (not_mem_of_unallocated m hm nowAddr (by rw [hfresh]; rfl))

/-- `listExpireCb` when a clock rollover is detected: every timer of the set is collected. -/
theorem listExpireCb_rollover (m : TimerManager) (cbs : List (Option Nat))
    (now_ms nowAddr : Nat) (hfresh : m.heap nowAddr = none) (hne : m.m_timers ≠ [])
    (hro : detectClockRollover m.m_previousTime now_ms = true) :
    m.expired now_ms nowAddr = m.m_timers
      ∧ m.listExpireCb cbs now_ms nowAddr
          = some ({ m with heap := (expireLoop now_ms m.m_timers m.heap [] cbs).1,
                           m_timers := (expireLoop now_ms m.m_timers m.heap [] cbs).2.1,
                           m_previousTime := now_ms },
                  (expireLoop now_ms m.m_timers m.heap [] cbs).2.2) := by
  unfold TimerManager.expired TimerManager.listExpireCb
  cases hl : m.m_timers with
  | nil => exact absurd hl hne
  | cons first tl =>
    simp only [hro, Bool.not_true, Bool.false_and, Bool.false_eq_true, if_false, hfresh,
      Option.isSome_none, expiredEnd_rollover, hl, List.take_length, List.drop_length,
      and_self]

/-- `listExpireCb` when no clock rollover is detected: the timers due now are collected. -/
theorem listExpireCb_normal (m : TimerManager) (hm : m.Ordered) (cbs : List (Option Nat))
    (now_ms nowAddr : Nat) (hfresh : m.heap nowAddr = none)
    (hro : detectClockRollover m.m_previousTime now_ms = false) :
    m.expired now_ms nowAddr = m.m_timers.filter (isDue m.heap now_ms)
      ∧ m.listExpireCb cbs now_ms nowAddr
          = some ({ m with
                    heap := (expireLoop now_ms (m.m_timers.filter (isDue m.heap now_ms)) m.heap
                              (m.m_timers.dropWhile (isDue m.heap now_ms)) cbs).1,
                    m_timers := (expireLoop now_ms (m.m_timers.filter (isDue m.heap now_ms))
                              m.heap (m.m_timers.dropWhile (isDue m.heap now_ms)) cbs).2.1,
                    m_previousTime := if m.m_timers = [] then m.m_previousTime else now_ms },
                  (expireLoop now_ms (m.m_timers.filter (isDue m.heap now_ms)) m.heap
                              (m.m_timers.dropWhile (isDue m.heap now_ms)) cbs).2.2) := by
  have hend := expiredEnd_normal m hm now_ms nowAddr hfresh
  have hfil := takeWhile_eq_filter_of_sorted m.heap now_ms m.m_timers
    (sorted_deadlines _ _ hm.sorted)
  have htake := take_length_takeWhile (isDue m.heap now_ms) m.m_timers
  have hdrop := drop_length_takeWhile (isDue m.heap now_ms) m.m_timers
  unfold TimerManager.expired TimerManager.listExpireCb
  cases hl : m.m_timers with
  | nil =>
    simp only [List.filter_nil, List.dropWhile_nil, expireLoop, if_true, true_and]
    congr 2
    cases m
    simp only at hl
    simp [hl]
  | cons first tl =>
    rw [hl] at hend hfil htake hdrop
    simp only [hro, Bool.not_false, Bool.true_and, hfresh, Option.isSome_none,
      Bool.false_eq_true, if_false, reduceCtorEq]
    by_cases hfirst : (deref m.heap first).m_next > now_ms
    · have hnd : ¬ isDue m.heap now_ms first = true := by
        unfold isDue
        simp only [decide_eq_true_eq]
        omega
      have e1 : (first :: tl).filter (isDue m.heap now_ms) = [] := by
        rw [← hfil, List.takeWhile_cons_of_neg hnd]
      have e2 : (first :: tl).dropWhile (isDue m.heap now_ms) = first :: tl :=
        List.dropWhile_cons_of_neg hnd
      simp only [hfirst, decide_True, if_true, e1, e2, expireLoop, true_and]
    · simp only [hfirst, decide_False, Bool.false_eq_true, if_false]
      rw [hend, htake, hdrop, hfil]
      exact ⟨rfl, rfl⟩

/-- The loop of `listExpireCb` run on a front part of an ordered set: its output, the heap
and the set afterwards. -/
theorem expire_facts (m : TimerManager) (hm : m.Ordered) (now_ms : Nat) (exp rest : List Nat)
    (cbs : List (Option Nat)) (hsplit : m.m_timers = exp ++ rest) :
    (expireLoop now_ms exp m.heap rest cbs).2.2
        = cbs ++ exp.map (fun p => (deref m.heap p).m_cb)
      ∧ (∀ q, q ∉ exp → (expireLoop now_ms exp m.heap rest cbs).1 q = m.heap q)
      ∧ (∀ p ∈ exp, (expireLoop now_ms exp m.heap rest cbs).1 p
            = some ((deref m.heap p).afterExpire now_ms))
      ∧ (expireLoop now_ms exp m.heap rest cbs).2.1.Pairwise
          (fun a b => TimerManager.lt (expireLoop now_ms exp m.heap rest cbs).1 a b = true)
      ∧ (∀ y, y ∈ (expireLoop now_ms exp m.heap rest cbs).2.1
            ↔ y ∈ rest ∨ (y ∈ exp ∧ (deref m.heap y).m_recurring = true)) := by
  have hs := hm.sorted
  rw [hsplit] at hs
  have hnd := sorted_nodup m.heap _ hs
  rw [List.nodup_append] at hnd
  rw [List.pairwise_append] at hs
  exact expireLoop_spec now_ms exp m.heap rest cbs hnd.1
    (fun p hp hr => hnd.2.2 hp hr) hs.2.1

theorem expire_ordered (m : TimerManager) (hm : m.Ordered) (now_ms : Nat)
    (exp rest : List Nat) (cbs : List (Option Nat)) (hsplit : m.m_timers = exp ++ rest)
    (prev : Nat) :
    TimerManager.Ordered
      { m with heap := (expireLoop now_ms exp m.heap rest cbs).1,
               m_timers := (expireLoop now_ms exp m.heap rest cbs).2.1,
               m_previousTime := prev } := by
  obtain ⟨-, f2, f3, f4, f5⟩ := expire_facts m hm now_ms exp rest cbs hsplit
  refine ⟨f4, ?_, ?_⟩
  · intro y hy
    show ((expireLoop now_ms exp m.heap rest cbs).1 y).isSome = true
    by_cases hye : y ∈ exp
    · rw [f3 y hye]
      rfl
    · rw [f2 y hye]
      rcases (f5 y).mp hy with h1 | ⟨h1, -⟩
      · exact hm.alloc y (by rw [hsplit]; exact List.mem_append_right _ h1)
      · exact absurd h1 hye
  · intro a t hat hcb
    have hat2 : (expireLoop now_ms exp m.heap rest cbs).1 a = some t := hat
    refine (f5 a).mpr ?_
    by_cases hae : a ∈ exp
    · right
      refine ⟨hae, ?_⟩
      rw [f3 a hae] at hat2
      simp only [Option.some.injEq] at hat2
      by_contra hrec
      have : t.m_cb = none := by
        rw [← hat2]
        unfold Timer.afterExpire
        rw [if_neg hrec]
      rw [this] at hcb
      exact absurd hcb (by simp)
    · left
      rw [f2 a hae] at hat2
      have := hm.live a t hat2 hcb
      rw [hsplit, List.mem_append] at this
      rcases this with h1 | h1
      · exact absurd h1 hae
      · exact h1

theorem filter_append_dropWhile (m : TimerManager) (hm : m.Ordered) (now_ms : Nat) :
    m.m_timers
      = m.m_timers.filter (isDue m.heap now_ms) ++ m.m_timers.dropWhile (isDue m.heap now_ms) := by
  rw [← takeWhile_eq_filter_of_sorted m.heap now_ms m.m_timers (sorted_deadlines _ _ hm.sorted),
    List.takeWhile_append_dropWhile]

theorem listExpireCb_ordered (m : TimerManager) (hm : m.Ordered) (cbs : List (Option Nat))
    (now_ms nowAddr : Nat) (m1 : TimerManager) (out : List (Option Nat))
    (h : m.listExpireCb cbs now_ms nowAddr = some (m1, out)) : m1.Ordered := by
  by_cases hne : m.m_timers = []
  · unfold TimerManager.listExpireCb at h
    rw [hne] at h
    simp only [Option.some.injEq, Prod.mk.injEq] at h
    rw [← h.1]
    exact hm
  · cases hf : m.heap nowAddr with
    | some t =>
      -- only the early return is possible
      unfold TimerManager.listExpireCb at h
      cases hl : m.m_timers with
      | nil => exact absurd hl hne
      | cons first tl =>
        rw [hl] at h
        simp only [hf, Option.isSome_some, if_true] at h
        split at h
        · simp only [Option.some.injEq, Prod.mk.injEq] at h
          rw [← h.1]
          refine ⟨?_, ?_, ?_⟩
          · show List.Pairwise (fun a b => TimerManager.lt m.heap a b = true) (first :: tl)
            rw [← hl]
            exact hm.sorted
          · intro a ha
            have ha2 : a ∈ first :: tl := ha
            rw [← hl] at ha2
            exact hm.alloc a ha2
          · intro a t1 h1 h2
            show a ∈ first :: tl
            rw [← hl]
            exact hm.live a t1 h1 h2
        · exact absurd h (by simp)
    | none =>
      cases hro : detectClockRollover m.m_previousTime now_ms with
      | true =>
        rw [(listExpireCb_rollover m cbs now_ms nowAddr hf hne hro).2] at h
        simp only [Option.some.injEq, Prod.mk.injEq] at h
        rw [← h.1]
        exact expire_ordered m hm now_ms m.m_timers [] cbs (by simp) now_ms
      | false =>
        rw [(listExpireCb_normal m hm cbs now_ms nowAddr hf hro).2] at h
        simp only [Option.some.injEq, Prod.mk.injEq] at h
        rw [← h.1]
        exact expire_ordered m hm now_ms _ _ cbs (filter_append_dropWhile m hm now_ms) _

/-- The result of `listExpireCb` on an ordered set, in terms of the loop over the due
timers. -/
theorem listExpireCb_due (m : TimerManager) (hm : m.Ordered) (cbs : List (Option Nat))
    (now_ms nowAddr : Nat) (hfresh : m.heap nowAddr = none) :
    ∃ rest prev, m.m_timers = m.due now_ms ++ rest
      ∧ (detectClockRollover m.m_previousTime now_ms = false →
          rest = m.m_timers.dropWhile (isDue m.heap now_ms))
      ∧ m.expired now_ms nowAddr = m.due now_ms
      ∧ m.listExpireCb cbs now_ms nowAddr
          = some ({ m with heap := (expireLoop now_ms (m.due now_ms) m.heap rest cbs).1,
                           m_timers := (expireLoop now_ms (m.due now_ms) m.heap rest cbs).2.1,
                           m_previousTime := prev },
                  (expireLoop now_ms (m.due now_ms) m.heap rest cbs).2.2) := by
  unfold TimerManager.due
  cases hro : detectClockRollover m.m_previousTime now_ms with
  | true =>
    simp only [if_true]
    by_cases hne : m.m_timers = []
    · refine ⟨[], m.m_previousTime, by simp, by simp, ?_, ?_⟩
      · unfold TimerManager.expired
        rw [hne]
      · unfold TimerManager.listExpireCb
        rw [hne]
        simp only [expireLoop]
        congr 2
        cases m
        simp only at hne
        simp [hne]
    · obtain ⟨e1, e2⟩ := listExpireCb_rollover m cbs now_ms nowAddr hfresh hne hro
      exact ⟨[], now_ms, by simp, by simp, e1, e2⟩
  | false =>
    simp only [Bool.false_eq_true, if_false]
    obtain ⟨e1, e2⟩ := listExpireCb_normal m hm cbs now_ms nowAddr hfresh hro
    exact ⟨_, _, filter_append_dropWhile m hm now_ms, fun _ => rfl, e1, e2⟩

/-- The call `listExpireCb(cbs)` at clock reading `now` on an ordered timer set appends to `cbs`,
in the order of the set, the callables of exactly the timers whose deadline is `<= now` and
keeps every timer with a later deadline in the set with its fields unchanged, when no clock
rollover is detected; when a rollover is detected it appends the callables of all timers of
the set. -/
theorem listExpireCb_collects_due (m : TimerManager) (hm : m.Ordered)
    (cbs : List (Option Nat)) (now nowAddr : Nat) (hfresh : m.heap nowAddr = none) :
    ∃ m1,
      m.listExpireCb cbs now nowAddr
        = some (m1, cbs ++
            (if detectClockRollover m.m_previousTime now then m.m_timers
             else m.m_timers.filter (fun p => decide ((deref m.heap p).m_next ≤ now))).map
              (fun p => (deref m.heap p).m_cb))
      ∧ (detectClockRollover m.m_previousTime now = false →
          ∀ p ∈ m.m_timers, now < (deref m.heap p).m_next →
            p ∈ m1.m_timers ∧ m1.heap p = m.heap p) := by
  obtain ⟨rest, prev, hsplit, hrest, -, hres⟩ := listExpireCb_due m hm cbs now nowAddr hfresh
  obtain ⟨f1, f2, -, -, f5⟩ := expire_facts m hm now (m.due now) rest cbs hsplit
  refine ⟨{ m with heap := (expireLoop now (m.due now) m.heap rest cbs).1,
                   m_timers := (expireLoop now (m.due now) m.heap rest cbs).2.1,
                   m_previousTime := prev }, ?_, ?_⟩
  · rw [hres, f1]
    rfl
  · intro hro p hp hlate
    have hnd : p ∉ m.due now := by
      unfold TimerManager.due
      rw [hro]
      simp only [Bool.false_eq_true, if_false, List.mem_filter, isDue, decide_eq_true_eq,
        not_and]
      intro _
      omega
    refine ⟨?_, f2 p hnd⟩
    refine (f5 p).mpr (Or.inl ?_)
    rw [hsplit, List.mem_append] at hp
    rcases hp with h1 | h1
    · exact absurd h1 hnd
    · exact h1

/-- After `listExpireCb` at clock reading `now` on an ordered timer set, every collected
recurring timer is in the set exactly once, with deadline `now + period` (as a 64-bit sum,
which is `now + period` itself when that fits in 64 bits) and its other fields, the callable
among them, unchanged, and every collected one-shot timer is absent from the set and has its
callable cleared. -/
theorem listExpireCb_reinserts_recurring (m : TimerManager) (hm : m.Ordered)
    (cbs : List (Option Nat)) (now nowAddr : Nat) (hfresh : m.heap nowAddr = none)
    (m1 : TimerManager) (out : List (Option Nat))
    (h : m.listExpireCb cbs now nowAddr = some (m1, out)) (p : Nat) (t : Timer)
    (hp : p ∈ (if detectClockRollover m.m_previousTime now then m.m_timers
               else m.m_timers.filter (fun p => decide ((deref m.heap p).m_next ≤ now))))
    (ht : m.heap p = some t) :
    (t.m_recurring = true →
        m1.m_timers.count p = 1
          ∧ m1.heap p = some { t with m_next := (now + t.m_ms) % 2 ^ 64 }
          ∧ (now + t.m_ms < 2 ^ 64 → m1.heap p = some { t with m_next := now + t.m_ms }))
      ∧ (t.m_recurring = false →
          p ∉ m1.m_timers ∧ m1.heap p = some { t with m_cb := none }) := by
  obtain ⟨rest, prev, hsplit, -, -, hres⟩ := listExpireCb_due m hm cbs now nowAddr hfresh
  obtain ⟨-, -, f3, f4, f5⟩ := expire_facts m hm now (m.due now) rest cbs hsplit
  rw [hres] at h
  simp only [Option.some.injEq, Prod.mk.injEq] at h
  have hp2 : p ∈ m.due now := hp
  have hd : deref m.heap p = t := deref_of_some _ _ _ ht
  have hheap : m1.heap p = some (t.afterExpire now) := by
    rw [← h.1, ← hd]
    exact f3 p hp2
  have hmem : ∀ y, y ∈ m1.m_timers
      ↔ y ∈ rest ∨ (y ∈ m.due now ∧ (deref m.heap y).m_recurring = true) := by
    rw [← h.1]
    exact f5
  have hnodup : m1.m_timers.Nodup := by
    rw [← h.1]
    exact sorted_nodup _ _ f4
  have hnotrest : p ∉ rest := by
    have hnd := sorted_nodup m.heap _ hm.sorted
    rw [hsplit, List.nodup_append] at hnd
    exact fun hr => hnd.2.2 hp2 hr
  constructor
  · intro hrec
    have hnew : m1.heap p = some { t with m_next := (now + t.m_ms) % 2 ^ 64 } := by
      rw [hheap]
      unfold Timer.afterExpire
      rw [if_pos hrec]
    refine ⟨List.count_eq_one_of_mem hnodup ((hmem p).mpr (Or.inr ⟨hp2, by rw [hd]; exact hrec⟩)),
      hnew, ?_⟩
    intro hfit
    rw [hnew, Nat.mod_eq_of_lt hfit]
  · intro hrec
    refine ⟨?_, ?_⟩
    · intro hin
      rcases (hmem p).mp hin with h1 | ⟨-, h1⟩
      · exact hnotrest h1
      · rw [hd, hrec] at h1
        exact absurd h1 (by simp)
    · rw [hheap]
      unfold Timer.afterExpire
      rw [if_neg (by rw [hrec]; simp)]

/-- What a successful `listExpireCb` did, in terms of the collected timers. -/
theorem listExpireCb_inv (m : TimerManager) (hm : m.Ordered) (cbs : List (Option Nat))
    (now_ms nowAddr : Nat) (m1 : TimerManager) (out : List (Option Nat))
    (h : m.listExpireCb cbs now_ms nowAddr = some (m1, out)) :
    ∃ rest prev, m.m_timers = m.expired now_ms nowAddr ++ rest
      ∧ m1 = { m with
               heap := (expireLoop now_ms (m.expired now_ms nowAddr) m.heap rest cbs).1,
               m_timers := (expireLoop now_ms (m.expired now_ms nowAddr) m.heap rest cbs).2.1,
               m_previousTime := prev }
      ∧ out = (expireLoop now_ms (m.expired now_ms nowAddr) m.heap rest cbs).2.2 := by
  cases hf : m.heap nowAddr with
  | none =>
    obtain ⟨rest, prev, h1, -, h3, h4⟩ := listExpireCb_due m hm cbs now_ms nowAddr hf
    rw [h4] at h
    simp only [Option.some.injEq, Prod.mk.injEq] at h
    rw [h3]
    exact ⟨rest, prev, h1, h.1.symm, h.2.symm⟩
  | some t0 =>
    unfold TimerManager.listExpireCb at h
    unfold TimerManager.expired
    cases hl : m.m_timers with
    | nil =>
      rw [hl] at h
      simp only [Option.some.injEq, Prod.mk.injEq] at h
      refine ⟨[], m.m_previousTime, rfl, ?_, ?_⟩
      · rw [← h.1]
        simp only [expireLoop]
        cases m
        simp only at hl
        simp [hl]
      · rw [← h.2]
        rfl
    | cons first tl =>
      rw [hl] at h
      simp only [hf, Option.isSome_some, if_true] at h
      simp only
      split at h
      · rename_i hc
        rw [if_pos hc]
        simp only [Option.some.injEq, Prod.mk.injEq] at h
        refine ⟨first :: tl, now_ms, rfl, ?_, ?_⟩
        · rw [← h.1]
          simp only [expireLoop]
        · rw [← h.2]
          rfl
      · exact absurd h (by simp)

theorem dead_listExpireCb (m : TimerManager) (hm : m.Ordered) (p : Nat) (hd : m.Dead p)
    (cbs : List (Option Nat)) (now_ms nowAddr : Nat) (m1 : TimerManager)
    (out : List (Option Nat)) (h : m.listExpireCb cbs now_ms nowAddr = some (m1, out)) :
    m1.Dead p := by
  obtain ⟨rest, prev, hsplit, hm1, -⟩ := listExpireCb_inv m hm cbs now_ms nowAddr m1 out h
  obtain ⟨-, f2, -, -, f5⟩ := expire_facts m hm now_ms _ rest cbs hsplit
  obtain ⟨hnot, t, ht, hcb⟩ := hd
  have hne : p ∉ m.expired now_ms nowAddr := by
    intro hc
    exact hnot (by rw [hsplit]; exact List.mem_append_left _ hc)
  have hnr : p ∉ rest := by
    intro hc
    exact hnot (by rw [hsplit]; exact List.mem_append_right _ hc)
  rw [hm1]
  refine ⟨?_, t, ?_, hcb⟩
  · intro hc
    rcases (f5 p).mp hc with h1 | ⟨h1, -⟩
    · exact hnr h1
    · exact hne h1
  · show (expireLoop now_ms _ m.heap rest cbs).1 p = some t
    rw [f2 p hne, ht]

theorem collected_dead (m : TimerManager) (hm : m.Ordered) (p : Nat) (t : Timer)
    (ht : m.heap p = some t) (hone : t.m_recurring = false)
    (cbs : List (Option Nat)) (now_ms nowAddr : Nat) (m1 : TimerManager)
    (out : List (Option Nat)) (h : m.listExpireCb cbs now_ms nowAddr = some (m1, out))
    (hp : p ∈ m.expired now_ms nowAddr) : m1.Dead p := by
  obtain ⟨rest, prev, hsplit, hm1, -⟩ := listExpireCb_inv m hm cbs now_ms nowAddr m1 out h
  obtain ⟨-, -, f3, -, f5⟩ := expire_facts m hm now_ms _ rest cbs hsplit
  have hnr : p ∉ rest := by
    have hnd := sorted_nodup m.heap _ hm.sorted
    rw [hsplit, List.nodup_append] at hnd
    exact fun hr => hnd.2.2 hp hr
  have hd : deref m.heap p = t := deref_of_some _ _ _ ht
  rw [hm1]
  refine ⟨?_, t.afterExpire now_ms, ?_, ?_⟩
  · intro hc
    rcases (f5 p).mp hc with h1 | ⟨-, h1⟩
    · exact hnr h1
    · rw [hd, hone] at h1
      exact absurd h1 (by simp)
  · show (expireLoop now_ms _ m.heap rest cbs).1 p = some _
    rw [f3 p hp, hd]
  · unfold Timer.afterExpire
    rw [if_neg (by rw [hone]; simp)]

theorem oneshot_listExpireCb (m : TimerManager) (hm : m.Ordered) (p : Nat) (t : Timer)
    (ht : m.heap p = some t) (hone : t.m_recurring = false)
    (cbs : List (Option Nat)) (now_ms nowAddr : Nat) (m1 : TimerManager)
    (out : List (Option Nat)) (h : m.listExpireCb cbs now_ms nowAddr = some (m1, out)) :
    ∃ t1, m1.heap p = some t1 ∧ t1.m_recurring = false := by
  obtain ⟨rest, prev, hsplit, hm1, -⟩ := listExpireCb_inv m hm cbs now_ms nowAddr m1 out h
  obtain ⟨-, f2, f3, -, -⟩ := expire_facts m hm now_ms _ rest cbs hsplit
  have hd : deref m.heap p = t := deref_of_some _ _ _ ht
  rw [hm1]
  by_cases hp : p ∈ m.expired now_ms nowAddr
  · refine ⟨t.afterExpire now_ms, ?_, ?_⟩
    · show (expireLoop now_ms _ m.heap rest cbs).1 p = some _
      rw [f3 p hp, hd]
    · rw [afterExpire_recurring]
      exact hone
  · refine ⟨t, ?_, hone⟩
    show (expireLoop now_ms _ m.heap rest cbs).1 p = some t
    rw [f2 p hp, ht]

theorem step_ordered (m : TimerManager) (hm : m.Ordered) (op : TimerOp)
    (hop : op.isReset = false) (m1 : TimerManager) (h : m.step op = some m1) : m1.Ordered := by
  cases op with
  | addTimer ms cb recurring now addr =>
    simp only [TimerManager.step, Option.map_eq_some'] at h
    obtain ⟨⟨m2, r⟩, h1, rfl⟩ := h
    exact addTimer_ordered m hm ms cb recurring now addr m2 r h1
  | cancel self =>
    simp only [TimerManager.step, Option.map_eq_some'] at h
    obtain ⟨⟨m2, r⟩, h1, rfl⟩ := h
    exact cancel_ordered m hm self m2 r h1
  | refresh self now =>
    simp only [TimerManager.step, Option.map_eq_some'] at h
    obtain ⟨⟨m2, r⟩, h1, rfl⟩ := h
    exact refresh_ordered m hm self now m2 r h1
  | reset self ms from_now now => exact absurd hop (by simp [TimerOp.isReset])
  | listExpireCb now nowAddr =>
    simp only [TimerManager.step, Option.map_eq_some'] at h
    obtain ⟨⟨m2, r⟩, h1, rfl⟩ := h
    exact listExpireCb_ordered m hm [] now nowAddr m2 r h1

/-- A one-shot timer stays a one-shot timer, and a dead timer stays dead. -/
theorem step_keeps (m : TimerManager) (hm : m.Ordered) (op : TimerOp)
    (hop : op.isReset = false) (m1 : TimerManager) (h : m.step op = some m1)
    (p : Nat) (t : Timer) (ht : m.heap p = some t) (hone : t.m_recurring = false) :
    (∃ t1, m1.heap p = some t1 ∧ t1.m_recurring = false) ∧ (m.Dead p → m1.Dead p) := by
  cases op with
  | addTimer ms cb recurring now addr =>
    simp only [TimerManager.step, Option.map_eq_some'] at h
    obtain ⟨⟨m2, r⟩, h1, rfl⟩ := h
    unfold TimerManager.addTimer at h1
    by_cases hf : (m.heap addr).isSome = true
    · rw [if_pos hf] at h1
      exact absurd h1 (by simp)
    · rw [if_neg hf] at h1
      simp only [Option.some.injEq, Prod.mk.injEq] at h1
      have hne : p ≠ addr := by
        intro e
        rw [← e, ht] at hf
        exact hf rfl
      have hheap : m2.heap p = m.heap p := by
        rw [← h1.1]
        show Function.update m.heap addr _ p = _
        rw [Function.update_noteq hne]
      refine ⟨⟨t, by rw [hheap, ht], hone⟩, ?_⟩
      rintro ⟨hnot, t2, ht2, hcb⟩
      refine ⟨?_, t2, by rw [hheap, ht2], hcb⟩
      rw [← h1.1]
      intro hc
      rcases (mem_setInsert _ addr m.m_timers p).mp hc with e | e
      · exact hne e
      · exact hnot e
  | cancel self =>
    simp only [TimerManager.step, Option.map_eq_some'] at h
    obtain ⟨⟨m2, r⟩, h1, rfl⟩ := h
    cases hs : m.heap self with
    | none =>
      unfold Timer.cancel at h1
      rw [hs] at h1
      exact absurd h1 (by simp)
    | some ts =>
      rw [cancel_spec m hm self ts hs] at h1
      by_cases hcb : ts.m_cb.isSome = true
      · rw [if_pos hcb] at h1
        simp only [Option.some.injEq, Prod.mk.injEq] at h1
        rw [← h1.1]
        by_cases hps : p = self
        · subst hps
          rw [ht] at hs
          simp only [Option.some.injEq] at hs
          subst hs
          refine ⟨⟨{ t with m_cb := none }, ?_, hone⟩, ?_⟩
          · show Function.update m.heap p _ p = _
            rw [Function.update_same]
          · rintro ⟨-, t2, ht2, hcb2⟩
            rw [ht] at ht2
            simp only [Option.some.injEq] at ht2
            rw [← ht2] at hcb2
            rw [hcb2] at hcb
            exact absurd hcb (by simp)
        · have hheap : Function.update m.heap self (some { ts with m_cb := none }) p
              = m.heap p := Function.update_noteq hps _ _
          refine ⟨⟨t, by show Function.update m.heap self _ p = _; rw [hheap, ht], hone⟩, ?_⟩
          rintro ⟨hnot, t2, ht2, hcb2⟩
          refine ⟨fun hc => hnot (List.mem_of_mem_erase hc), t2, ?_, hcb2⟩
          show Function.update m.heap self _ p = _
          rw [hheap, ht2]
      · rw [if_neg hcb] at h1
        simp only [Option.some.injEq, Prod.mk.injEq] at h1
        rw [← h1.1]
        exact ⟨⟨t, ht, hone⟩, fun hd => hd⟩
  | refresh self now =>
    simp only [TimerManager.step, Option.map_eq_some'] at h
    obtain ⟨⟨m2, r⟩, h1, rfl⟩ := h
    cases hs : m.heap self with
    | none =>
      unfold Timer.refresh at h1
      rw [hs] at h1
      exact absurd h1 (by simp)
    | some ts =>
      rw [refresh_spec m hm self now ts hs] at h1
      by_cases hcb : ts.m_cb.isSome = true
      · rw [if_pos hcb] at h1
        simp only [Option.some.injEq, Prod.mk.injEq] at h1
        rw [← h1.1]
        by_cases hps : p = self
        · subst hps
          rw [ht] at hs
          simp only [Option.some.injEq] at hs
          subst hs
          refine ⟨⟨{ t with m_next := (now + t.m_ms) % 2 ^ 64 }, ?_, hone⟩, ?_⟩
          · show Function.update m.heap p _ p = _
            rw [Function.update_same]
          · rintro ⟨-, t2, ht2, hcb2⟩
            rw [ht] at ht2
            simp only [Option.some.injEq] at ht2
            rw [← ht2] at hcb2
            rw [hcb2] at hcb
            exact absurd hcb (by simp)
        · have hheap : Function.update m.heap self
              (some { ts with m_next := (now + ts.m_ms) % 2 ^ 64 }) p = m.heap p :=
            Function.update_noteq hps _ _
          refine ⟨⟨t, by show Function.update m.heap self _ p = _; rw [hheap, ht], hone⟩, ?_⟩
          rintro ⟨hnot, t2, ht2, hcb2⟩
          refine ⟨?_, t2, ?_, hcb2⟩
          · intro hc
            rcases (mem_setInsert _ self _ p).mp hc with e | e
            · exact hps e
            · exact hnot (List.mem_of_mem_erase e)
          · show Function.update m.heap self _ p = _
            rw [hheap, ht2]
      · rw [if_neg hcb] at h1
        simp only [Option.some.injEq, Prod.mk.injEq] at h1
        rw [← h1.1]
        exact ⟨⟨t, ht, hone⟩, fun hd => hd⟩
  | reset self ms from_now now => exact absurd hop (by simp [TimerOp.isReset])
  | listExpireCb now nowAddr =>
    simp only [TimerManager.step, Option.map_eq_some'] at h
    obtain ⟨⟨m2, r⟩, h1, rfl⟩ := h
    exact ⟨oneshot_listExpireCb m hm p t ht hone [] now nowAddr m2 r h1,
      fun hd => dead_listExpireCb m hm p hd [] now nowAddr m2 r h1⟩

theorem collects_mem (m : TimerManager) (hm : m.Ordered) (op : TimerOp) (m1 : TimerManager)
    (h : m.step op = some m1) (p : Nat) (hc : m.collects p op = true) :
    p ∈ m.m_timers ∧ ∀ t, m.heap p = some t → t.m_recurring = false → m1.Dead p := by
  cases op with
  | listExpireCb now nowAddr =>
    simp only [TimerManager.step, Option.map_eq_some'] at h
    obtain ⟨⟨m2, r⟩, h1, rfl⟩ := h
    simp only [TimerManager.collects, decide_eq_true_eq] at hc
    obtain ⟨rest, prev, hsplit, -, -⟩ := listExpireCb_inv m hm [] now nowAddr m2 r h1
    refine ⟨by rw [hsplit]; exact List.mem_append_left _ hc, ?_⟩
    intro t ht hone
    exact collected_dead m hm p t ht hone [] now nowAddr m2 r h1 hc
  | addTimer ms cb recurring now addr => exact absurd hc (by simp [TimerManager.collects])
  | cancel self => exact absurd hc (by simp [TimerManager.collects])
  | refresh self now => exact absurd hc (by simp [TimerManager.collects])
  | reset self ms from_now now => exact absurd hc (by simp [TimerManager.collects])

theorem fires_dead (p : Nat) (ops : List TimerOp) :
    ∀ (m : TimerManager), m.Ordered → m.Dead p → (∀ op ∈ ops, op.isReset = false) →
      TimerManager.fires p m ops = 0 := by
  induction ops with
  | nil => intro m _ _ _; rfl
  | cons op rest ih =>
    intro m hm hd hops
    obtain ⟨hnot, t, ht, hcb⟩ := hd
    unfold TimerManager.fires
    cases hs : m.step op with
    | none => rfl
    | some m1 =>
      simp only
      have hop := hops op (List.mem_cons_self _ _)
      have hm1 := step_ordered m hm op hop m1 hs
      have hnc : m.collects p op = false := by
        by_contra hc
        exact hnot (collects_mem m hm op m1 hs p (by simpa using hc)).1
      have hdead1 : m1.Dead p := by
        cases op with
        | addTimer ms cb recurring now addr =>
          simp only [TimerManager.step, Option.map_eq_some'] at hs
          obtain ⟨⟨m2, r⟩, h1, rfl⟩ := hs
          unfold TimerManager.addTimer at h1
          by_cases hf : (m.heap addr).isSome = true
          · rw [if_pos hf] at h1
            exact absurd h1 (by simp)
          · rw [if_neg hf] at h1
            simp only [Option.some.injEq, Prod.mk.injEq] at h1
            have hne : p ≠ addr := by
              intro e
              rw [← e, ht] at hf
              exact hf rfl
            rw [← h1.1]
            refine ⟨?_, t, ?_, hcb⟩
            · intro hc
              rcases (mem_setInsert _ addr m.m_timers p).mp hc with e | e
              · exact hne e
              · exact hnot e
            · show Function.update m.heap addr _ p = _
              rw [Function.update_noteq hne, ht]
        | cancel self =>
          simp only [TimerManager.step, Option.map_eq_some'] at hs
          obtain ⟨⟨m2, r⟩, h1, rfl⟩ := hs
          cases hself : m.heap self with
          | none =>
            unfold Timer.cancel at h1
            rw [hself] at h1
            exact absurd h1 (by simp)
          | some ts =>
            rw [cancel_spec m hm self ts hself] at h1
            by_cases hcbs : ts.m_cb.isSome = true
            · rw [if_pos hcbs] at h1
              simp only [Option.some.injEq, Prod.mk.injEq] at h1
              rw [← h1.1]
              have hps : p ≠ self := by
                intro e
                rw [← e, ht] at hself
                simp only [Option.some.injEq] at hself
                rw [← hself, hcb] at hcbs
                exact absurd hcbs (by simp)
              refine ⟨fun hc => hnot (List.mem_of_mem_erase hc), t, ?_, hcb⟩
              show Function.update m.heap self _ p = _
              rw [Function.update_noteq hps, ht]
            · rw [if_neg hcbs] at h1
              simp only [Option.some.injEq, Prod.mk.injEq] at h1
              rw [← h1.1]
              exact ⟨hnot, t, ht, hcb⟩
        | refresh self now =>
          simp only [TimerManager.step, Option.map_eq_some'] at hs
          obtain ⟨⟨m2, r⟩, h1, rfl⟩ := hs
          cases hself : m.heap self with
          | none =>
            unfold Timer.refresh at h1
            rw [hself] at h1
            exact absurd h1 (by simp)
          | some ts =>
            rw [refresh_spec m hm self now ts hself] at h1
            by_cases hcbs : ts.m_cb.isSome = true
            · rw [if_pos hcbs] at h1
              simp only [Option.some.injEq, Prod.mk.injEq] at h1
              rw [← h1.1]
              have hps : p ≠ self := by
                intro e
                rw [← e, ht] at hself
                simp only [Option.some.injEq] at hself
                rw [← hself, hcb] at hcbs
                exact absurd hcbs (by simp)
              refine ⟨?_, t, ?_, hcb⟩
              · intro hc
                rcases (mem_setInsert _ self _ p).mp hc with e | e
                · exact hps e
                · exact hnot (List.mem_of_mem_erase e)
              · show Function.update m.heap self _ p = _
                rw [Function.update_noteq hps, ht]
            · rw [if_neg hcbs] at h1
              simp only [Option.some.injEq, Prod.mk.injEq] at h1
              rw [← h1.1]
              exact ⟨hnot, t, ht, hcb⟩
        | reset self ms from_now now => exact absurd hop (by simp [TimerOp.isReset])
        | listExpireCb now nowAddr =>
          simp only [TimerManager.step, Option.map_eq_some'] at hs
          obtain ⟨⟨m2, r⟩, h1, rfl⟩ := hs
          exact dead_listExpireCb m hm p ⟨hnot, t, ht, hcb⟩ [] now nowAddr m2 r h1
      rw [hnc, ih m1 hm1 hdead1 (fun o ho => hops o (List.mem_cons_of_mem _ ho))]
      rfl

theorem fires_le_one (p : Nat) (ops : List TimerOp) :
    ∀ (m : TimerManager) (t : Timer), m.Ordered → m.heap p = some t → t.m_recurring = false →
      (∀ op ∈ ops, op.isReset = false) → TimerManager.fires p m ops ≤ 1 := by
  induction ops with
  | nil => intro m t _ _ _ _; exact Nat.zero_le 1
  | cons op rest ih =>
    intro m t hm ht hone hops
    unfold TimerManager.fires
    cases hs : m.step op with
    | none => exact Nat.zero_le 1
    | some m1 =>
      simp only
      have hop := hops op (List.mem_cons_self _ _)
      have hrest : ∀ o ∈ rest, o.isReset = false := fun o ho => hops o (List.mem_cons_of_mem _ ho)
      have hm1 := step_ordered m hm op hop m1 hs
      obtain ⟨⟨t1, ht1, hone1⟩, -⟩ := step_keeps m hm op hop m1 hs p t ht hone
      by_cases hc : m.collects p op = true
      · have hdead := (collects_mem m hm op m1 hs p hc).2 t ht hone
        rw [if_pos hc, fires_dead p rest m1 hm1 hdead hrest]
      · rw [if_neg hc, Nat.zero_add]
        exact ih m1 t1 hm1 ht1 hone1 hrest

theorem cancel_dead (m : TimerManager) (hm : m.Ordered) (p : Nat) (m1 : TimerManager)
    (h : Timer.cancel m p = some (m1, true)) : m1.Dead p := by
  cases ht : m.heap p with
  | none =>
    unfold Timer.cancel at h
    rw [ht] at h
    exact absurd h (by simp)
  | some t =>
    rw [cancel_spec m hm p t ht] at h
    by_cases hcb : t.m_cb.isSome = true
    · rw [if_pos hcb] at h
      simp only [Option.some.injEq, Prod.mk.injEq] at h
      rw [← h.1]
      have hnd := sorted_nodup m.heap m.m_timers hm.sorted
      refine ⟨?_, { t with m_cb := none }, ?_, rfl⟩
      · intro hc
        exact ((List.Nodup.mem_erase_iff hnd).mp hc).1 rfl
      · show Function.update m.heap p _ p = _
        rw [Function.update_same]
    · rw [if_neg hcb] at h
      simp only [Option.some.injEq, Prod.mk.injEq] at h
      exact absurd h.2 (by simp)

/-- C10: for a one-shot timer in an ordered timer set and every sequence of `addTimer`,
`Timer::cancel`, `Timer::refresh` and `listExpireCb` calls, at most one `listExpireCb` call
appends the timer's callable to its output vector, and none does after a `cancel` of the
timer that returned true. -/
theorem C10_one_shot_fires_at_most_once (m : TimerManager) (hm : m.Ordered) (p : Nat)
    (t : Timer) (ht : m.heap p = some t) (hone : t.m_recurring = false)
    (ops : List TimerOp) (hops : ∀ op ∈ ops, op.isReset = false) :
    TimerManager.fires p m ops ≤ 1
      ∧ (∀ m1, Timer.cancel m p = some (m1, true) → TimerManager.fires p m1 ops = 0) := by
  refine ⟨fires_le_one p ops m t hm ht hone hops, ?_⟩
  intro m1 hc
  exact fires_dead p ops m1 (cancel_ordered m hm p m1 true hc) (cancel_dead m hm p m1 hc) hops

theorem init_ordered (now : Nat) : (TimerManager.init now).Ordered := by
  refine ⟨List.Pairwise.nil, ?_, ?_⟩
  · intro a ha
    exact absurd ha (List.not_mem_nil a)
  · intro a t hat _
    exact absurd hat (by simp [TimerManager.init])

theorem exampleTimers_ordered : exampleTimers.Ordered := by
  have h1 : (TimerManager.init 0).Ordered := init_ordered 0
  have h2 := addTimer_ordered _ h1 10 (some 1) false 0 100 _ _ rfl
  have h3 := addTimer_ordered _ h2 20 (some 2) true 0 200 _ _ rfl
  exact addTimer_ordered _ h3 50 (some 3) false 0 300 exampleTimers 300 rfl

/-- Example: `listExpireCb` at clock reading 25 on `exampleTimers` collects the timers with
deadlines 10 and 20 and keeps the one with deadline 50. -/
theorem listExpireCb_collects_due_example :
    ∃ m1, exampleTimers.listExpireCb [] 25 999 = some (m1, [some 1, some 2])
      ∧ 300 ∈ m1.m_timers ∧ m1.heap 300 = exampleTimers.heap 300 := by
  obtain ⟨m1, h1, h2⟩ :=
    listExpireCb_collects_due exampleTimers exampleTimers_ordered [] 25 999 rfl
  exact ⟨m1, h1, h2 rfl 300 (by decide) (by decide)⟩

/-- Example: `listExpireCb` at clock reading 25 on `exampleTimers`; the recurring timer at 200
gets deadline 45, the one-shot timer at 100 leaves the set. -/
theorem listExpireCb_reinserts_recurring_example :
    ∃ m1 out, exampleTimers.listExpireCb [] 25 999 = some (m1, out)
      ∧ (m1.m_timers.count 200 = 1
          ∧ m1.heap 200
              = some { m_recurring := true, m_ms := 20, m_next := 45, m_cb := some 2 })
      ∧ (100 ∉ m1.m_timers
          ∧ m1.heap 100
              = some { m_recurring := false, m_ms := 10, m_next := 10, m_cb := none }) := by
  refine ⟨_, _, rfl, ?_, ?_⟩
  · have h := (listExpireCb_reinserts_recurring exampleTimers exampleTimers_ordered [] 25
      999 rfl _ _ rfl 200 { m_recurring := true, m_ms := 20, m_next := 20, m_cb := some 2 }
      (by decide) rfl).1 rfl
    exact ⟨h.1, h.2.2 (by decide)⟩
  · exact (listExpireCb_reinserts_recurring exampleTimers exampleTimers_ordered [] 25 999 rfl
      _ _ rfl 100 { m_recurring := false, m_ms := 10, m_next := 10, m_cb := some 1 }
      (by decide) rfl).2 rfl

/-- C9 fails on the code: after two `addTimer` calls and a `Timer::reset` of the first timer
to a later deadline, the entry of that timer (deadline 30) still stands before the entry of
the second timer (deadline 20), both callables being set; no sequence that contains these two
entries in this order is ordered by `Comparator`, so whatever `insert` adds cannot repair the
order, and the first entry does not have the smallest deadline. -/
theorem C9_reset_breaks_order :
    ∃ m, (TimerManager.init 0).run exampleResetOps = some m
      ∧ m.m_timers = [100, 200]
      ∧ (deref m.heap 100).m_next = 30 ∧ (deref m.heap 200).m_next = 20
      ∧ (deref m.heap 100).m_cb = some 1 ∧ (deref m.heap 200).m_cb = some 2
      ∧ ¬ m.Ordered
      ∧ ∀ l : List Nat, List.Sublist [100, 200] l →
          ¬ l.Pairwise (fun a b => TimerManager.lt m.heap a b = true) := by
  refine ⟨_, rfl, rfl, rfl, rfl, rfl, rfl, ?_, ?_⟩
  · intro ho
    have h := ho.sorted
    have h2 : ([100, 200] : List Nat).Pairwise _ := h
    rw [List.pairwise_cons] at h2
    exact absurd (h2.1 200 (by simp)) (by decide)
  · intro l hsub hp
    have h2 := hp.sublist hsub
    rw [List.pairwise_cons] at h2
    exact absurd (h2.1 200 (by simp)) (by decide)

/-- Witness of C10: the one-shot timer at address 100 of `exampleTimers` under `exampleFireOps`, and
the same calls after it was cancelled. -/
theorem C10_one_shot_fires_at_most_once_witness :
    TimerManager.fires 100 exampleTimers exampleFireOps ≤ 1
      ∧ TimerManager.fires 100 exampleTimers exampleFireOps = 1
      ∧ ∃ m1, Timer.cancel exampleTimers 100 = some (m1, true)
          ∧ TimerManager.fires 100 m1 exampleFireOps = 0 := by
  have h := C10_one_shot_fires_at_most_once exampleTimers exampleTimers_ordered 100
    { m_recurring := false, m_ms := 10, m_next := 10, m_cb := some 1 } rfl rfl exampleFireOps
    (by decide)
  exact ⟨h.1, by decide, _, rfl, h.2 _ rfl⟩

/-! ## Lemmas on cancelled and fired timers -/

/-- `Timer::cancel` on a timer without callable returns false and changes nothing. -/
theorem cancel_no_cb (m : TimerManager) (self : Nat) (t : Timer) (ht : m.heap self = some t)
    (hcb : t.m_cb = none) : Timer.cancel m self = some (m, false) := by
  unfold Timer.cancel
  rw [ht]
  simp only [hcb, Option.isSome_none, Bool.false_eq_true, if_false]

/-- `Timer::refresh` on a timer without callable returns false and changes nothing. -/
theorem refresh_no_cb (m : TimerManager) (self now : Nat) (t : Timer)
    (ht : m.heap self = some t) (hcb : t.m_cb = none) :
    Timer.refresh m self now = some (m, false) := by
  unfold Timer.refresh
  rw [ht]
  simp only [hcb, Option.isSome_none, Bool.not_false, if_true]

theorem dead_cancel_refresh (m : TimerManager) (self : Nat) (hd : m.Dead self) (now : Nat) :
    Timer.cancel m self = some (m, false) ∧ Timer.refresh m self now = some (m, false) := by
  obtain ⟨-, t, ht, hcb⟩ := hd
  exact ⟨cancel_no_cb m self t ht hcb, refresh_no_cb m self now t ht hcb⟩

/-- In an ordered timer set, `Timer::cancel` on a timer whose callable is set takes it
out of the set, clears its callable, leaves every other timer as it is and returns true; on
the manager left by that cancel, or by a `listExpireCb` that collected the timer when it is
one-shot, `Timer::cancel` and `Timer::refresh` return false and leave the manager unchanged;
so a second cancel directly after a cancel returns false and changes nothing. -/
theorem cancel_then_noop (m : TimerManager) (hm : m.Ordered) (self : Nat) (t : Timer)
    (ht : m.heap self = some t) :
    (t.m_cb.isSome = true →
        Timer.cancel m self
            = some ({ m with heap := Function.update m.heap self (some { t with m_cb := none }),
                             m_timers := m.m_timers.erase self }, true)
          ∧ self ∉ m.m_timers.erase self
          ∧ ∀ q, q ≠ self → q ∈ m.m_timers → q ∈ m.m_timers.erase self)
      ∧ (∀ m1 : TimerManager,
          (Timer.cancel m self = some (m1, true)
            ∨ (t.m_recurring = false
                ∧ ∃ cbs now_ms nowAddr out, m.listExpireCb cbs now_ms nowAddr = some (m1, out)
                    ∧ self ∈ m.expired now_ms nowAddr)) →
          ∀ now, Timer.cancel m1 self = some (m1, false)
            ∧ Timer.refresh m1 self now = some (m1, false))
      ∧ (∀ (m1 : TimerManager) (r : Bool), Timer.cancel m self = some (m1, r) →
          Timer.cancel m1 self = some (m1, false)) := by
  have hnd := sorted_nodup m.heap m.m_timers hm.sorted
  refine ⟨?_, ?_, ?_⟩
  · intro hcb
    refine ⟨?_, ?_, ?_⟩
    · rw [cancel_spec m hm self t ht, if_pos hcb]
    · intro hc
      exact ((List.Nodup.mem_erase_iff hnd).mp hc).1 rfl
    · intro q hq hmem
      exact (List.mem_erase_of_ne hq).mpr hmem
  · intro m1 h now
    rcases h with h | ⟨hone, cbs, now_ms, nowAddr, out, hl, hexp⟩
    · exact dead_cancel_refresh m1 self (cancel_dead m hm self m1 h) now
    · exact dead_cancel_refresh m1 self
        (collected_dead m hm self t ht hone cbs now_ms nowAddr m1 out hl hexp) now
  · intro m1 r h
    cases r with
    | true => exact (dead_cancel_refresh m1 self (cancel_dead m hm self m1 h) 0).1
    | false =>
      rw [cancel_spec m hm self t ht] at h
      by_cases hcb : t.m_cb.isSome = true
      · rw [if_pos hcb] at h
        simp only [Option.some.injEq, Prod.mk.injEq] at h
        exact absurd h.2 (by simp)
      · rw [if_neg hcb] at h
        simp only [Option.some.injEq, Prod.mk.injEq] at h
        rw [← h.1]
        refine cancel_no_cb m self t ht ?_
        cases hc : t.m_cb with
        | none => rfl
        | some c => rw [hc] at hcb; exact absurd rfl hcb

/-- Example: the one-shot timer at address 100 of `exampleTimers`, cancelled, and collected
by `listExpireCb` at clock reading 25. -/
theorem cancel_then_noop_example :
    (∃ m1, Timer.cancel exampleTimers 100 = some (m1, true) ∧ m1.m_timers = [200, 300]
        ∧ Timer.cancel m1 100 = some (m1, false) ∧ Timer.refresh m1 100 7 = some (m1, false))
      ∧ ∃ m2 out, exampleTimers.listExpireCb [] 25 999 = some (m2, out)
          ∧ Timer.cancel m2 100 = some (m2, false)
          ∧ Timer.refresh m2 100 30 = some (m2, false) := by
  obtain ⟨h1, h2, -⟩ := cancel_then_noop exampleTimers exampleTimers_ordered 100
    { m_recurring := false, m_ms := 10, m_next := 10, m_cb := some 1 } rfl
  refine ⟨⟨_, (h1 rfl).1, rfl, (h2 _ (Or.inl (h1 rfl).1) 7).1, (h2 _ (Or.inl (h1 rfl).1) 7).2⟩,
    _, _, rfl, ?_⟩
  exact h2 _ (Or.inr ⟨rfl, [], 25, 999, _, rfl, by decide⟩) 30

/-! ## Lemmas on the next deadline -/

theorem getNextTimer_empty (m : TimerManager) (now_ms : Nat) (h : m.m_timers = []) :
    m.getNextTimer now_ms = some ({ m with m_tickled := false }, 2 ^ 64 - 1) := by
  unfold TimerManager.getNextTimer
  rw [h]

theorem getNextTimer_cons (m : TimerManager) (now_ms : Nat) (first : Nat) (rest : List Nat)
    (t : Timer) (h : m.m_timers = first :: rest) (ht : m.heap first = some t) :
    m.getNextTimer now_ms
      = some ({ m with m_tickled := false },
          if t.m_next ≤ now_ms then 0 else (t.m_next + 2 ^ 64 - now_ms) % 2 ^ 64) := by
  unfold TimerManager.getNextTimer
  rw [h]
  simp only [ht, ge_iff_le]
  split <;> rfl

/-- The first element of an ordered timer set has the smallest deadline. -/
theorem head_earliest (m : TimerManager) (hm : m.Ordered) (first : Nat) (rest : List Nat)
    (h : m.m_timers = first :: rest) :
    ∀ b ∈ m.m_timers, (deref m.heap first).m_next ≤ (deref m.heap b).m_next := by
  have hs := sorted_deadlines m.heap m.m_timers hm.sorted
  rw [h] at hs ⊢
  rw [List.pairwise_cons] at hs
  intro b hb
  rcases List.mem_cons.mp hb with hb | hb
  · rw [hb]
  · exact hs.1 b hb

/-- On an ordered timer set whose deadlines are 64-bit values, `getNextTimer` at clock
reading `now_ms` returns `2^64 - 1` when the set is empty; when `d` is the earliest deadline
of the set it returns 0 if `d ≤ now_ms` and `d - now_ms` otherwise. -/
theorem getNextTimer_value (m : TimerManager) (hm : m.Ordered)
    (h64 : ∀ a ∈ m.m_timers, (deref m.heap a).m_next < 2 ^ 64) (now_ms : Nat) :
    (m.m_timers = [] →
        m.getNextTimer now_ms = some ({ m with m_tickled := false }, 2 ^ 64 - 1))
      ∧ ∀ d : Nat, (∃ a ∈ m.m_timers, (deref m.heap a).m_next = d) →
          (∀ b ∈ m.m_timers, d ≤ (deref m.heap b).m_next) →
          m.getNextTimer now_ms
            = some ({ m with m_tickled := false }, if d ≤ now_ms then 0 else d - now_ms) := by
  refine ⟨getNextTimer_empty m now_ms, ?_⟩
  intro d ⟨a, ha, had⟩ hmin
  obtain ⟨first, rest, hl⟩ := List.exists_cons_of_ne_nil (List.ne_nil_of_mem ha)
  · have hfirst : first ∈ m.m_timers := by rw [hl]; exact List.mem_cons_self _ _
    have halloc := hm.alloc first hfirst
    cases ht : m.heap first with
    | none => rw [ht] at halloc; exact absurd halloc (by simp)
    | some t =>
      have hd : deref m.heap first = t := deref_of_some _ _ _ ht
      have h1 := head_earliest m hm first rest hl a ha
      have h2 := hmin first hfirst
      have h3 := h64 first hfirst
      rw [hd] at h1 h2 h3
      have hdt : d = t.m_next := by omega
      rw [getNextTimer_cons m now_ms first rest t hl ht, hdt]
      by_cases hle : t.m_next ≤ now_ms
      · rw [if_pos hle, if_pos hle]
      · rw [if_neg hle, if_neg hle]
        have : (t.m_next + 2 ^ 64 - now_ms) % 2 ^ 64 = t.m_next - now_ms := by
          have h4 : t.m_next + 2 ^ 64 - now_ms = (t.m_next - now_ms) + 2 ^ 64 := by omega
          rw [h4, Nat.add_mod_right]
          exact Nat.mod_eq_of_lt (by omega)
        rw [this]

/-- Example: `exampleTimers` (earliest deadline 10) at clock readings 4 and 25. -/
theorem getNextTimer_value_example :
    exampleTimers.getNextTimer 4 = some ({ exampleTimers with m_tickled := false }, 6)
      ∧ exampleTimers.getNextTimer 25 = some ({ exampleTimers with m_tickled := false }, 0)
      ∧ (TimerManager.init 0).getNextTimer 25
          = some ({ TimerManager.init 0 with m_tickled := false }, 2 ^ 64 - 1) := by
  have hb : ∀ a ∈ exampleTimers.m_timers, (deref exampleTimers.heap a).m_next < 2 ^ 64 := by
    decide
  have hmin : ∀ b ∈ exampleTimers.m_timers, 10 ≤ (deref exampleTimers.heap b).m_next := by
    decide
  refine ⟨(getNextTimer_value exampleTimers exampleTimers_ordered hb 4).2 10
      ⟨100, by decide, rfl⟩ hmin,
    (getNextTimer_value exampleTimers exampleTimers_ordered hb 25).2 10
      ⟨100, by decide, rfl⟩ hmin,
    (getNextTimer_value (TimerManager.init 0) (init_ordered 0)
      (fun a ha => absurd ha (List.not_mem_nil a)) 25).1 rfl⟩

/-! ## Lemmas on condition timers and batch scheduling -/

/-- C13: the timer that `addConditionTimer(ms, cb, weak_cond)` adds holds a callable which,
when run, invokes `cb` exactly once and nothing else if the witness object is alive at that
time, and invokes nothing if the witness is gone (or the weak pointer was empty). -/
theorem C13_condition_timer_callable (m : TimerManager) (binds : Nat → Option OnTimerBind)
    (ms cb : Nat) (weak_cond : Option Nat) (recurring : Bool) (now addr fn : Nat)
    (m1 : TimerManager) (binds1 : Nat → Option OnTimerBind) (p : Nat)
    (h : m.addConditionTimer binds ms (some cb) weak_cond recurring now addr fn
          = some ((m1, binds1), p))
    (alive : Nat → Bool) :
    ∃ t f, m1.heap p = some t ∧ t.m_cb = some f
      ∧ (weakLock alive weak_cond = true →
          invoke binds1 alive f = some [cb] ∧ [cb].count cb = 1)
      ∧ (weakLock alive weak_cond = false → invoke binds1 alive f = some []) := by
  unfold TimerManager.addConditionTimer at h
  cases ha : m.addTimer ms (some fn) recurring now addr with
  | none => rw [ha] at h; exact absurd h (by simp)
  | some r =>
    obtain ⟨m2, q⟩ := r
    rw [ha] at h
    simp only [Option.some.injEq, Prod.mk.injEq] at h
    obtain ⟨⟨hm1, hb⟩, hp⟩ := h
    unfold TimerManager.addTimer at ha
    by_cases hf : (m.heap addr).isSome = true
    · rw [if_pos hf] at ha
      exact absurd ha (by simp)
    · rw [if_neg hf] at ha
      simp only [Option.some.injEq, Prod.mk.injEq] at ha
      obtain ⟨hm2, hq⟩ := ha
      refine ⟨{ m_recurring := recurring, m_ms := ms, m_next := (now + ms) % 2 ^ 64,
                m_cb := some fn }, fn, ?_, rfl, ?_, ?_⟩
      · rw [← hm1, ← hm2, ← hp, ← hq]
        show Function.update m.heap addr _ addr = _
        rw [Function.update_same]
      · intro hl
        refine ⟨?_, by simp⟩
        rw [← hb]
        unfold invoke
        rw [Function.update_same]
        simp only [OnTimer, hl, if_true]
      · intro hl
        rw [← hb]
        unfold invoke
        rw [Function.update_same]
        simp only [OnTimer, hl, Bool.false_eq_true, if_false]

/-- Witness of C13: a condition timer of 10 ms with callable 7 and witness object 50, added to
`exampleTimers` at address 400, run while the object is alive and after it is gone. -/
theorem C13_condition_timer_callable_witness :
    ∃ m1 binds1 t f,
      exampleTimers.addConditionTimer (fun _ => none) 10 (some 7) (some 50) false 0 400 9
          = some ((m1, binds1), 400)
        ∧ m1.heap 400 = some t ∧ t.m_cb = some f
        ∧ invoke binds1 (fun _ => true) f = some [7]
        ∧ invoke binds1 (fun _ => false) f = some [] := by
  have h : exampleTimers.addConditionTimer (fun _ => none) 10 (some 7) (some 50) false 0 400 9
      = some ((_, _), 400) := rfl
  obtain ⟨t, f, h1, h2, h3, -⟩ := C13_condition_timer_callable exampleTimers (fun _ => none)
    10 7 (some 50) false 0 400 9 _ _ 400 h (fun _ => true)
  obtain ⟨t', f', h1', h2', -, h4⟩ := C13_condition_timer_callable exampleTimers
    (fun _ => none) 10 7 (some 50) false 0 400 9 _ _ 400 h (fun _ => false)
  have ht : t' = t := Option.some.inj (h1'.symm.trans h1)
  have hf : f' = f := by
    rw [ht] at h2'
    exact Option.some.inj (h2'.symm.trans h2)
  rw [hf] at h4
  exact ⟨_, _, t, f, h, h1, h2, (h3 rfl).1, h4 rfl⟩

theorem scheduleNoLock_fibers (s : Scheduler) (ft : FiberAndThread) :
    (s.scheduleNoLock ft).1.m_fibers = s.m_fibers ++ [ft].filter FiberAndThread.nonEmpty := by
  unfold Scheduler.scheduleNoLock
  by_cases h : (ft.fiber.isSome || ft.cb.isSome) = true
  · rw [if_pos h]
    simp only [List.filter, FiberAndThread.nonEmpty, h]
  · rw [if_neg h]
    simp only [List.filter, FiberAndThread.nonEmpty, h, List.append_nil]

theorem scheduleNoLock_result (s : Scheduler) (ft : FiberAndThread) :
    (s.scheduleNoLock ft).2 = s.m_fibers.isEmpty
      ∧ (s.scheduleNoLock ft).1.tickles = s.tickles := by
  unfold Scheduler.scheduleNoLock
  split <;> exact ⟨rfl, rfl⟩

/-- The loop of `schedule(begin, end)`: the queue grows by the non-empty tasks in order, no
`tickle()` happens inside, and the flag is raised iff it was raised before or the loop ran at
least once on a queue that was empty at its start. -/
theorem scheduleLoop_spec (range : List FiberOrCb) :
    ∀ (s : Scheduler) (b : Bool),
      (s.scheduleLoop b range).1.m_fibers
          = s.m_fibers ++ (range.map (fun fc => FiberAndThread.ofFiberOrCb fc (-1))).filter
              FiberAndThread.nonEmpty
        ∧ (s.scheduleLoop b range).1.tickles = s.tickles
        ∧ (s.scheduleLoop b range).2
            = (b || (s.m_fibers.isEmpty && !range.isEmpty)) := by
  induction range with
  | nil =>
    intro s b
    simp [Scheduler.scheduleLoop]
  | cons fc rest ih =>
    intro s b
    have h1 := scheduleNoLock_fibers s (FiberAndThread.ofFiberOrCb fc (-1))
    have h2 := scheduleNoLock_result s (FiberAndThread.ofFiberOrCb fc (-1))
    obtain ⟨i1, i2, i3⟩ := ih (s.scheduleNoLock (FiberAndThread.ofFiberOrCb fc (-1))).1
      ((s.scheduleNoLock (FiberAndThread.ofFiberOrCb fc (-1))).2 || b)
    unfold Scheduler.scheduleLoop
    simp only
    refine ⟨?_, ?_, ?_⟩
    · rw [i1, h1, List.map_cons, List.append_assoc]
      congr 1
      simp only [List.filter]
      split <;> simp
    · rw [i2, h2.2]
    · rw [i3, h2.1, h1]
      cases hE : s.m_fibers.isEmpty with
      | true => simp
      | false =>
        have hne : s.m_fibers ≠ [] := by
          intro hc
          rw [hc] at hE
          exact absurd hE (by simp)
        have : (s.m_fibers ++ [FiberAndThread.ofFiberOrCb fc (-1)].filter
            FiberAndThread.nonEmpty).isEmpty = false := by
          cases hs : s.m_fibers with
          | nil => exact absurd hs hne
          | cons x xs => rfl
        rw [this]
        simp

/-- Both forms of `schedule` in terms of the constructor of `FiberAndThread`: the tasks built
from the arguments that hold a coroutine or a callable go to the tail of the queue in
argument order, and `tickle()` is called once if the queue was empty at the start (for the
range form: and the range is non-empty) and not at all otherwise. -/
theorem schedule_spec (s : Scheduler) :
    (∀ (fc : FiberOrCb) (thread : Int),
        (s.schedule (FiberAndThread.ofFiberOrCb fc thread)).m_fibers
            = s.m_fibers ++ [FiberAndThread.ofFiberOrCb fc thread].filter
                FiberAndThread.nonEmpty
          ∧ (s.schedule (FiberAndThread.ofFiberOrCb fc thread)).tickles
            = s.tickles + (if s.m_fibers = [] then 1 else 0))
      ∧ ∀ range : List FiberOrCb,
          (s.scheduleRange range).m_fibers
              = s.m_fibers ++ (range.map (fun fc => FiberAndThread.ofFiberOrCb fc (-1))).filter
                  FiberAndThread.nonEmpty
            ∧ (s.scheduleRange range).tickles
              = s.tickles + (if s.m_fibers = [] ∧ range ≠ [] then 1 else 0) := by
  refine ⟨?_, ?_⟩
  · intro fc thread
    have h1 := scheduleNoLock_fibers s (FiberAndThread.ofFiberOrCb fc thread)
    have h2 := scheduleNoLock_result s (FiberAndThread.ofFiberOrCb fc thread)
    unfold Scheduler.schedule
    simp only
    rw [h2.1]
    cases hE : s.m_fibers.isEmpty with
    | true =>
      have he : s.m_fibers = [] := List.isEmpty_iff.mp hE
      simp only [if_true]
      refine ⟨h1, ?_⟩
      show (s.scheduleNoLock _).1.tickles + 1 = _
      rw [h2.2, if_pos he]
    | false =>
      have hne : ¬ s.m_fibers = [] := by
        intro hc
        rw [hc] at hE
        exact absurd hE (by simp)
      simp only [Bool.false_eq_true, if_false]
      refine ⟨h1, ?_⟩
      rw [h2.2, if_neg hne, Nat.add_zero]
  · intro range
    obtain ⟨i1, i2, i3⟩ := scheduleLoop_spec range s false
    unfold Scheduler.scheduleRange
    simp only
    rw [i3]
    by_cases hc : s.m_fibers = [] ∧ range ≠ []
    · have hb : (false || (s.m_fibers.isEmpty && !range.isEmpty)) = true := by
        obtain ⟨h1, h2⟩ := hc
        rw [h1]
        cases range with
        | nil => exact absurd rfl h2
        | cons x xs => rfl
      rw [hb, if_pos hc]
      simp only [if_true]
      refine ⟨i1, ?_⟩
      show (s.scheduleLoop false range).1.tickles + 1 = _
      rw [i2]
    · have hb : (false || (s.m_fibers.isEmpty && !range.isEmpty)) = false := by
        cases hs : s.m_fibers with
        | cons x xs => rfl
        | nil =>
          cases hr : range with
          | nil => rfl
          | cons y ys =>
            rw [hr] at hc
            exact absurd ⟨hs, by simp⟩ hc
      rw [hb, if_neg hc]
      simp only [Bool.false_eq_true, if_false]
      exact ⟨i1, by rw [i2, Nat.add_zero]⟩

/-! ## Lemmas on the stop test -/

theorem scheduler_stopping_iff (s : Scheduler) :
    s.stopping = true
      ↔ s.m_autostop = true ∧ s.m_stopping = true ∧ s.m_fibers = []
          ∧ s.m_activeThreadCount = 0 := by
  unfold Scheduler.stopping
  simp only [Bool.and_eq_true, List.isEmpty_iff, beq_iff_eq]
  tauto

/-- With deadlines below `2^63`, `getNextTimer` returns the "no timer" value only for an empty
timer set. -/
theorem getNextTimer_sentinel (m : TimerManager)
    (hd : ∀ a ∈ m.m_timers, (deref m.heap a).m_next < 2 ^ 63) (now_ms : Nat)
    (m1 : TimerManager) (r : Nat) (h : m.getNextTimer now_ms = some (m1, r)) :
    r = 2 ^ 64 - 1 ↔ m.m_timers = [] := by
  constructor
  · intro hr
    by_contra hne
    obtain ⟨first, rest, hl⟩ := List.exists_cons_of_ne_nil hne
    have hfirst : first ∈ m.m_timers := by rw [hl]; exact List.mem_cons_self _ _
    cases ht : m.heap first with
    | none =>
      unfold TimerManager.getNextTimer at h
      rw [hl] at h
      simp only [ht] at h
      exact absurd h (by simp)
    | some t =>
      have h3 := hd first hfirst
      rw [deref_of_some _ _ _ ht] at h3
      rw [getNextTimer_cons m now_ms first rest t hl ht] at h
      simp only [Option.some.injEq, Prod.mk.injEq] at h
      have h2 := h.2
      rw [hr] at h2
      by_cases hle : t.m_next ≤ now_ms
      · rw [if_pos hle] at h2
        exact absurd h2 (by decide)
      · rw [if_neg hle] at h2
        have h4 : t.m_next + 2 ^ 64 - now_ms = (t.m_next - now_ms) + 2 ^ 64 := by omega
        rw [h4, Nat.add_mod_right, Nat.mod_eq_of_lt (by omega)] at h2
        omega
  · intro he
    rw [getNextTimer_empty m now_ms he] at h
    simp only [Option.some.injEq, Prod.mk.injEq] at h
    exact h.2.symm

/-- C15: on a timer set whose entries are allocated timers with deadlines below `2^63`
(ordered or not), `IOManager::stopping()` returns a value, and it returns true only if (in
fact, exactly if) the timer set is empty, the pending-event count is 0, auto-stop and stop are
both requested, the task queue is empty and the active-worker count is 0. -/
theorem C15_stopping_only_when_idle (io : IOManager) (sched : Scheduler) (tm : TimerManager)
    (halloc : ∀ a ∈ tm.m_timers, (tm.heap a).isSome)
    (hd : ∀ a ∈ tm.m_timers, (deref tm.heap a).m_next < 2 ^ 63)
    (now_ms : Nat) :
    ∃ r, io.stopping sched tm now_ms = some ({ tm with m_tickled := false }, r)
      ∧ (r = true ↔
          tm.m_timers = [] ∧ io.m_pendingEventCount = 0 ∧ sched.m_autostop = true
            ∧ sched.m_stopping = true ∧ sched.m_fibers = []
            ∧ sched.m_activeThreadCount = 0) := by
  have hg : ∃ v, tm.getNextTimer now_ms = some ({ tm with m_tickled := false }, v) := by
    by_cases hne : tm.m_timers = []
    · exact ⟨_, getNextTimer_empty tm now_ms hne⟩
    · obtain ⟨first, rest, hl⟩ := List.exists_cons_of_ne_nil hne
      have hfirst : first ∈ tm.m_timers := by rw [hl]; exact List.mem_cons_self _ _
      have hsome := halloc first hfirst
      cases ht : tm.heap first with
      | none => rw [ht] at hsome; exact absurd hsome (by simp)
      | some t => exact ⟨_, getNextTimer_cons tm now_ms first rest t hl ht⟩
  obtain ⟨v, hv⟩ := hg
  have hs := getNextTimer_sentinel tm hd now_ms _ v hv
  refine ⟨decide (v = 2 ^ 64 - 1) && decide (io.m_pendingEventCount = 0) && sched.stopping,
    ?_, ?_⟩
  · unfold IOManager.stopping IOManager.stoppingTimeout
    rw [hv]
    rfl
  · rw [Bool.and_eq_true, Bool.and_eq_true, decide_eq_true_eq, decide_eq_true_eq, hs,
      scheduler_stopping_iff]
    tauto

/-- Witness of C15: a fresh manager whose scheduler was asked to stop reports true; with the
timers of `exampleTimers` it reports false. -/
theorem C15_stopping_only_when_idle_witness :
    (IOManager.init (fun _ => {}) (5, 6)).stopping { m_autostop := true } (TimerManager.init 0) 5
        = some ({ TimerManager.init 0 with m_tickled := false }, true)
      ∧ (IOManager.init (fun _ => {}) (5, 6)).stopping { m_autostop := true } exampleTimers 5
        = some ({ exampleTimers with m_tickled := false }, false) := by
  obtain ⟨r, h1, h2⟩ := C15_stopping_only_when_idle (IOManager.init (fun _ => {}) (5, 6))
    { m_autostop := true } (TimerManager.init 0)
    (fun a ha => absurd ha (List.not_mem_nil a))
    (fun a ha => absurd ha (List.not_mem_nil a)) 5
  have hr : r = true := h2.mpr ⟨rfl, rfl, rfl, rfl, rfl, rfl⟩
  rw [hr] at h1
  obtain ⟨r2, h3, h4⟩ := C15_stopping_only_when_idle (IOManager.init (fun _ => {}) (5, 6))
    { m_autostop := true } exampleTimers exampleTimers_ordered.alloc (by decide) 5
  have hr2 : r2 = false := by
    cases r2 with
    | false => rfl
    | true => exact absurd (h4.mp rfl).1 (by decide)
  rw [hr2] at h3
  exact ⟨h1, h3⟩

/-! ## Lemmas on the hooked calls -/

/-- One original call adds one entry to the record of original calls, returns what the
oracle says and registers nothing. -/
theorem raw_facts (e : HookEnv) (o : HookOracle) (c : RawCall) :
    (e.raw o c).2 = (o.sys e.trace.length).1
      ∧ (e.raw o c).1.trace = e.trace ++ [c]
      ∧ (e.raw o c).1.events = e.events
      ∧ (e.raw o c).1.timers = e.timers
      ∧ (e.raw o c).1.m_datas = e.m_datas
      ∧ (e.raw o c).1.errno = ((o.sys e.trace.length).2).getD e.errno :=
  ⟨rfl, rfl, rfl, rfl, rfl, rfl⟩

/-- C16: the guards of `do_io` in their order. With hooking disabled the result is that of
`fun`; else without fd metadata it is that of `fun`; else with metadata marked closed it is
-1 with `errno = EBADF` and `fun` is not called; else for a non-socket or a user-non-blocking
fd it is that of `fun`. In each fall-through case `fun` is called exactly once, and no event
and no timer is registered. -/
theorem C16_do_io_guards (o : HookOracle) (fuel : Nat) (e : HookEnv) (fd : Int) (event : Nat)
    (timeout_so : Int) :
    (e.t_hook_enable = false →
        do_io o fuel e fd event timeout_so = some (e.raw o (.io fd)))
      ∧ (e.t_hook_enable = true → FdManager.get e.m_datas fd = some none →
          do_io o fuel e fd event timeout_so = some (e.raw o (.io fd)))
      ∧ (∀ ctx, e.t_hook_enable = true → FdManager.get e.m_datas fd = some (some ctx) →
          (ctx.m_isClosed = true →
              do_io o fuel e fd event timeout_so = some ({ e with errno := EBADF }, -1))
            ∧ (ctx.m_isClosed = false → ctx.m_isSocket = false ∨ ctx.m_userNonblock = true →
                do_io o fuel e fd event timeout_so = some (e.raw o (.io fd))))
      ∧ ((e.raw o (.io fd)).2 = (o.sys e.trace.length).1
          ∧ (e.raw o (.io fd)).1.trace = e.trace ++ [.io fd]
          ∧ (e.raw o (.io fd)).1.events = e.events
          ∧ (e.raw o (.io fd)).1.timers = e.timers) := by
  refine ⟨?_, ?_, ?_, rfl, rfl, rfl, rfl⟩
  · intro h
    unfold do_io
    simp only [h, Bool.not_false, if_true]
  · intro h hg
    unfold do_io
    simp only [h, Bool.not_true, Bool.false_eq_true, if_false, hg]
  · intro ctx h hg
    refine ⟨?_, ?_⟩
    · intro hc
      unfold do_io
      simp only [h, Bool.not_true, Bool.false_eq_true, if_false, hg, hc, if_true]
    · intro hc hs
      unfold do_io
      simp only [h, Bool.not_true, Bool.false_eq_true, if_false, hg, hc]
      have : (!ctx.m_isSocket || ctx.m_userNonblock) = true := by
        rcases hs with hs | hs
        · rw [hs]; rfl
        · rw [hs]; exact Bool.or_true _
      rw [if_pos this]

/-- Witness of C16: `do_io` on `exampleHookEnv` for the closed socket 4, the regular file 5 and the
fd 6 without metadata, and on the open socket 3 with hooking disabled. -/
theorem C16_do_io_guards_witness :
    do_io exampleOracle 9 exampleHookEnv 4 READ SO_RCVTIMEO
        = some ({ exampleHookEnv with errno := EBADF }, -1)
      ∧ do_io exampleOracle 9 exampleHookEnv 5 READ SO_RCVTIMEO
        = some ({ exampleHookEnv with trace := [.io 5] }, 7)
      ∧ do_io exampleOracle 9 exampleHookEnv 6 READ SO_RCVTIMEO
        = some ({ exampleHookEnv with trace := [.io 6] }, 7)
      ∧ do_io exampleOracle 9 { exampleHookEnv with t_hook_enable := false } 3 READ SO_RCVTIMEO
        = some ({ exampleHookEnv with t_hook_enable := false, trace := [.io 3] }, 7) := by
  refine ⟨((C16_do_io_guards exampleOracle 9 exampleHookEnv 4 READ SO_RCVTIMEO).2.2.1
      { m_isInit := true, m_isSocket := true, m_sysNonblock := true, m_isClosed := true,
        m_fd := 4 } rfl rfl).1 rfl,
    ((C16_do_io_guards exampleOracle 9 exampleHookEnv 5 READ SO_RCVTIMEO).2.2.1
      { m_isInit := true, m_fd := 5 } rfl rfl).2 rfl (Or.inl rfl),
    (C16_do_io_guards exampleOracle 9 exampleHookEnv 6 READ SO_RCVTIMEO).2.1 rfl rfl,
    (C16_do_io_guards exampleOracle 9 { exampleHookEnv with t_hook_enable := false } 3 READ
      SO_RCVTIMEO).1 rfl⟩

/-- C17 fails on the code: with hooking enabled and no metadata for fd 6, where the original
`connect` would return 7, `connect_with_timeout` does not make the original call; it returns
-1 with `errno = EBADF`. -/
theorem C17_connect_without_metadata_counterexample :
    exampleHookEnv.t_hook_enable = true
      ∧ FdManager.get exampleHookEnv.m_datas 6 = some none
      ∧ (exampleHookEnv.raw exampleOracle (.connect 6)).2 = 7
      ∧ connect_with_timeout exampleOracle exampleHookEnv 6 5000
          ≠ some (exampleHookEnv.raw exampleOracle (.connect 6))
      ∧ connect_with_timeout exampleOracle exampleHookEnv 6 5000
          = some ({ exampleHookEnv with errno := EBADF }, -1) := by
  refine ⟨rfl, rfl, rfl, ?_, rfl⟩
  decide

/-- C17 as amended: with hooking enabled, `connect_with_timeout` on an fd that has no fd
metadata returns -1 with `errno = EBADF`; the original `connect` is not called and nothing
else changes. -/
theorem C17_connect_without_metadata (o : HookOracle) (e : HookEnv) (fd : Int)
    (timeout_ms : Nat) (h : e.t_hook_enable = true)
    (hg : FdManager.get e.m_datas fd = some none) :
    connect_with_timeout o e fd timeout_ms = some ({ e with errno := EBADF }, -1)
      ∧ ({ e with errno := EBADF } : HookEnv).trace = e.trace := by
  unfold connect_with_timeout
  simp only [h, Bool.not_true, Bool.false_eq_true, if_false, hg, and_self]

/-- Witness of C17 as amended: fd 9 lies beyond the vector of `exampleHookEnv`. -/
theorem C17_connect_without_metadata_witness :
    connect_with_timeout exampleOracle exampleHookEnv 9 5000
        = some ({ exampleHookEnv with errno := EBADF }, -1)
      ∧ ({ exampleHookEnv with errno := EBADF } : HookEnv).trace = exampleHookEnv.trace :=
  C17_connect_without_metadata exampleOracle exampleHookEnv 9 5000 rfl rfl

/-! ## Lemmas on flag words and fd metadata -/

/-- Bit `i` of `O_NONBLOCK` is set iff `i = 11`. -/
theorem testBit_O_NONBLOCK (i : Nat) : Int.testBit O_NONBLOCK i = decide (11 = i) := by
  show Nat.testBit (2 ^ 11) i = _
  exact Nat.testBit_two_pow

/-- `arg | O_NONBLOCK` sets bit 11 and keeps the other bits. -/
theorem testBit_set_nonblock (a : Int) (i : Nat) :
    Int.testBit (Int.lor a O_NONBLOCK) i = if i = 11 then true else Int.testBit a i := by
  rw [Int.testBit_lor, testBit_O_NONBLOCK]
  by_cases h : i = 11
  · rw [if_pos h, h]
    simp
  · rw [if_neg h]
    have : decide (11 = i) = false := decide_eq_false (fun hc => h hc.symm)
    rw [this, Bool.or_false]

/-- `arg & ~O_NONBLOCK` clears bit 11 and keeps the other bits. -/
theorem testBit_clear_nonblock (a : Int) (i : Nat) :
    Int.testBit (Int.land a (Int.lnot O_NONBLOCK)) i
      = if i = 11 then false else Int.testBit a i := by
  rw [Int.testBit_land, Int.testBit_lnot, testBit_O_NONBLOCK]
  by_cases h : i = 11
  · rw [if_pos h, h]
    simp
  · rw [if_neg h]
    have : decide (11 = i) = false := decide_eq_false (fun hc => h hc.symm)
    rw [this]
    simp

/-- `arg & O_NONBLOCK` is non-zero iff bit 11 of `arg` is set. -/
theorem land_nonblock_ne_zero (a : Int) :
    decide (Int.land a O_NONBLOCK ≠ 0) = Int.testBit a 11 := by
  have hn : ∃ n : Nat, Int.land a O_NONBLOCK = (n : Int) := by
    cases a with
    | ofNat m => exact ⟨m &&& 2048, rfl⟩
    | negSucc m => exact ⟨Nat.ldiff 2048 m, rfl⟩
  obtain ⟨n, hn⟩ := hn
  have hbit : ∀ i, Nat.testBit n i = (Int.testBit a i && decide (11 = i)) := by
    intro i
    have h1 : Int.testBit (Int.land a O_NONBLOCK) i = Nat.testBit n i := by
      rw [hn]
      rfl
    rw [← h1, Int.testBit_land, testBit_O_NONBLOCK]
  rw [hn]
  cases hb : Int.testBit a 11 with
  | true =>
    have h11 : Nat.testBit n 11 = true := by
      rw [hbit 11, hb]
      rfl
    have hne : n ≠ 0 := by
      intro hz
      rw [hz, Nat.zero_testBit] at h11
      exact absurd h11 (by decide)
    exact decide_eq_true (fun hc => hne (Int.ofNat_eq_zero.mp hc))
  | false =>
    have hz : n = 0 := by
      apply Nat.zero_of_testBit_eq_false
      intro i
      rw [hbit i]
      by_cases h : 11 = i
      · rw [← h, hb]
        rfl
      · rw [decide_eq_false h, Bool.and_false]
    rw [hz]
    exact decide_eq_false (fun hc => hc rfl)

/-- Metadata found by `FdManager::get` sits in the vector at a valid index. -/
theorem get_some_index (d : List (Option FdCtx)) (fd : Int) (ctx : FdCtx)
    (h : FdManager.get d fd = some (some ctx)) :
    0 ≤ fd ∧ fd.toNat < d.length ∧ d[fd.toNat]? = some (some ctx) := by
  unfold FdManager.get at h
  by_cases h1 : fd = -1
  · rw [if_pos h1] at h
    exact absurd h (by simp)
  · rw [if_neg h1] at h
    by_cases h2 : (d.length : Int) ≤ fd
    · rw [if_pos h2] at h
      exact absurd h (by simp)
    · rw [if_neg h2] at h
      by_cases h3 : fd < 0
      · rw [if_pos h3] at h
        exact absurd h (by simp)
      · rw [if_neg h3] at h
        have hlt : fd.toNat < d.length := by omega
        refine ⟨by omega, hlt, ?_⟩
        simp only [Option.some.injEq] at h
        cases hd : d[fd.toNat]? with
        | none =>
          rw [hd] at h
          exact absurd h (by simp)
        | some x =>
          rw [hd] at h
          have hx : x = some ctx := h
          rw [hx]

/-- After a write through the handle of `fd`, `FdManager::get(fd)` finds the written
metadata. -/
theorem get_setCtx (e : HookEnv) (fd : Int) (ctx c : FdCtx)
    (h : FdManager.get e.m_datas fd = some (some ctx)) :
    FdManager.get (e.setCtx fd c).m_datas fd = some (some c) := by
  obtain ⟨h0, hlt, -⟩ := get_some_index e.m_datas fd ctx h
  unfold FdManager.get HookEnv.setCtx
  have h1 : ¬ fd = -1 := by omega
  have h2 : ¬ (((e.m_datas.set fd.toNat (some c)).length : Int) ≤ fd) := by
    rw [List.length_set]
    omega
  have h3 : ¬ fd < 0 := by omega
  simp only [h1, h2, h3, if_false]
  rw [List.getElem?_set_self hlt]
  rfl

/-- C18: for an fd whose metadata marks it as an open socket, the hooked
`fcntl(fd, F_SETFL, arg)` records user-non-block = (bit `O_NONBLOCK`, that is bit 11, of
`arg`) and hands the original `fcntl` the word `arg` with that bit replaced by the
system-non-block flag; a hooked `fcntl(fd, F_GETFL)` made while that metadata stands returns
the word that the original `fcntl` gives with bit 11 replaced by the recorded user flag, all
other bits as the kernel gave them. -/
theorem C18_fcntl_user_view (o : HookOracle) (e : HookEnv) (fd : Int) (arg : Int)
    (ctx : FdCtx) (hctx : FdManager.get e.m_datas fd = some (some ctx))
    (hopen : ctx.m_isClosed = false) (hsock : ctx.m_isSocket = true) :
    ∃ e1 arg1,
      fcntl o e fd F_SETFL arg = some (e1, (o.sys e.trace.length).1)
        ∧ e1.trace = e.trace ++ [.fcntl fd F_SETFL (some arg1)]
        ∧ Int.testBit arg1 11 = ctx.m_sysNonblock
        ∧ (∀ i, i ≠ 11 → Int.testBit arg1 i = Int.testBit arg i)
        ∧ FdManager.get e1.m_datas fd
            = some (some { ctx with m_userNonblock := Int.testBit arg 11 })
        ∧ ∀ (o2 : HookOracle) (e2 : HookEnv) (arg2 : Int),
            FdManager.get e2.m_datas fd = FdManager.get e1.m_datas fd →
            ∃ r, fcntl o2 e2 fd F_GETFL arg2
                  = some ((e2.raw o2 (.fcntl fd F_GETFL none)).1, r)
              ∧ Int.testBit r 11 = Int.testBit arg 11
              ∧ ∀ i, i ≠ 11 → Int.testBit r i = Int.testBit (o2.sys e2.trace.length).1 i := by
  have hget := get_setCtx e fd ctx { ctx with m_userNonblock := Int.testBit arg 11 } hctx
  refine ⟨((e.setCtx fd { ctx with m_userNonblock := Int.testBit arg 11 }).raw o
      (.fcntl fd F_SETFL (some (if ctx.m_sysNonblock then Int.lor arg O_NONBLOCK
        else Int.land arg (Int.lnot O_NONBLOCK))))).1,
    (if ctx.m_sysNonblock then Int.lor arg O_NONBLOCK else Int.land arg (Int.lnot O_NONBLOCK)),
    ?_, rfl, ?_, ?_, hget, ?_⟩
  · unfold fcntl
    simp only [if_true, hctx, hopen, hsock, Bool.not_true, Bool.or_self, Bool.false_eq_true,
      if_false, land_nonblock_ne_zero]
    rfl
  · cases hs : ctx.m_sysNonblock with
    | true => simp only [if_true, testBit_set_nonblock]
    | false => simp only [Bool.false_eq_true, if_false, testBit_clear_nonblock, if_true]
  · intro i hi
    cases hs : ctx.m_sysNonblock with
    | true => simp only [if_true, testBit_set_nonblock, if_neg hi]
    | false => simp only [Bool.false_eq_true, if_false, testBit_clear_nonblock, if_neg hi]
  · intro o2 e2 arg2 hsame
    have hg2 : FdManager.get (e2.raw o2 (.fcntl fd F_GETFL none)).1.m_datas fd
        = some (some { ctx with m_userNonblock := Int.testBit arg 11 }) := by
      show FdManager.get e2.m_datas fd = _
      rw [hsame]
      exact hget
    have hne : ¬ (F_GETFL = F_SETFL) := by decide
    cases hb : Int.testBit arg 11 with
    | true =>
      refine ⟨Int.lor (o2.sys e2.trace.length).1 O_NONBLOCK, ?_, ?_, ?_⟩
      · unfold fcntl
        rw [hb] at hg2
        simp only [hne, if_false, if_true, hg2, hopen, hsock, Bool.not_true, Bool.or_self,
          Bool.false_eq_true]
        rfl
      · rw [testBit_set_nonblock, if_pos rfl]
      · intro i hi
        rw [testBit_set_nonblock, if_neg hi]
    | false =>
      refine ⟨Int.land (o2.sys e2.trace.length).1 (Int.lnot O_NONBLOCK), ?_, ?_, ?_⟩
      · unfold fcntl
        rw [hb] at hg2
        simp only [hne, if_false, if_true, hg2, hopen, hsock, Bool.not_true, Bool.or_self,
          Bool.false_eq_true]
        rfl
      · rw [testBit_clear_nonblock, if_pos rfl]
      · intro i hi
        rw [testBit_clear_nonblock, if_neg hi]

/-- Witness of C18: on the open socket 3 of `exampleHookEnv` (system-non-block set) the user
clears `O_NONBLOCK` with `F_SETFL 2`; the kernel gets a word with bit 11 set, and when the
kernel later reports 2050 the hooked `F_GETFL` returns a word with bit 11 clear. -/
theorem C18_fcntl_user_view_witness :
    ∃ e1 arg1, fcntl exampleOracle exampleHookEnv 3 F_SETFL 2 = some (e1, 7)
      ∧ e1.trace = [.fcntl 3 F_SETFL (some arg1)]
      ∧ Int.testBit arg1 11 = true
      ∧ ∃ r, fcntl { exampleOracle with sys := fun _ => (2050, none) } e1 3 F_GETFL 0
              = some ((e1.raw { exampleOracle with sys := fun _ => (2050, none) }
                  (.fcntl 3 F_GETFL none)).1, r)
          ∧ Int.testBit r 11 = false
          ∧ ∀ i, i ≠ 11 → Int.testBit r i = Int.testBit 2050 i := by
  obtain ⟨e1, arg1, h1, h2, h3, -, -, h6⟩ := C18_fcntl_user_view exampleOracle exampleHookEnv
    3 2 { m_isInit := true, m_isSocket := true, m_sysNonblock := true, m_fd := 3 } rfl rfl rfl
  exact ⟨e1, arg1, h1, h2, h3,
    h6 { exampleOracle with sys := fun _ => (2050, none) } e1 0 rfl⟩

/-! ## Lemmas on socket timeouts -/

/-- The millisecond value of a non-negative `timeval` that fits 64 bits is stored exactly. -/
theorem toU64_timeval (s u : Nat) (h : s * 1000 + u / 1000 < 2 ^ 64) :
    toU64 ((s : Int) * 1000 + Int.tdiv (u : Int) 1000) = s * 1000 + u / 1000 := by
  unfold toU64
  have h1 : Int.tdiv (u : Int) 1000 = ((u / 1000 : Nat) : Int) := (Int.ofNat_tdiv u 1000).symm
  rw [h1]
  have h2 : (s : Int) * 1000 + ((u / 1000 : Nat) : Int)
      = ((s * 1000 + u / 1000 : Nat) : Int) := by
    push_cast
    rfl
  rw [h2, Int.emod_eq_of_lt (Int.ofNat_nonneg _) (by exact_mod_cast h)]
  rfl

theorem setTimeout_recv (c : FdCtx) (v : Nat) :
    (c.setTimeout SO_RCVTIMEO v).m_recvTimeout = v
      ∧ (c.setTimeout SO_RCVTIMEO v).m_sendTimeout = c.m_sendTimeout
      ∧ (c.setTimeout SO_RCVTIMEO v).getTimeout SO_RCVTIMEO = v :=
  ⟨rfl, rfl, rfl⟩

theorem setTimeout_send (c : FdCtx) (v : Nat) :
    (c.setTimeout SO_SNDTIMEO v).m_sendTimeout = v
      ∧ (c.setTimeout SO_SNDTIMEO v).m_recvTimeout = c.m_recvTimeout
      ∧ (c.setTimeout SO_SNDTIMEO v).getTimeout SO_SNDTIMEO = v :=
  ⟨rfl, rfl, rfl⟩

theorem setsockopt_timeout (o : HookOracle) (e : HookEnv) (sockfd optname : Int)
    (tv : timeval) (ctx : FdCtx) (hen : e.t_hook_enable = true)
    (hctx : FdManager.get e.m_datas sockfd = some (some ctx))
    (hopt : optname = SO_RCVTIMEO ∨ optname = SO_SNDTIMEO) :
    setsockopt o e sockfd SOL_SOCKET optname tv
      = some ((e.setCtx sockfd (ctx.setTimeout optname
                (toU64 (tv.tv_sec * 1000 + Int.tdiv tv.tv_usec 1000)))).raw o
              (.setsockopt sockfd SOL_SOCKET optname)) := by
  unfold setsockopt
  simp only [hen, Bool.not_true, Bool.false_eq_true, if_false, hopt, and_self, if_true, hctx]

/-- C19: with hooking enabled and metadata present, the hooked
`setsockopt(fd, SOL_SOCKET, SO_RCVTIMEO, tv)` stores `tv_sec * 1000 + tv_usec / 1000` (as a
64-bit unsigned value) as the receive timeout and keeps the send timeout; with `SO_SNDTIMEO`
it stores that value as the send timeout and keeps the receive timeout; `getTimeout` for the
direction then returns the stored value; the call returns what the original `setsockopt`
returns. For a non-negative `timeval` whose milliseconds fit 64 bits the stored value is the
exact number. -/
theorem C19_setsockopt_sets_timeout (o : HookOracle) (e : HookEnv) (sockfd : Int)
    (tv : timeval) (ctx : FdCtx) (hen : e.t_hook_enable = true)
    (hctx : FdManager.get e.m_datas sockfd = some (some ctx)) :
    (∃ e1 ctx1,
        setsockopt o e sockfd SOL_SOCKET SO_RCVTIMEO tv = some (e1, (o.sys e.trace.length).1)
          ∧ FdManager.get e1.m_datas sockfd = some (some ctx1)
          ∧ ctx1.m_recvTimeout = toU64 (tv.tv_sec * 1000 + Int.tdiv tv.tv_usec 1000)
          ∧ ctx1.m_sendTimeout = ctx.m_sendTimeout
          ∧ ctx1.getTimeout SO_RCVTIMEO
              = toU64 (tv.tv_sec * 1000 + Int.tdiv tv.tv_usec 1000))
      ∧ (∃ e1 ctx1,
          setsockopt o e sockfd SOL_SOCKET SO_SNDTIMEO tv = some (e1, (o.sys e.trace.length).1)
            ∧ FdManager.get e1.m_datas sockfd = some (some ctx1)
            ∧ ctx1.m_sendTimeout = toU64 (tv.tv_sec * 1000 + Int.tdiv tv.tv_usec 1000)
            ∧ ctx1.m_recvTimeout = ctx.m_recvTimeout
            ∧ ctx1.getTimeout SO_SNDTIMEO
                = toU64 (tv.tv_sec * 1000 + Int.tdiv tv.tv_usec 1000))
      ∧ ∀ s u : Nat, tv.tv_sec = s → tv.tv_usec = u → s * 1000 + u / 1000 < 2 ^ 64 →
          toU64 (tv.tv_sec * 1000 + Int.tdiv tv.tv_usec 1000) = s * 1000 + u / 1000 := by
  refine ⟨?_, ?_, ?_⟩
  · refine ⟨((e.setCtx sockfd (ctx.setTimeout SO_RCVTIMEO
        (toU64 (tv.tv_sec * 1000 + Int.tdiv tv.tv_usec 1000)))).raw o
          (.setsockopt sockfd SOL_SOCKET SO_RCVTIMEO)).1,
      ctx.setTimeout SO_RCVTIMEO (toU64 (tv.tv_sec * 1000 + Int.tdiv tv.tv_usec 1000)),
      ?_, ?_, (setTimeout_recv ctx _).1, (setTimeout_recv ctx _).2.1,
      (setTimeout_recv ctx _).2.2⟩
    · rw [setsockopt_timeout o e sockfd SO_RCVTIMEO tv ctx hen hctx (Or.inl rfl)]
      rfl
    · exact get_setCtx e sockfd ctx _ hctx
  · refine ⟨((e.setCtx sockfd (ctx.setTimeout SO_SNDTIMEO
        (toU64 (tv.tv_sec * 1000 + Int.tdiv tv.tv_usec 1000)))).raw o
          (.setsockopt sockfd SOL_SOCKET SO_SNDTIMEO)).1,
      ctx.setTimeout SO_SNDTIMEO (toU64 (tv.tv_sec * 1000 + Int.tdiv tv.tv_usec 1000)),
      ?_, ?_, (setTimeout_send ctx _).1, (setTimeout_send ctx _).2.1,
      (setTimeout_send ctx _).2.2⟩
    · rw [setsockopt_timeout o e sockfd SO_SNDTIMEO tv ctx hen hctx (Or.inr rfl)]
      rfl
    · exact get_setCtx e sockfd ctx _ hctx
  · intro s u hs hu h
    rw [hs, hu]
    exact toU64_timeval s u h

/-- Witness of C19: a receive timeout of 2.5 s and a send timeout of 0.75 s on the socket 3 of
`exampleHookEnv`. -/
theorem C19_setsockopt_sets_timeout_witness :
    (∃ e1 ctx1,
        setsockopt exampleOracle exampleHookEnv 3 SOL_SOCKET SO_RCVTIMEO ⟨2, 500000⟩
            = some (e1, 7)
          ∧ FdManager.get e1.m_datas 3 = some (some ctx1)
          ∧ ctx1.m_recvTimeout = 2500 ∧ ctx1.m_sendTimeout = 2 ^ 64 - 1
          ∧ ctx1.getTimeout SO_RCVTIMEO = 2500)
      ∧ ∃ e1 ctx1,
          setsockopt exampleOracle exampleHookEnv 3 SOL_SOCKET SO_SNDTIMEO ⟨0, 750999⟩
              = some (e1, 7)
            ∧ FdManager.get e1.m_datas 3 = some (some ctx1)
            ∧ ctx1.m_sendTimeout = 750 ∧ ctx1.m_recvTimeout = 2 ^ 64 - 1
            ∧ ctx1.getTimeout SO_SNDTIMEO = 750 := by
  obtain ⟨⟨e1, c1, a1, a2, a3, a4, a5⟩, -, a6⟩ := C19_setsockopt_sets_timeout exampleOracle
    exampleHookEnv 3 ⟨2, 500000⟩
    { m_isInit := true, m_isSocket := true, m_sysNonblock := true, m_fd := 3 } rfl rfl
  obtain ⟨-, ⟨e2, c2, b1, b2, b3, b4, b5⟩, b6⟩ := C19_setsockopt_sets_timeout exampleOracle
    exampleHookEnv 3 ⟨0, 750999⟩
    { m_isInit := true, m_isSocket := true, m_sysNonblock := true, m_fd := 3 } rfl rfl
  have ha := a6 2 500000 rfl rfl (by decide)
  have hb := b6 0 750999 rfl rfl (by decide)
  rw [ha] at a3 a5
  rw [hb] at b3 b5
  exact ⟨⟨e1, c1, a1, a2, a3, a4, a5⟩, e2, c2, b1, b2, b3, b4, b5⟩

/-! ## Lemmas on the coroutine trampoline -/

/-- The `try` block with its handlers: no exception leaves it; the coroutine ends in `TERM`
without callable after a normal return and in `EXCEPT` after any exception; nothing else
changes after the callable. -/
theorem tryBody_spec (run : Nat → FiberEnv → FiberEnv × Option Thrown) (env : FiberEnv)
    (cur : Nat) (f f1 : Fiber) (hf : env.fibers cur = some f)
    (hf1 : (callCb run env f.m_cb).1.fibers cur = some f1) :
    ∃ fin : Fiber,
      Fiber.tryBody run env cur
          = some ({ (callCb run env f.m_cb).1 with
                    fibers := Function.update (callCb run env f.m_cb).1.fibers cur (some fin) },
                  none)
        ∧ ((callCb run env f.m_cb).2 = none → fin = { f1 with m_cb := none, m_state := .TERM })
        ∧ (∀ x, (callCb run env f.m_cb).2 = some x → fin = { f1 with m_state := .EXCEPT }) := by
  unfold Fiber.tryBody
  simp only [hf, hf1]
  cases hr : (callCb run env f.m_cb).2 with
  | none =>
    exact ⟨{ f1 with m_cb := none, m_state := .TERM }, rfl, fun _ => rfl,
      fun x hx => absurd hx (by simp)⟩
  | some x =>
    cases x with
    | std_exception w =>
      exact ⟨{ f1 with m_state := .EXCEPT }, rfl, fun h => absurd h (by simp), fun _ _ => rfl⟩
    | other v =>
      exact ⟨{ f1 with m_state := .EXCEPT }, rfl, fun h => absurd h (by simp), fun _ _ => rfl⟩

theorem GetThis_running (env : FiberEnv) (addr cur : Nat) (f : Fiber)
    (hcur : env.t_fiber = some cur) (hf : env.fibers cur = some f) :
    Fiber.GetThis env addr = some (env, cur) := by
  unfold Fiber.GetThis
  simp only [hcur, hf, Option.isSome_some, if_true]

/-- C20: the trampolines `Fiber::MainFunc` and `Fiber::CallerMainFunc`, entered with the
coroutine `cur` running, reach their final switch: when the callable returns normally the
coroutine's state is `TERM` and its stored callable is cleared; when the callable throws
(also when the stored callable is empty) the state is `EXCEPT`; its other fields stay as the
callable left them; in both cases the thread then executes the parent context (the
scheduler's main coroutine for `MainFunc`, the thread's main coroutine for `CallerMainFunc`)
and no exception leaves the trampoline. -/
theorem C20_trampoline_ends (run : Nat → FiberEnv → FiberEnv × Option Thrown)
    (env : FiberEnv) (addr cur : Nat) (f f1 : Fiber) (sched thr : Nat)
    (hcur : env.t_fiber = some cur) (hf : env.fibers cur = some f)
    (hf1 : (callCb run env f.m_cb).1.fibers cur = some f1)
    (hs : (callCb run env f.m_cb).1.t_scheduler_fiber = some sched)
    (ht : (callCb run env f.m_cb).1.t_threadFiber = some thr) :
    ∃ fin : Fiber,
      Fiber.MainFunc run env addr
          = some ({ (callCb run env f.m_cb).1 with
                    fibers := Function.update (callCb run env f.m_cb).1.fibers cur (some fin),
                    t_fiber := some sched, running := some sched }, none)
        ∧ Fiber.CallerMainFunc run env addr
          = some ({ (callCb run env f.m_cb).1 with
                    fibers := Function.update (callCb run env f.m_cb).1.fibers cur (some fin),
                    t_fiber := some thr, running := some thr }, none)
        ∧ ((callCb run env f.m_cb).2 = none → fin = { f1 with m_cb := none, m_state := .TERM })
        ∧ (∀ x, (callCb run env f.m_cb).2 = some x → fin = { f1 with m_state := .EXCEPT }) := by
  obtain ⟨fin, h1, h2, h3⟩ := tryBody_spec run env cur f f1 hf hf1
  refine ⟨fin, ?_, ?_, ?_, ?_⟩
  · unfold Fiber.MainFunc
    rw [GetThis_running env addr cur f hcur hf]
    simp only [h1, Fiber.swapOut, hs, Option.map]
  · unfold Fiber.CallerMainFunc
    rw [GetThis_running env addr cur f hcur hf]
    simp only [h1, Fiber.back, ht, Option.map]
  · exact h2
  · exact h3

/-- Witness of C20: on `exampleFiberEnv` with a callable that returns normally, and with one that
throws, `MainFunc` ends in the context of the scheduling coroutine 1 without exception, the
coroutine 2 being in state `TERM` without callable, respectively in state `EXCEPT`. -/
theorem C20_trampoline_ends_witness :
    (∃ env1, Fiber.MainFunc (fun _ e => (e, none)) exampleFiberEnv 9 = some (env1, none)
        ∧ env1.running = some 1
        ∧ env1.fibers 2 = some { m_id := 1, m_state := .TERM, m_cb := none })
      ∧ ∃ env1, Fiber.MainFunc (fun _ e => (e, some (.other 3))) exampleFiberEnv 9
            = some (env1, none)
          ∧ env1.running = some 1
          ∧ env1.fibers 2 = some { m_id := 1, m_state := .EXCEPT, m_cb := some 5 } := by
  obtain ⟨fin, h1, -, h3, -⟩ := C20_trampoline_ends (fun _ e => (e, none)) exampleFiberEnv 9 2
    { m_id := 1, m_state := .EXEC, m_cb := some 5 }
    { m_id := 1, m_state := .EXEC, m_cb := some 5 } 1 1 rfl rfl rfl rfl rfl
  obtain ⟨fin2, g1, -, -, g4⟩ := C20_trampoline_ends (fun _ e => (e, some (.other 3)))
    exampleFiberEnv 9 2 { m_id := 1, m_state := .EXEC, m_cb := some 5 }
    { m_id := 1, m_state := .EXEC, m_cb := some 5 } 1 1 rfl rfl rfl rfl rfl
  rw [h3 rfl] at h1
  rw [g4 _ rfl] at g1
  exact ⟨⟨_, h1, rfl, rfl⟩, _, g1, rfl, rfl⟩

/-! ## Lemmas on the idle loop, the clock test and the timer order -/

/-- C24 fails on the code: in the reachable state `exampleRegistered` only READ is registered
for fd 3. For the returned mask `EPOLLHUP` the idle loop derives READ and WRITE, and it
calls `triggerEvent` for both: the intersection with the registered mask is READ alone, the
call for WRITE is made on a context whose mask has no WRITE bit, and the assertion
`events & event` of `triggerEvent` fails, so that the dispatch aborts. -/
theorem C24_idle_triggers_unregistered :
    exampleRegistered.Reachable
      ∧ exampleRegistered.mask 3 = READ
      ∧ realEvents EPOLLHUP = READ ||| WRITE
      ∧ realEvents EPOLLHUP &&& exampleRegistered.mask 3 = READ
      ∧ (∃ c1 n1 s1, exampleRegistered.m_fdContexts[3]? = some
              { read := { scheduler := some 0, fiber := none, cb := some 7 }, write := {},
                fd := 3, events := 1 }
          ∧ triggerIf (realEvents EPOLLHUP &&& READ ≠ 0) READ
              { read := { scheduler := some 0, fiber := none, cb := some 7 }, write := {},
                fd := 3, events := 1 }
              exampleRegistered.m_pendingEventCount exampleRegistered.schedulers
              = some (c1, n1, s1)
          ∧ c1.events &&& WRITE = 0
          ∧ decide (realEvents EPOLLHUP &&& WRITE ≠ 0) = true
          ∧ c1.triggerEvent WRITE s1 = none
          ∧ triggerIf (realEvents EPOLLHUP &&& WRITE ≠ 0) WRITE c1 n1 s1 = none)
      ∧ exampleRegistered.idleEvent 3 EPOLLHUP true = none := by
  refine ⟨exampleRegistered_reachable, by decide, by decide, by decide, ?_, ?_⟩
  · exact ⟨_, _, _, rfl, rfl, by decide, by decide, rfl, rfl⟩
  · rfl

theorem toInt32_small (x : Nat) (h : x < 2 ^ 31) : toInt32 x = (x : Int) := by
  unfold toInt32
  have h1 : x % 2 ^ 32 = x := Nat.mod_eq_of_lt (by omega)
  rw [h1, if_pos h]

/-- For values below `2^31` and for the "no timer" value the idle loop clamps as intended. -/
theorem idleTimeout_small (next : Nat) (h : next < 2 ^ 31 ∨ next = 2 ^ 64 - 1) :
    idleTimeout next = ((min next 3000 : Nat) : Int) := by
  unfold idleTimeout adjustTimeout MAX_TIMEOUT
  rcases h with h | h
  · have hne : next ≠ 2 ^ 64 - 1 := by omega
    rw [if_pos hne, toInt32_small next h]
    by_cases hgt : (next : Int) > ((3000 : Nat) : Int)
    · rw [if_pos hgt, toInt32_small 3000 (by decide)]
      have : min next 3000 = 3000 := by omega
      rw [this]
    · rw [if_neg hgt, toInt32_small next h]
      have : min next 3000 = next := by omega
      rw [this]
  · rw [h]
    decide

/-- C25 fails on the code: the comparison is made on `(int)next_timeout`. For the deadline
distance `2^31` ms the cast is negative, nothing is clamped and `epoll_wait` gets
`-2147483648`; for `2^32` ms it gets 0; for `2^32 + 5` ms it gets 5. In all three cases the
minimum with 3000 is 3000. Below `2^31` and for the "no timer" value the result is the
minimum. -/
theorem C25_idle_timeout_truncates :
    idleTimeout (2 ^ 31) = -2147483648
      ∧ idleTimeout (2 ^ 32) = 0
      ∧ idleTimeout (2 ^ 32 + 5) = 5
      ∧ min (2 ^ 31) 3000 = 3000
      ∧ idleTimeout (2 ^ 64 - 1) = 3000
      ∧ idleTimeout 70000 = 3000
      ∧ idleTimeout 5 = 5 := by
  refine ⟨by decide, by decide, by decide, by decide, by decide, by decide, by decide⟩

/-- From a previous reading of at least one hour the test of `detectClockRollover` is the
intended one. -/
theorem detectClockRollover_iff (prev now : Nat) (hp : 60 * 60 * 1000 ≤ prev)
    (h64 : prev < 2 ^ 64) :
    detectClockRollover prev now = true ↔ now + 3600000 < prev := by
  unfold detectClockRollover
  have h1 : (prev + 2 ^ 64 - 60 * 60 * 1000) % 2 ^ 64 = prev - 3600000 := by
    have : prev + 2 ^ 64 - 60 * 60 * 1000 = (prev - 3600000) + 2 ^ 64 := by omega
    rw [this, Nat.add_mod_right]
    exact Nat.mod_eq_of_lt (by omega)
  rw [h1, Bool.and_eq_true, decide_eq_true_eq, decide_eq_true_eq]
  omega

/-- C26 fails on the code: with the previous reading 1000 and the reading 500 the unsigned
difference `m_previousTime - 3600000` wraps around, both comparisons hold and
`detectClockRollover` reports a rollover, although 500 is only half a second earlier. -/
theorem C26_rollover_wraps :
    detectClockRollover 1000 500 = true
      ∧ ¬ (500 + 3600000 < 1000)
      ∧ (1000 + 2 ^ 64 - 60 * 60 * 1000) % 2 ^ 64 = 2 ^ 64 - 3599000 := by
  refine ⟨by decide, by decide, by decide⟩

theorem comparator_some (heap : Nat → Option Timer) (l r : Nat) :
    Comparator heap (some l) (some r) = TimerManager.lt heap l r := rfl

/-- C27: for every heap, `Timer::Comparator` is irreflexive and transitive; of two distinct
handles exactly one is less than the other; two non-null handles are ordered by deadline
first and by address when the deadlines are equal; the null handle is less than every
non-null handle and no handle is less than the null handle. -/
theorem C27_comparator_strict_total (heap : Nat → Option Timer) :
    (∀ a, Comparator heap a a = false)
      ∧ (∀ a b c, Comparator heap a b = true → Comparator heap b c = true →
          Comparator heap a c = true)
      ∧ (∀ a b, a ≠ b →
          (Comparator heap a b = true ∧ Comparator heap b a = false)
            ∨ (Comparator heap a b = false ∧ Comparator heap b a = true))
      ∧ (∀ l r, Comparator heap (some l) (some r) = true
          ↔ (deref heap l).m_next < (deref heap r).m_next
              ∨ ((deref heap l).m_next = (deref heap r).m_next ∧ l < r))
      ∧ (∀ r, Comparator heap none (some r) = true)
      ∧ (∀ a, Comparator heap a none = false) := by
  refine ⟨?_, ?_, ?_, ?_, ?_, ?_⟩
  · intro a
    cases a with
    | none => rfl
    | some l =>
      rw [comparator_some]
      cases h : TimerManager.lt heap l l with
      | false => rfl
      | true => exact absurd h (lt_irrefl heap l)
  · intro a b c h1 h2
    cases a with
    | none =>
      cases c with
      | none =>
        cases b with
        | none => exact absurd h1 (by simp [Comparator])
        | some m => exact absurd h2 (by simp [Comparator])
      | some r => rfl
    | some l =>
      cases b with
      | none => exact absurd h1 (by simp [Comparator])
      | some m =>
        cases c with
        | none => exact absurd h2 (by simp [Comparator])
        | some r =>
          rw [comparator_some] at h1 h2 ⊢
          exact lt_trans heap l m r h1 h2
  · intro a b hab
    cases a with
    | none =>
      cases b with
      | none => exact absurd rfl hab
      | some r => exact Or.inl ⟨rfl, rfl⟩
    | some l =>
      cases b with
      | none => exact Or.inr ⟨rfl, rfl⟩
      | some r =>
        have hne : l ≠ r := fun hc => hab (by rw [hc])
        rw [comparator_some, comparator_some]
        cases h1 : TimerManager.lt heap l r with
        | true =>
          refine Or.inl ⟨rfl, ?_⟩
          cases h2 : TimerManager.lt heap r l with
          | false => rfl
          | true => exact absurd (lt_trans heap l r l h1 h2) (lt_irrefl heap l)
        | false =>
          refine Or.inr ⟨rfl, ?_⟩
          cases h2 : TimerManager.lt heap r l with
          | true => rfl
          | false =>
            exact absurd (lt_equiv heap l r (by rw [h1]; simp) (by rw [h2]; simp)) hne
  · intro l r
    rw [comparator_some]
    exact lt_iff heap l r
  · intro r
    rfl
  · intro a
    cases a with
    | none => rfl
    | some l => rfl

/-- Witness of C27: the handles of `exampleTimers` (deadlines 10, 20, 50 at the addresses 100, 200,
300) and the null handle. -/
theorem C27_comparator_strict_total_witness :
    Comparator exampleTimers.heap (some 100) (some 300) = true
      ∧ ((Comparator exampleTimers.heap (some 200) (some 100) = true
            ∧ Comparator exampleTimers.heap (some 100) (some 200) = false)
          ∨ (Comparator exampleTimers.heap (some 200) (some 100) = false
            ∧ Comparator exampleTimers.heap (some 100) (some 200) = true))
      ∧ Comparator exampleTimers.heap none (some 100) = true := by
  obtain ⟨-, h2, h3, -, h5, -⟩ := C27_comparator_strict_total exampleTimers.heap
  exact ⟨h2 (some 100) (some 200) (some 300) (by decide) (by decide),
    h3 (some 200) (some 100) (by decide), h5 100⟩

/-- An entry that may not be taken has a foreign affinity or a coroutine in state `EXEC`. -/
theorem not_eligible_cases (fibers : Nat → Option Fiber) (tid : Int) (ft : FiberAndThread)
    (h : ft.eligible fibers tid = false) :
    (ft.thread ≠ -1 ∧ ft.thread ≠ tid)
      ∨ ((ft.thread = -1 ∨ ft.thread = tid)
          ∧ ∃ p f, ft.fiber = some p ∧ fibers p = some f ∧ f.m_state = FiberState.EXEC) := by
  unfold FiberAndThread.eligible at h
  by_cases ha : ft.thread = -1 ∨ ft.thread = tid
  · refine Or.inr ⟨ha, ?_⟩
    have h1 : (decide (ft.thread = -1) || decide (ft.thread = tid)) = true := by
      rcases ha with ha | ha
      · rw [decide_eq_true ha]; rfl
      · rw [decide_eq_true ha]; exact Bool.or_true _
    rw [h1, Bool.true_and] at h
    cases hf : ft.fiber with
    | none =>
      rw [hf] at h
      exact absurd h (by simp)
    | some p =>
      rw [hf] at h
      simp only [decide_eq_false_iff_not, ne_eq, not_not] at h
      cases hp : fibers p with
      | none =>
        rw [hp] at h
        exact absurd h (by simp)
      | some f =>
        rw [hp] at h
        simp only [Option.map_some', Option.some.injEq] at h
        exact ⟨p, f, rfl, hp, h⟩
  · left
    constructor
    · intro hc
      exact ha (Or.inl hc)
    · intro hc
      exact ha (Or.inr hc)

/-- The scan steps over an entry that may not be taken. -/
theorem scan_cons_skip (fibers : Nat → Option Fiber) (tid : Int) (ft : FiberAndThread)
    (rest : List FiberAndThread) (t0 : Bool) (h : ft.eligible fibers tid = false) :
    ∃ t1, Scheduler.scan fibers tid (ft :: rest) t0
      = (Scheduler.scan fibers tid rest t1).map (fun r => (r.1, ft :: r.2.1, r.2.2)) := by
  rcases not_eligible_cases fibers tid ft h with ha | ⟨ha, p, f, hp, hf, hs⟩
  · refine ⟨true, ?_⟩
    rw [Scheduler.scan, if_pos ha]
  · refine ⟨t0, ?_⟩
    have hna : ¬ (ft.thread ≠ -1 ∧ ft.thread ≠ tid) := by
      intro hc
      rcases ha with ha | ha
      · exact hc.1 ha
      · exact hc.2 ha
    rw [Scheduler.scan, if_neg hna]
    simp only [hp, Option.isSome_some, Bool.true_or, Bool.not_true, Bool.false_eq_true,
      if_false, hf, hs, if_true]

/-- The scan takes an entry that may be taken. -/
theorem scan_cons_take (fibers : Nat → Option Fiber) (tid : Int) (ft : FiberAndThread)
    (rest : List FiberAndThread) (t0 : Bool) (h : ft.eligible fibers tid = true)
    (hs : ft.sound fibers) :
    Scheduler.scan fibers tid (ft :: rest) t0 = some (some ft, rest, t0) := by
  unfold FiberAndThread.eligible at h
  rw [Bool.and_eq_true, Bool.or_eq_true, decide_eq_true_eq, decide_eq_true_eq] at h
  obtain ⟨ha, hb⟩ := h
  have hna : ¬ (ft.thread ≠ -1 ∧ ft.thread ≠ tid) := by
    intro hc
    rcases ha with ha | ha
    · exact hc.1 ha
    · exact hc.2 ha
  rw [Scheduler.scan, if_neg hna]
  simp only [hs.1, Bool.not_true, Bool.false_eq_true, if_false]
  cases hf : ft.fiber with
  | none => rfl
  | some p =>
    rw [hf] at hb
    simp only [decide_eq_true_eq] at hb
    have hal := hs.2 p hf
    cases hp : fibers p with
    | none =>
      rw [hp] at hal
      exact absurd hal (by simp)
    | some f =>
      rw [hp] at hb
      simp only [Option.map_some', ne_eq, Option.some.injEq] at hb
      simp only [hp, hb, if_false]

/-- The scan over a prefix of entries that may not be taken goes on behind the prefix. -/
theorem scan_skip (fibers : Nat → Option Fiber) (tid : Int) (pre : List FiberAndThread) :
    ∀ (q : List FiberAndThread) (t0 : Bool),
      (∀ x ∈ pre, x.eligible fibers tid = false) →
      ∃ t1, Scheduler.scan fibers tid (pre ++ q) t0
        = (Scheduler.scan fibers tid q t1).map (fun r => (r.1, pre ++ r.2.1, r.2.2)) := by
  induction pre with
  | nil =>
    intro q t0 _
    refine ⟨t0, ?_⟩
    rw [List.nil_append]
    cases Scheduler.scan fibers tid q t0 with
    | none => rfl
    | some r => rfl
  | cons x pre ih =>
    intro q t0 hpre
    obtain ⟨t1, h1⟩ := scan_cons_skip fibers tid x (pre ++ q) t0
      (hpre x (List.mem_cons_self _ _))
    obtain ⟨t2, h2⟩ := ih q t1 (fun y hy => hpre y (List.mem_cons_of_mem _ hy))
    refine ⟨t2, ?_⟩
    rw [List.cons_append, h1, h2]
    cases Scheduler.scan fibers tid q t2 with
    | none => rfl
    | some r => rfl

theorem scan_take (fibers : Nat → Option Fiber) (tid : Int) (pre post : List FiberAndThread)
    (ft : FiberAndThread) (t0 : Bool) (hpre : ∀ x ∈ pre, x.eligible fibers tid = false)
    (h : ft.eligible fibers tid = true) (hs : ft.sound fibers) :
    ∃ t1, Scheduler.scan fibers tid (pre ++ ft :: post) t0 = some (some ft, pre ++ post, t1) := by
  obtain ⟨t1, h1⟩ := scan_skip fibers tid pre (ft :: post) t0 hpre
  refine ⟨t1, ?_⟩
  rw [h1, scan_cons_take fibers tid ft post t1 h hs]
  rfl

theorem scan_none (fibers : Nat → Option Fiber) (tid : Int) (q : List FiberAndThread)
    (t0 : Bool) (hq : ∀ x ∈ q, x.eligible fibers tid = false) :
    ∃ t1, Scheduler.scan fibers tid q t0 = some (none, q, t1) := by
  obtain ⟨t1, h1⟩ := scan_skip fibers tid q [] t0 hq
  refine ⟨t1, ?_⟩
  rw [List.append_nil] at h1
  rw [h1]
  simp [Scheduler.scan]

/-- C21: in one pass of the loop of `Scheduler::run` on thread `tid`, the entry taken from
the queue is the first one in queue order whose affinity is -1 or `tid` and whose coroutine,
if any, is not in state `EXEC`; the queue keeps every other entry in its order; when no
entry qualifies, nothing is taken and the queue is unchanged. -/
theorem C21_pick_first_eligible (e : RunEnv) (w : Worker) :
    (∀ (pre post : List FiberAndThread) (ft : FiberAndThread),
        e.sched.m_fibers = pre ++ ft :: post →
        (∀ x ∈ pre, x.eligible e.fibers w.tid = false) →
        ft.eligible e.fibers w.tid = true → ft.sound e.fibers →
        ∃ e1 w1, Scheduler.runPick e w = some (e1, w1)
          ∧ w1.ft = ft ∧ w1.is_active = true ∧ e1.sched.m_fibers = pre ++ post)
      ∧ ((∀ x ∈ e.sched.m_fibers, x.eligible e.fibers w.tid = false) →
          ∃ e1 w1, Scheduler.runPick e w = some (e1, w1)
            ∧ w1.ft = FiberAndThread.empty ∧ w1.is_active = false
            ∧ e1.sched.m_fibers = e.sched.m_fibers) := by
  refine ⟨?_, ?_⟩
  · intro pre post ft hq hpre h hs
    obtain ⟨t1, h1⟩ := scan_take e.fibers w.tid pre post ft false hpre h hs
    rw [← hq] at h1
    refine ⟨{ e with sched := Scheduler.tickle { e.sched with
        m_fibers := pre ++ post,
        m_activeThreadCount := incr64 e.sched.m_activeThreadCount } },
      { w with ft := ft, is_active := true }, ?_, rfl, rfl, rfl⟩
    unfold Scheduler.runPick
    rw [h1]
  · intro hq
    obtain ⟨t1, h1⟩ := scan_none e.fibers w.tid e.sched.m_fibers false hq
    refine ⟨{ e with sched := if t1 then e.sched.tickle else e.sched },
      { w with ft := FiberAndThread.empty, is_active := false }, ?_, rfl, rfl, ?_⟩
    · unfold Scheduler.runPick
      rw [h1]
    · cases t1 with
      | true => rfl
      | false => rfl

/-- Witness of C21: thread 1 scans a queue whose first entry is bound to thread 3 and whose second
entry is the callable 7; it takes the callable and leaves the first entry. -/
theorem C21_pick_first_eligible_witness :
    ∃ e1 w1,
      Scheduler.runPick
          { exampleRunEnv with sched := { m_fibers :=
            [{ fiber := some 60, cb := none, thread := 3 },
             { fiber := none, cb := some 7, thread := -1 },
             { fiber := none, cb := some 8, thread := -1 }] } } exampleWorker
        = some (e1, w1)
      ∧ w1.ft = { fiber := none, cb := some 7, thread := -1 } ∧ w1.is_active = true
      ∧ e1.sched.m_fibers = [{ fiber := some 60, cb := none, thread := 3 }]
          ++ [{ fiber := none, cb := some 8, thread := -1 }] :=
  (C21_pick_first_eligible
      { exampleRunEnv with sched := { m_fibers :=
        [{ fiber := some 60, cb := none, thread := 3 },
         { fiber := none, cb := some 7, thread := -1 },
         { fiber := none, cb := some 8, thread := -1 }] } } exampleWorker).1
    [{ fiber := some 60, cb := none, thread := 3 }]
    [{ fiber := none, cb := some 8, thread := -1 }]
    { fiber := none, cb := some 7, thread := -1 } rfl (by decide) (by decide)
    ⟨rfl, fun p hp => absurd hp (by simp)⟩

theorem schedule_counts (s : Scheduler) (ft : FiberAndThread) :
    (s.schedule ft).m_activeThreadCount = s.m_activeThreadCount
      ∧ (s.schedule ft).m_idleThreadCount = s.m_idleThreadCount := by
  unfold Scheduler.schedule Scheduler.scheduleNoLock Scheduler.tickle
  by_cases h1 : (ft.fiber.isSome || ft.cb.isSome) = true <;>
    by_cases h2 : s.m_fibers.isEmpty = true <;> simp [h1, h2]

theorem foldl_schedule_counts (l : List FiberAndThread) :
    ∀ s : Scheduler,
      (l.foldl Scheduler.schedule s).m_activeThreadCount = s.m_activeThreadCount
        ∧ (l.foldl Scheduler.schedule s).m_idleThreadCount = s.m_idleThreadCount := by
  induction l with
  | nil => intro s; exact ⟨rfl, rfl⟩
  | cons a t ih =>
    intro s
    rw [List.foldl_cons]
    have h1 := ih (s.schedule a)
    have h2 := schedule_counts s a
    exact ⟨h1.1.trans h2.1, h1.2.trans h2.2⟩

/-- The switch into a coroutine that is not in state `EXEC`, up to its switch back. -/
theorem swapIn_spec (o : RunOracle) (e : RunEnv) (p : Nat) (f : Fiber)
    (hf : e.fibers p = some f) (hs : f.m_state ≠ FiberState.EXEC) :
    e.swapIn o p
      = some { e with
          fibers := Function.update e.fibers p
            (some { f with m_state := (o.swap e.swaps.length).state,
                           m_cb := if (o.swap e.swaps.length).state = FiberState.TERM then none
                                   else f.m_cb }),
          sched := (o.swap e.swaps.length).scheduled.foldl Scheduler.schedule e.sched,
          swaps := e.swaps ++ [p] } := by
  unfold RunEnv.swapIn
  simp only [hf, hs, if_false]

/-- What the switch into a coroutine leaves of the state. -/
theorem swapIn_facts (o : RunOracle) (e e1 : RunEnv) (p : Nat) (h : e.swapIn o p = some e1) :
    e1.sched.m_activeThreadCount = e.sched.m_activeThreadCount
      ∧ e1.sched.m_idleThreadCount = e.sched.m_idleThreadCount
      ∧ e1.swaps = e.swaps ++ [p]
      ∧ e1.s_fiber_id = e.s_fiber_id
      ∧ ∃ f1, e1.fibers p = some f1 ∧ f1.m_state = (o.swap e.swaps.length).state := by
  cases hf : e.fibers p with
  | none =>
    unfold RunEnv.swapIn at h
    rw [hf] at h
    exact absurd h (by simp)
  | some f =>
    by_cases hs : f.m_state = FiberState.EXEC
    · unfold RunEnv.swapIn at h
      simp only [hf, hs, if_true] at h
      exact absurd h (by simp)
    · rw [swapIn_spec o e p f hf hs] at h
      simp only [Option.some.injEq] at h
      rw [← h]
      have hc := foldl_schedule_counts (o.swap e.swaps.length).scheduled e.sched
      refine ⟨hc.1, hc.2, rfl, rfl,
        { f with m_state := (o.swap e.swaps.length).state,
                 m_cb := if (o.swap e.swaps.length).state = FiberState.TERM then none
                         else f.m_cb }, ?_, rfl⟩
      show Function.update e.fibers p _ p = _
      rw [Function.update_same]

theorem setState_facts (e : RunEnv) (p : Nat) (st : FiberState) :
    (e.setState p st).sched = e.sched ∧ (e.setState p st).swaps = e.swaps
      ∧ (e.setState p st).s_fiber_id = e.s_fiber_id := by
  unfold RunEnv.setState
  split <;> exact ⟨rfl, rfl, rfl⟩

theorem setState_same (e : RunEnv) (p : Nat) (st : FiberState) (f : Fiber)
    (hf : e.fibers p = some f) :
    (e.setState p st).fibers p = some { f with m_state := st } := by
  unfold RunEnv.setState
  rw [hf]
  show Function.update e.fibers p _ p = _
  rw [Function.update_same]

/-- The switch into an allocated coroutine that is not in state `EXEC` returns, and leaves
the coroutine in the state the oracle gives. -/
theorem swapIn_ex (o : RunOracle) (e : RunEnv) (p : Nat) (f : Fiber)
    (hf : e.fibers p = some f) (hs : f.m_state ≠ FiberState.EXEC) :
    ∃ e1 f1, e.swapIn o p = some e1
      ∧ e1.sched = (o.swap e.swaps.length).scheduled.foldl Scheduler.schedule e.sched
      ∧ e1.swaps = e.swaps ++ [p]
      ∧ e1.s_fiber_id = e.s_fiber_id
      ∧ e1.fibers p = some f1 ∧ f1.m_state = (o.swap e.swaps.length).state
      ∧ ∀ q, q ≠ p → e1.fibers q = e.fibers q := by
  refine ⟨_, { f with m_state := (o.swap e.swaps.length).state,
                      m_cb := if (o.swap e.swaps.length).state = FiberState.TERM then none
                              else f.m_cb },
    swapIn_spec o e p f hf hs, rfl, rfl, rfl, ?_, rfl, ?_⟩
  · show Function.update e.fibers p _ p = _
    rw [Function.update_same]
  · intro q hq
    show Function.update e.fibers p _ q = _
    rw [Function.update_noteq hq]

/-- The decrement of the active count changes the scheduler only. -/
theorem decrActive_sched (e : RunEnv) :
    e.decrActive.sched
      = { e.sched with m_activeThreadCount := decr64 e.sched.m_activeThreadCount } := by
  unfold RunEnv.decrActive
  rfl

theorem decrActive_facts (e : RunEnv) :
    e.decrActive.fibers = e.fibers ∧ e.decrActive.swaps = e.swaps
      ∧ e.decrActive.s_fiber_id = e.s_fiber_id
      ∧ e.decrActive.sched.m_fibers = e.sched.m_fibers
      ∧ e.decrActive.sched.m_activeThreadCount = decr64 e.sched.m_activeThreadCount
      ∧ e.decrActive.sched.m_idleThreadCount = e.sched.m_idleThreadCount := by
  rw [decrActive_sched]
  refine ⟨?_, ?_, ?_, rfl, rfl, rfl⟩
  · unfold RunEnv.decrActive
    rfl
  · unfold RunEnv.decrActive
    rfl
  · unfold RunEnv.decrActive
    rfl
theorem scheduleFiber_facts (e : RunEnv) (p : Nat) :
    (e.scheduleFiber p).fibers = e.fibers ∧ (e.scheduleFiber p).swaps = e.swaps
      ∧ (e.scheduleFiber p).s_fiber_id = e.s_fiber_id
      ∧ (e.scheduleFiber p).sched.m_fibers
          = e.sched.m_fibers ++ [{ fiber := some p, cb := none, thread := -1 }]
      ∧ (e.scheduleFiber p).sched.m_activeThreadCount = e.sched.m_activeThreadCount
      ∧ (e.scheduleFiber p).sched.m_idleThreadCount = e.sched.m_idleThreadCount := by
  refine ⟨rfl, rfl, rfl, ?_, ?_, ?_⟩
  · exact schedule_fibers _ _ rfl
  · exact (schedule_counts _ _).1
  · exact (schedule_counts _ _).2

/-- The branch of a coroutine task: the coroutine is switched into once, the active count is
decremented once, and the coroutine is put back on the queue exactly when it is `READY`. -/
theorem runFiber_spec (o : RunOracle) (e : RunEnv) (p : Nat) (f : Fiber)
    (hf : e.fibers p = some f) (hs : f.m_state ≠ FiberState.EXEC) :
    ∃ e1 f1, Scheduler.runFiber o e p = some e1
      ∧ e1.swaps = e.swaps ++ [p]
      ∧ e1.sched.m_activeThreadCount = decr64 e.sched.m_activeThreadCount
      ∧ e1.sched.m_idleThreadCount = e.sched.m_idleThreadCount
      ∧ e1.fibers p = some f1
      ∧ ((o.swap e.swaps.length).state = FiberState.READY →
          f1.m_state = FiberState.READY
            ∧ e1.sched.m_fibers
                = ((o.swap e.swaps.length).scheduled.foldl Scheduler.schedule e.sched).m_fibers
                    ++ [{ fiber := some p, cb := none, thread := -1 }])
      ∧ ((o.swap e.swaps.length).state = FiberState.TERM
            ∨ (o.swap e.swaps.length).state = FiberState.EXCEPT →
          f1.m_state = (o.swap e.swaps.length).state
            ∧ e1.sched.m_fibers
                = ((o.swap e.swaps.length).scheduled.foldl Scheduler.schedule e.sched).m_fibers)
      ∧ ((o.swap e.swaps.length).state ≠ FiberState.READY →
          (o.swap e.swaps.length).state ≠ FiberState.TERM →
          (o.swap e.swaps.length).state ≠ FiberState.EXCEPT →
          f1.m_state = FiberState.HOLD
            ∧ e1.sched.m_fibers
                = ((o.swap e.swaps.length).scheduled.foldl Scheduler.schedule e.sched).m_fibers) := by
  obtain ⟨e0, f0, h0, hsch, hsw, -, hfp, hst, -⟩ := swapIn_ex o e p f hf hs
  have hc := foldl_schedule_counts (o.swap e.swaps.length).scheduled e.sched
  rw [← hsch] at hc
  have hd := decrActive_facts e0
  have hfd : e0.decrActive.fibers p = some f0 := by rw [hd.1]; exact hfp
  rw [← hst, ← hsch]
  unfold Scheduler.runFiber
  rw [h0]
  simp only [hfd]
  by_cases h1 : f0.m_state = FiberState.READY
  · rw [if_pos h1]
    have hsf := scheduleFiber_facts e0.decrActive p
    refine ⟨e0.decrActive.scheduleFiber p, f0, rfl, ?_, ?_, ?_, ?_, ?_, ?_, ?_⟩
    · rw [hsf.2.1, hd.2.1, hsw]
    · rw [hsf.2.2.2.2.1, hd.2.2.2.2.1, hc.1]
    · rw [hsf.2.2.2.2.2, hd.2.2.2.2.2, hc.2]
    · rw [hsf.1]; exact hfd
    · intro _
      refine ⟨h1, ?_⟩
      rw [hsf.2.2.2.1, hd.2.2.2.1]
    · intro h2
      rw [h1] at h2
      rcases h2 with h2 | h2
      · exact absurd h2 (by decide)
      · exact absurd h2 (by decide)
    · intro h2
      exact absurd h1 h2
  · rw [if_neg h1]
    by_cases h2 : f0.m_state ≠ FiberState.TERM ∧ f0.m_state ≠ FiberState.EXCEPT
    · rw [if_pos h2]
      have hss := setState_facts e0.decrActive p FiberState.HOLD
      refine ⟨e0.decrActive.setState p FiberState.HOLD, { f0 with m_state := FiberState.HOLD },
        rfl, ?_, ?_, ?_, ?_, ?_, ?_, ?_⟩
      · rw [hss.2.1, hd.2.1, hsw]
      · rw [hss.1, hd.2.2.2.2.1, hc.1]
      · rw [hss.1, hd.2.2.2.2.2, hc.2]
      · exact setState_same _ p FiberState.HOLD f0 hfd
      · intro h3
        exact absurd h3 h1
      · intro h3
        rcases h3 with h3 | h3
        · exact absurd h3 h2.1
        · exact absurd h3 h2.2
      · intro _ _ _
        refine ⟨rfl, ?_⟩
        rw [hss.1, hd.2.2.2.1]
    · rw [if_neg h2]
      refine ⟨e0.decrActive, f0, rfl, ?_, ?_, ?_, hfd, ?_, ?_, ?_⟩
      · rw [hd.2.1, hsw]
      · rw [hd.2.2.2.2.1, hc.1]
      · rw [hd.2.2.2.2.2, hc.2]
      · intro h3
        exact absurd h3 h1
      · intro _
        exact ⟨rfl, hd.2.2.2.1⟩
      · intro _ h4 h5
        exact absurd ⟨h4, h5⟩ h2

theorem runnable_fiber (fibers : Nat → Option Fiber) (ft : FiberAndThread) (p : Nat) (f : Fiber)
    (hft : ft.fiber = some p) (hf : fibers p = some f) :
    Scheduler.runnable fibers ft
      = some (decide (f.m_state ≠ FiberState.TERM ∧ f.m_state ≠ FiberState.EXCEPT)) := by
  unfold Scheduler.runnable
  rw [hft]
  simp only [hf, Option.map_some']

theorem runTask_fiber (o : RunOracle) (e : RunEnv) (w : Worker) (p : Nat)
    (hft : w.ft.fiber = some p) (hr : Scheduler.runnable e.fibers w.ft = some true) :
    Scheduler.runTask o e w
      = (Scheduler.runFiber o e p).map
          (fun e1 => (e1, { w with ft := FiberAndThread.empty }, false)) := by
  unfold Scheduler.runTask
  rw [hr, hft]

theorem runTask_other (o : RunOracle) (e : RunEnv) (w : Worker)
    (hr : Scheduler.runnable e.fibers w.ft = some false) :
    Scheduler.runTask o e w
      = if w.ft.cb.isSome then
          match Scheduler.runCb o e w.cb_fiber w.ft.cb with
          | none => none
          | some (e1, _) =>
            some (e1, { w with ft := FiberAndThread.empty, cb_fiber := none }, false)
        else (Scheduler.runIdle o e w).map (fun r => (r.1, w, r.2)) := by
  unfold Scheduler.runTask
  rw [hr]

/-- C22: after a coroutine task that is neither `TERM` nor `EXCEPT` (nor `EXEC`) when it is
picked has switched back to the loop of `Scheduler::run`, it is appended to the queue again
exactly when its state is `READY`; in state `TERM` or `EXCEPT` its state is left as it is; in
every other state it is set to `HOLD`; in both cases it is not put on the queue. A coroutine
task that is `TERM` or `EXCEPT` when it is picked is not switched into. -/
theorem C22_after_switch_back (o : RunOracle) (e : RunEnv) (w : Worker) (p : Nat) (f : Fiber)
    (hft : w.ft.fiber = some p) (hf : e.fibers p = some f) :
    (f.m_state ≠ FiberState.TERM → f.m_state ≠ FiberState.EXCEPT →
      f.m_state ≠ FiberState.EXEC →
      ∃ e1 f1,
        Scheduler.runTask o e w = some (e1, { w with ft := FiberAndThread.empty }, false)
        ∧ e1.swaps = e.swaps ++ [p]
        ∧ e1.fibers p = some f1
        ∧ ((o.swap e.swaps.length).state = FiberState.READY →
            f1.m_state = FiberState.READY
              ∧ e1.sched.m_fibers
                  = ((o.swap e.swaps.length).scheduled.foldl Scheduler.schedule e.sched).m_fibers
                      ++ [{ fiber := some p, cb := none, thread := -1 }])
        ∧ ((o.swap e.swaps.length).state = FiberState.TERM
              ∨ (o.swap e.swaps.length).state = FiberState.EXCEPT →
            f1.m_state = (o.swap e.swaps.length).state
              ∧ e1.sched.m_fibers
                  = ((o.swap e.swaps.length).scheduled.foldl Scheduler.schedule e.sched).m_fibers)
        ∧ ((o.swap e.swaps.length).state ≠ FiberState.READY →
            (o.swap e.swaps.length).state ≠ FiberState.TERM →
            (o.swap e.swaps.length).state ≠ FiberState.EXCEPT →
            f1.m_state = FiberState.HOLD
              ∧ e1.sched.m_fibers
                  = ((o.swap e.swaps.length).scheduled.foldl Scheduler.schedule e.sched).m_fibers))
    ∧ ((f.m_state = FiberState.TERM ∨ f.m_state = FiberState.EXCEPT) →
        w.ft.cb = none → w.is_active = true →
        ∃ e1, Scheduler.runTask o e w = some (e1, w, false)
          ∧ e1.swaps = e.swaps ∧ e1.fibers = e.fibers
          ∧ e1.sched.m_fibers = e.sched.m_fibers) := by
  have hrun := runnable_fiber e.fibers w.ft p f hft hf
  refine ⟨?_, ?_⟩
  · intro h1 h2 h3
    have hd : decide (f.m_state ≠ FiberState.TERM ∧ f.m_state ≠ FiberState.EXCEPT) = true :=
      decide_eq_true ⟨h1, h2⟩
    rw [hd] at hrun
    obtain ⟨e1, f1, hr, hsw, -, -, hfp, hA, hB, hC⟩ := runFiber_spec o e p f hf h3
    refine ⟨e1, f1, ?_, hsw, hfp, hA, hB, hC⟩
    rw [runTask_fiber o e w p hft hrun, hr]
    rfl
  · intro h1 hcb hact
    have hd : decide (f.m_state ≠ FiberState.TERM ∧ f.m_state ≠ FiberState.EXCEPT) = false := by
      apply decide_eq_false
      intro hc
      rcases h1 with h1 | h1
      · exact hc.1 h1
      · exact hc.2 h1
    rw [hd] at hrun
    have hD := decrActive_facts e
    refine ⟨e.decrActive, ?_, hD.2.1, hD.1, hD.2.2.2.1⟩
    rw [runTask_other o e w hrun, hcb]
    unfold Scheduler.runIdle
    rw [hact]
    rfl

/-- Witness of C22: the worker holds the coroutine at address 60. When that coroutine is in
state `HOLD`, it runs to its end and is not put on the queue again; when it is already in
state `TERM`, it is not switched into. -/
theorem C22_after_switch_back_witness :
    (∃ e1 f1,
      Scheduler.runTask exampleRunOracle exampleRunEnv
          { exampleWorker with ft := { fiber := some 60, cb := none, thread := -1 },
                               is_active := true }
        = some (e1, { exampleWorker with is_active := true }, false)
      ∧ e1.swaps = [60] ∧ e1.fibers 60 = some f1 ∧ f1.m_state = FiberState.TERM
      ∧ e1.sched.m_fibers = exampleRunEnv.sched.m_fibers)
    ∧ (∃ e1,
      Scheduler.runTask exampleRunOracle
          exampleFinished
          { exampleWorker with ft := { fiber := some 60, cb := none, thread := -1 },
                               is_active := true }
        = some (e1, { exampleWorker with ft := { fiber := some 60, cb := none, thread := -1 },
                                         is_active := true }, false)
      ∧ e1.swaps = []) := by
  constructor
  · obtain ⟨e1, f1, h1, h2, h3, -, h5, -⟩ :=
      (C22_after_switch_back exampleRunOracle exampleRunEnv
        { exampleWorker with ft := { fiber := some 60, cb := none, thread := -1 },
                             is_active := true }
        60 { m_id := 2, m_state := FiberState.HOLD, m_cb := some 2 } rfl rfl).1
        (by decide) (by decide) (by decide)
    exact ⟨e1, f1, h1, h2, h3, (h5 (Or.inl rfl)).1, (h5 (Or.inl rfl)).2⟩
  · obtain ⟨e1, h1, h2, -⟩ :=
      (C22_after_switch_back exampleRunOracle
        exampleFinished
        { exampleWorker with ft := { fiber := some 60, cb := none, thread := -1 },
                             is_active := true }
        60 { m_id := 2, m_state := FiberState.TERM, m_cb := none } rfl rfl).2
        (Or.inl rfl) rfl rfl
    exact ⟨e1, h1, h2⟩

/-- The branch of a callable task leaves the worker without callback coroutine, whatever
the task did. -/
theorem runTask_callable_drops_cb_fiber (o : RunOracle) (e e1 : RunEnv) (w w1 : Worker)
    (b : Bool) (hr : Scheduler.runnable e.fibers w.ft = some false)
    (hcb : w.ft.cb.isSome = true) (h : Scheduler.runTask o e w = some (e1, w1, b)) :
    w1.cb_fiber = none := by
  rw [runTask_other o e w hr, if_pos hcb] at h
  cases hc : Scheduler.runCb o e w.cb_fiber w.ft.cb with
  | none =>
    rw [hc] at h
    exact absurd h (by simp)
  | some r =>
    rw [hc] at h
    simp only [Option.some.injEq, Prod.mk.injEq] at h
    rw [← h.2.1]

/-- A worker without callback coroutine runs a callable on a coroutine made for it, at an
address that held no coroutine. -/
theorem cbFiber_new (o : RunOracle) (e e1 : RunEnv) (cb : Option Nat) (c : Nat)
    (h : Scheduler.cbFiber o e none cb = some (e1, c)) :
    e.fibers c = none ∧ c = o.newFiber e.s_fiber_id
      ∧ e1.s_fiber_id = (e.s_fiber_id + 1) % 2 ^ 64 := by
  unfold Scheduler.cbFiber RunEnv.newFiber at h
  simp only at h
  by_cases hx : (e.fibers (o.newFiber e.s_fiber_id)).isSome = true
  · rw [if_pos hx] at h
    exact absurd h (by simp)
  · rw [if_neg hx] at h
    simp only [Option.some.injEq, Prod.mk.injEq] at h
    obtain ⟨h1, h2⟩ := h
    refine ⟨?_, h2.symm, ?_⟩
    · rw [← h2]
      cases hq : e.fibers (o.newFiber e.s_fiber_id) with
      | none => rfl
      | some f =>
        rw [hq] at hx
        exact absurd rfl hx
    · rw [← h1]

/-- C23, refuted on the code: a worker of `Scheduler::run` runs the callables 7 and 8 one
after the other, and both run to their end. After the first one the worker holds no callback
coroutine (the coroutine at address 102, reset and ready for the next callable, is given up),
and the second callable runs on a coroutine that is newly made, at address 103 with the new
id 4. -/
theorem C23_callback_fiber_not_kept :
    (Scheduler.runSteps exampleRunOracle 1 exampleRunEnv exampleWorker).map
        (fun r => (r.1.swaps, r.1.s_fiber_id, r.2.cb_fiber, r.1.fibers 102, r.1.fibers 103))
      = some ([102], 3, none,
          some { m_id := 3, m_state := FiberState.INIT, m_cb := none }, none)
    ∧ (Scheduler.runSteps exampleRunOracle 2 exampleRunEnv exampleWorker).map
        (fun r => (r.1.swaps, r.1.s_fiber_id, r.2.cb_fiber, r.1.fibers 103))
      = some ([102, 103], 4, none,
          some { m_id := 4, m_state := FiberState.INIT, m_cb := none }) := by
  constructor
  · rfl
  · rfl

/-- What the scan returns: without an entry taken the queue is as it was; with an entry
taken the queue is one shorter and the entry holds a coroutine or a callable. -/
theorem scan_facts (fibers : Nat → Option Fiber) (tid : Int) :
    ∀ (q : List FiberAndThread) (t : Bool) (r : Option FiberAndThread)
      (rest : List FiberAndThread) (t1 : Bool),
      Scheduler.scan fibers tid q t = some (r, rest, t1) →
      (r = none → rest = q)
        ∧ (∀ ft, r = some ft →
            rest.length + 1 = q.length ∧ (ft.fiber.isSome || ft.cb.isSome) = true) := by
  intro q
  induction q with
  | nil =>
    intro t r rest t1 h
    simp only [Scheduler.scan, Option.some.injEq, Prod.mk.injEq] at h
    obtain ⟨h1, h2, -⟩ := h
    subst h1 h2
    exact ⟨fun _ => rfl, fun ft hft => absurd hft (by simp)⟩
  | cons x q ih =>
    intro t r rest t1 h
    have key : ∀ t0, (Scheduler.scan fibers tid q t0).map (fun r => (r.1, x :: r.2.1, r.2.2))
          = some (r, rest, t1) →
        (r = none → rest = x :: q)
          ∧ (∀ ft, r = some ft →
              rest.length + 1 = (x :: q).length ∧ (ft.fiber.isSome || ft.cb.isSome) = true) := by
      intro t0 h0
      cases hs : Scheduler.scan fibers tid q t0 with
      | none =>
        rw [hs] at h0
        exact absurd h0 (by simp)
      | some y =>
        obtain ⟨r0, rest0, t2⟩ := y
        rw [hs] at h0
        simp only [Option.map_some', Option.some.injEq, Prod.mk.injEq] at h0
        obtain ⟨h1, h2, -⟩ := h0
        have ih1 := ih t0 r0 rest0 t2 hs
        subst h1 h2
        refine ⟨fun hr => by rw [ih1.1 hr], fun g hg => ⟨?_, (ih1.2 g hg).2⟩⟩
        have := (ih1.2 g hg).1
        simp only [List.length_cons]
        omega
    rw [Scheduler.scan] at h
    by_cases ha : x.thread ≠ -1 ∧ x.thread ≠ tid
    · rw [if_pos ha] at h
      exact key true h
    · rw [if_neg ha] at h
      by_cases hb : (!(x.fiber.isSome || x.cb.isSome)) = true
      · rw [if_pos hb] at h
        exact absurd h (by simp)
      · rw [if_neg hb] at h
        have hne : (x.fiber.isSome || x.cb.isSome) = true := by
          cases hq : (x.fiber.isSome || x.cb.isSome) with
          | true => rfl
          | false =>
            rw [hq] at hb
            exact absurd rfl hb
        have take : some (some x, q, t) = some (r, rest, t1) →
            (r = none → rest = x :: q)
              ∧ (∀ ft, r = some ft →
                  rest.length + 1 = (x :: q).length
                    ∧ (ft.fiber.isSome || ft.cb.isSome) = true) := by
          intro h0
          simp only [Option.some.injEq, Prod.mk.injEq] at h0
          obtain ⟨h1, h2, -⟩ := h0
          subst h1 h2
          refine ⟨fun hr => absurd hr (by simp), fun g hg => ?_⟩
          simp only [Option.some.injEq] at hg
          subst hg
          exact ⟨rfl, hne⟩
        cases hf : x.fiber with
        | none =>
          rw [hf] at h
          exact take h
        | some p =>
          rw [hf] at h
          simp only at h
          cases hp : fibers p with
          | none =>
            rw [hp] at h
            exact absurd h (by simp)
          | some f =>
            rw [hp] at h
            simp only at h
            by_cases he : f.m_state = FiberState.EXEC
            · rw [if_pos he] at h
              exact key t h
            · rw [if_neg he] at h
              exact take h

/-- What `tickle` leaves of the scheduler. -/
theorem tickle_facts (s : Scheduler) :
    s.tickle.m_fibers = s.m_fibers ∧ s.tickle.m_activeThreadCount = s.m_activeThreadCount
      ∧ s.tickle.m_idleThreadCount = s.m_idleThreadCount :=
  ⟨rfl, rfl, rfl⟩

/-- The scan of one pass: either an entry is taken, the worker is active and the active count
is incremented once, or nothing is taken, the worker is not active and the count is as it
was. -/
theorem runPick_facts (e e1 : RunEnv) (w w1 : Worker) (h : Scheduler.runPick e w = some (e1, w1)) :
    e1.fibers = e.fibers ∧ e1.swaps = e.swaps ∧ e1.s_fiber_id = e.s_fiber_id
      ∧ w1.tid = w.tid ∧ w1.idle_fiber = w.idle_fiber ∧ w1.cb_fiber = w.cb_fiber
      ∧ e1.sched.m_idleThreadCount = e.sched.m_idleThreadCount
      ∧ ((w1.is_active = true
            ∧ (w1.ft.fiber.isSome || w1.ft.cb.isSome) = true
            ∧ e1.sched.m_activeThreadCount = incr64 e.sched.m_activeThreadCount
            ∧ e1.sched.m_fibers.length + 1 = e.sched.m_fibers.length)
          ∨ (w1.is_active = false ∧ w1.ft = FiberAndThread.empty
            ∧ e1.sched.m_activeThreadCount = e.sched.m_activeThreadCount
            ∧ e1.sched.m_fibers = e.sched.m_fibers)) := by
  unfold Scheduler.runPick at h
  cases hs : Scheduler.scan e.fibers w.tid e.sched.m_fibers false with
  | none =>
    rw [hs] at h
    exact absurd h (by simp)
  | some y =>
    obtain ⟨r, rest, t1⟩ := y
    have hf := scan_facts e.fibers w.tid e.sched.m_fibers false r rest t1 hs
    rw [hs] at h
    cases r with
    | none =>
      simp only [Option.some.injEq, Prod.mk.injEq] at h
      obtain ⟨h1, h2⟩ := h
      subst h1 h2
      refine ⟨rfl, rfl, rfl, rfl, rfl, rfl, ?_, Or.inr ⟨rfl, rfl, ?_, ?_⟩⟩
      · cases t1 <;> rfl
      · cases t1 <;> rfl
      · cases t1 <;> rfl
    | some ft =>
      simp only [Option.some.injEq, Prod.mk.injEq] at h
      obtain ⟨h1, h2⟩ := h
      subst h1 h2
      have hq := hf.2 ft rfl
      exact ⟨rfl, rfl, rfl, rfl, rfl, rfl, rfl, Or.inl ⟨rfl, hq.2, rfl, hq.1⟩⟩

/-- The branch of a coroutine task decrements the active count once. -/
theorem runFiber_active (o : RunOracle) (e e1 : RunEnv) (p : Nat)
    (h : Scheduler.runFiber o e p = some e1) :
    e1.sched.m_activeThreadCount = decr64 e.sched.m_activeThreadCount := by
  unfold Scheduler.runFiber at h
  cases h0 : e.swapIn o p with
  | none =>
    rw [h0] at h
    exact absurd h (by simp)
  | some e0 =>
    rw [h0] at h
    simp only at h
    have hsw := swapIn_facts o e e0 p h0
    have hd := decrActive_facts e0
    cases hf : e0.decrActive.fibers p with
    | none =>
      rw [hf] at h
      exact absurd h (by simp)
    | some f =>
      rw [hf] at h
      simp only at h
      by_cases h1 : f.m_state = FiberState.READY
      · rw [if_pos h1] at h
        simp only [Option.some.injEq] at h
        rw [← h, (scheduleFiber_facts _ p).2.2.2.2.1, hd.2.2.2.2.1, hsw.1]
      · rw [if_neg h1] at h
        by_cases h2 : f.m_state ≠ FiberState.TERM ∧ f.m_state ≠ FiberState.EXCEPT
        · rw [if_pos h2] at h
          simp only [Option.some.injEq] at h
          rw [← h, (setState_facts _ p FiberState.HOLD).1, hd.2.2.2.2.1, hsw.1]
        · rw [if_neg h2] at h
          simp only [Option.some.injEq] at h
          rw [← h, hd.2.2.2.2.1, hsw.1]

/-- The choice of the coroutine for a callable leaves the scheduler as it is. -/
theorem cbFiber_sched (o : RunOracle) (e e1 : RunEnv) (cbf cb : Option Nat) (c : Nat)
    (h : Scheduler.cbFiber o e cbf cb = some (e1, c)) :
    e1.sched = e.sched ∧ e1.swaps = e.swaps := by
  unfold Scheduler.cbFiber at h
  cases cbf with
  | none =>
    simp only at h
    unfold RunEnv.newFiber at h
    simp only at h
    by_cases hx : (e.fibers (o.newFiber e.s_fiber_id)).isSome = true
    · rw [if_pos hx] at h
      exact absurd h (by simp)
    · rw [if_neg hx] at h
      simp only [Option.some.injEq, Prod.mk.injEq] at h
      rw [← h.1]
      exact ⟨rfl, rfl⟩
  | some c0 =>
    simp only at h
    cases hq : (e.fibers c0).bind (fun f => f.reset cb) with
    | none =>
      rw [hq] at h
      exact absurd h (by simp)
    | some f1 =>
      rw [hq] at h
      simp only [Option.some.injEq, Prod.mk.injEq] at h
      rw [← h.1]
      exact ⟨rfl, rfl⟩

/-- The branch of a callable task decrements the active count once. -/
theorem runCb_active (o : RunOracle) (e e1 : RunEnv) (cbf cb r : Option Nat)
    (h : Scheduler.runCb o e cbf cb = some (e1, r)) :
    e1.sched.m_activeThreadCount = decr64 e.sched.m_activeThreadCount := by
  unfold Scheduler.runCb at h
  cases hc : Scheduler.cbFiber o e cbf cb with
  | none =>
    rw [hc] at h
    exact absurd h (by simp)
  | some y =>
    obtain ⟨ea, c⟩ := y
    rw [hc] at h
    simp only at h
    have hcs := cbFiber_sched o e ea cbf cb c hc
    cases h0 : ea.swapIn o c with
    | none =>
      rw [h0] at h
      exact absurd h (by simp)
    | some e0 =>
      rw [h0] at h
      simp only at h
      have hsw := swapIn_facts o ea e0 c h0
      have hd := decrActive_facts e0
      have hcount : e0.decrActive.sched.m_activeThreadCount
          = decr64 e.sched.m_activeThreadCount := by
        rw [hd.2.2.2.2.1, hsw.1, hcs.1]
      cases hf : e0.decrActive.fibers c with
      | none =>
        rw [hf] at h
        exact absurd h (by simp)
      | some f =>
        rw [hf] at h
        simp only at h
        by_cases h1 : f.m_state = FiberState.READY
        · rw [if_pos h1] at h
          simp only [Option.some.injEq, Prod.mk.injEq] at h
          rw [← h.1, (scheduleFiber_facts _ c).2.2.2.2.1, hcount]
        · rw [if_neg h1] at h
          by_cases h2 : f.m_state = FiberState.TERM ∨ f.m_state = FiberState.EXCEPT
          · rw [if_pos h2] at h
            cases hr : f.reset none with
            | none =>
              rw [hr] at h
              exact absurd h (by simp)
            | some f1 =>
              rw [hr] at h
              simp only [Option.some.injEq, Prod.mk.injEq] at h
              rw [← h.1]
              exact hcount
          · rw [if_neg h2] at h
            simp only [Option.some.injEq, Prod.mk.injEq] at h
            rw [← h.1, (setState_facts _ c FiberState.HOLD).1, hcount]

/-- The increment of the idle count leaves the active count and the coroutines. -/
theorem incrIdle_facts (e : RunEnv) :
    e.incrIdle.fibers = e.fibers ∧ e.incrIdle.swaps = e.swaps
      ∧ e.incrIdle.sched.m_activeThreadCount = e.sched.m_activeThreadCount :=
  ⟨rfl, rfl, rfl⟩

theorem decrIdle_sched (e : RunEnv) :
    e.decrIdle.sched
      = { e.sched with m_idleThreadCount := decr64 e.sched.m_idleThreadCount } := by
  unfold RunEnv.decrIdle
  rfl

/-- The decrement of the idle count leaves the active count and the coroutines. -/
theorem decrIdle_facts (e : RunEnv) :
    e.decrIdle.fibers = e.fibers ∧ e.decrIdle.swaps = e.swaps
      ∧ e.decrIdle.sched.m_activeThreadCount = e.sched.m_activeThreadCount := by
  rw [decrIdle_sched]
  refine ⟨?_, ?_, rfl⟩
  · unfold RunEnv.decrIdle
    rfl
  · unfold RunEnv.decrIdle
    rfl

/-- The branch without a task decrements the active count exactly when the worker is
active. -/
theorem runIdle_active (o : RunOracle) (e e1 : RunEnv) (w : Worker) (b : Bool)
    (h : Scheduler.runIdle o e w = some (e1, b)) :
    e1.sched.m_activeThreadCount
      = if w.is_active = true then decr64 e.sched.m_activeThreadCount
        else e.sched.m_activeThreadCount := by
  unfold Scheduler.runIdle at h
  by_cases ha : w.is_active = true
  · rw [if_pos ha] at h
    simp only [Option.some.injEq, Prod.mk.injEq] at h
    rw [if_pos ha, ← h.1, (decrActive_facts e).2.2.2.2.1]
  · rw [if_neg ha] at h
    rw [if_neg ha]
    cases hf : e.fibers w.idle_fiber with
    | none =>
      rw [hf] at h
      exact absurd h (by simp)
    | some f =>
      rw [hf] at h
      simp only at h
      by_cases ht : f.m_state = FiberState.TERM
      · rw [if_pos ht] at h
        simp only [Option.some.injEq, Prod.mk.injEq] at h
        rw [← h.1]
      · rw [if_neg ht] at h
        cases h0 : e.incrIdle.swapIn o w.idle_fiber with
        | none =>
          rw [h0] at h
          exact absurd h (by simp)
        | some e0 =>
          rw [h0] at h
          simp only at h
          have hsw := swapIn_facts o e.incrIdle e0 w.idle_fiber h0
          have hcount : e0.decrIdle.sched.m_activeThreadCount = e.sched.m_activeThreadCount := by
            rw [(decrIdle_facts e0).2.2, hsw.1, (incrIdle_facts e).2.2]
          cases hg : e0.decrIdle.fibers w.idle_fiber with
          | none =>
            rw [hg] at h
            exact absurd h (by simp)
          | some f1 =>
            rw [hg] at h
            simp only at h
            by_cases h2 : f1.m_state ≠ FiberState.TERM ∧ f1.m_state ≠ FiberState.EXCEPT
            · rw [if_pos h2] at h
              simp only [Option.some.injEq, Prod.mk.injEq] at h
              rw [← h.1, (setState_facts _ _ FiberState.HOLD).1, hcount]
            · rw [if_neg h2] at h
              simp only [Option.some.injEq, Prod.mk.injEq] at h
              rw [← h.1, hcount]

/-- What the worker does with its entry decrements the active count exactly when the worker
is active, that is, when its scan took an entry. -/
theorem runTask_active (o : RunOracle) (e e1 : RunEnv) (w w1 : Worker) (b : Bool)
    (hinv : w.is_active = false → w.ft = FiberAndThread.empty)
    (h : Scheduler.runTask o e w = some (e1, w1, b)) :
    e1.sched.m_activeThreadCount
      = if w.is_active = true then decr64 e.sched.m_activeThreadCount
        else e.sched.m_activeThreadCount := by
  have hact : ∀ x, (w.ft.fiber = some x ∨ w.ft.cb = some x) → w.is_active = true := by
    intro x hx
    cases ha : w.is_active with
    | true => rfl
    | false =>
      have he := hinv ha
      rw [he] at hx
      rcases hx with hx | hx
      · exact absurd hx (by simp [FiberAndThread.empty])
      · exact absurd hx (by simp [FiberAndThread.empty])
  cases hr : Scheduler.runnable e.fibers w.ft with
  | none =>
    unfold Scheduler.runTask at h
    rw [hr] at h
    exact absurd h (by simp)
  | some r =>
    cases r with
    | true =>
      cases hf : w.ft.fiber with
      | none =>
        unfold Scheduler.runTask at h
        rw [hr, hf] at h
        exact absurd h (by simp)
      | some p =>
        rw [runTask_fiber o e w p hf hr] at h
        cases hq : Scheduler.runFiber o e p with
        | none =>
          rw [hq] at h
          exact absurd h (by simp)
        | some e2 =>
          rw [hq] at h
          simp only [Option.map_some', Option.some.injEq, Prod.mk.injEq] at h
          rw [if_pos (hact p (Or.inl hf)), ← h.1]
          exact runFiber_active o e e2 p hq
    | false =>
      rw [runTask_other o e w hr] at h
      by_cases hcb : w.ft.cb.isSome = true
      · rw [if_pos hcb] at h
        obtain ⟨x, hx⟩ := Option.isSome_iff_exists.mp hcb
        cases hq : Scheduler.runCb o e w.cb_fiber w.ft.cb with
        | none =>
          rw [hq] at h
          exact absurd h (by simp)
        | some y =>
          rw [hq] at h
          simp only [Option.some.injEq, Prod.mk.injEq] at h
          rw [if_pos (hact x (Or.inr hx)), ← h.1]
          exact runCb_active o e y.1 w.cb_fiber w.ft.cb y.2 hq
      · rw [if_neg hcb] at h
        cases hq : Scheduler.runIdle o e w with
        | none =>
          rw [hq] at h
          exact absurd h (by simp)
        | some y =>
          rw [hq] at h
          simp only [Option.map_some', Option.some.injEq, Prod.mk.injEq] at h
          rw [← h.1]
          exact runIdle_active o e y.1 w y.2 hq

theorem busy_le_one (x : Worker × Phase) : Pool.busy x ≤ 1 := by
  unfold Pool.busy
  split <;> omega

theorem sum_busy_le (l : List (Worker × Phase)) : (l.map Pool.busy).sum ≤ l.length := by
  induction l with
  | nil => simp
  | cons a t ih =>
    have := busy_le_one a
    simp only [List.map_cons, List.sum_cons, List.length_cons]
    omega

theorem sum_busy_scanning (ws : List Worker) :
    ((ws.map (fun w => (w, Phase.scanning))).map Pool.busy).sum = 0 := by
  induction ws with
  | nil => rfl
  | cons a t ih =>
    simp only [List.map_cons, List.sum_cons, ih]
    rfl

theorem incr64_succ (n : Nat) (h : n + 1 < 2 ^ 64) : incr64 n = n + 1 := by
  unfold incr64
  exact Nat.mod_eq_of_lt h

theorem decr64_incr64 (n : Nat) (h : n < 2 ^ 64) : decr64 (incr64 n) = n := by
  unfold decr64 incr64
  omega

/-- A step of a worker keeps the count of active workers equal to the number of workers
between taking an entry and the end of their pass. -/
theorem pool_step_inv (o : RunOracle) (pl pl1 : Pool) (i : Nat) (hI : pl.Inv)
    (h : pl.step o i = some pl1) : pl1.Inv := by
  obtain ⟨hc, hl, hw⟩ := hI
  unfold Pool.step at h
  cases hx : pl.workers[i]? with
  | none =>
    rw [hx] at h
    exact absurd h (by simp)
  | some a =>
    obtain ⟨w, ph⟩ := a
    have hmem : (w, ph) ∈ pl.workers := List.getElem?_mem hx
    have hble := sum_busy_le pl.workers
    rw [hx] at h
    cases ph with
    | scanning =>
      simp only at h
      cases hp : Scheduler.runPick pl.env w with
      | none =>
        rw [hp] at h
        exact absurd h (by simp)
      | some y =>
        obtain ⟨e1, w1⟩ := y
        rw [hp] at h
        simp only [Option.some.injEq] at h
        have hf := (runPick_facts pl.env e1 w w1 hp).2.2.2.2.2.2.2
        have hs := sum_map_set Pool.busy pl.workers i (w1, Phase.holding) (w, Phase.scanning) hx
        have h0 : Pool.busy (w, Phase.scanning) = 0 := rfl
        have hble1 := sum_busy_le (pl.workers.set i (w1, Phase.holding))
        rw [List.length_set] at hble1
        rw [← h]
        refine ⟨?_, ?_, ?_⟩
        · show e1.sched.m_activeThreadCount
            = ((pl.workers.set i (w1, Phase.holding)).map Pool.busy).sum
          unfold Pool.busyCount at hc
          rcases hf with ⟨ha, -, hcount, -⟩ | ⟨ha, -, hcount, -⟩
          · have h1 : Pool.busy (w1, Phase.holding) = 1 := by
              unfold Pool.busy
              rw [if_pos ⟨rfl, ha⟩]
            rw [hcount, incr64_succ _ (by omega)]
            omega
          · have h1 : Pool.busy (w1, Phase.holding) = 0 := by
              unfold Pool.busy
              rw [if_neg]
              intro hcon
              rw [ha] at hcon
              exact absurd hcon.2 (by simp)
            rw [hcount]
            omega
        · show (pl.workers.set i (w1, Phase.holding)).length < 2 ^ 64
          rw [List.length_set]
          exact hl
        · intro x hxm hph hact
          rcases List.mem_or_eq_of_mem_set hxm with hm | hm
          · exact hw x hm hph hact
          · rw [hm] at hact ⊢
            rcases hf with ⟨ha, -, -, -⟩ | ⟨-, he, -, -⟩
            · rw [ha] at hact
              exact absurd hact (by simp)
            · exact he
    | holding =>
      simp only at h
      cases hp : Scheduler.runTask o pl.env w with
      | none =>
        rw [hp] at h
        exact absurd h (by simp)
      | some y =>
        obtain ⟨e1, w1, b⟩ := y
        rw [hp] at h
        simp only [Option.some.injEq] at h
        have hf := runTask_active o pl.env e1 w w1 b (hw (w, Phase.holding) hmem rfl) hp
        have hs := sum_map_set Pool.busy pl.workers i
          (w1, if b then Phase.left else Phase.scanning) (w, Phase.holding) hx
        have h0 : Pool.busy (w1, if b then Phase.left else Phase.scanning) = 0 := by
          unfold Pool.busy
          rw [if_neg]
          intro hcon
          cases b
          · exact absurd hcon.1 (by simp)
          · exact absurd hcon.1 (by simp)
        rw [← h]
        refine ⟨?_, ?_, ?_⟩
        · show e1.sched.m_activeThreadCount
            = ((pl.workers.set i (w1, if b then Phase.left else Phase.scanning)).map
                Pool.busy).sum
          unfold Pool.busyCount at hc
          by_cases ha : w.is_active = true
          · have h1 : Pool.busy (w, Phase.holding) = 1 := by
              unfold Pool.busy
              rw [if_pos ⟨rfl, ha⟩]
            rw [hf, if_pos ha, decr64_eq _ (by omega) (by omega)]
            omega
          · have h1 : Pool.busy (w, Phase.holding) = 0 := by
              unfold Pool.busy
              rw [if_neg]
              intro hcon
              exact ha hcon.2
            rw [hf, if_neg ha]
            omega
        · show (pl.workers.set i (w1, if b then Phase.left else Phase.scanning)).length < 2 ^ 64
          rw [List.length_set]
          exact hl
        · intro x hxm hph hact
          rcases List.mem_or_eq_of_mem_set hxm with hm | hm
          · exact hw x hm hph hact
          · rw [hm] at hph
            cases b
            · exact absurd hph (by simp)
            · exact absurd hph (by simp)
    | left =>
      exact absurd h (by simp)

theorem pool_reachable_inv (o : RunOracle) (pl : Pool) (h : Pool.Reachable o pl) : pl.Inv := by
  induction h with
  | init e ws h0 hl =>
    refine ⟨?_, ?_, ?_⟩
    · show e.sched.m_activeThreadCount = ((ws.map (fun w => (w, Phase.scanning))).map Pool.busy).sum
      rw [sum_busy_scanning, h0]
    · show (ws.map (fun w => (w, Phase.scanning))).length < 2 ^ 64
      rw [List.length_map]
      exact hl
    · intro x hx hph
      simp only [List.mem_map] at hx
      obtain ⟨w, -, hw⟩ := hx
      rw [← hw] at hph
      exact absurd hph (by simp)
  | step pl i pl1 _ hs ih => exact pool_step_inv o pl pl1 i ih hs

/-- C29: a pass through the loop of `Scheduler::run` that comes to its end leaves the active
count as it found it: the scan increments the count once exactly when it takes an entry from
the queue, and what follows the scan decrements it once exactly in that case, whatever the
entry is (also a coroutine that is already `TERM` or `EXCEPT`). With several workers on one
scheduler the count is, between their steps, the number of workers that are between taking
an entry and the end of their pass. -/
theorem C29_active_count_balanced (o : RunOracle) :
    (∀ (e : RunEnv) (w : Worker) (r : RunEnv × Worker × Bool),
        e.sched.m_activeThreadCount < 2 ^ 64 →
        Scheduler.runIteration o e w = some r →
        r.1.sched.m_activeThreadCount = e.sched.m_activeThreadCount
          ∧ ∃ e1 w1, Scheduler.runPick e w = some (e1, w1)
              ∧ Scheduler.runTask o e1 w1 = some r
              ∧ ((w1.is_active = true
                    ∧ e1.sched.m_fibers.length + 1 = e.sched.m_fibers.length
                    ∧ e1.sched.m_activeThreadCount = incr64 e.sched.m_activeThreadCount
                    ∧ r.1.sched.m_activeThreadCount = decr64 e1.sched.m_activeThreadCount)
                  ∨ (w1.is_active = false
                    ∧ e1.sched.m_fibers = e.sched.m_fibers
                    ∧ e1.sched.m_activeThreadCount = e.sched.m_activeThreadCount
                    ∧ r.1.sched.m_activeThreadCount = e1.sched.m_activeThreadCount)))
      ∧ (∀ pl : Pool, Pool.Reachable o pl →
          pl.env.sched.m_activeThreadCount = pl.busyCount
            ∧ pl.busyCount ≤ pl.workers.length) := by
  refine ⟨?_, ?_⟩
  · intro e w r hn h
    unfold Scheduler.runIteration at h
    cases hp : Scheduler.runPick e w with
    | none =>
      rw [hp] at h
      exact absurd h (by simp)
    | some y =>
      obtain ⟨e1, w1⟩ := y
      obtain ⟨e2, w2, b⟩ := r
      rw [hp] at h
      simp only at h
      have hf := (runPick_facts e e1 w w1 hp).2.2.2.2.2.2.2
      have hinv : w1.is_active = false → w1.ft = FiberAndThread.empty := by
        intro ha
        rcases hf with ⟨hb, -⟩ | ⟨-, he, -⟩
        · rw [hb] at ha
          exact absurd ha (by simp)
        · exact he
      have ht := runTask_active o e1 e2 w1 w2 b hinv h
      rcases hf with ⟨ha, -, hcount, hlen⟩ | ⟨ha, -, hcount, hq⟩
      · rw [if_pos ha] at ht
        refine ⟨?_, e1, w1, rfl, h, Or.inl ⟨ha, hlen, hcount, ht⟩⟩
        show e2.sched.m_activeThreadCount = _
        rw [ht, hcount, decr64_incr64 _ hn]
      · have hna : ¬ w1.is_active = true := by
          rw [ha]
          simp
        rw [if_neg hna] at ht
        refine ⟨?_, e1, w1, rfl, h, Or.inr ⟨ha, hq, hcount, ht⟩⟩
        show e2.sched.m_activeThreadCount = _
        rw [ht, hcount]
  · intro pl hr
    have hI := pool_reachable_inv o pl hr
    exact ⟨hI.1, sum_busy_le pl.workers⟩

/-- Witness of C29: the pass of the example worker that runs the callable 7, and the pool of
that worker alone after its scan, where one worker is busy and the count is 1. -/
theorem C29_active_count_balanced_witness :
    (∃ r, Scheduler.runIteration exampleRunOracle exampleRunEnv exampleWorker = some r
        ∧ r.1.sched.m_activeThreadCount = exampleRunEnv.sched.m_activeThreadCount)
      ∧ (∃ pl, Pool.step exampleRunOracle
            { env := exampleRunEnv, workers := [exampleWorker].map (fun w => (w, Phase.scanning)) }
            0 = some pl
          ∧ pl.env.sched.m_activeThreadCount = pl.busyCount ∧ pl.busyCount = 1) := by
  constructor
  · have hs : (Scheduler.runIteration exampleRunOracle exampleRunEnv exampleWorker).isSome
        = true := rfl
    obtain ⟨r, hr⟩ := Option.isSome_iff_exists.mp hs
    exact ⟨r, hr,
      ((C29_active_count_balanced exampleRunOracle).1 exampleRunEnv exampleWorker r
        (by decide) hr).1⟩
  · have hs : (Pool.step exampleRunOracle
        { env := exampleRunEnv, workers := [exampleWorker].map (fun w => (w, Phase.scanning)) }
        0).map (fun pl => pl.busyCount) = some 1 := rfl
    cases hp : Pool.step exampleRunOracle
        { env := exampleRunEnv, workers := [exampleWorker].map (fun w => (w, Phase.scanning)) }
        0 with
    | none =>
      rw [hp] at hs
      exact absurd hs (by simp)
    | some pl =>
      rw [hp] at hs
      simp only [Option.map_some', Option.some.injEq] at hs
      exact ⟨pl, rfl,
        ((C29_active_count_balanced exampleRunOracle).2 pl
          (Pool.Reachable.step _ 0 pl (Pool.Reachable.init exampleRunEnv [exampleWorker] rfl
            (by decide)) hp)).1, hs⟩



/-! ## Lemmas on the byte array -/

theorem div_mod_block (B i r : Nat) (h : r < B) :
    (i * B + r) / B = i ∧ (i * B + r) % B = r := by
  have hB : 0 < B := by omega
  constructor
  · rw [Nat.add_comm, Nat.add_mul_div_right _ _ hB, Nat.div_eq_of_lt h, Nat.zero_add]
  · rw [Nat.add_comm, Nat.add_mul_mod_self_right, Nat.mod_eq_of_lt h]

theorem block_decomp (B k : Nat) (hB : 0 < B) : k = (k / B) * B + k % B ∧ k % B < B := by
  refine ⟨?_, Nat.mod_lt _ hB⟩
  have := Nat.div_add_mod k B
  rw [Nat.mul_comm] at this
  exact this.symm

theorem lt_block (B i off k : Nat) (hB : 0 < B) (h : k < i * B + off) (hoff : off ≤ B) :
    k / B < i ∨ (k / B = i ∧ k % B < off) := by
  obtain ⟨h1, h2⟩ := block_decomp B k hB
  rcases Nat.lt_trichotomy (k / B) i with hlt | heq | hgt
  · exact Or.inl hlt
  · right
    refine ⟨heq, ?_⟩
    rw [heq] at h1
    omega
  · exfalso
    have h3 : (i + 1) * B ≤ (k / B) * B := Nat.mul_le_mul_right B hgt
    rw [Nat.add_mul, Nat.one_mul] at h3
    omega

theorem memcpy_length (blk : List Nat) (off : Nat) (bytes : List Nat)
    (h : off + bytes.length ≤ blk.length) : (memcpy blk off bytes).length = blk.length := by
  unfold memcpy
  simp only [List.length_append, List.length_take, List.length_drop]
  omega

theorem memcpy_get_lt (blk : List Nat) (off : Nat) (bytes : List Nat)
    (h : off + bytes.length ≤ blk.length) (k : Nat) (hk : k < off) :
    (memcpy blk off bytes)[k]? = blk[k]? := by
  unfold memcpy
  have h1 : k < (blk.take off).length := by
    rw [List.length_take]
    omega
  rw [List.append_assoc, List.getElem?_append_left h1, List.getElem?_take_of_lt hk]

theorem memcpy_get_mid (blk : List Nat) (off : Nat) (bytes : List Nat)
    (h : off + bytes.length ≤ blk.length) (j : Nat) (hj : j < bytes.length) :
    (memcpy blk off bytes)[off + j]? = bytes[j]? := by
  unfold memcpy
  have h1 : (blk.take off).length = off := by
    rw [List.length_take]
    omega
  have h2 : (blk.take off).length ≤ off + j := by omega
  rw [List.append_assoc, List.getElem?_append_right h2, h1, Nat.add_sub_cancel_left,
    List.getElem?_append_left hj]

theorem add64_eq (a b : Nat) (h : a + b < 2 ^ 64) : add64 a b = a + b := by
  unfold add64
  exact Nat.mod_eq_of_lt h

theorem sub64_eq (a b : Nat) (h1 : b ≤ a) (h2 : a < 2 ^ 64) : sub64 a b = a - b := by
  unfold sub64
  omega

/-- The bytes of a byte array after a copy into one block: the blocks keep their length, the
bytes in front of the copy are as they were, and the bytes of the copy are in place. -/
theorem byteAt_set (b b1 : ByteArray) (i off : Nat) (blk bytes : List Nat)
    (hB : 0 < b.m_baseSize) (hall : ∀ x ∈ b.nodes, x.length = b.m_baseSize)
    (hblk : b.nodes[i]? = some blk) (hfit : off + bytes.length ≤ b.m_baseSize)
    (hn : b1.nodes = b.nodes.set i (memcpy blk off bytes))
    (hb : b1.m_baseSize = b.m_baseSize) :
    (∀ x ∈ b1.nodes, x.length = b1.m_baseSize)
      ∧ b1.nodes.length = b.nodes.length
      ∧ (∀ k, k < i * b.m_baseSize + off → b1.byteAt k = b.byteAt k)
      ∧ (∀ j, j < bytes.length → b1.byteAt (i * b.m_baseSize + off + j) = bytes[j]?) := by
  have hlen : blk.length = b.m_baseSize := hall blk (List.getElem?_mem hblk)
  have hi : i < b.nodes.length := by
    by_contra hlt
    rw [List.getElem?_eq_none (by omega)] at hblk
    exact absurd hblk (by simp)
  have hm : (memcpy blk off bytes).length = b.m_baseSize := by
    rw [memcpy_length blk off bytes (by omega), hlen]
  refine ⟨?_, ?_, ?_, ?_⟩
  · intro x hx
    rw [hn] at hx
    rw [hb]
    rcases List.mem_or_eq_of_mem_set hx with h1 | h1
    · exact hall x h1
    · rw [h1]
      exact hm
  · rw [hn, List.length_set]
  · intro k hk
    unfold ByteArray.byteAt
    rw [hn, hb]
    rcases lt_block b.m_baseSize i off k hB hk (by omega) with h1 | ⟨h1, h2⟩
    · rw [List.getElem?_set_ne (by omega)]
    · rw [h1, List.getElem?_set_self hi, hblk]
      simp only [Option.some_bind]
      exact memcpy_get_lt blk off bytes (by omega) _ h2
  · intro j hj
    unfold ByteArray.byteAt
    rw [hn, hb]
    have hd := div_mod_block b.m_baseSize i (off + j) (by omega)
    rw [Nat.add_assoc, hd.1, hd.2, List.getElem?_set_self hi]
    simp only [Option.some_bind]
    exact memcpy_get_mid blk off bytes (by omega) j hj

/-- The pointer to the block of the position `p`: null at the end of the last block. -/
theorem next_eq (b : ByteArray) (i : Nat) :
    b.next i = if i + 1 < b.nodes.length then some (i + 1) else none := rfl

/-- The loop of `ByteArray::write` on a byte array with `m_cur` at the block `i` of the
position `i * m_baseSize + off`: it ends, the position moves behind the bytes written,
`m_cur` is the block of the new position, the bytes in front are as they were and the bytes
written are in place. -/
theorem writeLoop_spec :
    ∀ (fuel : Nat) (b : ByteArray) (buf : List Nat) (i off : Nat),
      0 < b.m_baseSize → (∀ x ∈ b.nodes, x.length = b.m_baseSize) →
      b.m_position = i * b.m_baseSize + off → off < b.m_baseSize →
      b.m_cur = some i → i < b.nodes.length →
      0 < buf.length →
      b.m_position + buf.length ≤ b.nodes.length * b.m_baseSize →
      b.nodes.length * b.m_baseSize < 2 ^ 64 →
      b.nodes.length < fuel + i →
      ∃ b1, ByteArray.writeLoop fuel b buf off (b.m_baseSize - off) = some b1
        ∧ b1.m_baseSize = b.m_baseSize ∧ b1.m_capacity = b.m_capacity ∧ b1.m_size = b.m_size
        ∧ b1.m_position = b.m_position + buf.length
        ∧ b1.nodes.length = b.nodes.length
        ∧ (∀ x ∈ b1.nodes, x.length = b1.m_baseSize)
        ∧ b1.m_cur = (if b1.m_position / b1.m_baseSize < b1.nodes.length
                      then some (b1.m_position / b1.m_baseSize) else none)
        ∧ (∀ k, k < b.m_position → b1.byteAt k = b.byteAt k)
        ∧ (∀ j, j < buf.length → b1.byteAt (b.m_position + j) = buf[j]?) := by
  intro fuel
  induction fuel with
  | zero =>
    intro b buf i off _ _ _ _ _ hi _ _ _ hf
    omega
  | succ fuel ih =>
    intro b buf i off hB hall hp hoff hcur hi hlen hfit hcap hf
    obtain ⟨blk, hblk⟩ : ∃ blk, b.nodes[i]? = some blk :=
      ⟨b.nodes[i], List.getElem?_eq_getElem hi⟩
    have hbl : blk.length = b.m_baseSize := hall blk (List.getElem?_mem hblk)
    have hne : ¬ buf.length = 0 := by omega
    have hiB : (i + 1) * b.m_baseSize ≤ b.nodes.length * b.m_baseSize :=
      Nat.mul_le_mul_right _ hi
    rw [Nat.add_mul, Nat.one_mul] at hiB
    rw [ByteArray.writeLoop]
    simp only [hne, if_false, hcur, hblk]
    by_cases hc : b.m_baseSize - off ≥ buf.length
    · rw [if_pos hc, if_neg (by omega)]
      have hs := byteAt_set b
        { b with nodes := b.nodes.set i (memcpy blk off buf),
                 m_cur := if blk.length = add64 off buf.length then b.next i else some i,
                 m_position := add64 b.m_position buf.length }
        i off blk buf hB hall hblk (by omega) rfl rfl
      have hpos : add64 b.m_position buf.length = b.m_position + buf.length :=
        add64_eq _ _ (by omega)
      have hob : add64 off buf.length = off + buf.length := add64_eq _ _ (by omega)
      refine ⟨_, rfl, rfl, rfl, rfl, hpos, hs.2.1, hs.1, ?_, ?_, ?_⟩
      · show (if blk.length = add64 off buf.length then b.next i else some i)
          = if add64 b.m_position buf.length / b.m_baseSize
                < (b.nodes.set i (memcpy blk off buf)).length
            then some (add64 b.m_position buf.length / b.m_baseSize) else none
        rw [hpos, hob, List.length_set, hbl, hp, next_eq]
        by_cases he : b.m_baseSize = off + buf.length
        · rw [if_pos he]
          have h1 : i * b.m_baseSize + off + buf.length = (i + 1) * b.m_baseSize + 0 := by
            rw [Nat.add_mul, Nat.one_mul]
            omega
          rw [h1, (div_mod_block b.m_baseSize (i + 1) 0 hB).1]
        · rw [if_neg he]
          have h1 : i * b.m_baseSize + off + buf.length
              = i * b.m_baseSize + (off + buf.length) := by omega
          rw [h1, (div_mod_block b.m_baseSize i (off + buf.length) (by omega)).1, if_pos hi]
      · intro k hk
        exact hs.2.2.1 k (by omega)
      · intro j hj
        have h5 := hs.2.2.2 j hj
        rw [← hp] at h5
        exact h5
    · rw [if_neg hc, if_neg (by omega)]
      have hcap1 : b.m_baseSize - off < buf.length := by omega
      have hi1 : i + 1 < b.nodes.length := by
        by_contra hcon
        have : b.nodes.length = i + 1 := by omega
        rw [this, Nat.add_mul, Nat.one_mul] at hfit
        omega
      have htl : (buf.take (b.m_baseSize - off)).length = b.m_baseSize - off := by
        rw [List.length_take]
        omega
      have hs := byteAt_set b
        { b with nodes := b.nodes.set i (memcpy blk off (buf.take (b.m_baseSize - off))),
                 m_position := add64 b.m_position (b.m_baseSize - off),
                 m_cur := b.next i }
        i off blk (buf.take (b.m_baseSize - off)) hB hall hblk (by omega) rfl rfl
      have hpos : add64 b.m_position (b.m_baseSize - off)
          = (i + 1) * b.m_baseSize + 0 := by
        rw [add64_eq _ _ (by omega), hp, Nat.add_mul, Nat.one_mul]
        omega
      have hnext : b.next i = some (i + 1) := by
        rw [next_eq, if_pos hi1]
      obtain ⟨blk1, hblk1⟩ : ∃ blk1, (b.nodes.set i
          (memcpy blk off (buf.take (b.m_baseSize - off))))[i + 1]? = some blk1 :=
        ⟨_, List.getElem?_eq_getElem (by rw [List.length_set]; exact hi1)⟩
      have hbl1 : blk1.length = b.m_baseSize := hs.1 blk1 (List.getElem?_mem hblk1)
      have hcur1 : ByteArray.cur
          { b with nodes := b.nodes.set i (memcpy blk off (buf.take (b.m_baseSize - off))),
                   m_position := add64 b.m_position (b.m_baseSize - off),
                   m_cur := b.next i } = some blk1 := by
        unfold ByteArray.cur
        simp only [hnext, Option.some_bind]
        exact hblk1
      simp only [hcur1, hbl1]
      have hdl : (buf.drop (b.m_baseSize - off)).length = buf.length - (b.m_baseSize - off) := by
        rw [List.length_drop]
      obtain ⟨b2, h2, hb2, hc2, hz2, hp2, hn2, hall2, hcur2, hfr2, hco2⟩ := ih
        { b with nodes := b.nodes.set i (memcpy blk off (buf.take (b.m_baseSize - off))),
                 m_position := add64 b.m_position (b.m_baseSize - off),
                 m_cur := b.next i }
        (buf.drop (b.m_baseSize - off)) (i + 1) 0 hB hs.1 hpos hB hnext
        (by rw [hs.2.1]; exact hi1) (by omega)
        (by
          show add64 b.m_position (b.m_baseSize - off) + (buf.drop (b.m_baseSize - off)).length
            ≤ (b.nodes.set i (memcpy blk off (buf.take (b.m_baseSize - off)))).length
                * b.m_baseSize
          rw [List.length_set, hdl, add64_eq _ _ (by omega)]
          omega)
        (by
          show (b.nodes.set i (memcpy blk off (buf.take (b.m_baseSize - off)))).length
                * b.m_baseSize < 2 ^ 64
          rw [List.length_set]
          exact hcap)
        (by
          show (b.nodes.set i (memcpy blk off (buf.take (b.m_baseSize - off)))).length
            < fuel + (i + 1)
          rw [List.length_set]
          omega)
      have hsub : b.m_baseSize - 0 = b.m_baseSize := Nat.sub_zero _
      rw [hsub] at h2
      have hpa : add64 b.m_position (b.m_baseSize - off) = b.m_position + (b.m_baseSize - off) :=
        add64_eq _ _ (by omega)
      refine ⟨b2, h2, hb2, hc2, hz2, ?_, ?_, hall2, hcur2, ?_, ?_⟩
      · rw [hp2]
        show add64 b.m_position (b.m_baseSize - off) + (buf.drop (b.m_baseSize - off)).length = _
        rw [hdl, hpa]
        omega
      · rw [hn2]
        exact hs.2.1
      · intro k hk
        rw [hfr2 k (by
          show k < add64 b.m_position (b.m_baseSize - off)
          rw [hpa]
          omega)]
        exact hs.2.2.1 k (by omega)
      · intro j hj
        by_cases hjc : j < b.m_baseSize - off
        · rw [hfr2 (b.m_position + j) (by
            show b.m_position + j < add64 b.m_position (b.m_baseSize - off)
            rw [hpa]
            omega)]
          have h5 := hs.2.2.2 j (by omega)
          rw [← hp] at h5
          rw [h5, List.getElem?_take_of_lt hjc]
        · have hj2 := hco2 (j - (b.m_baseSize - off)) (by omega)
          have hpe : add64 b.m_position (b.m_baseSize - off) + (j - (b.m_baseSize - off))
              = b.m_position + j := by
            rw [hpa]
            omega
          have hj3 : ByteArray.byteAt b2 (b.m_position + j)
              = (buf.drop (b.m_baseSize - off))[j - (b.m_baseSize - off)]? := by
            rw [← hpe]
            exact hj2
          rw [hj3, List.getElem?_drop]
          congr 1
          omega

theorem div_lt_blocks (B n p : Nat) (hB : 0 < B) : p / B < n ↔ p < n * B := by
  obtain ⟨h1, h2⟩ := block_decomp B p hB
  constructor
  · intro h
    have h3 : (p / B + 1) * B ≤ n * B := Nat.mul_le_mul_right B h
    rw [Nat.add_mul, Nat.one_mul] at h3
    omega
  · intro h
    by_contra hcon
    have h3 : n * B ≤ (p / B) * B := Nat.mul_le_mul_right B (by omega)
    omega

theorem ceilDiv_facts (s B : Nat) (hs : 0 < s) (hB : 0 < B) :
    0 < ceilDiv s B ∧ s ≤ ceilDiv s B * B ∧ ceilDiv s B * B < s + B := by
  unfold ceilDiv
  obtain ⟨h1, h2⟩ := block_decomp B (s + B - 1) hB
  refine ⟨?_, by omega, by omega⟩
  exact Nat.div_pos (by omega) hB

theorem newNode_length (fresh : Nat → Nat → Nat) (k s : Nat) :
    (ByteArray.newNode fresh k s).length = s := by
  unfold ByteArray.newNode
  rw [List.length_map, List.length_range]

/-- `addCapacity(size)` on a well-formed byte array: behind it there is room for `size`
bytes at the position, and `m_cur` is the block of the position. -/
theorem addCapacity_spec (fresh : Nat → Nat → Nat) (b : ByteArray) (size : Nat)
    (hwf : b.WF) (hs : 0 < size) (hs2 : size < 2 ^ 52)
    (hroom : b.m_capacity + b.m_baseSize + size < 2 ^ 64) :
    ∃ b1, b.addCapacity fresh size = some b1
      ∧ b1.m_baseSize = b.m_baseSize ∧ b1.m_position = b.m_position ∧ b1.m_size = b.m_size
      ∧ (∀ x ∈ b1.nodes, x.length = b.m_baseSize)
      ∧ b1.m_capacity = b1.nodes.length * b.m_baseSize
      ∧ b1.m_capacity < 2 ^ 64
      ∧ b.m_position + size ≤ b1.m_capacity
      ∧ b1.m_cur = some (b.m_position / b.m_baseSize)
      ∧ b.m_position / b.m_baseSize < b1.nodes.length
      ∧ b.m_capacity ≤ b1.m_capacity := by
  obtain ⟨hB, hn, hall, hcap, hps, hsc, hlt, hcur⟩ := hwf
  have hgc : b.getCapacity = b.m_capacity - b.m_position := by
    unfold ByteArray.getCapacity
    exact sub64_eq _ _ (by omega) hlt
  unfold ByteArray.addCapacity
  rw [if_neg (by omega)]
  simp only [hgc]
  by_cases h1 : b.m_capacity - b.m_position ≥ size
  · rw [if_pos h1]
    have hpl : b.m_position / b.m_baseSize < b.nodes.length := by
      rw [div_lt_blocks _ _ _ hB, ← hcap]
      omega
    rw [if_pos hpl] at hcur
    exact ⟨b, rfl, rfl, rfl, rfl, hall, hcap, hlt, by omega, hcur, hpl, Nat.le_refl _⟩
  · rw [if_neg h1]
    have hsz : sub64 size (b.m_capacity - b.m_position)
        = size - (b.m_capacity - b.m_position) := sub64_eq _ _ (by omega) (by omega)
    rw [hsz]
    have hc := ceilDiv_facts (size - (b.m_capacity - b.m_position)) b.m_baseSize (by omega) hB
    rw [if_neg (by omega)]
    have hlen : (b.nodes ++ (List.range
          (ceilDiv (size - (b.m_capacity - b.m_position)) b.m_baseSize)).map
          (fun i => ByteArray.newNode fresh (b.nodes.length + i) b.m_baseSize)).length
        = b.nodes.length + ceilDiv (size - (b.m_capacity - b.m_position)) b.m_baseSize := by
      rw [List.length_append, List.length_map, List.length_range]
    have hmod : (b.m_capacity
          + ceilDiv (size - (b.m_capacity - b.m_position)) b.m_baseSize * b.m_baseSize) % 2 ^ 64
        = (b.nodes.length + ceilDiv (size - (b.m_capacity - b.m_position)) b.m_baseSize)
            * b.m_baseSize := by
      rw [Nat.mod_eq_of_lt (by omega), Nat.add_mul, hcap]
    refine ⟨_, rfl, rfl, rfl, rfl, ?_, ?_, ?_, ?_, ?_, ?_, ?_⟩
    · intro x hx
      rcases List.mem_append.mp hx with h2 | h2
      · exact hall x h2
      · obtain ⟨i, -, hi⟩ := List.mem_map.mp h2
        rw [← hi]
        exact newNode_length fresh _ _
    · show (b.m_capacity + _ * b.m_baseSize) % 2 ^ 64 = (List.length _) * b.m_baseSize
      rw [hmod, hlen]
    · show (b.m_capacity + _ * b.m_baseSize) % 2 ^ 64 < 2 ^ 64
      exact Nat.mod_lt _ (by omega)
    · show b.m_position + size ≤ (b.m_capacity + _ * b.m_baseSize) % 2 ^ 64
      rw [Nat.mod_eq_of_lt (by omega)]
      omega
    · show (if b.m_capacity - b.m_position = 0 then
          (if 0 < ceilDiv (size - (b.m_capacity - b.m_position)) b.m_baseSize
            then some b.nodes.length else none) else b.m_cur) = _
      by_cases h0 : b.m_capacity - b.m_position = 0
      · rw [if_pos h0, if_pos hc.1]
        have hpe : b.m_position = b.nodes.length * b.m_baseSize + 0 := by omega
        have hd := (div_mod_block b.m_baseSize b.nodes.length 0 hB).1
        rw [← hpe] at hd
        rw [hd]
      · rw [if_neg h0]
        have hpl : b.m_position / b.m_baseSize < b.nodes.length := by
          rw [div_lt_blocks _ _ _ hB, ← hcap]
          omega
        rw [if_pos hpl] at hcur
        exact hcur
    · show b.m_position / b.m_baseSize < List.length _
      rw [hlen, div_lt_blocks _ _ _ hB, Nat.add_mul, ← hcap]
      omega
    · show b.m_capacity ≤ (b.m_capacity + _ * b.m_baseSize) % 2 ^ 64
      rw [Nat.mod_eq_of_lt (by omega)]
      omega

/-- `write` on a well-formed byte array with a buffer that is not empty: it returns, the
byte array is well formed, the position has moved behind the bytes written, and the bytes
written are in place. -/
theorem write_spec (fresh : Nat → Nat → Nat) (b : ByteArray) (buf : List Nat)
    (hwf : b.WF) (hs : 0 < buf.length) (hs2 : buf.length < 2 ^ 52)
    (hroom : b.m_capacity + b.m_baseSize + buf.length < 2 ^ 64) :
    ∃ b1, b.write fresh buf = some b1
      ∧ b1.WF ∧ b1.m_baseSize = b.m_baseSize
      ∧ b1.m_position = b.m_position + buf.length
      ∧ (∀ j, j < buf.length → b1.byteAt (b.m_position + j) = buf[j]?) := by
  obtain ⟨b0, h0, hb0, hp0, hz0, hall0, hcap0, hlt0, hfit0, hcur0, hpl0, hmono⟩ :=
    addCapacity_spec fresh b buf.length hwf hs hs2 hroom
  obtain ⟨hB, hn, hall, hcap, hps, hsc, hlt, hcur⟩ := hwf
  obtain ⟨hd1, hd2⟩ := block_decomp b.m_baseSize b.m_position hB
  obtain ⟨blk, hblk⟩ : ∃ blk, b0.nodes[b.m_position / b.m_baseSize]? = some blk :=
    ⟨_, List.getElem?_eq_getElem hpl0⟩
  have hbl : blk.length = b.m_baseSize := hall0 blk (List.getElem?_mem hblk)
  have hc0 : b0.cur = some blk := by
    unfold ByteArray.cur
    rw [hcur0]
    exact hblk
  have hBle : b.m_baseSize ≤ b.nodes.length * b.m_baseSize := Nat.le_mul_of_pos_left _ hn
  unfold ByteArray.write
  rw [if_neg (by omega), h0]
  simp only [hc0, hb0, hp0, hbl]
  rw [← hb0] at hall0
  generalize b.m_position / b.m_baseSize = i at *
  generalize b.m_position % b.m_baseSize = off at *
  rw [if_neg (by omega), sub64_eq _ _ (by omega) (by omega)]
  obtain ⟨b1, h1, hb1, hc1, hz1, hp1, hn1, hall1, hcur1, -, hco1⟩ :=
    writeLoop_spec (b0.nodes.length + 1) b0 buf i off (by omega) hall0
      (by rw [hp0, hb0]; exact hd1) (by rw [hb0]; exact hd2) hcur0 hpl0 hs
      (by rw [hp0, hb0, ← hcap0]; exact hfit0) (by rw [hb0, ← hcap0]; exact hlt0) (by omega)
  rw [hb0] at h1
  rw [h1]
  simp only [Option.map_some']
  rw [hb0] at hb1
  rw [hp0] at hp1 hco1
  rw [hz0] at hz1
  by_cases hgt : b1.m_position > b1.m_size
  · rw [if_pos hgt]
    refine ⟨_, rfl, ⟨?_, ?_, hall1, ?_, ?_, ?_, ?_, hcur1⟩, hb1, hp1, hco1⟩
    · show 0 < b1.m_baseSize
      omega
    · show 0 < b1.nodes.length
      omega
    · show b1.m_capacity = b1.nodes.length * b1.m_baseSize
      rw [hc1, hn1, hb1]
      exact hcap0
    · show b1.m_position ≤ b1.m_position
      exact Nat.le_refl _
    · show b1.m_position ≤ b1.m_capacity
      omega
    · show b1.m_capacity < 2 ^ 64
      omega
  · rw [if_neg hgt]
    refine ⟨b1, rfl, ⟨by omega, by omega, hall1, ?_, by omega, by omega, by omega, hcur1⟩,
      hb1, hp1, hco1⟩
    rw [hc1, hn1, hb1]
    exact hcap0

/-- The loop of `setPosition` from the block `j` on: it stops at the block that holds the
position, or at the block that ends at the position. -/
theorem seek_spec (nodes : List (List Nat)) (B : Nat)
    (hall : ∀ x ∈ nodes, x.length = B) (hcap : nodes.length * B < 2 ^ 64) :
    ∀ (fuel v j : Nat), j < nodes.length → j * B + v ≤ nodes.length * B →
      nodes.length < fuel + j →
      ∃ v1 j1, ByteArray.seek nodes fuel v (some j) = some (v1, some j1)
        ∧ j1 < nodes.length ∧ v1 ≤ B ∧ j1 * B + v1 = j * B + v ∧ (v1 = 0 → v = 0) := by
  intro fuel
  induction fuel with
  | zero =>
    intro v j hj _ hf
    omega
  | succ fuel ih =>
    intro v j hj hfit hf
    obtain ⟨blk, hblk⟩ : ∃ blk, nodes[j]? = some blk := ⟨_, List.getElem?_eq_getElem hj⟩
    have hbl : blk.length = B := hall blk (List.getElem?_mem hblk)
    have hjB : (j + 1) * B ≤ nodes.length * B := Nat.mul_le_mul_right B hj
    rw [Nat.add_mul, Nat.one_mul] at hjB
    rw [ByteArray.seek]
    simp only [hblk, hbl]
    by_cases hv : v > B
    · rw [if_pos hv]
      have hj1 : j + 1 < nodes.length := by
        by_contra hcon
        have : nodes.length = j + 1 := by omega
        rw [this, Nat.add_mul, Nat.one_mul] at hfit
        omega
      rw [if_pos hj1, sub64_eq _ _ (by omega) (by omega)]
      have hjB1 : (j + 1) * B = j * B + B := by rw [Nat.add_mul, Nat.one_mul]
      obtain ⟨v1, j1, h1, h2, h3, h4, h5⟩ := ih (v - B) (j + 1) hj1 (by omega) (by omega)
      exact ⟨v1, j1, h1, h2, h3, by omega, by omega⟩
    · rw [if_neg hv]
      exact ⟨v, j, rfl, hj, by omega, rfl, fun h => h⟩

/-- `setPosition(v)` on a well-formed byte array, for a position within the capacity: it
returns, and only the position, the size and `m_cur` change. -/
theorem setPosition_spec (b : ByteArray) (v : Nat) (hwf : b.WF) (hv : v ≤ b.m_capacity) :
    ∃ b1, b.setPosition v = some b1
      ∧ b1.WF ∧ b1.m_position = v ∧ b1.nodes = b.nodes ∧ b1.m_baseSize = b.m_baseSize
      ∧ b1.m_size = (if v > b.m_size then v else b.m_size) := by
  obtain ⟨hB, hn, hall, hcap, hps, hsc, hlt, hcur⟩ := hwf
  obtain ⟨v1, j1, h1, h2, h3, h4, h5⟩ :=
    seek_spec b.nodes b.m_baseSize hall (by rw [← hcap]; exact hlt) (b.nodes.length + 1) v 0
      hn (by rw [Nat.zero_mul, Nat.zero_add, ← hcap]; exact hv) (by omega)
  rw [Nat.zero_mul, Nat.zero_add] at h4
  obtain ⟨blk, hblk⟩ : ∃ blk, b.nodes[j1]? = some blk := ⟨_, List.getElem?_eq_getElem h2⟩
  have hbl : blk.length = b.m_baseSize := hall blk (List.getElem?_mem hblk)
  unfold ByteArray.setPosition
  rw [if_neg (by omega), h1]
  simp only [hblk, hbl]
  refine ⟨_, rfl, ⟨hB, hn, hall, hcap, ?_, ?_, hlt, ?_⟩, rfl, rfl, rfl, rfl⟩
  · show v ≤ if v > b.m_size then v else b.m_size
    split <;> omega
  · show (if v > b.m_size then v else b.m_size) ≤ b.m_capacity
    split <;> omega
  · show (if v1 = b.m_baseSize then b.next j1 else some j1)
      = if v / b.m_baseSize < b.nodes.length then some (v / b.m_baseSize) else none
    by_cases he : v1 = b.m_baseSize
    · rw [if_pos he, next_eq]
      have hv2 : v = (j1 + 1) * b.m_baseSize + 0 := by
        rw [Nat.add_mul, Nat.one_mul]
        omega
      rw [hv2, (div_mod_block b.m_baseSize (j1 + 1) 0 hB).1]
    · rw [if_neg he]
      have hd := (div_mod_block b.m_baseSize j1 v1 (by omega)).1
      rw [h4] at hd
      rw [hd, if_pos h2]

theorem take_one_drop (l : List Nat) (k x : Nat) (h : l[k]? = some x) :
    (l.drop k).take 1 = [x] := by
  have hk : k < l.length := by
    by_contra hlt
    rw [List.getElem?_eq_none (by omega)] at h
    exact absurd h (by simp)
  rw [List.getElem?_eq_getElem hk] at h
  simp only [Option.some.injEq] at h
  rw [List.drop_eq_getElem_cons hk, h]
  rfl

/-- `readFuint8()` on a well-formed byte array with the position in front of the size: it
returns the byte at the position and moves the position by 1. -/
theorem readFuint8_spec (b : ByteArray) (x : Nat) (hwf : b.WF) (hp : b.m_position < b.m_size)
    (hx : b.byteAt b.m_position = some x) :
    ∃ b1, b.readFuint8 = some (x, b1)
      ∧ b1.WF ∧ b1.m_position = b.m_position + 1 ∧ b1.nodes = b.nodes
      ∧ b1.m_baseSize = b.m_baseSize ∧ b1.m_size = b.m_size := by
  obtain ⟨hB, hn, hall, hcap, hps, hsc, hlt, hcur⟩ := hwf
  obtain ⟨hd1, hd2⟩ := block_decomp b.m_baseSize b.m_position hB
  have hpl : b.m_position / b.m_baseSize < b.nodes.length := by
    rw [div_lt_blocks _ _ _ hB, ← hcap]
    omega
  rw [if_pos hpl] at hcur
  obtain ⟨blk, hblk⟩ : ∃ blk, b.nodes[b.m_position / b.m_baseSize]? = some blk :=
    ⟨_, List.getElem?_eq_getElem hpl⟩
  have hbl : blk.length = b.m_baseSize := hall blk (List.getElem?_mem hblk)
  have hc : b.cur = some blk := by
    unfold ByteArray.cur
    rw [hcur]
    exact hblk
  have hgr : b.getReadSize = b.m_size - b.m_position := by
    unfold ByteArray.getReadSize
    exact sub64_eq _ _ (by omega) (by omega)
  have hBle : b.m_baseSize ≤ b.nodes.length * b.m_baseSize := Nat.le_mul_of_pos_left _ hn
  unfold ByteArray.byteAt at hx
  rw [hblk] at hx
  simp only [Option.some_bind] at hx
  have hjB : (b.m_position / b.m_baseSize + 1) * b.m_baseSize
      ≤ b.nodes.length * b.m_baseSize := Nat.mul_le_mul_right _ hpl
  rw [Nat.add_mul, Nat.one_mul] at hjB
  unfold ByteArray.readFuint8 ByteArray.read
  rw [if_neg (by omega)]
  simp only [hc, hbl]
  rw [if_neg (by omega), ByteArray.readLoop]
  simp only [hcur, hblk, hbl]
  have htk := take_one_drop blk _ x hx
  generalize b.m_position / b.m_baseSize = i at *
  generalize b.m_position % b.m_baseSize = off at *
  rw [sub64_eq _ _ (by omega) (by omega), if_neg (by omega), if_pos (by omega),
    if_neg (by omega), htk, add64_eq _ _ (by omega), add64_eq _ _ (by omega)]
  refine ⟨_, rfl, ⟨hB, hn, hall, hcap, ?_, hsc, hlt, ?_⟩, rfl, rfl, rfl, rfl⟩
  · show b.m_position + 1 ≤ b.m_size
    omega
  · show (if b.m_baseSize = off + 1 then b.next i else some i)
      = if (b.m_position + 1) / b.m_baseSize < b.nodes.length
        then some ((b.m_position + 1) / b.m_baseSize) else none
    by_cases he : b.m_baseSize = off + 1
    · rw [if_pos he, next_eq]
      have hv2 : b.m_position + 1 = (i + 1) * b.m_baseSize + 0 := by
        rw [Nat.add_mul, Nat.one_mul]
        omega
      rw [hv2, (div_mod_block b.m_baseSize (i + 1) 0 hB).1]
    · rw [if_neg he]
      have hv2 : b.m_position + 1 = i * b.m_baseSize + (off + 1) := by omega
      rw [hv2, (div_mod_block b.m_baseSize i (off + 1) (by omega)).1, if_pos hpl]

theorem xor_all_ones (x : Nat) (h : x < 2 ^ 32) : x ^^^ (2 ^ 32 - 1) = 2 ^ 32 - (x + 1) := by
  apply Nat.eq_of_testBit_eq
  intro i
  rw [Nat.testBit_xor, Nat.testBit_two_pow_sub_one, Nat.testBit_two_pow_sub_succ h]
  by_cases hi : i < 32
  · simp [hi]
  · have hx : x.testBit i = false := by
      apply Nat.testBit_lt_two_pow
      calc x < 2 ^ 32 := h
        _ ≤ 2 ^ i := Nat.pow_le_pow_right (by decide) (by omega)
    simp [hi, hx]

theorem encodeZigzag32_nonneg (v : Int) (h1 : 0 ≤ v) (h2 : v < 2 ^ 31) :
    EncodeZigzag32 v = 2 * v.toNat := by
  unfold EncodeZigzag32 toU32
  rw [if_neg (by omega)]
  omega

theorem encodeZigzag32_neg (v : Int) (h1 : v < 0) (h2 : -2 ^ 31 ≤ v) :
    EncodeZigzag32 v = 2 * (-v).toNat - 1 := by
  unfold EncodeZigzag32 toU32
  rw [if_pos h1]
  omega

theorem encodeZigzag32_lt (v : Int) (h1 : -2 ^ 31 ≤ v) (h2 : v < 2 ^ 31) :
    EncodeZigzag32 v < 2 ^ 32 := by
  by_cases h : v < 0
  · rw [encodeZigzag32_neg v h h1]
    omega
  · rw [encodeZigzag32_nonneg v (by omega) h2]
    omega

/-- Zigzag decoding inverts zigzag encoding on the 32-bit signed integers. -/
theorem decode_encode_zigzag32 (v : Int) (h1 : -2 ^ 31 ≤ v) (h2 : v < 2 ^ 31) :
    toInt32 (DecodeZigzag32 (EncodeZigzag32 v)) = v := by
  by_cases h : v < 0
  · rw [encodeZigzag32_neg v h h1]
    unfold DecodeZigzag32
    generalize hm : (-v).toNat = m
    have hm1 : 1 ≤ m := by omega
    have hm2 : m ≤ 2 ^ 31 := by omega
    have hs : (2 * m - 1) >>> 1 = m - 1 := by
      rw [Nat.shiftRight_eq_div_pow]
      omega
    have ha : (2 * m - 1) &&& 1 = 1 := by
      rw [Nat.and_one_is_mod]
      omega
    rw [hs, ha]
    have hx := xor_all_ones (m - 1) (by omega)
    have he : (2 ^ 32 - 1) % 2 ^ 32 = 2 ^ 32 - 1 := by norm_num
    rw [he, hx]
    unfold toInt32
    rw [if_neg (by omega)]
    omega
  · rw [encodeZigzag32_nonneg v (by omega) h2]
    unfold DecodeZigzag32
    generalize hm : v.toNat = m
    have hm2 : m < 2 ^ 31 := by omega
    have hs : (2 * m) >>> 1 = m := by
      rw [Nat.shiftRight_eq_div_pow]
      omega
    have ha : (2 * m) &&& 1 = 0 := by
      rw [Nat.and_one_is_mod]
      omega
    rw [hs, ha]
    have he : (2 ^ 32 - 0) % 2 ^ 32 = 0 := by norm_num
    rw [he, Nat.xor_zero]
    unfold toInt32
    rw [if_pos (by omega)]
    omega

theorem and_127 (u : Nat) : u &&& 0x7F = u % 128 := Nat.and_pow_two_sub_one_eq_mod u 7

theorem or_128 (r : Nat) (h : r < 128) : r ||| 0x80 = r + 128 := by
  have := Nat.mul_add_lt_is_or (show r < 2 ^ 7 from h) 1
  rw [Nat.or_comm]
  exact this.symm.trans (by omega)

theorem or_shift (result c i : Nat) (h : result < 2 ^ i) :
    result ||| (c <<< i) = result + c * 2 ^ i := by
  rw [Nat.shiftLeft_eq, Nat.or_comm, Nat.mul_comm c, ← Nat.mul_add_lt_is_or h c, Nat.add_comm]

/-- The first byte that `writeUint32` stores for a value of 0x80 or more. -/
theorem varint_head (u : Nat) : ((u &&& 0x7F) ||| 0x80) % 256 = u % 128 + 128 := by
  rw [and_127, or_128 _ (Nat.mod_lt _ (by decide))]
  omega

/-- The buffer of `writeUint32` for a value below 2^(7 * room), with `room` at least 1: it
holds between 1 and `room` bytes. -/
theorem varintBytes_total :
    ∀ (room u : Nat), u < 2 ^ (7 * (room + 1)) →
      ∃ bs, varintBytes (room + 1) u = some bs ∧ 1 ≤ bs.length ∧ bs.length ≤ room + 1 := by
  intro room
  induction room with
  | zero =>
    intro u hu
    rw [varintBytes, if_neg (by omega)]
    exact ⟨_, rfl, by simp, by simp⟩
  | succ room ih =>
    intro u hu
    rw [varintBytes]
    by_cases h : u ≥ 0x80
    · rw [if_pos h]
      have hu2 : u >>> 7 < 2 ^ (7 * (room + 1)) := by
        rw [Nat.shiftRight_eq_div_pow]
        apply Nat.div_lt_of_lt_mul
        rw [← Nat.pow_add]
        have : 7 + 7 * (room + 1) = 7 * (room + 1 + 1) := by omega
        rw [this]
        exact hu
      obtain ⟨t, ht, h1, h2⟩ := ih (u >>> 7) hu2
      rw [ht]
      refine ⟨_, rfl, ?_, ?_⟩
      · simp
      · simp only [List.length_cons]
        omega
    · rw [if_neg h]
      exact ⟨_, rfl, by simp, by simp⟩

theorem byteAt_congr (b b1 : ByteArray) (hn : b1.nodes = b.nodes)
    (hb : b1.m_baseSize = b.m_baseSize) (k : Nat) : b1.byteAt k = b.byteAt k := by
  unfold ByteArray.byteAt
  rw [hn, hb]

theorem varint_step (u P : Nat) :
    (u % 128) * P + (u / 128) * (P * 128) = u * P := by
  have h := Nat.div_add_mod u 128
  calc (u % 128) * P + (u / 128) * (P * 128) = (128 * (u / 128) + u % 128) * P := by ring
    _ = u * P := by rw [h]

theorem or_shift_mod (result c i : Nat) (h : result < 2 ^ i) (hc : c * 2 ^ i < 2 ^ 32) :
    result ||| ((c <<< i) % 2 ^ 32) = result + c * 2 ^ i := by
  have hs : (c <<< i) % 2 ^ 32 = c <<< i := by
    rw [Nat.shiftLeft_eq]
    exact Nat.mod_eq_of_lt hc
  rw [hs]
  exact or_shift result c i h

/-- The loop of `readUint32` on the bytes that `writeUint32` stored for the value `u`: it
returns, with the value put together again, and the position has moved behind the bytes. -/
theorem readUint32Loop_varint :
    ∀ (room u i result fuel : Nat) (b : ByteArray) (bs : List Nat),
      varintBytes room u = some bs → b.WF → b.m_position + bs.length ≤ b.m_size →
      (∀ j, j < bs.length → b.byteAt (b.m_position + j) = bs[j]?) →
      u * 2 ^ i < 2 ^ 32 → result < 2 ^ i → i + 7 * room ≤ 35 → room ≤ fuel →
      ∃ b1, ByteArray.readUint32Loop fuel i result b = some (result + u * 2 ^ i, b1)
        ∧ b1.WF ∧ b1.m_position = b.m_position + bs.length ∧ b1.nodes = b.nodes
        ∧ b1.m_baseSize = b.m_baseSize ∧ b1.m_size = b.m_size := by
  intro room
  induction room with
  | zero =>
    intro u i result fuel b bs hbs
    rw [varintBytes] at hbs
    exact absurd hbs (by simp)
  | succ room ih =>
    intro u i result fuel b bs hbs hwf hfit hco hu hres hi hfuel
    cases fuel with
    | zero => omega
    | succ fuel =>
      rw [varintBytes] at hbs
      have hi32 : i < 32 := by omega
      by_cases hge : u ≥ 0x80
      · rw [if_pos hge] at hbs
        cases ht : varintBytes room (u >>> 7) with
        | none =>
          rw [ht] at hbs
          exact absurd hbs (by simp)
        | some t =>
          rw [ht, varint_head] at hbs
          simp only [Option.map_some', Option.some.injEq] at hbs
          subst hbs
          simp only [List.length_cons] at hfit hco ⊢
          have h0 := hco 0 (by omega)
          rw [Nat.add_zero] at h0
          simp only [List.getElem?_cons_zero] at h0
          obtain ⟨b1, hr, hwf1, hp1, hn1, hb1, hz1⟩ :=
            readFuint8_spec b (u % 128 + 128) hwf (by omega) h0
          have hand : (u % 128 + 128) &&& 0x7f = u % 128 := by
            rw [and_127]
            omega
          have hle : (u % 128) * 2 ^ i ≤ u * 2 ^ i :=
            Nat.mul_le_mul_right _ (Nat.mod_le u 128)
          have hle2 : (u % 128) * 2 ^ i ≤ 127 * 2 ^ i :=
            Nat.mul_le_mul_right _ (by omega)
          have hstep := varint_step u (2 ^ i)
          have hpow : 2 ^ (i + 7) = 2 ^ i * 128 := by
            rw [Nat.pow_add]
          have hnew : result ||| (((u % 128 + 128) &&& 0x7f) <<< i) % 2 ^ 32
              = result + (u % 128) * 2 ^ i := by
            rw [hand]
            exact or_shift_mod _ _ _ hres (by omega)
          have hshift : u >>> 7 = u / 128 := by
            rw [Nat.shiftRight_eq_div_pow]
          rw [hshift] at ht
          obtain ⟨b2, hr2, hwf2, hp2, hn2, hb2, hz2⟩ :=
            ih (u / 128) (i + 7) (result + (u % 128) * 2 ^ i) fuel b1 t ht hwf1
              (by omega)
              (by
                intro j hj
                rw [byteAt_congr b b1 hn1 hb1, hp1]
                have := hco (j + 1) (by omega)
                rw [List.getElem?_cons_succ] at this
                rw [← this]
                congr 1
                omega)
              (by rw [hpow]; omega) (by rw [hpow]; omega) (by omega) (by omega)
          rw [ByteArray.readUint32Loop, if_pos hi32, hr]
          simp only
          rw [if_neg (by omega), hnew, hr2]
          refine ⟨b2, ?_, hwf2, by omega, by rw [hn2, hn1], by rw [hb2, hb1],
            by rw [hz2, hz1]⟩
          rw [hpow]
          congr 2
          omega
      · rw [if_neg hge] at hbs
        simp only [Option.some.injEq] at hbs
        subst hbs
        have hu256 : u % 256 = u := Nat.mod_eq_of_lt (by omega)
        simp only [List.length_singleton] at hfit hco ⊢
        have h0 := hco 0 (by omega)
        rw [Nat.add_zero] at h0
        simp only [List.getElem?_cons_zero, hu256] at h0
        obtain ⟨b1, hr, hwf1, hp1, hn1, hb1, hz1⟩ := readFuint8_spec b u hwf (by omega) h0
        rw [ByteArray.readUint32Loop, if_pos hi32, hr]
        simp only
        rw [if_pos (by omega), or_shift_mod _ _ _ hres hu]
        exact ⟨b1, rfl, hwf1, hp1, hn1, hb1, hz1⟩

/-- `writeUint32(u)`, `setPosition` back and `readUint32()` on a well-formed byte array:
the value read is `u`, and between 1 and 5 bytes are written and read. -/
theorem uint32_round_trip (fresh : Nat → Nat → Nat) (b : ByteArray) (u : Nat) (hwf : b.WF)
    (hroom : b.m_capacity + b.m_baseSize + 5 < 2 ^ 64) (hu : u < 2 ^ 32) :
    ∃ b1 b2 b3 n, b.writeUint32 fresh u = some b1
      ∧ b1.m_position = b.m_position + n ∧ 1 ≤ n ∧ n ≤ 5
      ∧ b1.setPosition b.m_position = some b2 ∧ b2.m_position = b.m_position
      ∧ b2.readUint32 = some (u, b3) ∧ b3.m_position = b.m_position + n := by
  obtain ⟨bs, hbs, hl1, hl2⟩ := varintBytes_total 4 u (by
    calc u < 2 ^ 32 := hu
      _ ≤ 2 ^ (7 * (4 + 1)) := by norm_num)
  obtain ⟨b1, hw, hwf1, hb1, hp1, hco1⟩ :=
    write_spec fresh b bs hwf (by omega) (by omega) (by omega)
  have hwf1c := hwf1
  obtain ⟨-, -, -, -, hps1, hsc1, -, -⟩ := hwf1c
  obtain ⟨b2, hs, hwf2, hp2, hn2, hb2, hz2⟩ :=
    setPosition_spec b1 b.m_position hwf1 (by omega)
  rw [if_neg (by omega)] at hz2
  obtain ⟨b3, hr, -, hp3, -, -, -⟩ :=
    readUint32Loop_varint 5 u 0 0 32 b2 bs hbs hwf2 (by omega)
      (by
        intro j hj
        rw [byteAt_congr b1 b2 hn2 hb2, hp2]
        exact hco1 j hj)
      (by omega) (by norm_num) (by omega) (by omega)
  refine ⟨b1, b2, b3, bs.length, ?_, hp1, hl1, hl2, hs, hp2, ?_, by omega⟩
  · unfold ByteArray.writeUint32
    rw [Nat.mod_eq_of_lt hu, hbs]
    exact hw
  · unfold ByteArray.readUint32
    rw [hr]
    congr 2
    omega

/-- C30: for every 32-bit signed integer `v` (`INT32_MIN` included, the arithmetic taken
modulo 2^32) and every well-formed byte array, `writeInt32(v)`, then `setPosition` back to
the position held before the write, then `readInt32()` all return, the value read is `v`, and
the read moves the position by the number of bytes written, which is between 1 and 5; zigzag
decoding inverts zigzag encoding, and `readUint32` reads back what `writeUint32` wrote. -/
theorem C30_int32_round_trip (fresh : Nat → Nat → Nat) (b : ByteArray) (v : Int)
    (hwf : b.WF) (hroom : b.m_capacity + b.m_baseSize + 5 < 2 ^ 64)
    (h1 : -2 ^ 31 ≤ v) (h2 : v < 2 ^ 31) :
    (∃ b1 b2 b3 n, b.writeInt32 fresh v = some b1
        ∧ b1.m_position = b.m_position + n ∧ 1 ≤ n ∧ n ≤ 5
        ∧ b1.setPosition b.m_position = some b2 ∧ b2.m_position = b.m_position
        ∧ b2.readInt32 = some (v, b3) ∧ b3.m_position = b.m_position + n)
      ∧ toInt32 (DecodeZigzag32 (EncodeZigzag32 v)) = v
      ∧ (∀ u, u < 2 ^ 32 →
          ∃ b1 b2 b3 n, b.writeUint32 fresh u = some b1
            ∧ b1.m_position = b.m_position + n ∧ 1 ≤ n ∧ n ≤ 5
            ∧ b1.setPosition b.m_position = some b2 ∧ b2.m_position = b.m_position
            ∧ b2.readUint32 = some (u, b3) ∧ b3.m_position = b.m_position + n) := by
  have hz := decode_encode_zigzag32 v h1 h2
  refine ⟨?_, hz, fun u hu => uint32_round_trip fresh b u hwf hroom hu⟩
  obtain ⟨b1, b2, b3, n, hw, hp1, hn1, hn2, hs, hp2, hr, hp3⟩ :=
    uint32_round_trip fresh b (EncodeZigzag32 v) hwf hroom (encodeZigzag32_lt v h1 h2)
  refine ⟨b1, b2, b3, n, hw, hp1, hn1, hn2, hs, hp2, ?_, hp3⟩
  unfold ByteArray.readInt32
  rw [hr]
  simp only [Option.map_some', hz]

/-- The byte array that the constructor makes for a positive block size is well formed. -/
theorem new_wf (fresh : Nat → Nat → Nat) (base_size : Nat) (h1 : 0 < base_size)
    (h2 : base_size < 2 ^ 64) : (ByteArray.new fresh base_size).WF := by
  refine ⟨h1, by simp [ByteArray.new], ?_, by simp [ByteArray.new], Nat.le_refl _,
    Nat.zero_le _, h2, ?_⟩
  · intro blk hblk
    simp only [ByteArray.new, List.mem_singleton] at hblk
    rw [hblk]
    exact newNode_length fresh 0 base_size
  · show some 0 = if 0 / base_size < 1 then some (0 / base_size) else none
    rw [Nat.zero_div, if_pos (by decide)]

theorem exampleBytes_wf : exampleBytes.WF := by
  refine ⟨by decide, by decide, ?_, by decide, by decide, by decide, by decide, by decide⟩
  intro blk hblk
  simp only [exampleBytes, List.mem_cons, List.mem_singleton, List.not_mem_nil, or_false] at hblk
  rcases hblk with h | h
  · rw [h]; rfl
  · rw [h]; rfl

/-- Witness of C30: `INT32_MIN` written at position 3 of the example byte array, whose
blocks have 2 bytes: 5 bytes are written over three blocks, two of them new, and read back. -/
theorem C30_int32_round_trip_witness :
    ∃ b1 b2 b3 n, exampleBytes.writeInt32 (fun _ _ => 0) (-2 ^ 31) = some b1
      ∧ b1.m_position = exampleBytes.m_position + n ∧ 1 ≤ n ∧ n ≤ 5
      ∧ b1.setPosition exampleBytes.m_position = some b2
      ∧ b2.m_position = exampleBytes.m_position
      ∧ b2.readInt32 = some (-2 ^ 31, b3) ∧ b3.m_position = exampleBytes.m_position + n :=
  (C30_int32_round_trip (fun _ _ => 0) exampleBytes (-2 ^ 31) exampleBytes_wf
    (by decide) (by decide) (by decide)).1

/-! ## Timer sets after a reset; the tasks built by schedule -/

/-- C7 fails on the code: after `addTimer(10)`, `addTimer(20)` and a `Timer::reset` of the
first timer to 30 ms, the first entry of the set is that timer (deadline 30) and the second
timer is in the set with deadline 20 and its callable; at clock reading 25 no rollover is
detected and the callables of the timers with deadline `<= 25` are `[some 2]`, but
`listExpireCb` returns at its test of the first entry and appends nothing. -/
theorem C7_listExpireCb_misses_due :
    ∃ m, (TimerManager.init 0).run exampleResetOps = some m
      ∧ m.m_timers.head? = some 100 ∧ (deref m.heap 100).m_next = 30
      ∧ 200 ∈ m.m_timers ∧ (deref m.heap 200).m_next = 20
      ∧ (deref m.heap 200).m_cb = some 2
      ∧ detectClockRollover m.m_previousTime 25 = false
      ∧ m.heap 999 = none
      ∧ (m.m_timers.filter (fun p => decide ((deref m.heap p).m_next ≤ 25))).map
          (fun p => (deref m.heap p).m_cb) = [some 2]
      ∧ m.listExpireCb [] 25 999 = some ({ m with m_previousTime := 25 }, []) :=
  ⟨_, rfl, rfl, rfl, by decide, rfl, rfl, rfl, rfl, rfl, rfl⟩

/-- C8 fails on the code: after the timers of 10, 20 and 50 ms were added and the one-shot
timer of 50 ms (address 300) was reset to 5 ms, the set holds two entries for that timer;
`listExpireCb` at clock reading 7 collects it (its callable is appended and cleared) and
erases the first entry only, so the collected one-shot timer is still in the set. -/
theorem C8_listExpireCb_keeps_stale_entry :
    ∃ m m1, (TimerManager.init 0).run exampleResetEarlierOps = some m
      ∧ m.m_timers = [300, 100, 200, 300]
      ∧ m.heap 300 = some { m_recurring := false, m_ms := 5, m_next := 5, m_cb := some 3 }
      ∧ detectClockRollover m.m_previousTime 7 = false
      ∧ m.heap 999 = none
      ∧ m.listExpireCb [] 7 999 = some (m1, [some 3])
      ∧ m1.heap 300 = some { m_recurring := false, m_ms := 5, m_next := 5, m_cb := none }
      ∧ m1.m_timers = [100, 200, 300]
      ∧ 300 ∈ m1.m_timers :=
  ⟨_, _, rfl, rfl, rfl, rfl, rfl, rfl, rfl, rfl, by decide⟩

/-- C11 fails on the code: after the timers of 10, 20 and 50 ms were added and the timer of
50 ms (address 300) was reset to 5 ms, the set holds two entries for that timer, whose
callable is set; `Timer::cancel` on it clears the callable, returns true and erases one entry
only, so the timer is still in the set; a second cancel returns false and leaves it there. -/
theorem C11_cancel_keeps_stale_entry :
    ∃ m m1, (TimerManager.init 0).run exampleResetEarlierOps = some m
      ∧ m.m_timers = [300, 100, 200, 300]
      ∧ (deref m.heap 300).m_cb = some 3
      ∧ Timer.cancel m 300 = some (m1, true)
      ∧ (deref m1.heap 300).m_cb = none
      ∧ m1.m_timers = [100, 200, 300]
      ∧ 300 ∈ m1.m_timers
      ∧ Timer.cancel m1 300 = some (m1, false) :=
  ⟨_, _, rfl, rfl, rfl, rfl, rfl, rfl, by decide, rfl⟩

/-- C12 fails on the code: after `addTimer(10)`, `addTimer(20)` and a `Timer::reset` of the
first timer to 30 ms, the earliest deadline of the set is 20 (the second timer has it and no
entry has an earlier one), but `getNextTimer` reads the first entry (deadline 30): at clock
reading 5 it returns 25, not `20 - 5`, and at clock reading 22 it returns 8, not 0. -/
theorem C12_getNextTimer_not_earliest :
    ∃ m, (TimerManager.init 0).run exampleResetOps = some m
      ∧ (∃ a ∈ m.m_timers, (deref m.heap a).m_next = 20)
      ∧ (∀ b ∈ m.m_timers, 20 ≤ (deref m.heap b).m_next)
      ∧ m.getNextTimer 5 = some ({ m with m_tickled := false }, 25)
      ∧ m.getNextTimer 22 = some ({ m with m_tickled := false }, 8)
      ∧ (25 : Nat) ≠ 20 - 5 ∧ (8 : Nat) ≠ 0 :=
  ⟨_, rfl, ⟨200, by decide, rfl⟩, by decide, rfl, rfl, by decide, by decide⟩

/-- The tasks that `schedule(begin, end)` builds and keeps, written out. -/
theorem ofFiberOrCb_filter (range : List FiberOrCb) :
    (range.map (fun fc => FiberAndThread.ofFiberOrCb fc (-1))).filter FiberAndThread.nonEmpty
      = range.filterMap (fun fc =>
          match fc with
          | .fiber (some p) => some { fiber := some p, cb := none, thread := -1 }
          | .cb (some c) => some { fiber := none, cb := some c, thread := -1 }
          | _ => none) := by
  induction range with
  | nil => rfl
  | cons fc rest ih =>
    rw [List.map_cons, List.filterMap_cons]
    rcases fc with (_ | p) | (_ | c)
    · rw [List.filter_cons_of_neg (by decide), ih]
    · rw [List.filter_cons_of_pos (by rfl), ih]
      rfl
    · rw [List.filter_cons_of_neg (by decide), ih]
    · rw [List.filter_cons_of_pos (by rfl), ih]
      rfl

/-- C14: `schedule(fc, thread)` with a non-empty coroutine handle or callable appends exactly
one task holding it, with the given thread, to the tail of the queue, and with an empty
handle or callable leaves the queue as it is; `schedule(begin, end)` appends one such task
(thread `-1`) for every non-empty element, in argument order; the earlier entries stay in
front in their order; `tickle()` is called once if the queue was empty at the start (for the
range form: and the range is non-empty) and not at all otherwise. -/
theorem C14_schedule_appends_and_tickles (s : Scheduler) :
    (∀ (p : Nat) (thread : Int),
        (s.schedule (FiberAndThread.ofFiberOrCb (.fiber (some p)) thread)).m_fibers
            = s.m_fibers ++ [{ fiber := some p, cb := none, thread := thread }])
      ∧ (∀ (c : Nat) (thread : Int),
        (s.schedule (FiberAndThread.ofFiberOrCb (.cb (some c)) thread)).m_fibers
            = s.m_fibers ++ [{ fiber := none, cb := some c, thread := thread }])
      ∧ (∀ thread : Int,
        (s.schedule (FiberAndThread.ofFiberOrCb (.fiber none) thread)).m_fibers = s.m_fibers
          ∧ (s.schedule (FiberAndThread.ofFiberOrCb (.cb none) thread)).m_fibers = s.m_fibers)
      ∧ (∀ (fc : FiberOrCb) (thread : Int),
        (s.schedule (FiberAndThread.ofFiberOrCb fc thread)).tickles
            = s.tickles + (if s.m_fibers = [] then 1 else 0))
      ∧ ∀ range : List FiberOrCb,
          (s.scheduleRange range).m_fibers
              = s.m_fibers ++ range.filterMap (fun fc =>
                  match fc with
                  | .fiber (some p) => some { fiber := some p, cb := none, thread := -1 }
                  | .cb (some c) => some { fiber := none, cb := some c, thread := -1 }
                  | _ => none)
            ∧ (s.scheduleRange range).tickles
              = s.tickles + (if s.m_fibers = [] ∧ range ≠ [] then 1 else 0) := by
  obtain ⟨h1, h2⟩ := schedule_spec s
  refine ⟨?_, ?_, ?_, ?_, ?_⟩
  · intro p thread
    rw [(h1 _ thread).1]
    rfl
  · intro c thread
    rw [(h1 _ thread).1]
    rfl
  · intro thread
    rw [(h1 _ thread).1, (h1 _ thread).1]
    exact ⟨List.append_nil _, List.append_nil _⟩
  · intro fc thread
    exact (h1 fc thread).2
  · intro range
    rw [← ofFiberOrCb_filter range]
    exact h2 range

/-- Witness of C14: a callable scheduled on an empty queue is the only entry afterwards and
`tickle()` was called once; a range of a coroutine, an empty callable and a callable scheduled
on a queue with one entry appends the two non-empty tasks in order and does not call
`tickle()`; the same range on an empty queue calls it once. -/
theorem C14_schedule_appends_and_tickles_witness :
    (({} : Scheduler).schedule (FiberAndThread.ofFiberOrCb (.cb (some 7)) 2)).m_fibers
        = [{ fiber := none, cb := some 7, thread := 2 }]
      ∧ (({} : Scheduler).schedule (FiberAndThread.ofFiberOrCb (.cb (some 7)) 2)).tickles = 1
      ∧ (({ m_fibers := [{ fiber := some 50, cb := none, thread := 1 }] } : Scheduler).scheduleRange
            [.fiber (some 60), .cb none, .cb (some 7)]).m_fibers
          = [{ fiber := some 50, cb := none, thread := 1 },
             { fiber := some 60, cb := none, thread := -1 },
             { fiber := none, cb := some 7, thread := -1 }]
      ∧ (({ m_fibers := [{ fiber := some 50, cb := none, thread := 1 }] } : Scheduler).scheduleRange
            [.fiber (some 60), .cb none, .cb (some 7)]).tickles = 0
      ∧ (({} : Scheduler).scheduleRange [.fiber (some 60), .cb none, .cb (some 7)]).tickles
          = 1 :=
  ⟨(C14_schedule_appends_and_tickles {}).2.1 7 2,
   (C14_schedule_appends_and_tickles {}).2.2.2.1 (.cb (some 7)) 2,
   ((C14_schedule_appends_and_tickles
      { m_fibers := [{ fiber := some 50, cb := none, thread := 1 }] }).2.2.2.2
      [.fiber (some 60), .cb none, .cb (some 7)]).1,
   ((C14_schedule_appends_and_tickles
      { m_fibers := [{ fiber := some 50, cb := none, thread := 1 }] }).2.2.2.2
      [.fiber (some 60), .cb none, .cb (some 7)]).2,
   ((C14_schedule_appends_and_tickles {}).2.2.2.2
      [.fiber (some 60), .cb none, .cb (some 7)]).2⟩

end cc
